import Mathlib

/-!
# Verification of the document-streaming core of baseplate-ai-app-template

This file gives a shallow embedding, over `List Char` strings, of the
document-streaming reconciliation code of the repository:

* the client data-stream reducer of `components/data-stream-handler.tsx`
  (the variant with the per-delta dedup loop, `src/unnamed/part_010`, and the
  buffered variant with `flushTextBuffer`, `src/unnamed/part_009`);
* the text artifact stream handler (`src/unnamed/part_006`);
* the message merger `sanitizeUIMessages` (`src/unnamed/part_002`);
* `processCodeOutput` of `src/artifacts/code/server.ts`;
* `extractCSVContent` and the sheet `onCreateDocument` streaming loop of the
  sheet document handler;
* the generic `createDocumentHandler.onUpdateDocument` wrapper of
  `src/lib/artifacts/server.ts`;
* the text normalizer `processText` (`src/unnamed/part_002`).

JavaScript strings are modelled as `List Char`; JavaScript's `slice`,
`endsWith`, `trim`, `split` and friends are reproduced as executable Lean
functions first, and each embedded function mirrors its source line by line.
-/

namespace Baseplate

/-! ## JavaScript string primitives -/

/-- The whitespace characters recognised by JavaScript's `trim()` and `\s`
(restricted to the code points that occur in this code base's data: space,
tab, newline, vertical tab, form feed, carriage return, no-break space and
BOM). -/
def isJsWs (c : Char) : Bool :=
  c = ' ' || c = '\t' || c = '\n' || c = '\x0b' || c = '\x0c' || c = '\r' ||
  c = '\u00A0' || c = '\uFEFF'

/-- JavaScript `s.trim()`. -/
def jsTrim (s : List Char) : List Char :=
  ((s.dropWhile isJsWs).reverse.dropWhile isJsWs).reverse

/-- JavaScript `s.startsWith(p)`. -/
def beginsWith (s p : List Char) : Bool :=
  p.isPrefixOf s

/-- JavaScript `s.endsWith(p)`. -/
def endsWith (s p : List Char) : Bool :=
  p.isSuffixOf s

/-- JavaScript `s.slice(-w)` (for `w > 0`): the last `min w s.length`
characters of `s`. -/
def sliceLast (s : List Char) (w : Nat) : List Char :=
  s.drop (s.length - w)

/-- JavaScript `s.toLowerCase()` (ASCII). -/
def lowerStr (s : List Char) : List Char :=
  s.map Char.toLower

/-- JavaScript `s.split('\n')`: every `'\n'` separates segments, empty
segments included. -/
def splitOnNl (s : List Char) : List (List Char) :=
  match s with
  | [] => [[]]
  | c :: rest =>
    match splitOnNl rest with
    | [] => [[]]
    | seg :: segs => if c = '\n' then [] :: seg :: segs else (c :: seg) :: segs

/-- JavaScript `s.lastIndexOf('\n')`, as an option. -/
def lastNlIndex (s : List Char) : Option Nat :=
  ((List.range s.length).filter (fun j => s.getD j ' ' = '\n')).getLast?

/-- JavaScript `lines.join('\n')`. -/
def joinNl (lines : List (List Char)) : List Char :=
  List.intercalate ['\n'] lines

/-! ## The client artifact state (`UIArtifact`) and stream deltas -/

/-- `status` field of `UIArtifact`. -/
inductive ArtifactStatus
| streaming
| idle
deriving DecidableEq, Repr

/-- `kind` field of `UIArtifact` (`ArtifactKind`). -/
inductive ArtifactKind
| text
| code
| sheet
| image
deriving DecidableEq, Repr

/-- A `Suggestion` record, restricted to the fields the streaming client
reads. -/
structure Suggestion where
  id : List Char
  originalText : List Char
  suggestedText : List Char
deriving DecidableEq, Repr

/-- `DataStreamDelta` of `components/data-stream-handler.tsx`. -/
inductive DataStreamDelta
| textDelta (content : List Char)
| codeDelta (content : List Char)
| sheetDelta (content : List Char)
| imageDelta (content : List Char)
| titleDelta (content : List Char)
| idDelta (content : List Char)
| suggestionDelta (s : Suggestion)
| clearDelta
| finishDelta
| kindDelta (k : ArtifactKind)
deriving DecidableEq, Repr

/-- `UIArtifact`, restricted to the fields the stream reducers read or
write (`boundingBox` is transient layout geometry that no stream reducer
touches). -/
structure UIArtifact where
  documentId : List Char
  title : List Char
  kind : ArtifactKind
  content : List Char
  status : ArtifactStatus
  isVisible : Bool
deriving DecidableEq, Repr

/-! ## The per-delta reducer of `DataStreamHandler` (src/unnamed/part_010)

The `text-delta` case of the `setArtifact` switch runs a dedup loop:

```
const overlapWindow = Math.min(deltaContent.length, 50);
const endOfExisting = existingContent.slice(-overlapWindow);
for (let i = Math.min(overlapWindow, deltaContent.length); i > 0; i--) {
  const potentialDuplicate = deltaContent.slice(0, i);
  if (endOfExisting.endsWith(potentialDuplicate)) {
    contentToAdd = deltaContent.slice(i); break;
  }
}
```
-/

/-- The descending overlap loop of the `text-delta` case: the first (largest)
`i ≤ n` with `endOfExisting.endsWith(delta.slice(0, i))`, else `0`. -/
def findOverlap (endOfExisting delta : List Char) : Nat → Nat
| 0 => 0
| i + 1 =>
  if endsWith endOfExisting (delta.take (i + 1)) then i + 1
  else findOverlap endOfExisting delta i

/-- Number of characters the `text-delta` case of part_010 strips from the
incoming delta (`deltaContent.length - contentToAdd.length`). -/
def dedupStrip (existing delta : List Char) : Nat :=
  if existing.length = 0 then 0
  else
    let overlapWindow := min delta.length 50
    let endOfExisting := sliceLast existing overlapWindow
    findOverlap endOfExisting delta (min overlapWindow delta.length)

/-- The `setArtifact` switch of the delta-processing effect in
`DataStreamHandler` (src/unnamed/part_010, lines 99–198).  Every branch
spreads the base artifact and keeps `isVisible`; the `default` branch
returns the artifact unchanged. -/
def applyDelta (a : UIArtifact) (d : DataStreamDelta) : UIArtifact :=
  match d with
  | .idDelta s => { a with documentId := s, status := .streaming }
  | .titleDelta s => { a with title := s, status := .streaming }
  | .kindDelta k => { a with kind := k, status := .streaming }
  | .clearDelta => { a with content := [], status := .streaming }
  | .textDelta s =>
    let contentToAdd := s.drop (dedupStrip a.content s)
    { a with content := a.content ++ contentToAdd, status := .streaming }
  | .finishDelta => { a with status := .idle }
  | _ => a

/-- Folding a sequence of `text-delta` events through the part_010 reducer. -/
def applyTextDeltas (a : UIArtifact) (ds : List (List Char)) : UIArtifact :=
  ds.foldl (fun b s => applyDelta b (.textDelta s)) a

/-! ## The buffered handler of src/unnamed/part_009

`flushTextBuffer` applies the buffered text through a `setArtifact` updater
whose dedup differs from part_010: it first tests whether the whole buffer is
already a suffix of the existing content, and otherwise it runs a descending
overlap loop `for (let overlapSize = maxOverlapCheck; overlapSize > 2;
overlapSize--)`, so overlaps of length 1 or 2 are never stripped. -/

/-- The descending overlap loop of `flushTextBuffer` (part_009): the first
(largest) `i ≤ n` with `i > 2`, both strings at least `i` long, and
`endOfExisting.slice(-i) === contentToAdd.slice(0, i)`; else `0`. -/
def findOverlapFlush (endOfExisting contentToAdd : List Char) : Nat → Nat
| 0 => 0
| 1 => 0
| 2 => 0
| i + 3 =>
  if endOfExisting.length ≥ i + 3 ∧ contentToAdd.length ≥ i + 3 ∧
      sliceLast endOfExisting (i + 3) = contentToAdd.take (i + 3) then i + 3
  else findOverlapFlush endOfExisting contentToAdd (i + 2)

/-- The `setArtifact` updater inside `flushTextBuffer`
(src/unnamed/part_009, lines 143–221), applied to the buffered text. -/
def flushApply (a : UIArtifact) (bufferContent : List Char) : UIArtifact :=
  let existingContent := a.content
  if existingContent.length > 0 ∧ bufferContent.length > 0 then
    if endsWith existingContent bufferContent then
      -- complete duplication detected: `contentToAdd` becomes empty and the
      -- final guard returns the base artifact unchanged
      a
    else
      let maxOverlapCheck := min bufferContent.length 100
      let endOfExisting := sliceLast existingContent maxOverlapCheck
      let k := findOverlapFlush endOfExisting bufferContent maxOverlapCheck
      let contentToAdd := bufferContent.drop k
      if contentToAdd.length = 0 ∧ k ≠ 0 then a
      else { a with content := existingContent ++ contentToAdd,
                    status := .streaming }
  else { a with content := existingContent ++ bufferContent,
                status := .streaming }

/-- The non-text branch `setArtifact` switch of part_009's delta effect
(`otherDeltas.forEach`): `id`, `title`, `kind`, `clear`, `suggestion` and the
immediate part of `finish` (which keeps `status: 'streaming'`; a `setTimeout`
later moves it to `idle`).  Text deltas never reach this switch — they are
buffered. -/
def applyOtherDelta (a : UIArtifact) (d : DataStreamDelta) : UIArtifact :=
  match d with
  | .idDelta s => { a with documentId := s, status := .streaming }
  | .titleDelta s => { a with title := s, status := .streaming }
  | .kindDelta k => { a with kind := k, status := .streaming }
  | .clearDelta => { a with content := [], status := .streaming }
  | .finishDelta => { a with status := .streaming }
  | .suggestionDelta _ => { a with status := .streaming }
  | _ => a

/-- The buffering step of part_009's delta effect: the text deltas of one
batch are joined and appended to the buffer only when the combined text has
non-whitespace content (`combinedText.trim().length > 0`); otherwise the
batch is skipped. -/
def bufferAdd (buffer : List Char) (textDeltas : List (List Char)) : List Char :=
  let combinedText := textDeltas.flatten
  if (jsTrim combinedText).length > 0 then buffer ++ combinedText else buffer

/-! ## The text artifact stream handler of src/unnamed/part_006 -/

/-- The `setArtifact` update of the `text-delta` branch of
`textArtifact.onStreamPart` (src/unnamed/part_006, lines 108–137):
empty content returns early, and whitespace-only content is replaced by the
empty string before being appended
(`const updatedContent = content.trim() ? content : ''`). -/
def textDeltaApply (a : UIArtifact) (content : List Char) : UIArtifact :=
  if content = [] then a
  else
    let updatedContent := if jsTrim content ≠ [] then content else []
    { a with content := a.content ++ updatedContent, status := .streaming }

/-- The `finish` branch of `textArtifact.onStreamPart` (part_006): status
becomes `idle`, `isVisible` is explicitly preserved. -/
def textFinishApply (a : UIArtifact) : UIArtifact :=
  { a with status := .idle }

/-! ## The click handler of `PureHitboxLayer` (src/unnamed/part_011) -/

/-- The `setArtifact` update of `PureHitboxLayer.handleClick`
(src/unnamed/part_011, lines 213–233), the only site that turns
`isVisible` on: "Only set to visible on explicit user click".
`result` carries the optional document tool result. -/
def handleClickApply (result : Option (List Char × List Char × ArtifactKind))
    (a : UIArtifact) : UIArtifact :=
  match result with
  | some (rTitle, rId, rKind) =>
    { a with title := rTitle, documentId := rId, kind := rKind,
             isVisible := true }
  | none => { a with isVisible := true }

/-! ## The message merger `sanitizeUIMessages` (src/unnamed/part_002)

The merger scans the message list with a `skipNext` flag: two adjacent
assistant messages are merged into one when either matches one of three
document-content regex patterns or carries a `createDocument`/`updateDocument`
tool invocation. -/

/-- The apostrophe character (U+0027), used in the literal phrases of the
document-content patterns. -/
def apos : Char := Char.ofNat 39

/-- JavaScript `s.includes(p)` up to case (`/i` regex flag on a literal
pattern). -/
def containsCI (s p : List Char) : Bool :=
  decide (lowerStr p <:+: lowerStr s)

/-- Case-insensitive test for `head` + `.*` + `tail` at the start of `t`:
`t` begins with `head`, and after a gap without `'\n'` (the JS `.` never
matches a newline) `tail` follows. `t`, `head` and `tail` are already
lower-cased. -/
def matchGapAt (t head tail : List Char) : Bool :=
  beginsWith t head &&
  (let r := t.drop head.length
   (List.range (r.length + 1)).any (fun m =>
     (r.take m).all (· ≠ '\n') && beginsWith (r.drop m) tail))

/-- Case-insensitive test for `head` + `.*` + `tail` anywhere in `s`. -/
def containsGapCI (s head tail : List Char) : Bool :=
  let ls := lowerStr s
  (List.range (ls.length + 1)).any (fun i =>
    matchGapAt (ls.drop i) (lowerStr head) (lowerStr tail))

/-- `/I('ve| have) created (a|an) .* document/i` of `documentPatterns`. -/
def docPatternCreated (s : List Char) : Bool :=
  let heads : List (List Char) :=
    [ ('I' :: apos :: "ve created a ".data),
      ('I' :: apos :: "ve created an ".data),
      "I have created a ".data,
      "I have created an ".data ]
  heads.any (fun h => containsGapCI s h " document".data)

/-- `/Would you like me to (help develop|update)/i` of `documentPatterns`. -/
def docPatternDevelop (s : List Char) : Bool :=
  containsCI s "Would you like me to help develop".data ||
  containsCI s "Would you like me to update".data

/-- `/Here('s| is) (what I'll cover|an outline|a draft)/i` of
`documentPatterns`. -/
def docPatternOutline (s : List Char) : Bool :=
  let tails : List (List Char) :=
    [ ("what I".data ++ [apos] ++ "ll cover".data),
      "an outline".data, "a draft".data ]
  tails.any (fun t =>
    containsCI s (("Here".data ++ [apos] ++ "s ".data) ++ t) ||
    containsCI s ("Here is ".data ++ t))

/-- `documentPatterns.some (pattern => pattern.test s)`. -/
def docPattern (s : List Char) : Bool :=
  docPatternCreated s || docPatternDevelop s || docPatternOutline s

/-- Roles of a UI `Message`. -/
inductive MessageRole
| user
| assistant
| toolRole
| system
| data
deriving DecidableEq, Repr

/-- A tool invocation, restricted to the `toolName` field the merger reads. -/
structure ToolInvocation where
  toolName : List Char
deriving DecidableEq, Repr

/-- A UI `Message`, restricted to the fields the merger reads or writes. -/
structure Message where
  id : List Char
  role : MessageRole
  content : List Char
  toolInvocations : List ToolInvocation
deriving DecidableEq, Repr

/-- `message.toolInvocations?.some(inv => ['createDocument',
'updateDocument'].includes(inv.toolName))`. -/
def hasDocTool (m : Message) : Bool :=
  m.toolInvocations.any (fun t =>
    t.toolName = "createDocument".data || t.toolName = "updateDocument".data)

/-- The content combination of the merging branch of `sanitizeUIMessages`. -/
def sanitizeMergedContent (m next : Message) : List Char :=
  let combinedContent := m.content
  if (jsTrim next.content).length > 0 then
    (if combinedContent.length > 0 ∧
        ¬ endsWith combinedContent ['\n', '\n'] = true then
      combinedContent ++ ['\n', '\n']
    else combinedContent) ++ jsTrim next.content
  else combinedContent

/-- `sanitizeUIMessages` (src/unnamed/part_002, lines 426–500): the
`skipNext` scan that merges adjacent assistant message pairs when either
matches a document pattern or carries a document tool invocation. -/
def sanitizeUIMessages : List Message → List Message
| [] => []
| [m] => [m]
| m :: next :: rest2 =>
  if m.role ≠ .assistant ∨ next.role ≠ .assistant then
    m :: sanitizeUIMessages (next :: rest2)
  else if docPattern m.content || docPattern next.content ||
      hasDocTool m || hasDocTool next then
    { m with content := sanitizeMergedContent m next,
             toolInvocations := m.toolInvocations ++ next.toolInvocations }
      :: sanitizeUIMessages rest2
  else m :: sanitizeUIMessages (next :: rest2)

/-! ## Basic lemmas about the part_010 reducer -/

/-- Unfolding of the `text-delta` branch of the part_010 reducer. -/
theorem applyDelta_textDelta_content (a : UIArtifact) (s : List Char) :
    (applyDelta a (.textDelta s)).content
      = a.content ++ s.drop (dedupStrip a.content s) := rfl

/-- A string all of whose characters are whitespace trims to the empty
string. -/
theorem jsTrim_eq_nil (c : List Char) (h : ∀ ch ∈ c, isJsWs ch) :
    jsTrim c = [] := by
  unfold jsTrim
  rw [List.dropWhile_eq_nil_iff.mpr h]
  simp

/-! ## C3: append-only streaming -/

/-- C3: for every sequence of applied `text-delta` events with no
intervening `clear` event, the length of the artifact's `content` is
non-decreasing after each applied delta — in the per-delta reducer of
part_010 (first conjunct, stated for every prefix of the sequence) and in
the buffered `flushTextBuffer` updater of part_009 (second conjunct). -/
theorem append_only_during_streaming :
    (∀ (a : UIArtifact) (p : List (List Char)) (s : List Char),
      (applyTextDeltas a p).content.length
        ≤ (applyTextDeltas a (p ++ [s])).content.length) ∧
    (∀ (a : UIArtifact) (buf : List Char),
      a.content.length ≤ (flushApply a buf).content.length) := by
  constructor
  · intro a p s
    have h : applyTextDeltas a (p ++ [s])
        = applyDelta (applyTextDeltas a p) (.textDelta s) := by
      simp [applyTextDeltas]
    rw [h, applyDelta_textDelta_content]
    simp
  · intro a buf
    simp only [flushApply]
    split
    · split
      · exact le_refl _
      · split
        · exact le_refl _
        · simp
    · simp

/-! ## C8: visibility is user-driven only -/

/-- C8: no stream event ever changes the artifact's visibility state: the
part_010 per-delta reducer, the part_009 non-text reducer, the part_009
buffered flush updater, and the part_006 text artifact `text-delta` and
`finish` updates all leave `isVisible` unchanged; visibility is turned on
only by the explicit click handler of `PureHitboxLayer` (last conjunct). -/
theorem visibility_only_user_driven :
    (∀ (a : UIArtifact) (d : DataStreamDelta),
      (applyDelta a d).isVisible = a.isVisible) ∧
    (∀ (a : UIArtifact) (d : DataStreamDelta),
      (applyOtherDelta a d).isVisible = a.isVisible) ∧
    (∀ (a : UIArtifact) (buf : List Char),
      (flushApply a buf).isVisible = a.isVisible) ∧
    (∀ (a : UIArtifact) (c : List Char),
      (textDeltaApply a c).isVisible = a.isVisible) ∧
    (∀ a : UIArtifact, (textFinishApply a).isVisible = a.isVisible) ∧
    (∀ (r : Option (List Char × List Char × ArtifactKind)) (a : UIArtifact),
      (handleClickApply r a).isVisible = true) := by
  refine ⟨fun a d => ?_, fun a d => ?_, fun a buf => ?_, fun a c => ?_,
    fun a => rfl, fun r a => ?_⟩
  · cases d <;> rfl
  · cases d <;> rfl
  · simp only [flushApply]
    split
    · split
      · rfl
      · split
        · rfl
        · rfl
    · rfl
  · unfold textDeltaApply
    split
    · rfl
    · rfl
  · cases r with
    | none => rfl
    | some v => rfl

/-! ## C2: finish finality -/

/-- C2 counterexample: in the part_010 reducer, a `text-delta` arriving
after `finish` is *not* a no-op: starting from a finished artifact with
content `"abc"`, the delta `"x"` changes the content to `"abcx"` and moves
the status back to `streaming`. -/
theorem finish_not_final_counterexample :
    (applyDelta
        (applyDelta ⟨[], [], .text, "abc".data, .streaming, false⟩
          .finishDelta)
        (.textDelta "x".data)).content ≠ "abc".data ∧
    (applyDelta
        (applyDelta ⟨[], [], .text, "abc".data, .streaming, false⟩
          .finishDelta)
        (.textDelta "x".data)).content = "abcx".data ∧
    (applyDelta
        (applyDelta ⟨[], [], .text, "abc".data, .streaming, false⟩
          .finishDelta)
        (.textDelta "x".data)).status = .streaming := by
  refine ⟨?_, by decide, by decide⟩
  decide

/-- C2 (amended): after a `finish` event the artifact's status is `idle`,
and a duplicate `finish` is a no-op (it changes neither content nor any
other field); a subsequent `text-delta`, however, is still applied — its
post-deduplication remainder is appended to `content` and the status
returns to `streaming`. -/
theorem finish_finality_amended :
    ∀ a : UIArtifact,
      (applyDelta a .finishDelta).status = .idle ∧
      applyDelta (applyDelta a .finishDelta) .finishDelta
        = applyDelta a .finishDelta ∧
      ∀ s : List Char,
        (applyDelta (applyDelta a .finishDelta) (.textDelta s)).content
          = a.content ++ s.drop (dedupStrip a.content s) ∧
        (applyDelta (applyDelta a .finishDelta) (.textDelta s)).status
          = .streaming := by
  intro a
  exact ⟨rfl, rfl, fun s => ⟨rfl, rfl⟩⟩

/-! ## C10: whitespace-only fragments are dropped -/

/-- C10: a `text-delta` whose content is empty or consists only of
whitespace leaves the artifact's `content` unchanged: in the part_006 text
artifact handler the fragment is replaced by the empty string before the
append, and in the part_009 buffering step a whitespace-only batch is never
added to the text buffer. -/
theorem whitespace_only_fragments_dropped :
    (∀ (a : UIArtifact) (c : List Char), (∀ ch ∈ c, isJsWs ch) →
      (textDeltaApply a c).content = a.content) ∧
    (∀ (buffer c : List Char), (∀ ch ∈ c, isJsWs ch) →
      bufferAdd buffer [c] = buffer) := by
  constructor
  · intro a c h
    unfold textDeltaApply
    split
    · rfl
    · simp [jsTrim_eq_nil c h]
  · intro buffer c h
    unfold bufferAdd
    simp [jsTrim_eq_nil c h]

/-- Witness for C10 at the concrete whitespace fragment `" \n"`. -/
theorem whitespace_only_fragments_dropped_witness :
    (textDeltaApply ⟨[], [], .text, "ab".data, .streaming, false⟩
        [' ', '\n']).content = "ab".data ∧
    bufferAdd "ab".data [[' ', '\n']] = "ab".data :=
  ⟨whitespace_only_fragments_dropped.1 _ _ (by decide),
   whitespace_only_fragments_dropped.2 _ _ (by decide)⟩

/-! ## C4: longest-overlap deduplication -/

/-- `endsWith` as a suffix proposition. -/
theorem endsWith_iff (s p : List Char) : endsWith s p = true ↔ p <:+ s := by
  simp [endsWith, List.isSuffixOf_iff_suffix]

/-- A string of length at most `w` is a suffix of the last-`w` window of `s`
iff it is a suffix of `s`. -/
theorem suffix_sliceLast_iff (s p : List Char) (w : Nat) (hp : p.length ≤ w) :
    p <:+ sliceLast s w ↔ p <:+ s := by
  constructor
  · exact fun h => h.trans (List.drop_suffix _ _)
  · intro h
    have hlen : p.length ≤ s.length := h.length_le
    have heq := List.suffix_iff_eq_drop.mp h
    rw [List.suffix_iff_eq_drop]
    simp only [sliceLast, List.length_drop, List.drop_drop]
    have harith : s.length - w + (s.length - (s.length - w) - p.length)
        = s.length - p.length := by omega
    rw [harith]
    exact heq

/-- The part_010 overlap loop never exceeds its starting index. -/
theorem findOverlap_le (e d : List Char) (n : Nat) : findOverlap e d n ≤ n := by
  induction n with
  | zero => simp [findOverlap]
  | succ k ih =>
    by_cases hc : endsWith e (d.take (k + 1)) = true
    · rw [findOverlap, if_pos hc]
    · rw [findOverlap, if_neg hc]
      exact le_trans ih (Nat.le_succ _)

/-- When the part_010 overlap loop returns a nonzero index, that index
matches. -/
theorem findOverlap_match (e d : List Char) (n : Nat)
    (h : findOverlap e d n ≠ 0) :
    endsWith e (d.take (findOverlap e d n)) = true := by
  induction n with
  | zero => simp [findOverlap] at h
  | succ k ih =>
    by_cases hc : endsWith e (d.take (k + 1)) = true
    · rw [findOverlap, if_pos hc]
      exact hc
    · rw [findOverlap, if_neg hc] at h ⊢
      exact ih h

/-- No index above the part_010 loop's result (and within its range)
matches. -/
theorem findOverlap_maximal (e d : List Char) (n i : Nat)
    (hlt : findOverlap e d n < i) (hin : i ≤ n) :
    ¬ endsWith e (d.take i) = true := by
  induction n with
  | zero => omega
  | succ k ih =>
    by_cases hc : endsWith e (d.take (k + 1)) = true
    · rw [findOverlap, if_pos hc] at hlt
      exact absurd hin (by omega)
    · rw [findOverlap, if_neg hc] at hlt
      rcases Nat.lt_or_ge i (k + 1) with h1 | h1
      · exact ih hlt (by omega)
      · have hik : i = k + 1 := by omega
        rw [hik]
        exact hc

/-- `i` is a valid overlap between the tail of `existing` and the head of
`d`: at least `lo`, within the window `bound`, and the first `i` characters
of `d` are a suffix of `existing` (that is, they equal the last `i`
characters of `existing`). -/
def OverlapWithin (lo bound : Nat) (existing d : List Char) (i : Nat) : Prop :=
  lo ≤ i ∧ i ≤ bound ∧ endsWith existing (d.take i) = true

/-- `k` is the largest valid overlap within the window (or `0` when none
exists). -/
def IsLongestOverlap (lo bound : Nat) (existing d : List Char) (k : Nat) : Prop :=
  (k = 0 ∨ OverlapWithin lo bound existing d k) ∧
  ∀ i, OverlapWithin lo bound existing d i → i ≤ k

/-- The part_010 dedup strips exactly the longest overlap (of any positive
length) within the window `min delta.length 50`. -/
theorem dedupStrip_spec (existing d : List Char) :
    IsLongestOverlap 1 (min d.length 50) existing d (dedupStrip existing d) := by
  by_cases he : existing.length = 0
  · rw [dedupStrip, if_pos he]
    refine ⟨Or.inl rfl, ?_⟩
    rintro i ⟨h1, h2, h3⟩
    rw [endsWith_iff] at h3
    have hle := h3.length_le
    rw [List.length_take] at hle
    omega
  · have hW : min (min d.length 50) d.length = min d.length 50 := by omega
    have hval : dedupStrip existing d
        = findOverlap (sliceLast existing (min d.length 50)) d
            (min d.length 50) := by
      simp only [dedupStrip, if_neg he]
      rw [hW]
    set w := min d.length 50 with hw
    set E := sliceLast existing w with hE
    have hkey : ∀ i, i ≤ w →
        (endsWith E (d.take i) = true ↔ endsWith existing (d.take i) = true) := by
      intro i hi
      rw [endsWith_iff, endsWith_iff, hE]
      apply suffix_sliceLast_iff
      rw [List.length_take]
      omega
    rw [hval]
    constructor
    · rcases Nat.eq_zero_or_pos (findOverlap E d w) with h0 | hpos
      · exact Or.inl h0
      · refine Or.inr ⟨hpos, findOverlap_le E d w, ?_⟩
        exact (hkey _ (findOverlap_le E d w)).mp
          (findOverlap_match E d w (by omega))
    · rintro i ⟨h1, h2, h3⟩
      by_contra hgt
      push_neg at hgt
      exact findOverlap_maximal E d w i hgt h2 ((hkey i h2).mpr h3)

/-- The part_009 flush overlap loop never exceeds its starting index. -/
theorem findOverlapFlush_le (e c : List Char) (n : Nat) :
    findOverlapFlush e c n ≤ n := by
  induction n using Nat.strong_induction_on with
  | _ n ih =>
    match n with
    | 0 => simp [findOverlapFlush]
    | 1 => simp [findOverlapFlush]
    | 2 => simp [findOverlapFlush]
    | n + 3 =>
      rw [findOverlapFlush]
      split
      · exact le_refl _
      · exact le_trans (ih (n + 2) (by omega)) (by omega)

/-- When the part_009 flush loop returns a nonzero index, that index is at
least 3 and matches. -/
theorem findOverlapFlush_match (e c : List Char) (n : Nat)
    (h : findOverlapFlush e c n ≠ 0) :
    3 ≤ findOverlapFlush e c n ∧
    e.length ≥ findOverlapFlush e c n ∧
    c.length ≥ findOverlapFlush e c n ∧
    sliceLast e (findOverlapFlush e c n) = c.take (findOverlapFlush e c n) := by
  induction n using Nat.strong_induction_on with
  | _ n ih =>
    match n with
    | 0 => simp [findOverlapFlush] at h
    | 1 => simp [findOverlapFlush] at h
    | 2 => simp [findOverlapFlush] at h
    | n + 3 =>
      rw [findOverlapFlush] at h ⊢
      split at h
      case isTrue hc =>
        rw [if_pos hc]
        exact ⟨by omega, hc.1, hc.2.1, hc.2.2⟩
      case isFalse hc =>
        rw [if_neg hc]
        exact ih (n + 2) (by omega) h

/-- No index above the part_009 flush loop's result (at least 3, within
range) matches. -/
theorem findOverlapFlush_maximal (e c : List Char) (n i : Nat)
    (hlt : findOverlapFlush e c n < i) (h3i : 3 ≤ i) (hin : i ≤ n) :
    ¬ (e.length ≥ i ∧ c.length ≥ i ∧ sliceLast e i = c.take i) := by
  induction n using Nat.strong_induction_on with
  | _ n ih =>
    match n with
    | 0 => omega
    | 1 => omega
    | 2 => omega
    | n + 3 =>
      by_cases hc : e.length ≥ n + 3 ∧ c.length ≥ n + 3 ∧
          sliceLast e (n + 3) = c.take (n + 3)
      · rw [findOverlapFlush, if_pos hc] at hlt
        exact absurd hin (by omega)
      · rw [findOverlapFlush, if_neg hc] at hlt
        rcases Nat.lt_or_ge i (n + 3) with h1 | h1
        · exact ih (n + 2) (by omega) hlt (by omega)
        · have hik : i = n + 3 := by omega
          rw [hik]
          exact hc

/-- Transport of the flush loop's window-level test to the whole string:
for `i` within the window, the loop's condition holds iff the first `i`
characters of the buffer are a suffix of the full existing content. -/
theorem flushCond_iff (existing buffer : List Char) (bound i : Nat)
    (hib : i ≤ bound) (hbl : bound ≤ buffer.length) :
    ((sliceLast existing bound).length ≥ i ∧ buffer.length ≥ i ∧
      sliceLast (sliceLast existing bound) i = buffer.take i) ↔
    endsWith existing (buffer.take i) = true := by
  have htl : (buffer.take i).length = i := by
    rw [List.length_take]
    omega
  constructor
  · rintro ⟨hE, hB, hEq⟩
    rw [endsWith_iff]
    rw [← suffix_sliceLast_iff existing (buffer.take i) bound (by omega)]
    rw [List.suffix_iff_eq_drop, htl]
    rw [← hEq]
    rfl
  · intro h
    rw [endsWith_iff] at h
    have h' := (suffix_sliceLast_iff existing (buffer.take i) bound
      (by omega)).mpr h
    have hlen := h'.length_le
    rw [htl] at hlen
    refine ⟨hlen, by omega, ?_⟩
    have := List.suffix_iff_eq_drop.mp h'
    rw [htl] at this
    rw [sliceLast, ← this]

/-- The part_009 flush dedup, when the full-duplicate test fails, strips
exactly the longest overlap of length at least 3 within the window
`min buffer.length 100`, and appends the remainder. -/
theorem flushApply_spec (a : UIArtifact) (buf : List Char)
    (h1 : a.content.length > 0) (h2 : buf.length > 0)
    (h3 : endsWith a.content buf = false) :
    IsLongestOverlap 3 (min buf.length 100) a.content buf
      (findOverlapFlush (sliceLast a.content (min buf.length 100)) buf
        (min buf.length 100)) ∧
    (flushApply a buf).content
      = a.content ++ buf.drop
          (findOverlapFlush (sliceLast a.content (min buf.length 100)) buf
            (min buf.length 100)) := by
  set bound := min buf.length 100 with hbdef
  have hbl : bound ≤ buf.length := by omega
  set E := sliceLast a.content bound with hE
  set k := findOverlapFlush E buf bound with hk
  have hkb : k ≤ bound := findOverlapFlush_le E buf bound
  have hspec : IsLongestOverlap 3 bound a.content buf k := by
    constructor
    · rcases Nat.eq_zero_or_pos k with h0 | hpos
      · exact Or.inl h0
      · obtain ⟨hge3, hEk, hBk, hEqk⟩ := findOverlapFlush_match E buf bound
          (by omega)
        refine Or.inr ⟨hge3, hkb, ?_⟩
        exact (flushCond_iff a.content buf bound k hkb hbl).mp ⟨hEk, hBk, hEqk⟩
    · rintro i ⟨hi3, hib, hiw⟩
      by_contra hgt
      push_neg at hgt
      exact findOverlapFlush_maximal E buf bound i hgt hi3 hib
        ((flushCond_iff a.content buf bound i hib hbl).mpr hiw)
  refine ⟨hspec, ?_⟩
  have hknotall : k ≠ 0 → k < buf.length := by
    intro h0
    rcases Nat.lt_or_ge k buf.length with h | h
    · exact h
    · exfalso
      have hkbuf : k = buf.length := by omega
      rcases hspec.1 with hc | ⟨_, _, hmatch⟩
      · exact h0 hc
      · rw [hkbuf, List.take_length] at hmatch
        rw [hmatch] at h3
        simp at h3
  simp only [flushApply]
  rw [if_pos ⟨h1, h2⟩, if_neg (by simp [h3])]
  rw [← hbdef, ← hE, ← hk]
  split
  case isTrue hg =>
    exfalso
    obtain ⟨hg1, hg2⟩ := hg
    have := hknotall hg2
    rw [List.length_drop] at hg1
    omega
  case isFalse hg => rfl

/-- C4 counterexample: the buffered flush dedup of part_009 does not strip
the longest overlap.  With accumulated content `"xab"` and fragment
`"abc"`, the longest `k` with last-`k`-of-buffer = first-`k`-of-fragment is
`2` (`"ab"`), so a longest-overlap dedup would append `"c"`; the flush
updater strips nothing (its loop only considers overlaps above 2) and
produces `"xababc"`. -/
theorem dedup_longest_overlap_counterexample :
    (flushApply ⟨[], [], .text, "xab".data, .streaming, false⟩
        "abc".data).content = "xababc".data ∧
    endsWith "xab".data ("abc".data.take 2) = true ∧
    "xababc".data ≠ "xab".data ++ "abc".data.drop 2 := by
  refine ⟨rfl, by decide, by decide⟩

/-- C4 (amended): the per-delta handler of part_010 strips exactly the
longest overlap `k ≥ 1` within the window `min fragment.length 50`; the
buffered flush handler of part_009 strips the whole fragment when it is
already a suffix of the buffer, and otherwise exactly the longest overlap
`k ≥ 3` within the window `min fragment.length 100` (overlaps of length 1
or 2 are not stripped); in particular, for buffer `"The cat sat"` and
fragment `"cat sat on the mat"` both handlers append `" on the mat"`. -/
theorem dedup_longest_overlap_amended :
    (∀ existing d : List Char,
      IsLongestOverlap 1 (min d.length 50) existing d (dedupStrip existing d)) ∧
    (∀ (a : UIArtifact) (buf : List Char),
      a.content.length > 0 → buf.length > 0 →
      endsWith a.content buf = false →
      IsLongestOverlap 3 (min buf.length 100) a.content buf
        (findOverlapFlush (sliceLast a.content (min buf.length 100)) buf
          (min buf.length 100)) ∧
      (flushApply a buf).content = a.content ++ buf.drop
        (findOverlapFlush (sliceLast a.content (min buf.length 100)) buf
          (min buf.length 100))) ∧
    (∀ (a : UIArtifact) (buf : List Char),
      a.content.length > 0 → buf.length > 0 → endsWith a.content buf = true →
      flushApply a buf = a) ∧
    (applyDelta ⟨[], [], .text, "The cat sat".data, .streaming, false⟩
        (.textDelta "cat sat on the mat".data)).content
      = "The cat sat on the mat".data ∧
    (flushApply ⟨[], [], .text, "The cat sat".data, .streaming, false⟩
        "cat sat on the mat".data).content
      = "The cat sat on the mat".data := by
  refine ⟨dedupStrip_spec, flushApply_spec, ?_, by rfl, by rfl⟩
  intro a buf h1 h2 h3
  simp only [flushApply]
  rw [if_pos ⟨h1, h2⟩, if_pos (by simp [h3])]

/-- Witness for C4 (amended) at the spec's own example: buffer
`"The cat sat"`, fragment `"cat sat on the mat"`. -/
theorem dedup_longest_overlap_amended_witness :
    IsLongestOverlap 1 (min "cat sat on the mat".data.length 50)
      "The cat sat".data "cat sat on the mat".data
      (dedupStrip "The cat sat".data "cat sat on the mat".data) ∧
    (flushApply ⟨[], [], .text, "The cat sat".data, .streaming, false⟩
        "cat sat on the mat".data).content
      = "The cat sat".data ++ "cat sat on the mat".data.drop
          (findOverlapFlush
            (sliceLast "The cat sat".data
              (min "cat sat on the mat".data.length 100))
            "cat sat on the mat".data
            (min "cat sat on the mat".data.length 100)) :=
  ⟨dedup_longest_overlap_amended.1 "The cat sat".data "cat sat on the mat".data,
   (dedup_longest_overlap_amended.2.1
      ⟨[], [], .text, "The cat sat".data, .streaming, false⟩
      "cat sat on the mat".data (by decide) (by decide) (by decide)).2⟩

/-! ## C6: merger idempotence -/

/-- C6 counterexample: the merger is not idempotent.  With three assistant
messages where the first carries a `createDocument` tool invocation, the
first pass merges messages 1 and 2 into one message that still carries the
document tool; the second pass then merges that result with message 3, so
`merge (merge msgs) ≠ merge msgs`. -/
theorem merger_not_idempotent_counterexample :
    sanitizeUIMessages (sanitizeUIMessages
      [⟨"1".data, .assistant, "a".data, [⟨"createDocument".data⟩]⟩,
       ⟨"2".data, .assistant, "b".data, []⟩,
       ⟨"3".data, .assistant, "c".data, []⟩])
    ≠ sanitizeUIMessages
      [⟨"1".data, .assistant, "a".data, [⟨"createDocument".data⟩]⟩,
       ⟨"2".data, .assistant, "b".data, []⟩,
       ⟨"3".data, .assistant, "c".data, []⟩] := by
  decide

/-- C6 (amended): the merger is not idempotent in general — a message pair
merged on the first pass can be merged again with the following assistant
message on a second pass (see the counterexample); idempotence does hold
for message lists of length at most two, where at most one merge is
possible. -/
theorem merger_idempotent_amended :
    ∀ msgs : List Message, msgs.length ≤ 2 →
      sanitizeUIMessages (sanitizeUIMessages msgs) = sanitizeUIMessages msgs := by
  intro msgs h
  match msgs with
  | [] => rfl
  | [m] => rfl
  | [m1, m2] =>
    by_cases hr : m1.role ≠ MessageRole.assistant ∨ m2.role ≠ MessageRole.assistant
    · have e1 : sanitizeUIMessages [m1, m2] = [m1, m2] := by
        simp only [sanitizeUIMessages, if_pos hr]
      rw [e1]
      exact e1
    · by_cases hd : (docPattern m1.content || docPattern m2.content ||
          hasDocTool m1 || hasDocTool m2) = true
      · have e1 : sanitizeUIMessages [m1, m2]
            = [⟨m1.id, m1.role, sanitizeMergedContent m1 m2,
                m1.toolInvocations ++ m2.toolInvocations⟩] := by
          simp only [sanitizeUIMessages, if_neg hr, if_pos hd]
        rw [e1]
        rfl
      · have e1 : sanitizeUIMessages [m1, m2] = [m1, m2] := by
          simp only [sanitizeUIMessages, if_neg hr, if_neg hd]
        rw [e1]
        exact e1
  | _ :: _ :: _ :: _ => simp at h

/-- Witness for C6 (amended) at a concrete two-message document pair. -/
theorem merger_idempotent_amended_witness :
    sanitizeUIMessages (sanitizeUIMessages
      [⟨"1".data, .assistant, "a".data, [⟨"createDocument".data⟩]⟩,
       ⟨"2".data, .assistant, "b".data, []⟩])
    = sanitizeUIMessages
      [⟨"1".data, .assistant, "a".data, [⟨"createDocument".data⟩]⟩,
       ⟨"2".data, .assistant, "b".data, []⟩] :=
  merger_idempotent_amended _ (by decide)

/-! ## C5: provider-failure semantics of the onUpdateDocument wrapper
(src/lib/artifacts/server.ts, lines 76–107) -/

/-- Observable outcome of one `onUpdateDocument` call of the wrapper
produced by `createDocumentHandler`: the final lock map (as the list of
locked ids), what `saveDocument` was called with (if anything), whether the
call rejected (the error surfaced to the caller), and whether it was
skipped because the lock was held. -/
structure UpdateOutcome where
  locks : List (List Char)
  saved : Option (List Char × List Char)
  failed : Bool
  skippedByLock : Bool
deriving DecidableEq, Repr

/-- The wrapper `onUpdateDocument` of `createDocumentHandler`
(src/lib/artifacts/server.ts, lines 76–107):

* if `updateLocks.get(id)` — skip, warn, return (no save, locks untouched);
* otherwise set the lock, `await config.onUpdateDocument(...)`, save the
  returned draft when a session user exists, and release the lock in a
  `finally` block.

The kind handler's run is abstracted by its result: `.ok draft` when the
provider stream completed and the handler returned a draft, `.error ()`
when the provider stream raised — the exception then propagates through the
wrapper *before* the save, while the `finally` still releases the lock.
The wrapper runs the operation exactly once per call; there is no retry. -/
def onUpdateDocumentRun (locks : List (List Char)) (docId : List Char)
    (hasSession : Bool) (handlerRun : Except Unit (List Char)) :
    UpdateOutcome :=
  if docId ∈ locks then
    { locks := locks, saved := none, failed := false, skippedByLock := true }
  else
    match handlerRun with
    | .ok draft =>
      { locks := (docId :: locks).erase docId,
        saved := if hasSession then some (docId, draft) else none,
        failed := false, skippedByLock := false }
    | .error _ =>
      { locks := (docId :: locks).erase docId,
        saved := none, failed := true, skippedByLock := false }

/-- C5 counterexample: when the provider stream raises during an update
(here after partial content had been accumulated), nothing is persisted —
`saveDocument` is never reached — even though the claim requires a
best-effort save of the partial content.  The lock is released and the
failure surfaces. -/
theorem update_failure_counterexample :
    (onUpdateDocumentRun [] "doc1".data true (.error ())).saved = none ∧
    (onUpdateDocumentRun [] "doc1".data true (.error ())).failed = true ∧
    "doc1".data ∉ (onUpdateDocumentRun [] "doc1".data true (.error ())).locks := by
  refine ⟨rfl, rfl, by decide⟩

/-- C5 (amended): if the provider stream raises during a document update,
the wrapper still releases the per-document lock and surfaces the failure
to the caller, and it does not retry (the model runs the operation exactly
once); but no partial content is persisted — the save step is skipped
entirely.  (On a successful run the lock is likewise released.) -/
theorem update_failure_amended :
    ∀ (locks : List (List Char)) (docId : List Char) (hasSession : Bool),
      docId ∉ locks →
      (onUpdateDocumentRun locks docId hasSession (.error ())).saved = none ∧
      (onUpdateDocumentRun locks docId hasSession (.error ())).failed = true ∧
      docId ∉ (onUpdateDocumentRun locks docId hasSession (.error ())).locks ∧
      ∀ draft,
        docId ∉ (onUpdateDocumentRun locks docId hasSession (.ok draft)).locks := by
  intro locks docId hasSession h
  refine ⟨?_, ?_, ?_, ?_⟩
  · rw [onUpdateDocumentRun, if_neg h]
  · rw [onUpdateDocumentRun, if_neg h]
  · rw [onUpdateDocumentRun, if_neg h]
    simp only [List.erase_cons_head]
    exact h
  · intro draft
    rw [onUpdateDocumentRun, if_neg h]
    simp only [List.erase_cons_head]
    exact h

/-- Witness for C5 (amended) at a concrete failing update on `"doc1"`. -/
theorem update_failure_amended_witness :
    (onUpdateDocumentRun [] "doc1".data true (.error ())).saved = none ∧
    (onUpdateDocumentRun [] "doc1".data true (.error ())).failed = true ∧
    "doc1".data ∉ (onUpdateDocumentRun [] "doc1".data true (.error ())).locks ∧
    ∀ draft,
      "doc1".data ∉ (onUpdateDocumentRun [] "doc1".data true (.ok draft)).locks :=
  update_failure_amended [] "doc1".data true (by decide)

/-! ## The code decoder `processCodeOutput` (src/artifacts/code/server.ts,
lines 92–230)

The decoder first checks for an explicit language tag on the first line of
the trimmed content; failing that it tries a fenced code block, then a
partial (unterminated) fence, then heuristic language detection over regex
signatures, followed by markdown-artifact cleanup. -/

/-- Case-sensitive JavaScript `s.includes(p)`. -/
def containsSub (s p : List Char) : Bool :=
  decide (p <:+: s)

/-- The opening curly brace character (U+007B). -/
def lbrace : Char := Char.ofNat 123

/-- The closing curly brace character (U+007D). -/
def rbrace : Char := Char.ofNat 125

/-- The fixed language enum of `isValidLanguage`. -/
def validLanguages : List (List Char) :=
  ["text".data, "python".data, "javascript".data, "jsx".data,
   "typescript".data, "java".data, "cpp".data]

/-- `isValidLanguage` of the source. -/
def isValidLanguage (l : List Char) : Bool :=
  validLanguages.contains l

/-- The processed result: language tag and code payload. -/
structure ProcessedCode where
  language : List Char
  code : List Char
deriving DecidableEq, Repr

/-- One character of `[a-z]`. -/
def isLowerAZ (c : Char) : Bool :=
  'a' ≤ c && c ≤ 'z'

/-- One character of `[a-z0-9]`. -/
def isLowerAlnum (c : Char) : Bool :=
  isLowerAZ c || c.isDigit

/-- One character of the language-token charset `[a-z0-9-]`. -/
def isLangChar (c : Char) : Bool :=
  isLowerAlnum c || c = '-'

/-- Tail of the language-token grammar `([a-z]+)(\-?[a-z0-9]+)*`: every
hyphen must be followed by an alphanumeric, and the token may not end in a
hyphen. -/
def isLangTagTail : List Char → Bool
| [] => true
| c :: rest =>
  if isLowerAlnum c then isLangTagTail rest
  else if c = '-' then
    match rest with
    | [] => false
    | d :: _ => isLowerAlnum d && isLangTagTail rest
  else false

/-- The language-token grammar `([a-z]+)(\-?[a-z0-9]+)*`: nonempty, starts
with a lowercase letter. -/
def isLangTag (s : List Char) : Bool :=
  match s with
  | [] => false
  | c :: rest => isLowerAZ c && isLangTagTail rest

/-- Index of the first occurrence of `pat` in `s`, if any. -/
def firstOccurrence (s pat : List Char) : Option Nat :=
  (List.range (s.length + 1)).find? (fun j => beginsWith (s.drop j) pat)

/-- Match ```` ```([a-z]+(\-?[a-z0-9]+)*)\n([\s\S]+?)\n``` ```` at the
start of `s`: the fence, the maximal language-charset run (the charset
excludes `'\n'`, so only the full run can be followed by the required
newline), a newline, then the shortest nonempty body followed by
`"\n```"`. -/
def fenceMatchHere (s : List Char) : Option (List Char × List Char) :=
  if beginsWith s "```".data then
    let after := s.drop 3
    let run := after.takeWhile isLangChar
    let rest := after.drop run.length
    if isLangTag run && beginsWith rest ['\n'] then
      let body := rest.drop 1
      match firstOccurrence (body.drop 1) ('\n' :: "```".data) with
      | some j => some (run, body.take (j + 1))
      | none => none
    else none
  else none

/-- `codeBlockRegex.exec(content)`: the first (earliest-starting) fenced
code block, as its language and body. -/
def codeBlockExec (s : List Char) : Option (List Char × List Char) :=
  ((List.range (s.length + 1)).filterMap
    (fun i => fenceMatchHere (s.drop i))).head?

/-- JavaScript `content.split('```')`. -/
def splitOnFence (s : List Char) : List (List Char) :=
  match s with
  | [] => [[]]
  | c :: rest =>
    if beginsWith (c :: rest) "```".data then
      [] :: splitOnFence (rest.drop 2)
    else
      match splitOnFence rest with
      | [] => [[]]
      | seg :: segs => (c :: seg) :: segs
termination_by s.length
decreasing_by
all_goals simp only [List.length_cons, List.length_drop]
all_goals omega

/-- `parts[1].match(/^([a-z]+(\-?[a-z0-9]+)*)\n/)`: the language token at
the start of the first post-fence segment, when it is followed by a
newline. -/
def langLineMatch (p1 : List Char) : Option (List Char) :=
  let run := p1.takeWhile isLangChar
  if isLangTag run && beginsWith (p1.drop run.length) ['\n'] then some run
  else none

/-- `(?!.*;)` at a position: the lookahead fails exactly when the rest of
the current line contains a semicolon. -/
def semiBeforeNl (w : List Char) : Bool :=
  (w.takeWhile (fun c => c ≠ '\n')).contains ';'

/-- `/def\s+.*:\s*(?!.*;)/.test s` (backtracking semantics: some
decomposition into `def`, one or more whitespace characters, a newline-free
gap, a colon, and a whitespace run after which the rest of the line has no
semicolon). -/
def pyDefTest (s : List Char) : Bool :=
  (List.range (s.length + 1)).any (fun i =>
    let t := s.drop i
    beginsWith t "def".data &&
    (let r := t.drop 3
     (List.range (r.length + 1)).any (fun a =>
       a ≥ 1 && (r.take a).all isJsWs &&
       (let u := r.drop a
        (List.range (u.length + 1)).any (fun b =>
          (u.take b).all (fun c => c ≠ '\n') &&
          (match u.drop b with
           | ':' :: v =>
             (List.range (v.length + 1)).any (fun m =>
               (v.take m).all isJsWs && !(semiBeforeNl (v.drop m)))
           | _ => false))))))

/-- `word` followed by at least one whitespace character somewhere in
`s`. -/
def wordThenWs (s word : List Char) : Bool :=
  (List.range (s.length + 1)).any (fun i =>
    let t := s.drop i
    beginsWith t word &&
    (match t.drop word.length with
     | c :: _ => isJsWs c
     | [] => false))

/-- `word`, one or more whitespace characters, then `next`, somewhere in
`s`. -/
def wordWsWord (s word next : List Char) : Bool :=
  (List.range (s.length + 1)).any (fun i =>
    let t := s.drop i
    beginsWith t word &&
    (let r := t.drop word.length
     (List.range (r.length + 1)).any (fun a =>
       a ≥ 1 && (r.take a).all isJsWs && beginsWith (r.drop a) next)))

/-- `/import\s+React|useState|from\s+['"]react['"]/.test s`. -/
def jsxTest (s : List Char) : Bool :=
  wordWsWord s "import".data "React".data ||
  containsSub s "useState".data ||
  wordWsWord s "from".data ('"' :: "react".data ++ ['"']) ||
  wordWsWord s "from".data (apos :: "react".data ++ [apos])

/-- `/function.*{.*}|console\.log/.test s`: `console.log` anywhere, or on
one line `function`, a gap, an opening brace, a gap, a closing brace. -/
def jsFunctionTest (s : List Char) : Bool :=
  containsSub s "console.log".data ||
  (List.range (s.length + 1)).any (fun i =>
    let t := s.drop i
    beginsWith t "function".data &&
    (let r := t.drop 8
     (List.range (r.length + 1)).any (fun a =>
       (r.take a).all (fun c => c ≠ '\n') &&
       (match r.drop a with
        | c :: v =>
          c = lbrace &&
          (List.range (v.length + 1)).any (fun b =>
            (v.take b).all (fun c2 => c2 ≠ '\n') &&
            (match v.drop b with
             | d :: _ => d = rbrace
             | [] => false))
        | [] => false))))

/-- `/interface\s+|type\s+|:\s*string/.test s`. -/
def tsTest (s : List Char) : Bool :=
  wordThenWs s "interface".data ||
  wordThenWs s "type".data ||
  (List.range (s.length + 1)).any (fun i =>
    match s.drop i with
    | ':' :: v =>
      (List.range (v.length + 1)).any (fun m =>
        (v.take m).all isJsWs && beginsWith (v.drop m) "string".data)
    | _ => false)

/-- `/(?:public|private)\s+class/.test s`. -/
def javaTest (s : List Char) : Bool :=
  wordWsWord s "public".data "class".data ||
  wordWsWord s "private".data "class".data

/-- `detectLanguage` of the source: the ordered pattern table, first match
wins, defaulting to `text`. -/
def detectLanguage (input : List Char) : List Char :=
  if input = [] then "text".data
  else if pyDefTest input then "python".data
  else if jsxTest input then "jsx".data
  else if jsFunctionTest input then "javascript".data
  else if tsTest input then "typescript".data
  else if javaTest input then "java".data
  else if containsSub input "#include".data then "cpp".data
  else "text".data

/-- `/^#+\s+.*$/gm → ''` of `cleanCode`: at a line start, a run of `#`,
at least one whitespace character (as `\s`, possibly spanning newlines) and
the remainder of that line are removed; scanning continues after the
match. -/
def headerMatchRest (t : List Char) : List Char :=
  ((t.drop (t.takeWhile (fun x => x = '#')).length).drop
      ((t.drop (t.takeWhile (fun x => x = '#')).length).takeWhile
        isJsWs).length).dropWhile (fun x => x ≠ '\n')

/-- Removing one header match shortens the string, provided the whitespace
run after the hashes is nonempty. -/
theorem headerMatchRest_lt (t : List Char)
    (h : (t.drop (t.takeWhile (fun x => x = '#')).length).takeWhile isJsWs
      ≠ [])
    (ht : 0 < t.length) :
    (headerMatchRest t).length < t.length := by
  have hw := List.length_pos.mpr h
  refine lt_of_le_of_lt (List.dropWhile_sublist _).length_le ?_
  rw [List.length_drop, List.length_drop]
  omega

/-- `/^#+\s+.*$/gm → ''` of `cleanCode`: at a line start, a run of `#`,
at least one whitespace character (as `\s`, possibly spanning newlines) and
the remainder of that line are removed (`headerMatchRest`); scanning
continues after the match. -/
def cleanHeadersGo (s : List Char) (atStart : Bool) : List Char :=
  match s with
  | [] => []
  | c :: rest =>
    if atStart && c = '#' then
      if hws : ((c :: rest).drop
          ((c :: rest).takeWhile (fun x => x = '#')).length).takeWhile isJsWs
          = [] then
        c :: cleanHeadersGo rest false
      else cleanHeadersGo (headerMatchRest (c :: rest)) false
    else c :: cleanHeadersGo rest (c = '\n')
termination_by s.length
decreasing_by
· simp
· exact headerMatchRest_lt (c :: rest) hws (by simp)
· simp

/-- `/\*\*|__/g → ''` of `cleanCode`. -/
def removeBoldMarks : List Char → List Char
| [] => []
| [a] => [a]
| a :: b :: rest =>
  if (a = '*' && b = '*') || (a = '_' && b = '_') then removeBoldMarks rest
  else a :: removeBoldMarks (b :: rest)

/-- `/\*|_/g → ''` of `cleanCode`. -/
def removeItalicMarks (s : List Char) : List Char :=
  s.filter (fun c => !(c = '*' || c = '_'))

/-- ``/```[a-z]*\n?/g → ''`` of `cleanCode`. -/
def removeFenceMarks (s : List Char) : List Char :=
  match s with
  | [] => []
  | c :: rest =>
    if beginsWith (c :: rest) "```".data then
      let after2 := (rest.drop 2).drop
        ((rest.drop 2).takeWhile isLowerAZ).length
      if beginsWith after2 ['\n'] then removeFenceMarks (after2.drop 1)
      else removeFenceMarks after2
    else c :: removeFenceMarks rest
termination_by s.length
decreasing_by
all_goals simp only [List.length_drop, List.length_cons]
all_goals omega

/-- A character of `[-\s]`. -/
def isSepChar (c : Char) : Bool :=
  c = '-' || isJsWs c

/-- `/^[-\s]*$/gm → ''` of `cleanCode`: at a line start, the greedy run of
hyphens/whitespace backtracks to the last position where `$` holds (the
last newline inside the run, or the end of the string), and everything
before that position is removed. -/
def removeSeparatorGo (s : List Char) (atStart : Bool) : List Char :=
  match s with
  | [] => []
  | c :: rest =>
    if hc : atStart && isSepChar c then
      if htail : (c :: rest).drop
          ((c :: rest).takeWhile isSepChar).length = [] then []
      else
        let run := (c :: rest).takeWhile isSepChar
        (match lastNlIndex run with
         | some j => run.drop j
         | none => run) ++
          removeSeparatorGo
            ((c :: rest).drop ((c :: rest).takeWhile isSepChar).length) false
    else c :: removeSeparatorGo rest (c = '\n')
termination_by s.length
decreasing_by
· have hcc : isSepChar c = true := by
    have := hc
    simp only [Bool.and_eq_true] at this
    exact this.2
  have hrun : 1 ≤ ((c :: rest).takeWhile isSepChar).length := by
    rw [List.takeWhile_cons, if_pos hcc]
    simp
  simp only [List.length_drop, List.length_cons]
  omega
· simp

/-- `removeSeparatorGo` started at the beginning of the string. -/
def removeSeparatorLines (s : List Char) : List Char :=
  removeSeparatorGo s true

/-- `cleanCode` of the source: the five cleanup passes in order, then a
final trim. -/
def cleanCode (input : List Char) : List Char :=
  jsTrim (removeSeparatorLines (removeFenceMarks (removeItalicMarks
    (removeBoldMarks (cleanHeadersGo input true)))))

/-- The final heuristic stage of `processCodeOutput`: detect a language
over the current code and clean markdown artifacts out of it. -/
def finishHeuristic (code : List Char) : ProcessedCode :=
  ⟨detectLanguage code, cleanCode code⟩

/-- The partial-fence stage of `processCodeOutput`: when the content holds
a ```` ``` ```` at all, split on fences and inspect the first post-fence
segment for a leading language line; a valid language returns immediately,
otherwise the segment (trimmed) becomes the working code for the heuristic
stage. -/
def processCodeHeuristic (content : List Char) : ProcessedCode :=
  if containsSub content "```".data then
    match splitOnFence content with
    | _ :: p1 :: _ =>
      (match langLineMatch p1 with
       | some lang =>
         if isValidLanguage lang then
           ⟨lang, jsTrim (p1.drop (lang.length + 1))⟩
         else finishHeuristic (jsTrim p1)
       | none => finishHeuristic (jsTrim p1))
    | _ => finishHeuristic content
  else finishHeuristic content

/-- The fenced-block stage of `processCodeOutput`: a complete fenced code
block with a valid language returns its body (trimmed); otherwise fall
through to the partial-fence and heuristic stages. -/
def processCodeFenced (content : List Char) : ProcessedCode :=
  match codeBlockExec content with
  | some (lang, body) =>
    if isValidLanguage lang then ⟨lang, jsTrim body⟩
    else processCodeHeuristic content
  | none => processCodeHeuristic content

/-- `processCodeOutput` (src/artifacts/code/server.ts, lines 92–230). -/
def processCodeOutput (content : List Char) : ProcessedCode :=
  if content = [] then ⟨"text".data, []⟩
  else if jsTrim content = [] then ⟨"text".data, []⟩
  else
    match splitOnNl (jsTrim content) with
    | l0 :: l1 :: restL =>
      let firstLine := lowerStr (jsTrim l0)
      if isValidLanguage firstLine then
        ⟨firstLine, jsTrim (joinNl (l1 :: restL))⟩
      else processCodeFenced content
    | _ => processCodeFenced content

/-! ## The sheet document handler (sheet part of src/artifacts/.../server.ts)

`sheetDocumentHandler.onCreateDocument` accumulates provider text deltas
into `draftContent` (with a heuristic space-insertion step before the
header row is seen), buffers them, flushes complete rows as `sheet-delta`
events through `extractCSVContent`, and on stream end emits the cleaned
`extractCSVContent(draftContent)` with `complete: true` — while returning
the raw `draftContent`, which the generic `createDocumentHandler` then
persists via `saveDocument`. -/

/-- The CSV-line filter of `extractCSVContent`. -/
def isCsvDataLine (line : List Char) : Bool :=
  line.contains ',' &&
  !(beginsWith line "#".data) && !(beginsWith line "//".data) &&
  !(beginsWith (jsTrim line) "Here".data) &&
  !(beginsWith (jsTrim line) "This".data) &&
  !(beginsWith (jsTrim line) "I".data) &&
  !(beginsWith (jsTrim line) "The".data)

/-- Match ```` ```(?:csv)?\n([\s\S]+?)\n``` ```` at the start of `s`,
returning the body. -/
def csvFenceHere (s : List Char) : Option (List Char) :=
  let afterOpt :=
    if beginsWith s ("```csv".data ++ ['\n']) then some (s.drop 7)
    else if beginsWith s ("```".data ++ ['\n']) then some (s.drop 4)
    else none
  match afterOpt with
  | some body =>
    match firstOccurrence (body.drop 1) ('\n' :: "```".data) with
    | some j => some (body.take (j + 1))
    | none => none
  | none => none

/-- `extractCSVContent` of the sheet handler: the body of the first fenced
block (trimmed) when one exists; otherwise the comma-bearing data lines;
otherwise the content unchanged. -/
def extractCSVContent (content : List Char) : List Char :=
  match ((List.range (content.length + 1)).filterMap
      (fun i => csvFenceHere (content.drop i))).head? with
  | some body => jsTrim body
  | none =>
    let csvLines := (splitOnNl content).filter isCsvDataLine
    if csvLines ≠ [] then joinNl csvLines else content

/-- One emitted `sheet-delta` event. -/
structure SheetDeltaOut where
  content : List Char
  complete : Bool
deriving DecidableEq, Repr

/-- The loop state of `sheetDocumentHandler.onCreateDocument`. -/
structure SheetState where
  draft : List Char
  buffer : List Char
  headerReceived : Bool
  sent : List SheetDeltaOut
deriving DecidableEq, Repr

/-- Characters of `/[a-zA-Z0-9,:;\-_\(\[{]$/` (allowed last character
before an inserted space). -/
def sheetTailChar (c : Char) : Bool :=
  c.isAlpha || c.isDigit || c = ',' || c = ':' || c = ';' || c = '-' ||
  c = '_' || c = '(' || c = '[' || c = lbrace

/-- Characters of `/^[a-zA-Z0-9\)\]},]/` (allowed first character after an
inserted space). -/
def sheetHeadChar (c : Char) : Bool :=
  c.isAlpha || c.isDigit || c = ')' || c = ']' || c = rbrace || c = ','

/-- The `needsSpace` heuristic of the sheet handler. -/
def needsSpaceBetween (draft textDelta : List Char) : Bool :=
  (match draft.getLast? with
   | some c => sheetTailChar c
   | none => false) &&
  (match textDelta with
   | c :: _ => sheetHeadChar c
   | [] => false) &&
  !(endsWith draft [' ']) && !(endsWith draft ['\n']) &&
  !(endsWith draft ['\t']) &&
  !(beginsWith textDelta [' ']) && !(beginsWith textDelta ['\n']) &&
  !(beginsWith textDelta ['\t'])

/-- One `text-delta` iteration of the sheet `onCreateDocument` loop. -/
def sheetStep (st : SheetState) (textDelta : List Char) : SheetState :=
  let addSpace :=
    textDelta.length > 0 && st.draft.length > 0 && !st.headerReceived &&
    needsSpaceBetween st.draft textDelta
  let draft := (if addSpace then st.draft ++ [' '] else st.draft) ++ textDelta
  let buffer := (if addSpace then st.buffer ++ [' '] else st.buffer)
    ++ textDelta
  let headerReceived := st.headerReceived || buffer.contains '\n'
  if buffer.length ≥ 200 && buffer.contains '\n' then
    match lastNlIndex buffer with
    | some i =>
      let chunkCSV := extractCSVContent (buffer.take (i + 1))
      let sent := if (jsTrim chunkCSV).length > 0
        then st.sent ++ [⟨chunkCSV, false⟩] else st.sent
      ⟨draft, buffer.drop (i + 1), headerReceived, sent⟩
    | none => ⟨draft, buffer, headerReceived, st.sent⟩
  else ⟨draft, buffer, headerReceived, st.sent⟩

/-- The stream-end phase of the sheet `onCreateDocument`: flush the
remaining buffer as a partial `sheet-delta`, emit the final
`extractCSVContent(draftContent)` with `complete: true`, and resolve with
the raw `draftContent` (which `createDocumentHandler` persists). -/
def sheetFinish (st : SheetState) : SheetState × List Char :=
  let sent1 :=
    if st.buffer.length > 0 then
      (if (jsTrim (extractCSVContent st.buffer)).length > 0
       then st.sent ++ [⟨extractCSVContent st.buffer, false⟩] else st.sent)
    else st.sent
  (⟨st.draft, st.buffer, st.headerReceived,
    sent1 ++ [⟨extractCSVContent st.draft, true⟩]⟩, st.draft)

/-- A whole sheet `onCreateDocument` run over the provider's text deltas:
the final state (with every emitted `sheet-delta`) and the persisted
content. -/
def sheetCreateRun (frags : List (List Char)) : SheetState × List Char :=
  sheetFinish (frags.foldl sheetStep ⟨[], [], false, []⟩)

/-! ## C9: code decode with explicit first-line tag -/

/-- C9: when the first line of the trimmed raw stream is a bare valid
language tag (after trimming and lower-casing), `processCodeOutput` returns
that tag as the language and everything after the first line (joined back
and trimmed) as the payload; concretely,
`"python\ndef f():\n    return 1\n"` decodes to language `"python"` and
payload `"def f():\n    return 1"`. -/
theorem code_decode_first_line_tag :
    (∀ (content l0 l1 : List Char) (restL : List (List Char)),
      splitOnNl (jsTrim content) = l0 :: l1 :: restL →
      isValidLanguage (lowerStr (jsTrim l0)) = true →
      processCodeOutput content
        = ⟨lowerStr (jsTrim l0), jsTrim (joinNl (l1 :: restL))⟩) ∧
    processCodeOutput "python\ndef f():\n    return 1\n".data
      = ⟨"python".data, "def f():\n    return 1".data⟩ := by
  constructor
  · intro content l0 l1 restL hsplit hval
    have hc1 : ¬ content = [] := by
      intro h
      rw [h] at hsplit
      simp [jsTrim, splitOnNl] at hsplit
    have hc2 : ¬ jsTrim content = [] := by
      intro h
      rw [h] at hsplit
      simp [splitOnNl] at hsplit
    simp only [processCodeOutput, if_neg hc1, if_neg hc2, hsplit, if_pos hval]
  · rfl

/-- Witness for C9 at the spec's example input. -/
theorem code_decode_first_line_tag_witness :
    processCodeOutput "python\ndef f():\n    return 1\n".data
      = ⟨"python".data, "def f():\n    return 1".data⟩ :=
  (code_decode_first_line_tag.1 "python\ndef f():\n    return 1\n".data
    "python".data "def f():".data ["    return 1".data] rfl (by decide)).trans
    rfl

/-! ## C1: reload consistency -/

/-- C1: the claim fails on the sheet handler.  For the provider fragments
`["Here is your data\n", "a,b\n1,2"]`, the final `complete` sheet-delta
shown to the client carries the cleaned `extractCSVContent` payload
`"a,b\n1,2"`, but the persisted Document snapshot receives the raw
accumulated draft `"Here is your data\na,b\n1,2"` — the two differ
byte-for-byte, so the content rendered after a reload differs from the
content shown at `finish`.  (The code handler, by contrast, returns the
same cleaned payload it sends.) -/
theorem reload_consistency_sheet_divergence :
    (sheetCreateRun ["Here is your data\n".data, "a,b\n1,2".data]).1.sent
      = [⟨"a,b\n1,2".data, false⟩, ⟨"a,b\n1,2".data, true⟩] ∧
    (sheetCreateRun ["Here is your data\n".data, "a,b\n1,2".data]).2
      = "Here is your data\na,b\n1,2".data ∧
    "a,b\n1,2".data ≠ "Here is your data\na,b\n1,2".data := by
  refine ⟨by decide, by decide, by decide⟩

/-! ## The content normalizer `processText` (src/unnamed/part_002, lines
36–101)

`processText` is a chain of regex passes: horizontal-whitespace collapse
and trim; markdown heading/list normalization (multiline-anchored rules
whose `(\s*)` can span newlines); optional newline flattening; sentence
spacing `([.!?])(?!["'.]) → "$1 "`; whitespace collapse (`\s+` or
`[^\S\n]+` depending on `preserveNewlines`); and a fixed table of
technical-term fixes ending with the version-number contraction
`(\d+)\. (\d+)\. (\d+) → $1.$2.$3`.  The unused `preserveSpaces` option of
the source is omitted.  Each multiline-anchored rule is modelled as a
scanner carrying an at-line-start flag (`^` in a JavaScript `m`-regex
matches at index 0 and after every `'\n'` of the original string). -/

/-- `[\t\f\r ]` (the first pass collapses only these, not `'\n'`). -/
def isHWs (c : Char) : Bool :=
  c = '\t' || c = '\x0c' || c = '\r' || c = ' '

/-- `/[\t\f\r ]+/g → ' '`. -/
def collapseHWs : List Char → List Char
| [] => []
| c :: rest =>
  if isHWs c then
    match rest with
    | d :: _ => if isHWs d then collapseHWs rest else ' ' :: collapseHWs rest
    | [] => [' ']
  else c :: collapseHWs rest

/-- `/^(#{1,6})([^\s#])/gm → '$1 $2'`. -/
def headingRule (s : List Char) (atStart : Bool) : List Char :=
  match s with
  | [] => []
  | c :: rest =>
    if atStart && c = '#' then
      let hashes := (c :: rest).takeWhile (fun x => x = '#')
      let afterH := (c :: rest).drop hashes.length
      if hashes.length ≤ 6 &&
          (match afterH with
           | d :: _ => !(isJsWs d) && !(d = '#')
           | [] => false) then
        hashes ++ ' ' :: (afterH.take 1 ++ headingRule (afterH.drop 1) false)
      else c :: headingRule rest false
    else c :: headingRule rest (c = '\n')
termination_by s.length
decreasing_by
all_goals simp only [List.length_drop, List.length_cons]
all_goals omega

/-- `/^(\d+)\.(\s*)/gm → '$1. '` (the `(\s*)` is greedy and may consume
newlines). -/
def numberListRule (s : List Char) (atStart : Bool) : List Char :=
  match s with
  | [] => []
  | c :: rest =>
    if atStart && c.isDigit then
      let digits := (c :: rest).takeWhile Char.isDigit
      let afterD := (c :: rest).drop digits.length
      if beginsWith afterD ['.'] then
        let ws := (afterD.drop 1).takeWhile isJsWs
        digits ++ '.' :: ' ' ::
          numberListRule ((afterD.drop 1).drop ws.length)
            (decide (ws.getLast? = some '\n'))
      else c :: numberListRule rest (c = '\n')
    else c :: numberListRule rest (c = '\n')
termination_by s.length
decreasing_by
all_goals simp only [List.length_drop, List.length_cons]
all_goals omega

/-- `/^([*-])\s*/gm → '$1 '` (the `\s*` is greedy and may consume
newlines). -/
def bulletListRule (s : List Char) (atStart : Bool) : List Char :=
  match s with
  | [] => []
  | c :: rest =>
    if atStart && (c = '*' || c = '-') then
      let ws := rest.takeWhile isJsWs
      c :: ' ' ::
        bulletListRule (rest.drop ws.length) (decide (ws.getLast? = some '\n'))
    else c :: bulletListRule rest (c = '\n')
termination_by s.length
decreasing_by
all_goals simp only [List.length_drop, List.length_cons]
all_goals omega

/-- `/\n{3,}/g → '\n\n'`. -/
def collapseBlankLines (s : List Char) : List Char :=
  match s with
  | [] => []
  | c :: rest =>
    if c = '\n' then
      if h3 : ((c :: rest).takeWhile (fun x => x = '\n')).length ≥ 3 then
        '\n' :: '\n' :: collapseBlankLines
          ((c :: rest).drop ((c :: rest).takeWhile (fun x => x = '\n')).length)
      else c :: collapseBlankLines rest
    else c :: collapseBlankLines rest
termination_by s.length
decreasing_by
all_goals simp only [List.length_drop, List.length_cons]
all_goals omega

/-- `/\n+/g → ' '`. -/
def newlinesToSpaces (s : List Char) : List Char :=
  match s with
  | [] => []
  | c :: rest =>
    if c = '\n' then
      ' ' :: newlinesToSpaces (rest.dropWhile (fun x => x = '\n'))
    else c :: newlinesToSpaces rest
termination_by s.length
decreasing_by
all_goals simp only [List.length_cons]
· exact Nat.lt_succ_of_le (List.dropWhile_sublist _).length_le
· omega

/-- `/([.!?])(?!["'.])/g → '$1 '`. -/
def sentenceSpace : List Char → List Char
| [] => []
| c :: rest =>
  if (c = '.' || c = '!' || c = '?') &&
      (match rest with
       | d :: _ => !(d = '"' || d = apos || d = '.')
       | [] => true) then
    c :: ' ' :: sentenceSpace rest
  else c :: sentenceSpace rest

/-- `/\s+/g → ' '`. -/
def collapseAllWs : List Char → List Char
| [] => []
| c :: rest =>
  if isJsWs c then
    match rest with
    | d :: _ => if isJsWs d then collapseAllWs rest else ' ' :: collapseAllWs rest
    | [] => [' ']
  else c :: collapseAllWs rest

/-- `[^\S\n]`: whitespace other than a newline. -/
def isNonNlWs (c : Char) : Bool :=
  isJsWs c && !(c = '\n')

/-- `/[^\S\n]+/g → ' '` (spaces collapse, newlines survive). -/
def collapseNonNlWs : List Char → List Char
| [] => []
| c :: rest =>
  if isNonNlWs c then
    match rest with
    | d :: _ =>
      if isNonNlWs d then collapseNonNlWs rest else ' ' :: collapseNonNlWs rest
    | [] => [' ']
  else c :: collapseNonNlWs rest

/-- JavaScript `s.replace(pat, rep)` with a global literal pattern:
left-to-right, non-overlapping, continuing after each replacement. -/
def replaceAll (pat rep : List Char) (s : List Char) : List Char :=
  match s with
  | [] => []
  | c :: rest =>
    if h : pat ≠ [] ∧ beginsWith (c :: rest) pat then
      rep ++ replaceAll pat rep ((c :: rest).drop pat.length)
    else c :: replaceAll pat rep rest
termination_by s.length
decreasing_by
· have := List.length_pos.mpr h.1
  simp only [List.length_drop, List.length_cons]
  omega
· simp

/-- Global replacement of a two-variant literal pattern (for
`Type\. ?Script` and `Java\. ?Script`); the with-space variant is tried
first, as the greedy `' ?'` does. -/
def replaceAlt (patA patB rep : List Char) (s : List Char) : List Char :=
  match s with
  | [] => []
  | c :: rest =>
    if h : patA ≠ [] ∧ beginsWith (c :: rest) patA then
      rep ++ replaceAlt patA patB rep ((c :: rest).drop patA.length)
    else if h2 : patB ≠ [] ∧ beginsWith (c :: rest) patB then
      rep ++ replaceAlt patA patB rep ((c :: rest).drop patB.length)
    else c :: replaceAlt patA patB rep rest
termination_by s.length
decreasing_by
· have := List.length_pos.mpr h.1
  simp only [List.length_drop, List.length_cons]
  omega
· have := List.length_pos.mpr h2.1
  simp only [List.length_drop, List.length_cons]
  omega
· simp

/-- `/(\d+)\. (\d+)\. (\d+)/g → '$1.$2.$3'` (all `\d+` are effectively
maximal: shortening any of them puts a digit where `\.` or `' '` must
match). -/
def versionFixScan (s : List Char) : List Char :=
  match s with
  | [] => []
  | c :: rest =>
    if c.isDigit then
      let d1 := (c :: rest).takeWhile Char.isDigit
      let r1 := (c :: rest).drop d1.length
      let d2 := (r1.drop 2).takeWhile Char.isDigit
      let r2 := (r1.drop 2).drop d2.length
      let d3 := (r2.drop 2).takeWhile Char.isDigit
      if beginsWith r1 ['.', ' '] && !(d2 = []) &&
          beginsWith r2 ['.', ' '] && !(d3 = []) then
        d1 ++ '.' :: (d2 ++ '.' :: (d3 ++
          versionFixScan ((r2.drop 2).drop d3.length)))
      else c :: versionFixScan rest
    else c :: versionFixScan rest
termination_by s.length
decreasing_by
all_goals simp only [List.length_drop, List.length_cons]
all_goals omega

/-- The fixed technical-term table of `processText`, in source order,
ending with the version-number contraction. -/
def techTermFixes (s : List Char) : List Char :=
  versionFixScan
    (replaceAll "Vue. js".data "Vue.js".data
      (replaceAll "React. js".data "React.js".data
        (replaceAlt "Java. Script".data "Java.Script".data "JavaScript".data
          (replaceAlt "Type. Script".data "Type.Script".data "TypeScript".data
            (replaceAll "Node. js".data "Node.js".data
              (replaceAll "Next. js".data "Next.js".data s))))))

/-- `processText` (src/unnamed/part_002, lines 36–101). -/
def processText (text : List Char)
    (preserveNewlines preserveMarkdownHeadings : Bool) : List Char :=
  let processed := jsTrim (collapseHWs text)
  let processed :=
    if preserveMarkdownHeadings then
      collapseBlankLines (bulletListRule
        (numberListRule (headingRule processed true) true) true)
    else
      let p := bulletListRule (numberListRule processed true) true
      if !preserveNewlines then newlinesToSpaces p else p
  let processed :=
    if preserveNewlines then
      jsTrim (collapseNonNlWs (sentenceSpace processed))
    else
      jsTrim (collapseAllWs (sentenceSpace processed))
  techTermFixes processed

/-! ## Idempotence of `processText`: whitespace-run collapsing, generically -/

/-- The common shape of the three run-collapsing passes (`[\t\f\r ]+`,
`\s+`, `[^\S\n]+`, each replaced by `' '`), abstracted over the character
class `p`. -/
def gCollapse (p : Char → Bool) : List Char → List Char
| [] => []
| c :: rest =>
  if p c then
    match rest with
    | d :: _ => if p d then gCollapse p rest else ' ' :: gCollapse p rest
    | [] => [' ']
  else c :: gCollapse p rest

/-- One-step unfolding of `gCollapse` at a two-or-more-element list. -/
theorem gCollapse_cons₂ (p : Char → Bool) (c d : Char) (t : List Char) :
    gCollapse p (c :: d :: t) =
      if p c then
        (if p d then gCollapse p (d :: t) else ' ' :: gCollapse p (d :: t))
      else c :: gCollapse p (d :: t) := rfl

/-- One-step unfolding of `gCollapse` at a singleton. -/
theorem gCollapse_cons₁ (p : Char → Bool) (c : Char) :
    gCollapse p [c] = if p c then [' '] else [c] := rfl

/-- `collapseAllWs` is the `isJsWs` instance of the generic collapse. -/
theorem collapseAllWs_eq_g (s : List Char) :
    collapseAllWs s = gCollapse isJsWs s := by
  induction s with
  | nil => rfl
  | cons c rest ih =>
    cases rest with
    | nil => rfl
    | cons d t =>
      show (if isJsWs c then
          (if isJsWs d then collapseAllWs (d :: t)
           else ' ' :: collapseAllWs (d :: t))
        else c :: collapseAllWs (d :: t)) = _
      rw [gCollapse_cons₂, ih]

/-- `collapseNonNlWs` is the `isNonNlWs` instance of the generic
collapse. -/
theorem collapseNonNlWs_eq_g (s : List Char) :
    collapseNonNlWs s = gCollapse isNonNlWs s := by
  induction s with
  | nil => rfl
  | cons c rest ih =>
    cases rest with
    | nil => rfl
    | cons d t =>
      show (if isNonNlWs c then
          (if isNonNlWs d then collapseNonNlWs (d :: t)
           else ' ' :: collapseNonNlWs (d :: t))
        else c :: collapseNonNlWs (d :: t)) = _
      rw [gCollapse_cons₂, ih]

/-- `collapseHWs` is the `isHWs` instance of the generic collapse. -/
theorem collapseHWs_eq_g (s : List Char) :
    collapseHWs s = gCollapse isHWs s := by
  induction s with
  | nil => rfl
  | cons c rest ih =>
    cases rest with
    | nil => rfl
    | cons d t =>
      show (if isHWs c then
          (if isHWs d then collapseHWs (d :: t)
           else ' ' :: collapseHWs (d :: t))
        else c :: collapseHWs (d :: t)) = _
      rw [gCollapse_cons₂, ih]

/-- Unfolding of `gCollapse` at a character outside the class. -/
theorem gCollapse_cons_neg (p : Char → Bool) (c : Char) (rest : List Char)
    (h : p c = false) : gCollapse p (c :: rest) = c :: gCollapse p rest := by
  cases rest with
  | nil => rw [gCollapse_cons₁, if_neg (by simp [h])]; rfl
  | cons d t => rw [gCollapse_cons₂, if_neg (by simp [h])]

/-- The class discipline of a collapsed string: every class character is a
plain space and no two adjacent characters are both in the class. -/
def WsOk (p : Char → Bool) (s : List Char) : Prop :=
  (∀ c ∈ s, p c = true → c = ' ') ∧
  List.Chain' (fun a b => ¬(p a = true ∧ p b = true)) s

/-- On a class-disciplined string the generic collapse is the identity. -/
theorem gCollapse_eq_self (p : Char → Bool) (s : List Char)
    (h : WsOk p s) : gCollapse p s = s := by
  obtain ⟨h1, h2⟩ := h
  induction s with
  | nil => rfl
  | cons c rest ih =>
    have hrest : gCollapse p rest = rest := by
      refine ih (fun x hx hpx => h1 x (List.mem_cons_of_mem _ hx) hpx) ?_
      exact h2.tail
    by_cases hc : p c = true
    · have hcs : c = ' ' := h1 c (List.mem_cons_self _ _) hc
      cases rest with
      | nil => simp [gCollapse, hc, hcs]
      | cons d t =>
        have hd : ¬(p c = true ∧ p d = true) := (List.chain'_cons.mp h2).1
        have hpd : p d = false := by
          cases hpd : p d
          · rfl
          · exact absurd ⟨hc, hpd⟩ hd
        rw [gCollapse_cons₂, if_pos hc, if_neg (by simp [hpd]), hrest, hcs]
    · have hc' : p c = false := by simpa using hc
      rw [gCollapse_cons_neg p c rest hc', hrest]

/-- The head of a collapsed nonempty list: a space if the first character
is in the class, the first character itself otherwise. -/
theorem gCollapse_head (p : Char → Bool) (c : Char) (r : List Char) :
    (gCollapse p (c :: r)).head? = some (if p c then ' ' else c) := by
  induction r generalizing c with
  | nil =>
    rw [gCollapse_cons₁]
    by_cases hc : p c = true
    · simp [hc]
    · simp [hc]
  | cons d t ih =>
    rw [gCollapse_cons₂]
    by_cases hc : p c = true
    · by_cases hd : p d = true
      · rw [if_pos hc, if_pos hd, ih d, if_pos hd, if_pos hc]
      · simp only [if_pos hc, if_neg hd]
        simp
    · simp [hc]

/-- The generic collapse always produces a class-disciplined string. -/
theorem gCollapse_wsOk (p : Char → Bool) (s : List Char) :
    WsOk p (gCollapse p s) := by
  induction s with
  | nil => exact ⟨by simp [gCollapse], by simp [gCollapse]⟩
  | cons c rest ih =>
    cases rest with
    | nil =>
      rw [gCollapse_cons₁]
      by_cases hc : p c = true
      · exact ⟨by simp [hc], by simp [hc]⟩
      · refine ⟨?_, by simp [hc]⟩
        intro x hx hpx
        simp only [if_neg hc, List.mem_singleton] at hx
        subst hx
        exact absurd hpx hc
    | cons d t =>
      rw [gCollapse_cons₂]
      by_cases hc : p c = true
      · by_cases hd : p d = true
        · rw [if_pos hc, if_pos hd]
          exact ih
        · rw [if_pos hc, if_neg hd]
          refine ⟨?_, ?_⟩
          · intro x hx hpx
            rcases List.mem_cons.mp hx with h | h
            · exact h
            · exact ih.1 x h hpx
          · rw [List.chain'_cons']
            refine ⟨?_, ih.2⟩
            intro b hb
            rw [gCollapse_head] at hb
            intro hand
            rw [if_neg hd] at hb
            rw [← Option.some_inj.mp hb] at hand
            exact absurd hand.2 (by simpa using hd)
      · rw [if_neg hc]
        refine ⟨?_, ?_⟩
        · intro x hx hpx
          rcases List.mem_cons.mp hx with h | h
          · subst h; exact absurd hpx hc
          · exact ih.1 x h hpx
        · rw [List.chain'_cons']
          refine ⟨fun b _ hand => absurd hand.1 hc, ih.2⟩

/-! ## Idempotence of `processText`: the sentence-spacing closure -/

/-- The sentence punctuation class `[.!?]`. -/
def sentPunct (c : Char) : Bool :=
  c = '.' || c = '!' || c = '?'

/-- The negative-lookahead class `["'.]` of the sentence-spacing pass. -/
def exclNext (c : Char) : Bool :=
  c = '"' || c = apos || c = '.'

/-- Firing condition of the sentence-spacing pass, phrased on the
lookahead character. -/
def sentFire (c : Char) : Option Char → Bool
| some d => sentPunct c && !(exclNext d)
| none => sentPunct c

/-- Firing condition of the respacing closure: as `sentFire`, but a
whitespace lookahead also suppresses the space (the collapse pass will
merge it away anyway). -/
def respFire (c : Char) : Option Char → Bool
| some d => sentPunct c && !(exclNext d) && !(isJsWs d)
| none => sentPunct c

/-- The respacing closure: the net effect of sentence-spacing followed by
whitespace collapsing on a whitespace-disciplined string — a space is
inserted after a sentence punctuation character exactly when the next
character is neither excluded nor whitespace (or the string ends). -/
def respT : List Char → List Char
| [] => []
| c :: rest =>
  if respFire c rest.head? then c :: ' ' :: respT rest
  else c :: respT rest

/-- Unfolding of `respT` on a cons cell. -/
theorem respT_cons (c : Char) (rest : List Char) :
    respT (c :: rest) =
      if respFire c rest.head? then c :: ' ' :: respT rest
      else c :: respT rest := rfl

/-- `sentenceSpace` on a cons cell, phrased through `sentFire`. -/
theorem sentenceSpace_cons (c : Char) (rest : List Char) :
    sentenceSpace (c :: rest) =
      if sentFire c rest.head? then c :: ' ' :: sentenceSpace rest
      else c :: sentenceSpace rest := by
  cases rest with
  | nil => simp [sentenceSpace, sentFire, sentPunct]
  | cons d t => rfl

/-- `sentenceSpace` keeps the first character in place. -/
theorem sentenceSpace_shape (d : Char) (t : List Char) :
    sentenceSpace (d :: t) =
      d :: (if sentFire d t.head? then ' ' :: sentenceSpace t
            else sentenceSpace t) := by
  rw [sentenceSpace_cons]
  by_cases h : sentFire d t.head? = true
  · rw [if_pos h, if_pos h]
  · rw [if_neg h, if_neg h]

/-- Sentence punctuation characters are not whitespace. -/
theorem sentPunct_not_ws (c : Char) (h : sentPunct c = true) :
    isJsWs c = false := by
  have h3 : (c = '.' ∨ c = '!') ∨ c = '?' := by
    simpa [sentPunct, Bool.or_eq_true] using h
  rcases h3 with (h | h) | h <;> subst h <;> decide

/-- Collapsing after sentence-spacing equals the respacing closure, on any
string whose whitespace is class-disciplined (GSENT2). -/
theorem gCollapse_sentence_eq_respT (p : Char → Bool)
    (hp : p ' ' = true) (hpw : ∀ c, p c = true → isJsWs c = true)
    (v : List Char)
    (h1 : ∀ c ∈ v, p c = true → c = ' ')
    (h2 : List.Chain' (fun a b => ¬(p a = true ∧ p b = true)) v)
    (h4 : List.Chain' (fun a b =>
      sentPunct a = true → isJsWs b = true → p b = true) v) :
    gCollapse p (sentenceSpace v) = respT v := by
  induction v with
  | nil => rfl
  | cons c rest ih =>
    have ihr : gCollapse p (sentenceSpace rest) = respT rest :=
      ih (fun x hx hpx => h1 x (List.mem_cons_of_mem _ hx) hpx) h2.tail h4.tail
    rw [sentenceSpace_cons, respT_cons]
    by_cases hf : sentFire c rest.head? = true
    · -- the sentence pass inserts a space after `c`
      rw [if_pos hf]
      cases rest with
      | nil =>
        have hpc : sentPunct c = true := by simpa [sentFire] using hf
        have hcp : p c = false := by
          cases hpcb : p c
          · rfl
          · exact absurd (hpw c hpcb) (by simp [sentPunct_not_ws c hpc])
        have hrf : respFire c none = true := by
          simpa [respFire] using hpc
        rw [if_pos (by simpa using hrf), show sentenceSpace [] = [] from rfl,
          gCollapse_cons_neg p c [' '] hcp, gCollapse_cons₁, if_pos hp]
        rfl
      | cons d t =>
        have hf2 : sentPunct c = true ∧ exclNext d = false := by
          simpa [sentFire] using hf
        have hpc := hf2.1
        have hex := hf2.2
        have hcp : p c = false := by
          cases hpcb : p c
          · rfl
          · exact absurd (hpw c hpcb) (by simp [sentPunct_not_ws c hpc])
        have hshape := sentenceSpace_shape d t
        by_cases hdw : isJsWs d = true
        · -- whitespace lookahead: `d = ' '`; the inserted space merges away
          have hdp : p d = true := (List.chain'_cons.mp h4).1 hpc hdw
          have hds : d = ' ' := h1 d (by simp) hdp
          subst hds
          have hrf : respFire c (some ' ') = false := by
            simp [respFire, hdw]
          rw [if_neg (by simp [hrf])]
          rw [hshape, gCollapse_cons_neg p c _ hcp, gCollapse_cons₂,
            if_pos hp, if_pos hp, ← hshape, ihr]
        · -- solid lookahead: the inserted space survives collapsing
          have hdw2 : isJsWs d = false := by simpa using hdw
          have hdp : p d = false := by
            cases hpdb : p d
            · rfl
            · exact absurd (hpw d hpdb) (by simp [hdw2])
          have hrf : respFire c (some d) = true := by
            simp [respFire, hpc, hex, hdw2]
          rw [if_pos (by simpa using hrf), hshape,
            gCollapse_cons_neg p c _ hcp, gCollapse_cons₂, if_pos hp,
            if_neg (by simp [hdp]), ← hshape, ihr]
    · -- the sentence pass leaves `c` alone
      rw [if_neg hf]
      have hrf : respFire c rest.head? = false := by
        cases rest with
        | nil =>
          have : sentPunct c = false := by simpa [sentFire] using hf
          simpa [respFire] using this
        | cons d t =>
          have himp : sentPunct c = true → exclNext d = true := by
            intro hpc
            by_cases hexb : exclNext d = true
            · exact hexb
            · exact absurd (by simp [sentFire, hpc, hexb] :
                sentFire c (List.head? (d :: t)) = true) hf
          by_cases hpc : sentPunct c = true
          · simp [respFire, hpc, himp hpc]
          · simp [respFire, show sentPunct c = false by simpa using hpc]
      rw [if_neg (by simp [hrf])]
      by_cases hcp : p c = true
      · -- `c` is class whitespace, hence a plain space
        have hcs : c = ' ' := h1 c (by simp) hcp
        cases rest with
        | nil =>
          rw [show sentenceSpace [] = [] from rfl, gCollapse_cons₁,
            if_pos hcp, hcs]
          rfl
        | cons d t =>
          have hdp : p d = false := by
            cases hpdb : p d
            · rfl
            · exact absurd ⟨hcp, hpdb⟩ (List.chain'_cons.mp h2).1
          have hshape := sentenceSpace_shape d t
          rw [hshape, gCollapse_cons₂, if_pos hcp, if_neg (by simp [hdp]),
            ← hshape, ihr, hcs]
      · have hcp2 : p c = false := by simpa using hcp
        rw [gCollapse_cons_neg p c (sentenceSpace rest) hcp2, ihr]

/-- A sentence-spaced string: every sentence punctuation character is
followed by an excluded character or a plain space. -/
def SentOk (s : List Char) : Prop :=
  List.Chain' (fun a b =>
    sentPunct a = true → (exclNext b = true ∨ b = ' ')) s

/-- Does the string end in a sentence punctuation character? -/
def endsPunct (s : List Char) : Bool :=
  match s.getLast? with
  | some c => sentPunct c
  | none => false

/-- On a sentence-spaced string the respacing closure only appends a
space after a trailing punctuation mark. -/
theorem respT_of_sentOk (w : List Char) (h : SentOk w) :
    respT w = w ++ (if endsPunct w then [' '] else []) := by
  induction w with
  | nil => rfl
  | cons c rest ih =>
    cases rest with
    | nil =>
      rw [respT_cons]
      by_cases hpc : sentPunct c = true
      · rw [if_pos (by simpa [respFire] using hpc)]
        simp [endsPunct, hpc, respT]
      · have hpc2 : sentPunct c = false := by simpa using hpc
        rw [if_neg (by simp [respFire, hpc2])]
        simp [endsPunct, hpc2, respT]
    | cons d t =>
      have hrf : respFire c (some d) = false := by
        by_cases hpc : sentPunct c = true
        · rcases (List.chain'_cons.mp h).1 hpc with hex | hsp
          · simp [respFire, hex]
          · subst hsp
            simp [respFire, show isJsWs ' ' = true from by decide]
        · simp [respFire, show sentPunct c = false by simpa using hpc]
      rw [respT_cons, if_neg (by simp [hrf]), ih (List.chain'_cons.mp h).2]
      rw [show endsPunct (c :: d :: t) = endsPunct (d :: t) from by
        simp [endsPunct, List.getLast?_cons_cons]]
      rfl

/-! ## Idempotence of `processText`: trimming -/

/-- A string is trimmed when neither end is whitespace. -/
def Trimmed (s : List Char) : Prop :=
  (∀ c, s.head? = some c → isJsWs c = false) ∧
  (∀ c, s.getLast? = some c → isJsWs c = false)

/-- `dropWhile` does nothing when the head fails the test. -/
theorem dropWhile_eq_self_of_head (p : Char → Bool) (l : List Char)
    (h : ∀ c, l.head? = some c → p c = false) : l.dropWhile p = l := by
  cases l with
  | nil => rfl
  | cons c t => exact List.dropWhile_cons_of_neg (by simp [h c rfl])

/-- Any head of a `dropWhile` output fails the test. -/
theorem dropWhile_head_not (p : Char → Bool) (l : List Char) :
    ∀ c, (l.dropWhile p).head? = some c → p c = false := by
  induction l with
  | nil => intro c h; simp at h
  | cons a t ih =>
    intro c h
    by_cases ha : p a = true
    · rw [List.dropWhile_cons_of_pos ha] at h
      exact ih c h
    · rw [List.dropWhile_cons_of_neg (by simpa using ha)] at h
      simp at h
      rw [← h]
      simpa using ha

/-- `jsTrim` is the identity on trimmed strings. -/
theorem jsTrim_eq_self (s : List Char) (h : Trimmed s) : jsTrim s = s := by
  unfold jsTrim
  rw [dropWhile_eq_self_of_head isJsWs s h.1]
  rw [dropWhile_eq_self_of_head isJsWs s.reverse
    (fun c hc => h.2 c (by rwa [List.head?_reverse] at hc))]
  exact List.reverse_reverse s

/-- Appending a space does not change the trimmed value. -/
theorem jsTrim_append_space (s : List Char) :
    jsTrim (s ++ [' ']) = jsTrim s := by
  unfold jsTrim
  rw [List.dropWhile_append]
  cases hu : s.dropWhile isJsWs with
  | nil => rfl
  | cons a u =>
    rw [if_neg (by simp)]
    rw [List.reverse_append]
    rw [show (([' '] : List Char).reverse ++ (a :: u).reverse) =
      ' ' :: (a :: u).reverse from rfl]
    rw [List.dropWhile_cons_of_pos (by decide : isJsWs ' ' = true)]

/-- The trimmed value is trimmed. -/
theorem jsTrim_trimmed (s : List Char) : Trimmed (jsTrim s) := by
  unfold jsTrim
  constructor
  · intro c hc
    rw [List.head?_reverse] at hc
    have hvne : (s.dropWhile isJsWs).reverse.dropWhile isJsWs ≠ [] := by
      intro h0
      rw [h0] at hc
      simp at hc
    obtain ⟨t, ht⟩ :=
      List.dropWhile_suffix (l := (s.dropWhile isJsWs).reverse)
        (p := isJsWs)
    have hgl : ((s.dropWhile isJsWs).reverse).getLast? =
        ((s.dropWhile isJsWs).reverse.dropWhile isJsWs).getLast? := by
      conv_lhs => rw [← ht]
      exact List.getLast?_append_of_ne_nil t hvne
    rw [← hgl, List.getLast?_reverse] at hc
    exact dropWhile_head_not isJsWs s c hc
  · intro c hc
    rw [List.getLast?_reverse] at hc
    exact dropWhile_head_not isJsWs (s.dropWhile isJsWs).reverse c hc

/-- The trimmed value is a contiguous part of the original string. -/
theorem jsTrim_within (s : List Char) : jsTrim s <:+: s := by
  unfold jsTrim
  have h1 : s.dropWhile isJsWs <:+ s := List.dropWhile_suffix _
  have h2 : (s.dropWhile isJsWs).reverse.dropWhile isJsWs <:+
      (s.dropWhile isJsWs).reverse := List.dropWhile_suffix _
  have h3 : ((s.dropWhile isJsWs).reverse.dropWhile isJsWs).reverse <+:
      s.dropWhile isJsWs := by
    have hiff := @List.reverse_prefix Char
      ((s.dropWhile isJsWs).reverse.dropWhile isJsWs)
      ((s.dropWhile isJsWs).reverse)
    rw [List.reverse_reverse] at hiff
    exact hiff.mpr h2
  exact h3.isInfix.trans h1.isInfix

/-- A chain restricted to a contiguous part of the list. -/
theorem chain'_sub {α : Type} {R : α → α → Prop} {l t : List α}
    (h : List.Chain' R l) (ht : t <:+: l) : List.Chain' R t :=
  List.Chain'.infix h ht

/-! ## Idempotence of `processText`: literal global replacement -/

/-- The first pattern of `pats` (in list order) matching at the head of
`s`, if any. -/
def firstPat (pats : List (List Char)) (s : List Char) :
    Option (List Char) :=
  pats.find? (fun pat => !pat.isEmpty && beginsWith s pat)

/-- Global replacement of an ordered family of literal patterns by a
common replacement: the generalisation of `replaceAll` (one pattern) and
`replaceAlt` (two patterns, first-match priority). -/
def replaceMulti (pats : List (List Char)) (rep : List Char) :
    List Char → List Char
| [] => []
| c :: rest =>
  match h : firstPat pats (c :: rest) with
  | some pat => rep ++ replaceMulti pats rep ((c :: rest).drop pat.length)
  | none => c :: replaceMulti pats rep rest
termination_by s => s.length
decreasing_by
· have hfind := List.find?_some h
  have hne : pat ≠ [] := by
    intro he
    subst he
    simp at hfind
  simp only [List.length_drop, List.length_cons]
  have hlen : 0 < pat.length := List.length_pos.mpr hne
  omega
· simp

/-- Unfolding of `replaceMulti` at a match. -/
theorem replaceMulti_cons_match (pats : List (List Char))
    (rep : List Char) (c : Char) (rest : List Char) (pat : List Char)
    (h : firstPat pats (c :: rest) = some pat) :
    replaceMulti pats rep (c :: rest) =
      rep ++ replaceMulti pats rep ((c :: rest).drop pat.length) := by
  rw [replaceMulti]
  split
  · rename_i pat2 h2
    rw [h] at h2
    rw [Option.some_inj.mp h2]
  · rename_i h2
    rw [h] at h2
    exact absurd h2 (by simp)

/-- Unfolding of `replaceMulti` at a non-match. -/
theorem replaceMulti_cons_none (pats : List (List Char))
    (rep : List Char) (c : Char) (rest : List Char)
    (h : firstPat pats (c :: rest) = none) :
    replaceMulti pats rep (c :: rest) = c :: replaceMulti pats rep rest := by
  rw [replaceMulti]
  split
  · rename_i pat2 h2
    rw [h] at h2
    exact absurd h2 (by simp)
  · rfl

/-- What a successful `firstPat` lookup yields. -/
theorem firstPat_some_spec (pats : List (List Char)) (s pat : List Char)
    (h : firstPat pats s = some pat) :
    pat ∈ pats ∧ pat ≠ [] ∧ beginsWith s pat = true := by
  refine ⟨List.mem_of_find?_eq_some h, ?_, ?_⟩
  · intro he
    subst he
    have := List.find?_some h
    simp at this
  · have := List.find?_some h
    exact (Bool.and_eq_true _ _ |>.mp this).2

/-- A failed `firstPat` lookup means no nonempty pattern is a prefix. -/
theorem firstPat_none_spec (pats : List (List Char)) (s pat : List Char)
    (h : firstPat pats s = none) (hm : pat ∈ pats) (hne : pat ≠ []) :
    beginsWith s pat = false := by
  have := List.find?_eq_none.mp h pat hm
  cases hb : beginsWith s pat
  · rfl
  · exact absurd (by simp [hb, List.isEmpty_eq_true, hne]) this

/-- `firstPat` for a single nonempty matching pattern. -/
theorem firstPat_single_pos (pat s : List Char) (hp : pat ≠ [])
    (hb : beginsWith s pat = true) : firstPat [pat] s = some pat := by
  unfold firstPat
  rw [List.find?_cons_of_pos]
  simp [hb, List.isEmpty_eq_true, hp]

/-- `firstPat` for a single non-matching pattern. -/
theorem firstPat_single_neg (pat s : List Char)
    (hb : beginsWith s pat = false) : firstPat [pat] s = none := by
  unfold firstPat
  cases hpe : pat.isEmpty
  · rw [List.find?_cons_of_neg, List.find?_nil]
    simp [hb]
  · rw [List.find?_cons_of_neg, List.find?_nil]
    simp [hpe]

/-- Unfolding of `replaceAll` at a match. -/
theorem replaceAll_cons_pos (pat rep : List Char) (c : Char)
    (rest : List Char) (h : pat ≠ [] ∧ beginsWith (c :: rest) pat) :
    replaceAll pat rep (c :: rest) =
      rep ++ replaceAll pat rep ((c :: rest).drop pat.length) := by
  rw [replaceAll, dif_pos h]

/-- Unfolding of `replaceAll` at a non-match. -/
theorem replaceAll_cons_neg (pat rep : List Char) (c : Char)
    (rest : List Char) (h : ¬(pat ≠ [] ∧ beginsWith (c :: rest) pat)) :
    replaceAll pat rep (c :: rest) = c :: replaceAll pat rep rest := by
  rw [replaceAll, dif_neg h]

/-- `replaceAll` is the singleton instance of `replaceMulti`. -/
theorem replaceAll_eq_multi (pat rep : List Char) (hp : pat ≠ [])
    (s : List Char) : replaceAll pat rep s = replaceMulti [pat] rep s := by
  induction s using replaceMulti.induct [pat] rep with
  | case1 => simp [replaceAll, replaceMulti]
  | case2 c rest pat2 h ih =>
    obtain ⟨hm, hne, hb⟩ := firstPat_some_spec _ _ _ h
    have hpp : pat2 = pat := by simpa using hm
    subst hpp
    rw [replaceMulti_cons_match _ _ _ _ _ h,
      replaceAll_cons_pos _ _ _ _ ⟨hp, hb⟩, ih]
  | case3 c rest h ih =>
    have hb := firstPat_none_spec [pat] (c :: rest) pat h (by simp) hp
    rw [replaceMulti_cons_none _ _ _ _ h,
      replaceAll_cons_neg _ _ _ _ (by simp [hb]), ih]

/-- Unfolding of `replaceAlt` at a first-variant match. -/
theorem replaceAlt_cons_posA (patA patB rep : List Char) (c : Char)
    (rest : List Char) (h : patA ≠ [] ∧ beginsWith (c :: rest) patA) :
    replaceAlt patA patB rep (c :: rest) =
      rep ++ replaceAlt patA patB rep ((c :: rest).drop patA.length) := by
  rw [replaceAlt, dif_pos h]

/-- Unfolding of `replaceAlt` at a second-variant match. -/
theorem replaceAlt_cons_posB (patA patB rep : List Char) (c : Char)
    (rest : List Char) (hA : ¬(patA ≠ [] ∧ beginsWith (c :: rest) patA))
    (hB : patB ≠ [] ∧ beginsWith (c :: rest) patB) :
    replaceAlt patA patB rep (c :: rest) =
      rep ++ replaceAlt patA patB rep ((c :: rest).drop patB.length) := by
  rw [replaceAlt, dif_neg hA, dif_pos hB]

/-- Unfolding of `replaceAlt` at a non-match. -/
theorem replaceAlt_cons_neg (patA patB rep : List Char) (c : Char)
    (rest : List Char) (hA : ¬(patA ≠ [] ∧ beginsWith (c :: rest) patA))
    (hB : ¬(patB ≠ [] ∧ beginsWith (c :: rest) patB)) :
    replaceAlt patA patB rep (c :: rest) =
      c :: replaceAlt patA patB rep rest := by
  rw [replaceAlt, dif_neg hA, dif_neg hB]

/-- `replaceAlt` is the two-pattern instance of `replaceMulti`. -/
theorem replaceAlt_eq_multi (patA patB rep : List Char) (hA : patA ≠ [])
    (hB : patB ≠ []) (s : List Char) :
    replaceAlt patA patB rep s = replaceMulti [patA, patB] rep s := by
  induction s using replaceMulti.induct [patA, patB] rep with
  | case1 => simp [replaceAlt, replaceMulti]
  | case2 c rest pat2 h ih =>
    obtain ⟨hm, hne, hb⟩ := firstPat_some_spec _ _ _ h
    by_cases hba : beginsWith (c :: rest) patA = true
    · have hfp : firstPat [patA, patB] (c :: rest) = some patA := by
        unfold firstPat
        exact List.find?_cons_of_pos _
          (by simp [List.isEmpty_eq_true, hA, hba])
      rw [hfp] at h
      have hpp : pat2 = patA := (Option.some_inj.mp h).symm
      subst hpp
      rw [replaceMulti_cons_match _ _ _ _ _ hfp,
        replaceAlt_cons_posA _ _ _ _ _ ⟨hA, hba⟩, ih]
    · have hpp : pat2 = patB := by
        rcases (by simpa using hm : pat2 = patA ∨ pat2 = patB) with h1 | h1
        · rw [h1] at hb
          exact absurd hb hba
        · exact h1
      subst hpp
      rw [replaceMulti_cons_match _ _ _ _ _ h,
        replaceAlt_cons_posB _ _ _ _ _ (fun hx => hba hx.2) ⟨hB, hb⟩, ih]
  | case3 c rest h ih =>
    have hbA := firstPat_none_spec _ (c :: rest) patA h (by simp) hA
    have hbB := firstPat_none_spec _ (c :: rest) patB h (by simp) hB
    rw [replaceMulti_cons_none _ _ _ _ h,
      replaceAlt_cons_neg _ _ _ _ _ (by simp [hbA]) (by simp [hbB]), ih]

/-- A prefix of a concatenation either stays in the left part or covers
it entirely. -/
theorem prefix_append_cases (q a b : List Char) (h : q <+: a ++ b) :
    q <+: a ∨ ∃ r, q = a ++ r ∧ r <+: b := by
  have hql := List.prefix_iff_eq_take.mp h
  rw [List.take_append_eq_append_take] at hql
  by_cases hle : q.length ≤ a.length
  · left
    rw [show q.length - a.length = 0 from by omega, List.take_zero,
      List.append_nil] at hql
    exact hql ▸ List.take_prefix _ _
  · right
    refine ⟨b.take (q.length - a.length), ?_, List.take_prefix _ _⟩
    rw [List.take_of_length_le (by omega)] at hql
    exact hql

/-- A suffix of a concatenation either stays in the right part or covers
it entirely. -/
theorem suffix_append_cases (v a b : List Char) (h : v <:+ a ++ b) :
    v <:+ b ∨ ∃ v₁, v₁ <:+ a ∧ v₁ ≠ [] ∧ v = v₁ ++ b := by
  have hvl := List.suffix_iff_eq_drop.mp h
  rw [List.drop_append_eq_append_drop, List.length_append] at hvl
  by_cases hge : a.length ≤ a.length + b.length - v.length
  · left
    rw [List.drop_of_length_le hge, List.nil_append] at hvl
    exact hvl ▸ List.drop_suffix _ _
  · right
    have hv : v.length ≤ a.length + b.length := by
      have := h.length_le
      simpa using this
    refine ⟨a.drop (a.length + b.length - v.length), List.drop_suffix _ _,
      ?_, ?_⟩
    · intro he
      have := congrArg List.length he
      simp only [List.length_drop, List.length_nil] at this
      omega
    · rw [show a.length + b.length - v.length - a.length = 0 from by omega,
        List.drop_zero] at hvl
      exact hvl

/-- No pattern of the family occurs anywhere in `s`. -/
def NoOcc (pats : List (List Char)) (s : List Char) : Prop :=
  ∀ pat ∈ pats, ¬(pat <:+: s)

/-- Replacement is the identity when no pattern occurs. -/
theorem replaceMulti_eq_self (pats : List (List Char)) (rep s : List Char)
    (h : NoOcc pats s) : replaceMulti pats rep s = s := by
  induction s using replaceMulti.induct pats rep with
  | case1 => simp [replaceMulti]
  | case2 c rest pat hfp ih =>
    obtain ⟨hm, hne, hb⟩ := firstPat_some_spec _ _ _ hfp
    exact absurd (List.isPrefixOf_iff_prefix.mp hb).isInfix (h pat hm)
  | case3 c rest hfp ih =>
    rw [replaceMulti_cons_none _ _ _ _ hfp, ih]
    intro pat hm hocc
    exact h pat hm (hocc.trans (List.suffix_cons c rest).isInfix)

/-- A prefix of a replacement output that cannot touch a replacement
block is a prefix of the input. -/
theorem replaceMulti_prefix_inv (pats : List (List Char)) (rep : List Char)
    (s : List Char) :
    ∀ q, (∀ j, j < q.length →
        ¬((q.drop j) <+: rep) ∧ ¬(rep <+: (q.drop j))) →
      q <+: replaceMulti pats rep s → q <+: s := by
  induction s using replaceMulti.induct pats rep with
  | case1 =>
    intro q hq h
    rw [show replaceMulti pats rep [] = [] from by simp [replaceMulti]] at h
    exact h
  | case2 c rest pat hfp ih =>
    intro q hq h
    rw [replaceMulti_cons_match _ _ _ _ _ hfp] at h
    cases q with
    | nil => exact List.nil_prefix
    | cons x q' =>
      exfalso
      rcases prefix_append_cases _ rep _ h with hcase | ⟨r, hqr, hrb⟩
      · exact (hq 0 (by simp)).1 (by rw [List.drop_zero]; exact hcase)
      · exact (hq 0 (by simp)).2
          (by rw [List.drop_zero, hqr]; exact List.prefix_append rep r)
  | case3 c rest hfp ih =>
    intro q hq h
    rw [replaceMulti_cons_none _ _ _ _ hfp] at h
    cases q with
    | nil => exact List.nil_prefix
    | cons x q' =>
      obtain ⟨hxc, hq'⟩ := List.cons_prefix_cons.mp h
      subst hxc
      have hq2 : ∀ j, j < q'.length →
          ¬((q'.drop j) <+: rep) ∧ ¬(rep <+: (q'.drop j)) := by
        intro j hj
        have := hq (j + 1) (by simpa using Nat.succ_lt_succ hj)
        rwa [List.drop_succ_cons] at this
      exact List.cons_prefix_cons.mpr ⟨rfl, ih q' hq2 hq'⟩

/-- Output freeness: under the concrete non-interference conditions on
patterns and replacement, no pattern occurs in the replacement output. -/
theorem replaceMulti_noOcc_out (pats : List (List Char)) (rep : List Char)
    (hne : ∀ pat ∈ pats, pat ≠ [])
    (hrepfree : NoOcc pats rep)
    (hsuf : ∀ pat ∈ pats, ∀ i, 0 < i → i < rep.length →
      ¬((rep.drop i) <+: pat))
    (hfull : ∀ pat ∈ pats, ¬(rep <+: pat))
    (hsplice : ∀ pat ∈ pats, ∀ j, 0 < j → j < pat.length →
      ¬((pat.drop j) <+: rep) ∧ ¬(rep <+: (pat.drop j)))
    (s : List Char) : NoOcc pats (replaceMulti pats rep s) := by
  induction s using replaceMulti.induct pats rep with
  | case1 =>
    intro pat hm hocc
    rw [show replaceMulti pats rep [] = [] from by simp [replaceMulti]]
      at hocc
    exact hne pat hm (List.infix_nil.mp hocc)
  | case2 c rest patm hfp ih =>
    intro pat hm hocc
    rw [replaceMulti_cons_match _ _ _ _ _ hfp] at hocc
    obtain ⟨v, hpv, hvs⟩ := List.infix_iff_prefix_suffix.mp hocc
    rcases suffix_append_cases v rep _ hvs with hvb | ⟨v₁, hv₁, hv₁ne, hveq⟩
    · exact ih pat hm (List.infix_iff_prefix_suffix.mpr ⟨v, hpv, hvb⟩)
    · subst hveq
      rcases prefix_append_cases pat v₁ _ hpv with hpc | ⟨r, hpr, hrb⟩
      · exact hrepfree pat hm
          (List.infix_iff_prefix_suffix.mpr ⟨v₁, hpc, hv₁⟩)
      · have hv₁d := List.suffix_iff_eq_drop.mp hv₁
        by_cases hi0 : rep.length - v₁.length = 0
        · have hv₁r : v₁ = rep := by
            rw [hv₁d, hi0, List.drop_zero]
          exact hfull pat hm
            (by rw [hpr, hv₁r]; exact List.prefix_append rep r)
        · have hle := hv₁.length_le
          have hpos : 0 < v₁.length := List.length_pos.mpr hv₁ne
          refine hsuf pat hm (rep.length - v₁.length) (by omega)
            (by omega) ?_
          rw [← hv₁d, hpr]
          exact List.prefix_append v₁ r
  | case3 c rest hfp ih =>
    intro pat hm hocc
    rw [replaceMulti_cons_none _ _ _ _ hfp] at hocc
    obtain ⟨v, hpv, hvs⟩ := List.infix_iff_prefix_suffix.mp hocc
    rcases List.suffix_cons_iff.mp hvs with hveq | hvr
    · subst hveq
      cases pat with
      | nil => exact absurd rfl (hne [] hm)
      | cons x pat' =>
        obtain ⟨hxc, hp'⟩ := List.cons_prefix_cons.mp hpv
        have hq : ∀ j, j < pat'.length →
            ¬((pat'.drop j) <+: rep) ∧ ¬(rep <+: (pat'.drop j)) := by
          intro j hj
          have := hsplice _ hm (j + 1) (by omega)
            (by simpa using Nat.succ_lt_succ hj)
          rwa [List.drop_succ_cons] at this
        have hp2 : pat' <+: rest :=
          replaceMulti_prefix_inv pats rep rest pat' hq hp'
        have hbw : beginsWith (c :: rest) (x :: pat') = true :=
          List.isPrefixOf_iff_prefix.mpr
            (List.cons_prefix_cons.mpr ⟨hxc, hp2⟩)
        have hfalse := firstPat_none_spec pats (c :: rest) (x :: pat') hfp
          hm (by simp)
        rw [hbw] at hfalse
        exact absurd hfalse (by simp)
    · exact ih pat hm (List.infix_iff_prefix_suffix.mpr ⟨v, hpv, hvr⟩)

/-- Under the non-interference conditions, replacement is idempotent. -/
theorem replaceMulti_idem (pats : List (List Char)) (rep : List Char)
    (hne : ∀ pat ∈ pats, pat ≠ [])
    (hrepfree : NoOcc pats rep)
    (hsuf : ∀ pat ∈ pats, ∀ i, 0 < i → i < rep.length →
      ¬((rep.drop i) <+: pat))
    (hfull : ∀ pat ∈ pats, ¬(rep <+: pat))
    (hsplice : ∀ pat ∈ pats, ∀ j, 0 < j → j < pat.length →
      ¬((pat.drop j) <+: rep) ∧ ¬(rep <+: (pat.drop j)))
    (s : List Char) :
    replaceMulti pats rep (replaceMulti pats rep s) =
      replaceMulti pats rep s :=
  replaceMulti_eq_self pats rep _
    (replaceMulti_noOcc_out pats rep hne hrepfree hsuf hfull hsplice s)

/-- Every character of the output comes from the replacement or the
input. -/
theorem replaceMulti_mem (pats : List (List Char)) (rep s : List Char) :
    ∀ c ∈ replaceMulti pats rep s, c ∈ rep ∨ c ∈ s := by
  induction s using replaceMulti.induct pats rep with
  | case1 =>
    intro c hc
    rw [show replaceMulti pats rep [] = [] from by simp [replaceMulti]]
      at hc
    simp at hc
  | case2 a rest pat hfp ih =>
    intro c hc
    rw [replaceMulti_cons_match _ _ _ _ _ hfp] at hc
    rcases List.mem_append.mp hc with hc | hc
    · exact Or.inl hc
    · rcases ih c hc with hc | hc
      · exact Or.inl hc
      · exact Or.inr ((List.drop_suffix _ _).subset hc)
  | case3 a rest hfp ih =>
    intro c hc
    rw [replaceMulti_cons_none _ _ _ _ hfp] at hc
    rcases List.mem_cons.mp hc with hc | hc
    · exact Or.inr (hc ▸ List.mem_cons_self a rest)
    · rcases ih c hc with hc | hc
      · exact Or.inl hc
      · exact Or.inr (List.mem_cons_of_mem a hc)

/-- The output is empty exactly when the input is (nonempty
replacement). -/
theorem replaceMulti_eq_nil_iff (pats : List (List Char)) (rep : List Char)
    (hrepne : rep ≠ []) (s : List Char) :
    replaceMulti pats rep s = [] ↔ s = [] := by
  constructor
  · intro h
    cases s with
    | nil => rfl
    | cons c rest =>
      exfalso
      cases hfp : firstPat pats (c :: rest) with
      | some pat =>
        rw [replaceMulti_cons_match _ _ _ _ _ hfp] at h
        exact hrepne (List.append_eq_nil.mp h).1
      | none =>
        rw [replaceMulti_cons_none _ _ _ _ hfp] at h
        simp at h
  · intro h
    subst h
    simp [replaceMulti]

/-- The head of the output is the head of the input or of the
replacement. -/
theorem replaceMulti_head (pats : List (List Char)) (rep : List Char)
    (hrepne : rep ≠ []) (s : List Char) :
    (replaceMulti pats rep s).head? = s.head? ∨
      (replaceMulti pats rep s).head? = rep.head? := by
  cases s with
  | nil => exact Or.inl (by simp [replaceMulti])
  | cons c rest =>
    cases hfp : firstPat pats (c :: rest) with
    | some pat =>
      rw [replaceMulti_cons_match _ _ _ _ _ hfp]
      exact Or.inr (List.head?_append_of_ne_nil _ hrepne)
    | none =>
      rw [replaceMulti_cons_none _ _ _ _ hfp]
      exact Or.inl rfl

/-- The last element of the output is the last of the input or of the
replacement. -/
theorem replaceMulti_last (pats : List (List Char)) (rep : List Char)
    (hrepne : rep ≠ []) (s : List Char) :
    (replaceMulti pats rep s).getLast? = s.getLast? ∨
      (replaceMulti pats rep s).getLast? = rep.getLast? := by
  induction s using replaceMulti.induct pats rep with
  | case1 => exact Or.inl (by simp [replaceMulti])
  | case2 c rest pat hfp ih =>
    obtain ⟨hm, hpne, hb⟩ := firstPat_some_spec _ _ _ hfp
    rw [replaceMulti_cons_match _ _ _ _ _ hfp]
    by_cases hd : (c :: rest).drop pat.length = []
    · rw [hd, show replaceMulti pats rep [] = [] from by
        simp [replaceMulti], List.append_nil]
      exact Or.inr rfl
    · have hX : replaceMulti pats rep ((c :: rest).drop pat.length) ≠ [] :=
        fun h0 =>
          hd ((replaceMulti_eq_nil_iff pats rep hrepne _).mp h0)
      rw [List.getLast?_append_of_ne_nil _ hX]
      rcases ih with h | h
      · left
        rw [h]
        have hsuffix : (c :: rest).drop pat.length <:+ (c :: rest) :=
          List.drop_suffix _ _
        obtain ⟨t, ht⟩ := hsuffix
        conv_rhs => rw [← ht]
        exact (List.getLast?_append_of_ne_nil t hd).symm
      · exact Or.inr h
  | case3 c rest hfp ih =>
    rw [replaceMulti_cons_none _ _ _ _ hfp]
    by_cases hX : replaceMulti pats rep rest = []
    · have hrest : rest = [] :=
        (replaceMulti_eq_nil_iff pats rep hrepne rest).mp hX
      subst hrest
      rw [hX]
      exact Or.inl rfl
    · rw [show (c :: replaceMulti pats rep rest) =
        [c] ++ replaceMulti pats rep rest from rfl,
        List.getLast?_append_of_ne_nil _ hX]
      have hrest : rest ≠ [] := fun h0 => hX (by rw [h0]; simp [replaceMulti])
      rcases ih with h | h
      · left
        rw [h, show (c :: rest) = [c] ++ rest from rfl,
          List.getLast?_append_of_ne_nil _ hrest]
      · exact Or.inr h

/-- Replacement preserves any adjacency invariant whose relation is
unconditional at the replacement's boundary characters. -/
theorem replaceMulti_chain' (pats : List (List Char)) (rep : List Char)
    (hrepne : rep ≠ []) (R : Char → Char → Prop)
    (hrep : List.Chain' R rep)
    (hleft : ∀ x b, rep.head? = some b → R x b)
    (hright : ∀ a y, rep.getLast? = some a → R a y)
    (s : List Char) (h : List.Chain' R s) :
    List.Chain' R (replaceMulti pats rep s) := by
  induction s using replaceMulti.induct pats rep with
  | case1 => simp [replaceMulti]
  | case2 c rest pat hfp ih =>
    rw [replaceMulti_cons_match _ _ _ _ _ hfp]
    refine List.chain'_append.mpr ⟨hrep, ?_, ?_⟩
    · exact ih (chain'_sub h (List.drop_suffix _ _).isInfix)
    · intro x hx y _
      exact hright x y hx
  | case3 c rest hfp ih =>
    rw [replaceMulti_cons_none _ _ _ _ hfp]
    refine List.chain'_cons'.mpr ⟨?_, ih h.tail⟩
    intro b hb
    rcases replaceMulti_head pats rep hrepne rest with hh | hh
    · rw [hh] at hb
      exact (List.chain'_cons'.mp h).1 b hb
    · rw [hh] at hb
      exact hleft c b hb

/-- Appending a character that ends no pattern slides out of the
replacement: the pattern test is unchanged. -/
theorem beginsWith_snoc (u : List Char) (x : Char) (q : List Char)
    (hne : q ≠ []) (hq : q.getLast? ≠ some x) :
    beginsWith (u ++ [x]) q = beginsWith u q := by
  cases hb : beginsWith u q
  · cases hbx : beginsWith (u ++ [x]) q
    · rfl
    · exfalso
      have hpre := List.isPrefixOf_iff_prefix.mp hbx
      rcases prefix_append_cases q u [x] hpre with hc | ⟨r, hqr, hrx⟩
      · exact absurd (show beginsWith u q = true from
          List.isPrefixOf_iff_prefix.mpr hc) (by simp [hb])
      · cases r with
        | nil =>
          rw [List.append_nil] at hqr
          have hqu : q <+: u := by
            rw [hqr]
          exact absurd (show beginsWith u q = true from
            List.isPrefixOf_iff_prefix.mpr hqu) (by simp [hb])
        | cons y r' =>
          obtain ⟨hy, hr'⟩ := List.cons_prefix_cons.mp hrx
          have hr'nil : r' = [] := List.prefix_nil.mp hr'
          subst hy hr'nil
          exact hq (by rw [hqr, List.getLast?_append_of_ne_nil u
            (by simp)]; rfl)
  · have hpre := List.isPrefixOf_iff_prefix.mp hb
    exact List.isPrefixOf_iff_prefix.mpr (hpre.trans (List.prefix_append u [x]))

/-- `find?` only depends on predicate values on the list. -/
theorem find?_congr_mem (p q : List Char → Bool) (l : List (List Char))
    (h : ∀ a ∈ l, p a = q a) : l.find? p = l.find? q := by
  induction l with
  | nil => rfl
  | cons a t ih =>
    cases hpa : p a with
    | true =>
      rw [List.find?_cons_of_pos _ hpa,
        List.find?_cons_of_pos _ ((h a (by simp)) ▸ hpa)]
    | false =>
      rw [List.find?_cons_of_neg _ (by simp [hpa]),
        List.find?_cons_of_neg _ (by simp [← h a (by simp), hpa])]
      exact ih (fun b hb => h b (List.mem_cons_of_mem a hb))

/-- Appending a character that ends no pattern slides through the
replacement. -/
theorem replaceMulti_append_tail (pats : List (List Char))
    (rep : List Char) (x : Char)
    (hlast : ∀ pat ∈ pats, pat.getLast? ≠ some x) (s : List Char) :
    replaceMulti pats rep (s ++ [x]) = replaceMulti pats rep s ++ [x] := by
  have hfp_eq : ∀ u : List Char,
      firstPat pats (u ++ [x]) = firstPat pats u := by
    intro u
    unfold firstPat
    refine find?_congr_mem _ _ pats (fun pat hm => ?_)
    by_cases hpe : pat.isEmpty = true
    · simp [hpe]
    · have hpne : pat ≠ [] := by simpa [List.isEmpty_eq_true] using hpe
      rw [beginsWith_snoc u x pat hpne (hlast pat hm)]
  induction s using replaceMulti.induct pats rep with
  | case1 =>
    rw [List.nil_append,
      show replaceMulti pats rep [] = [] from by simp [replaceMulti],
      List.nil_append]
    have hnone : firstPat pats [x] = none := by
      rw [show ([x] : List Char) = [] ++ [x] from rfl, hfp_eq []]
      unfold firstPat
      rw [List.find?_eq_none]
      intro pat hm
      simp only [Bool.and_eq_true, Bool.not_eq_true, not_and]
      intro hpe
      cases hbp : beginsWith [] pat
      · rfl
      · have := List.isPrefixOf_iff_prefix.mp hbp
        rw [List.prefix_nil.mp this] at hpe
        simp at hpe
    rw [replaceMulti_cons_none _ _ _ _ hnone]
    rw [show replaceMulti pats rep [] = [] from by simp [replaceMulti]]
  | case2 c rest pat hfp ih =>
    obtain ⟨hm, hpne, hb⟩ := firstPat_some_spec _ _ _ hfp
    have hfp2 : firstPat pats ((c :: rest) ++ [x]) = some pat := by
      rw [hfp_eq (c :: rest)]
      exact hfp
    rw [show (c :: rest) ++ [x] = c :: (rest ++ [x]) from rfl] at hfp2 ⊢
    rw [replaceMulti_cons_match _ _ _ _ _ hfp2,
      replaceMulti_cons_match _ _ _ _ _ hfp]
    have hlen : pat.length ≤ (c :: rest).length :=
      (List.isPrefixOf_iff_prefix.mp hb).length_le
    rw [show (c :: (rest ++ [x])) = (c :: rest) ++ [x] from rfl,
      List.drop_append_of_le_length hlen, ih, List.append_assoc]
  | case3 c rest hfp ih =>
    have hfp2 : firstPat pats ((c :: rest) ++ [x]) = none := by
      rw [hfp_eq (c :: rest)]
      exact hfp
    rw [show (c :: rest) ++ [x] = c :: (rest ++ [x]) from rfl] at hfp2 ⊢
    rw [replaceMulti_cons_none _ _ _ _ hfp2,
      replaceMulti_cons_none _ _ _ _ hfp, ih]
    rfl

/-! ## Idempotence of `processText`: respacing and the fix-up passes -/

/-- `respFire` is false whenever the character is not punctuation. -/
theorem respFire_false_of_not_punct (c : Char) (o : Option Char)
    (h : sentPunct c = false) : respFire c o = false := by
  cases o <;> simp [respFire, h]

/-- The respacing closure passes over a punctuation-free block. -/
theorem respT_block (a : List Char) (ha : ∀ c ∈ a, sentPunct c = false)
    (t : List Char) : respT (a ++ t) = a ++ respT t := by
  induction a with
  | nil => rfl
  | cons c a' ih =>
    rw [List.cons_append, respT_cons,
      if_neg (by simp [respFire_false_of_not_punct c _
        (ha c (by simp))])]
    rw [ih (fun x hx => ha x (List.mem_cons_of_mem c hx))]
    rfl

/-- The respacing closure steps over one punctuation-free character. -/
theorem respT_nonpunct_cons (c : Char) (t : List Char)
    (hc : sentPunct c = false) : respT (c :: t) = c :: respT t := by
  rw [respT_cons, if_neg (by simp [respFire_false_of_not_punct c _ hc])]

/-- The respacing closure passes over punctuation followed by a space. -/
theorem respT_punct_space (c : Char) (t : List Char) :
    respT (c :: ' ' :: t) = c :: ' ' :: respT t := by
  rw [respT_cons,
    if_neg (by simp [respFire, show isJsWs ' ' = true from by decide]),
    respT_nonpunct_cons ' ' t (by decide)]

/-- The respacing closure inserts a space after punctuation followed by a
solid character. -/
theorem respT_punct_solid (c d : Char) (t : List Char)
    (hc : sentPunct c = true) (hex : exclNext d = false)
    (hws : isJsWs d = false) :
    respT (c :: d :: t) = c :: ' ' :: respT (d :: t) := by
  rw [respT_cons, if_pos (by simp [respFire, hc, hex, hws])]

/-- A string beginning with a pattern splits at the pattern. -/
theorem eq_append_drop_of_beginsWith (s pat : List Char)
    (hb : beginsWith s pat = true) :
    s = pat ++ s.drop pat.length := by
  have hp := List.isPrefixOf_iff_prefix.mp hb
  have ht := List.prefix_iff_eq_take.mp hp
  conv_lhs => rw [← List.take_append_drop pat.length s]
  rw [← ht]

/-- The respacing closure erases a deletion pass: replacing
`a ++ ". " ++ b` by `a ++ "." ++ b` is invisible after respacing. -/
theorem respT_del_pass (a b : List Char) (ha : a ≠ []) (hb : b ≠ [])
    (hanp : ∀ c ∈ a, sentPunct c = false)
    (hbnp : ∀ c ∈ b, sentPunct c = false)
    (hbh : ∀ d, b.head? = some d → exclNext d = false ∧ isJsWs d = false)
    (s : List Char) :
    respT (replaceMulti [a ++ '.' :: ' ' :: b] (a ++ '.' :: b) s) =
      respT s := by
  induction s using replaceMulti.induct [a ++ '.' :: ' ' :: b]
      (a ++ '.' :: b) with
  | case1 => rw [show replaceMulti _ _ [] = [] from by simp [replaceMulti]]
  | case2 c rest pat hfp ih =>
    obtain ⟨hm, hpne, hbw⟩ := firstPat_some_spec _ _ _ hfp
    have hpp : pat = a ++ '.' :: ' ' :: b := by simpa using hm
    subst hpp
    obtain ⟨d, b', hbd⟩ : ∃ d b', b = d :: b' := by
      cases b with
      | nil => exact absurd rfl hb
      | cons d b' => exact ⟨d, b', rfl⟩
    subst hbd
    have hdh := hbh d rfl
    have hdnp : sentPunct d = false := hbnp d (by simp)
    have hb'np : ∀ x ∈ b', sentPunct x = false :=
      fun x hx => hbnp x (List.mem_cons_of_mem d hx)
    rw [replaceMulti_cons_match _ _ _ _ _ hfp]
    conv_rhs => rw [eq_append_drop_of_beginsWith _ _ hbw]
    simp only [List.append_assoc, List.cons_append]
    rw [respT_block a hanp, respT_block a hanp,
      respT_punct_solid '.' d _ (by decide) hdh.1 hdh.2,
      respT_punct_space,
      respT_nonpunct_cons d _ hdnp, respT_nonpunct_cons d _ hdnp,
      respT_block b' hb'np, respT_block b' hb'np, ih]
  | case3 c rest hfp ih =>
    rw [replaceMulti_cons_none _ _ _ _ hfp]
    have hhead : (replaceMulti [a ++ '.' :: ' ' :: b] (a ++ '.' :: b)
        rest).head? = rest.head? := by
      cases rest with
      | nil => rw [show replaceMulti _ _ [] = [] from by simp [replaceMulti]]
      | cons d r =>
        cases hfp2 : firstPat [a ++ '.' :: ' ' :: b] (d :: r) with
        | some pat2 =>
          obtain ⟨hm2, hpne2, hbw2⟩ := firstPat_some_spec _ _ _ hfp2
          have hpp2 : pat2 = a ++ '.' :: ' ' :: b := by simpa using hm2
          subst hpp2
          rw [replaceMulti_cons_match _ _ _ _ _ hfp2,
            List.head?_append_of_ne_nil _ (by simp [ha])]
          have hd : (a ++ '.' :: ' ' :: b).head? = some d := by
            have hpre := List.isPrefixOf_iff_prefix.mp hbw2
            cases a with
            | nil => exact absurd rfl ha
            | cons x a' =>
              obtain ⟨hxd, _⟩ := List.cons_prefix_cons.mp hpre
              simpa using hxd
          rw [show (a ++ '.' :: b).head? = (a ++ '.' :: ' ' :: b).head?
            from by
              cases a with
              | nil => exact absurd rfl ha
              | cons x a' => rfl, hd]
          rfl
        | none =>
          rw [replaceMulti_cons_none _ _ _ _ hfp2]
          rfl
    rw [respT_cons, respT_cons, hhead, ih]

/-- A firing respace implies punctuation. -/
theorem sentPunct_of_respFire (c : Char) (o : Option Char)
    (h : respFire c o = true) : sentPunct c = true := by
  cases o with
  | none => simpa [respFire] using h
  | some y =>
    have h2 := h
    simp only [respFire, Bool.and_eq_true] at h2
    exact h2.1.1

/-- A punctuation-free block at the front of a respaced string comes
from the same block at the front of the source. -/
theorem respT_prefix_block_inv (a : List Char)
    (ha : ∀ c ∈ a, sentPunct c = false) :
    ∀ u X, (a ++ X) <+: respT u →
      ∃ u', u = a ++ u' ∧ X <+: respT u' := by
  induction a with
  | nil =>
    intro u X h
    exact ⟨u, rfl, by simpa using h⟩
  | cons c a' ih =>
    intro u X h
    cases u with
    | nil =>
      rw [show respT [] = [] from rfl] at h
      exact absurd (List.prefix_nil.mp h) (by simp)
    | cons d u₂ =>
      rw [respT_cons] at h
      by_cases hf : respFire d u₂.head? = true
      · rw [if_pos hf] at h
        obtain ⟨hcd, htail⟩ := List.cons_prefix_cons.mp (by simpa using h)
        have hdp : sentPunct d = true := sentPunct_of_respFire d _ hf
        rw [← hcd] at hdp
        exact absurd hdp (by simp [ha c (by simp)])
      · rw [if_neg hf] at h
        obtain ⟨hcd, htail⟩ := List.cons_prefix_cons.mp (by simpa using h)
        obtain ⟨u', hu', hX⟩ :=
          ih (fun x hx => ha x (List.mem_cons_of_mem c hx)) u₂ X htail
        refine ⟨u', ?_, hX⟩
        rw [hcd, hu']
        rfl

/-- A spaced-variant occurrence at the front of a respaced string comes
from a spaced or tight occurrence at the front of the source. -/
theorem respT_rw_invA (a b : List Char) (hb : b ≠ [])
    (hanp : ∀ c ∈ a, sentPunct c = false)
    (hbnp : ∀ c ∈ b, sentPunct c = false)
    (hbh : ∀ d, b.head? = some d → exclNext d = false ∧ isJsWs d = false)
    (u : List Char) (h : (a ++ '.' :: ' ' :: b) <+: respT u) :
    (a ++ '.' :: ' ' :: b) <+: u ∨ (a ++ '.' :: b) <+: u := by
  obtain ⟨u', hu', hX⟩ := respT_prefix_block_inv a hanp u _ h
  cases u' with
  | nil =>
    rw [show respT [] = [] from rfl] at hX
    exact absurd (List.prefix_nil.mp hX) (by simp)
  | cons e u₂ =>
    rw [respT_cons] at hX
    by_cases hf : respFire e u₂.head? = true
    · rw [if_pos hf] at hX
      obtain ⟨hde, htail⟩ := List.cons_prefix_cons.mp hX
      obtain ⟨hsp, htail2⟩ := List.cons_prefix_cons.mp htail
      obtain ⟨u₃, hu₃, _⟩ := respT_prefix_block_inv b hbnp u₂ [] (by
        simpa using htail2)
      right
      rw [hu', hu₃, ← hde]
      exact ⟨u₃, by simp⟩
    · rw [if_neg hf] at hX
      obtain ⟨hde, htail⟩ := List.cons_prefix_cons.mp hX
      cases u₂ with
      | nil =>
        rw [show respT [] = [] from rfl] at htail
        exact absurd (List.prefix_nil.mp htail) (by simp)
      | cons e₂ u₃ =>
        rw [respT_cons] at htail
        by_cases hf2 : respFire e₂ u₃.head? = true
        · rw [if_pos hf2] at htail
          obtain ⟨hsp, _⟩ := List.cons_prefix_cons.mp htail
          have he₂p : sentPunct e₂ = true := sentPunct_of_respFire e₂ _ hf2
          rw [← hsp] at he₂p
          exact absurd he₂p (by decide)
        · rw [if_neg hf2] at htail
          obtain ⟨hsp, htail2⟩ := List.cons_prefix_cons.mp htail
          obtain ⟨u₄, hu₄, _⟩ := respT_prefix_block_inv b hbnp u₃ []
            (by simpa using htail2)
          left
          rw [hu', ← hde, ← hsp, hu₄]
          exact ⟨u₄, by simp⟩

/-- A tight-variant occurrence can never start a respaced string: the
respacing would have inserted the missing space. -/
theorem respT_rw_invB (a b : List Char) (hb : b ≠ [])
    (hanp : ∀ c ∈ a, sentPunct c = false)
    (hbnp : ∀ c ∈ b, sentPunct c = false)
    (hbh : ∀ d, b.head? = some d → exclNext d = false ∧ isJsWs d = false)
    (u : List Char) (h : (a ++ '.' :: b) <+: respT u) : False := by
  obtain ⟨u', hu', hX⟩ := respT_prefix_block_inv a hanp u _ h
  obtain ⟨d, b', hbd⟩ : ∃ d b', b = d :: b' := by
    cases b with
    | nil => exact absurd rfl hb
    | cons d b' => exact ⟨d, b', rfl⟩
  have hdh := hbh d (by rw [hbd]; rfl)
  cases u' with
  | nil =>
    rw [show respT [] = [] from rfl] at hX
    exact absurd (List.prefix_nil.mp hX) (by simp)
  | cons e u₂ =>
    rw [respT_cons] at hX
    by_cases hf : respFire e u₂.head? = true
    · rw [if_pos hf] at hX
      obtain ⟨hde, htail⟩ := List.cons_prefix_cons.mp hX
      rw [hbd] at htail
      obtain ⟨hdsp, _⟩ := List.cons_prefix_cons.mp htail
      rw [hdsp] at hdh
      exact absurd hdh.2 (by decide)
    · rw [if_neg hf] at hX
      obtain ⟨hde, htail⟩ := List.cons_prefix_cons.mp hX
      obtain ⟨u₃, hu₃, _⟩ := respT_prefix_block_inv b hbnp u₂ []
        (by simpa using htail)
      have hhead : u₂.head? = some d := by
        simp [hu₃, hbd]
      have : respFire e u₂.head? = true := by
        rw [hhead, ← hde]
        simp [respFire, hdh.1, hdh.2, show sentPunct '.' = true from by
          decide]
      exact absurd this hf

/-- When every pattern and the replacement share their first character,
replacement preserves the head. -/
theorem replaceMulti_head_eq (pats : List (List Char)) (rep : List Char)
    (hrepne : rep ≠ [])
    (hheads : ∀ pat ∈ pats, pat.head? = rep.head?) (u : List Char) :
    (replaceMulti pats rep u).head? = u.head? := by
  cases u with
  | nil => simp [replaceMulti]
  | cons c rest =>
    cases hfp : firstPat pats (c :: rest) with
    | some pat =>
      obtain ⟨hm, hpne, hbw⟩ := firstPat_some_spec _ _ _ hfp
      rw [replaceMulti_cons_match _ _ _ _ _ hfp,
        List.head?_append_of_ne_nil _ hrepne, ← hheads pat hm]
      have hpre := List.isPrefixOf_iff_prefix.mp hbw
      cases pat with
      | nil => exact absurd rfl hpne
      | cons x p' =>
        obtain ⟨hx, _⟩ := List.cons_prefix_cons.mp hpre
        simp [hx]
    | none =>
      rw [replaceMulti_cons_none _ _ _ _ hfp]
      rfl

/-- The match unfolding of `replaceMulti`, for any nonempty input. -/
theorem replaceMulti_match (pats : List (List Char)) (rep s pat : List Char)
    (hs : s ≠ []) (h : firstPat pats s = some pat) :
    replaceMulti pats rep s =
      rep ++ replaceMulti pats rep (s.drop pat.length) := by
  cases s with
  | nil => exact absurd rfl hs
  | cons c rest => exact replaceMulti_cons_match _ _ _ _ _ h

/-- The respacing closure commutes with a rewrite pass
(`Type\. ?Script`-style): both pattern variants collapse to the spaced
one under respacing, and the replacement is respacing-inert. -/
theorem respT_rw_pass (a b : List Char) (ha : a ≠ []) (hb : b ≠ [])
    (hanp : ∀ c ∈ a, sentPunct c = false)
    (hbnp : ∀ c ∈ b, sentPunct c = false)
    (hbh : ∀ d, b.head? = some d → exclNext d = false ∧ isJsWs d = false)
    (hah : ∀ x, a.head? = some x → isJsWs x = false)
    (s : List Char) :
    respT (replaceMulti [a ++ '.' :: ' ' :: b, a ++ '.' :: b] (a ++ b) s) =
      replaceMulti [a ++ '.' :: ' ' :: b, a ++ '.' :: b] (a ++ b)
        (respT s) := by
  obtain ⟨d, b', hbd⟩ : ∃ d b', b = d :: b' := by
    cases b with
    | nil => exact absurd rfl hb
    | cons d b' => exact ⟨d, b', rfl⟩
  have hdh := hbh d (by rw [hbd]; rfl)
  have hdnp : sentPunct d = false := hbnp d (by rw [hbd]; simp)
  have hb'np : ∀ x ∈ b', sentPunct x = false :=
    fun x hx => hbnp x (by rw [hbd]; exact List.mem_cons_of_mem d hx)
  have h0 : replaceMulti [a ++ '.' :: ' ' :: b, a ++ '.' :: b] (a ++ b)
      ([] : List Char) = [] := by simp [replaceMulti]
  induction s using replaceMulti.induct
      [a ++ '.' :: ' ' :: b, a ++ '.' :: b] (a ++ b) with
  | case1 =>
    rw [h0, show respT ([] : List Char) = [] from rfl, h0]
  | case2 c rest pat2 hfp ih =>
    obtain ⟨hm, hpne, hbw⟩ := firstPat_some_spec _ _ _ hfp
    rw [replaceMulti_cons_match _ _ _ _ _ hfp]
    -- the respaced source starts with the spaced variant in either case
    have hrespts : respT (c :: rest) =
        (a ++ '.' :: ' ' :: b) ++
          respT ((c :: rest).drop pat2.length) := by
      rcases (by simpa using hm :
          pat2 = a ++ '.' :: ' ' :: b ∨ pat2 = a ++ '.' :: b) with hpp | hpp
      · subst hpp
        conv_lhs => rw [eq_append_drop_of_beginsWith _ _ hbw]
        rw [hbd]
        simp only [List.append_assoc, List.cons_append]
        rw [respT_block a hanp, respT_punct_space,
          respT_nonpunct_cons d _ hdnp, respT_block b' hb'np]
      · subst hpp
        conv_lhs => rw [eq_append_drop_of_beginsWith _ _ hbw]
        rw [hbd]
        simp only [List.append_assoc, List.cons_append]
        rw [respT_block a hanp,
          respT_punct_solid '.' d _ (by decide) hdh.1 hdh.2,
          respT_nonpunct_cons d _ hdnp, respT_block b' hb'np]
    rw [hrespts]
    have hfpA : firstPat [a ++ '.' :: ' ' :: b, a ++ '.' :: b]
        ((a ++ '.' :: ' ' :: b) ++ respT ((c :: rest).drop pat2.length)) =
          some (a ++ '.' :: ' ' :: b) := by
      unfold firstPat
      refine List.find?_cons_of_pos _ ?_
      simp only [Bool.and_eq_true]
      constructor
      · simp [List.isEmpty_eq_true, ha]
      · exact List.isPrefixOf_iff_prefix.mpr (List.prefix_append _ _)
    rw [replaceMulti_match _ _ _ _ (by simp [ha]) hfpA, List.drop_left]
    -- collapse the left side through the replacement block
    rw [show ((a ++ b) ++ replaceMulti [a ++ '.' :: ' ' :: b, a ++ '.' :: b]
        (a ++ b) ((c :: rest).drop pat2.length)) =
      a ++ (b ++ replaceMulti [a ++ '.' :: ' ' :: b, a ++ '.' :: b]
        (a ++ b) ((c :: rest).drop pat2.length)) from by
          simp [List.append_assoc]]
    rw [respT_block a hanp, respT_block b hbnp, ih]
    simp [List.append_assoc]
  | case3 c rest hfp ih =>
    have hheads : ∀ pat ∈ [a ++ '.' :: ' ' :: b, a ++ '.' :: b],
        pat.head? = (a ++ b).head? := by
      intro pat hm
      rcases (by simpa using hm :
          pat = a ++ '.' :: ' ' :: b ∨ pat = a ++ '.' :: b) with hpp | hpp
        <;> rw [hpp] <;>
        · cases a with
          | nil => exact absurd rfl ha
          | cons x a' => rfl
    have hrepne : a ++ b ≠ [] := by simp [ha]
    rw [replaceMulti_cons_none _ _ _ _ hfp, respT_cons, respT_cons,
      replaceMulti_head_eq _ _ hrepne hheads rest]
    -- neither pattern can match anywhere at the head of the respaced tail
    have hnoneR : ∀ Z, respT (c :: rest) = Z →
        firstPat [a ++ '.' :: ' ' :: b, a ++ '.' :: b] Z = none := by
      intro Z hZ
      subst hZ
      unfold firstPat
      rw [List.find?_eq_none]
      intro pat hm
      simp only [Bool.and_eq_true, Bool.not_eq_true, not_and]
      intro _
      cases hbp : beginsWith (respT (c :: rest)) pat
      · rfl
      · exfalso
        have hpre := List.isPrefixOf_iff_prefix.mp hbp
        rcases (by simpa using hm :
            pat = a ++ '.' :: ' ' :: b ∨ pat = a ++ '.' :: b) with hpp | hpp
        · subst hpp
          rcases respT_rw_invA a b hb hanp hbnp hbh (c :: rest) hpre with
            hA | hB
          · have hthis := firstPat_none_spec _ (c :: rest)
              (a ++ '.' :: ' ' :: b) hfp (by simp) (by simp [ha])
            exact absurd (show beginsWith (c :: rest)
                (a ++ '.' :: ' ' :: b) = true from
              List.isPrefixOf_iff_prefix.mpr hA) (by simp [hthis])
          · have hthis := firstPat_none_spec _ (c :: rest)
              (a ++ '.' :: b) hfp (by simp) (by simp [ha])
            exact absurd (show beginsWith (c :: rest)
                (a ++ '.' :: b) = true from
              List.isPrefixOf_iff_prefix.mpr hB) (by simp [hthis])
        · subst hpp
          exact respT_rw_invB a b hb hanp hbnp hbh (c :: rest) hpre
    have hnoneSp : ∀ X, firstPat [a ++ '.' :: ' ' :: b, a ++ '.' :: b]
        (' ' :: X) = none := by
      intro X
      unfold firstPat
      rw [List.find?_eq_none]
      intro pat hm
      simp only [Bool.and_eq_true, Bool.not_eq_true, not_and]
      intro _
      cases hbp : beginsWith (' ' :: X) pat
      · rfl
      · exfalso
        have hpre := List.isPrefixOf_iff_prefix.mp hbp
        have hxa : ∃ x a', a = x :: a' := by
          cases a with
          | nil => exact absurd rfl ha
          | cons x a' => exact ⟨x, a', rfl⟩
        obtain ⟨x, a', hxa⟩ := hxa
        have hxw := hah x (by rw [hxa]; rfl)
        rcases (by simpa using hm :
            pat = a ++ '.' :: ' ' :: b ∨ pat = a ++ '.' :: b) with hpp | hpp
          <;> subst hpp <;> rw [hxa] at hpre <;>
          · obtain ⟨hx, _⟩ := List.cons_prefix_cons.mp hpre
            rw [hx] at hxw
            exact absurd hxw (by decide)
    by_cases hfire : respFire c rest.head? = true
    · rw [if_pos hfire, if_pos hfire]
      have h1 := hnoneR (c :: ' ' :: respT rest)
        (by rw [respT_cons, if_pos hfire])
      rw [replaceMulti_cons_none _ _ _ _ h1,
        replaceMulti_cons_none _ _ _ _ (hnoneSp (respT rest)), ih]
    · rw [if_neg hfire, if_neg hfire]
      have h1 := hnoneR (c :: respT rest)
        (by rw [respT_cons, if_neg hfire])
      rw [replaceMulti_cons_none _ _ _ _ h1, ih]

/-- Digits are not sentence punctuation. -/
theorem sentPunct_eq_false_of_isDigit (c : Char) (h : c.isDigit = true) :
    sentPunct c = false := by
  cases hs : sentPunct c
  · rfl
  · have h3 : (c = '.' ∨ c = '!') ∨ c = '?' := by
      simpa [sentPunct, Bool.or_eq_true] using hs
    rcases h3 with (h3 | h3) | h3 <;> subst h3 <;>
      exact absurd h (by decide)

/-- Digits are not excluded lookahead characters. -/
theorem exclNext_eq_false_of_isDigit (c : Char) (h : c.isDigit = true) :
    exclNext c = false := by
  cases hs : exclNext c
  · rfl
  · have h3 : (c = '"' ∨ c = apos) ∨ c = '.' := by
      simpa [exclNext, Bool.or_eq_true] using hs
    rcases h3 with (h3 | h3) | h3 <;> subst h3 <;>
      exact absurd h (by decide)

/-- Digits are not whitespace. -/
theorem isJsWs_eq_false_of_isDigit (c : Char) (h : c.isDigit = true) :
    isJsWs c = false := by
  cases hs : isJsWs c
  · rfl
  · have h3 : (((((((c = ' ' ∨ c = '\t') ∨ c = '\n') ∨ c = '\x0b') ∨
        c = '\x0c') ∨ c = '\r') ∨ c = '\u00A0') ∨ c = '\uFEFF') := by
      simpa [isJsWs, Bool.or_eq_true] using hs
    rcases h3 with (((((((h3 | h3) | h3) | h3) | h3) | h3) | h3) | h3) <;>
      subst h3 <;> exact absurd h (by decide)

/-- First digit run of the version-pattern attempt at the head of `s`. -/
def vfsD1 (s : List Char) : List Char := s.takeWhile Char.isDigit

/-- Rest after the first digit run. -/
def vfsR1 (s : List Char) : List Char := s.drop (vfsD1 s).length

/-- Second digit run. -/
def vfsD2 (s : List Char) : List Char :=
  ((vfsR1 s).drop 2).takeWhile Char.isDigit

/-- Rest after the second digit run. -/
def vfsR2 (s : List Char) : List Char :=
  ((vfsR1 s).drop 2).drop (vfsD2 s).length

/-- Third digit run. -/
def vfsD3 (s : List Char) : List Char :=
  ((vfsR2 s).drop 2).takeWhile Char.isDigit

/-- Continuation after a successful version match. -/
def vfsCont (s : List Char) : List Char :=
  ((vfsR2 s).drop 2).drop (vfsD3 s).length

/-- Full guard of the version-pattern match. -/
def vfsGuard (s : List Char) : Bool :=
  beginsWith (vfsR1 s) ['.', ' '] && !decide (vfsD2 s = []) &&
    beginsWith (vfsR2 s) ['.', ' '] && !decide (vfsD3 s = [])

/-- Unfolding of `versionFixScan` through the named projections. -/
theorem versionFixScan_cons (c : Char) (rest : List Char) :
    versionFixScan (c :: rest) =
      if c.isDigit then
        (if vfsGuard (c :: rest) = true then
          vfsD1 (c :: rest) ++ '.' :: (vfsD2 (c :: rest) ++ '.' ::
            (vfsD3 (c :: rest) ++ versionFixScan (vfsCont (c :: rest))))
        else c :: versionFixScan rest)
      else c :: versionFixScan rest := by
  rw [versionFixScan]
  rfl

/-- The version scanner preserves the head character. -/
theorem versionFixScan_head (u : List Char) :
    (versionFixScan u).head? = u.head? := by
  cases u with
  | nil => rw [versionFixScan]
  | cons c rest =>
    rw [versionFixScan]
    by_cases hd : c.isDigit = true
    · rw [if_pos hd]
      dsimp only
      split
      · rw [List.takeWhile_cons_of_pos hd,
          List.head?_append_of_ne_nil _ (by simp)]
        rfl
      · rfl
    · rw [if_neg hd]
      rfl

/-- The respacing closure erases the version-number contraction: the
deleted spaces sit after dots that are respaced anyway. -/
theorem respT_versionFix (s : List Char) :
    respT (versionFixScan s) = respT s := by
  suffices H : ∀ n (s : List Char), s.length = n →
      respT (versionFixScan s) = respT s from H s.length s rfl
  intro n
  induction n using Nat.strong_induction_on with
  | _ n ihn =>
    intro s hn
    cases s with
    | nil => rw [versionFixScan]
    | cons c rest =>
      by_cases hd : c.isDigit = true
      · rw [versionFixScan_cons, if_pos hd]
        by_cases hg : vfsGuard (c :: rest) = true
        · rw [if_pos hg]
          have hgs := hg
          simp only [vfsGuard, Bool.and_eq_true] at hgs
          obtain ⟨⟨⟨hr1, hd2⟩, hr2⟩, hd3⟩ := hgs
          have hd2ne : vfsD2 (c :: rest) ≠ [] := by simpa using hd2
          have hd3ne : vfsD3 (c :: rest) ≠ [] := by simpa using hd3
          have hsplit1 : (c :: rest) =
              vfsD1 (c :: rest) ++ vfsR1 (c :: rest) :=
            eq_append_drop_of_beginsWith (c :: rest) (vfsD1 (c :: rest))
              (List.isPrefixOf_iff_prefix.mpr (List.takeWhile_prefix _))
          have hsplit2 : vfsR1 (c :: rest) =
              '.' :: ' ' :: ((vfsR1 (c :: rest)).drop 2) := by
            have h2 := eq_append_drop_of_beginsWith _ _ hr1
            simpa using h2
          have hsplit3 : (vfsR1 (c :: rest)).drop 2 =
              vfsD2 (c :: rest) ++ vfsR2 (c :: rest) :=
            eq_append_drop_of_beginsWith _ (vfsD2 (c :: rest))
              (List.isPrefixOf_iff_prefix.mpr (List.takeWhile_prefix _))
          have hsplit4 : vfsR2 (c :: rest) =
              '.' :: ' ' :: ((vfsR2 (c :: rest)).drop 2) := by
            have h2 := eq_append_drop_of_beginsWith _ _ hr2
            simpa using h2
          have hsplit5 : (vfsR2 (c :: rest)).drop 2 =
              vfsD3 (c :: rest) ++ vfsCont (c :: rest) :=
            eq_append_drop_of_beginsWith _ (vfsD3 (c :: rest))
              (List.isPrefixOf_iff_prefix.mpr (List.takeWhile_prefix _))
          have hnp1 : ∀ x ∈ vfsD1 (c :: rest), sentPunct x = false :=
            fun x hx =>
              sentPunct_eq_false_of_isDigit x (List.mem_takeWhile_imp hx)
          have hnp2 : ∀ x ∈ vfsD2 (c :: rest), sentPunct x = false :=
            fun x hx =>
              sentPunct_eq_false_of_isDigit x (List.mem_takeWhile_imp hx)
          have hnp3 : ∀ x ∈ vfsD3 (c :: rest), sentPunct x = false :=
            fun x hx =>
              sentPunct_eq_false_of_isDigit x (List.mem_takeWhile_imp hx)
          obtain ⟨e2, d2', he2⟩ : ∃ e2 d2',
              vfsD2 (c :: rest) = e2 :: d2' := by
            cases hv : vfsD2 (c :: rest) with
            | nil => exact absurd hv hd2ne
            | cons e2 d2' => exact ⟨e2, d2', rfl⟩
          obtain ⟨e3, d3', he3⟩ : ∃ e3 d3',
              vfsD3 (c :: rest) = e3 :: d3' := by
            cases hv : vfsD3 (c :: rest) with
            | nil => exact absurd hv hd3ne
            | cons e3 d3' => exact ⟨e3, d3', rfl⟩
          have he2dig : e2.isDigit = true :=
            List.mem_takeWhile_imp (he2 ▸ List.mem_cons_self e2 d2')
          have he3dig : e3.isDigit = true :=
            List.mem_takeWhile_imp (he3 ▸ List.mem_cons_self e3 d3')
          have hlen : (vfsCont (c :: rest)).length < n := by
            have h1 := congrArg List.length hsplit1
            have h2 := congrArg List.length hsplit2
            have h3 := congrArg List.length hsplit3
            have h4 := congrArg List.length hsplit4
            have h5 := congrArg List.length hsplit5
            simp only [List.length_append, List.length_cons] at h1 h2 h3 h4 h5
            simp only [List.length_cons] at hn
            omega
          have hih := ihn (vfsCont (c :: rest)).length hlen
            (vfsCont (c :: rest)) rfl
          rw [respT_block _ hnp1, he2, List.cons_append,
            respT_punct_solid '.' e2 _ (by decide)
              (exclNext_eq_false_of_isDigit e2 he2dig)
              (isJsWs_eq_false_of_isDigit e2 he2dig),
            respT_nonpunct_cons e2 _
              (sentPunct_eq_false_of_isDigit e2 he2dig),
            respT_block d2' (fun x hx =>
              hnp2 x (he2 ▸ List.mem_cons_of_mem e2 hx)),
            he3, List.cons_append,
            respT_punct_solid '.' e3 _ (by decide)
              (exclNext_eq_false_of_isDigit e3 he3dig)
              (isJsWs_eq_false_of_isDigit e3 he3dig),
            respT_nonpunct_cons e3 _
              (sentPunct_eq_false_of_isDigit e3 he3dig),
            respT_block d3' (fun x hx =>
              hnp3 x (he3 ▸ List.mem_cons_of_mem e3 hx)),
            hih]
          conv_rhs => rw [hsplit1, hsplit2, hsplit3, hsplit4, hsplit5]
          rw [respT_block _ hnp1, respT_punct_space, respT_block _ hnp2,
            respT_punct_space, respT_block _ hnp3]
          rw [he2, he3]
          simp [List.append_assoc]
        · rw [if_neg hg]
          have hih := ihn rest.length (by simp [← hn]) rest rfl
          rw [respT_cons, respT_cons, versionFixScan_head, hih]
      · rw [versionFixScan_cons, if_neg hd]
        have hih := ihn rest.length (by simp [← hn]) rest rfl
        rw [respT_cons, respT_cons, versionFixScan_head, hih]

/-! ## Idempotence of `processText`: commuting the term-fix passes -/

/-- When every pattern starts with the marker letter `α`, no match fires
at a character other than `α`. -/
theorem firstPat_none_of_head_ne (P : List (List Char)) (α : Char)
    (hPhead : ∀ pat ∈ P, pat.head? = some α)
    (c : Char) (hc : c ≠ α) (t : List Char) :
    firstPat P (c :: t) = none := by
  unfold firstPat
  apply List.find?_eq_none.mpr
  intro pat hm
  cases pat with
  | nil => simp
  | cons x pt =>
    have hx : x = α := by simpa using hPhead _ hm
    intro hcontra
    have hb : beginsWith (c :: t) (x :: pt) = true :=
      ((Bool.and_eq_true _ _).mp hcontra).2
    have hcx : x = c := (List.cons_prefix_cons.mp
      (List.isPrefixOf_iff_prefix.mp hb)).1
    exact hc (hcx ▸ hx)

/-- A replacement pass whose patterns all start with `β` slides over any
block free of `β`. -/
theorem replaceMulti_skip_block (Q : List (List Char)) (q : List Char)
    (β : Char) (hQhead : ∀ pat ∈ Q, pat.head? = some β)
    (a : List Char) (ha : ∀ c ∈ a, c ≠ β) (t : List Char) :
    replaceMulti Q q (a ++ t) = a ++ replaceMulti Q q t := by
  induction a with
  | nil => rfl
  | cons c a' ih =>
    rw [List.cons_append,
      replaceMulti_cons_none Q q c (a' ++ t)
        (firstPat_none_of_head_ne Q β hQhead c (ha c (by simp)) _),
      ih (fun x hx => ha x (List.mem_cons_of_mem c hx)), List.cons_append]

/-- A replacement pass whose patterns and replacement all start with `β`
preserves the maximal `β`-free prefix. -/
theorem takeWhile_ne_replaceMulti (Q : List (List Char)) (q : List Char)
    (β : Char) (hQhead : ∀ pat ∈ Q, pat.head? = some β)
    (hqhead : q.head? = some β) (t : List Char) :
    (replaceMulti Q q t).takeWhile (fun c => c != β) =
      t.takeWhile (fun c => c != β) := by
  induction t using replaceMulti.induct Q q with
  | case1 => rw [show replaceMulti Q q [] = [] from by simp [replaceMulti]]
  | case2 c rest pat hfp ih =>
    obtain ⟨hm, hne, hb⟩ := firstPat_some_spec _ _ _ hfp
    obtain ⟨x, pt, hpat⟩ : ∃ x pt, pat = x :: pt := by
      cases pat with
      | nil => exact absurd rfl hne
      | cons x pt => exact ⟨x, pt, rfl⟩
    have hx : x = β := by
      have hh := hQhead _ hm
      rw [hpat] at hh
      simpa using hh
    have hcβ : c = β := by
      rw [hpat, hx] at hb
      exact (List.cons_prefix_cons.mp
        (List.isPrefixOf_iff_prefix.mp hb)).1.symm
    obtain ⟨y, qt, hq⟩ : ∃ y qt, q = y :: qt := by
      cases q with
      | nil => simp at hqhead
      | cons y qt => exact ⟨y, qt, rfl⟩
    have hy : y = β := by
      rw [hq] at hqhead
      simpa using hqhead
    rw [replaceMulti_cons_match _ _ _ _ _ hfp, hq, hy, hcβ,
      List.cons_append, List.takeWhile_cons_of_neg (by simp),
      List.takeWhile_cons_of_neg (by simp)]
  | case3 c rest hfp ih =>
    rw [replaceMulti_cons_none _ _ _ _ hfp]
    by_cases hc : c = β
    · subst hc
      rw [List.takeWhile_cons_of_neg (by simp),
        List.takeWhile_cons_of_neg (by simp)]
    · rw [List.takeWhile_cons_of_pos (by simpa using hc),
        List.takeWhile_cons_of_pos (by simpa using hc), ih]

/-- A `β`-free prefix of a string is a prefix of its `β`-free prefix. -/
theorem prefix_takeWhile_of_free (β : Char) :
    ∀ (u : List Char), (∀ c ∈ u, c ≠ β) → ∀ v, u <+: v →
      u <+: v.takeWhile (fun c => c != β) := by
  intro u
  induction u with
  | nil =>
    intro _ v _
    exact List.nil_prefix
  | cons x u' ih =>
    intro hu v h
    cases v with
    | nil => exact absurd h (by simp)
    | cons y v' =>
      obtain ⟨hxy, h'⟩ := List.cons_prefix_cons.mp h
      subst hxy
      rw [List.takeWhile_cons_of_pos (by simpa using hu x (by simp))]
      exact List.cons_prefix_cons.mpr
        ⟨rfl, ih (fun c hc => hu c (List.mem_cons_of_mem x hc)) v' h'⟩

/-- Two strings with the same `β`-free prefix have the same `β`-free
prefixes. -/
theorem prefix_free_iff (β : Char) (u : List Char)
    (hu : ∀ c ∈ u, c ≠ β) (v v' : List Char)
    (hvv : v.takeWhile (fun c => c != β) =
      v'.takeWhile (fun c => c != β)) :
    (u <+: v ↔ u <+: v') := by
  constructor
  · intro h
    have h1 := prefix_takeWhile_of_free β u hu v h
    rw [hvv] at h1
    exact h1.trans (List.takeWhile_prefix _)
  · intro h
    have h1 := prefix_takeWhile_of_free β u hu v' h
    rw [← hvv] at h1
    exact h1.trans (List.takeWhile_prefix _)

/-- Pattern search only depends on the `β`-free prefix when every
pattern is `β`-free. -/
theorem firstPat_congr_free (P : List (List Char)) (β : Char)
    (hPfree : ∀ pat ∈ P, ∀ c ∈ pat, c ≠ β) (v v' : List Char)
    (hvv : v.takeWhile (fun c => c != β) =
      v'.takeWhile (fun c => c != β)) :
    firstPat P v = firstPat P v' := by
  unfold firstPat
  apply find?_congr_mem
  intro pat hm
  have hiff := prefix_free_iff β pat (hPfree pat hm) v v' hvv
  have hbeq : beginsWith v pat = beginsWith v' pat := by
    by_cases hb : beginsWith v pat = true
    · have hb' : beginsWith v' pat = true :=
        List.isPrefixOf_iff_prefix.mpr
          (hiff.mp (List.isPrefixOf_iff_prefix.mp hb))
      rw [hb, hb']
    · have hb' : ¬beginsWith v' pat = true := fun hc =>
        hb (List.isPrefixOf_iff_prefix.mpr
          (hiff.mpr (List.isPrefixOf_iff_prefix.mp hc)))
      rw [Bool.not_eq_true] at hb hb'
      rw [hb, hb']
  rw [hbeq]

/-- One step of the commutation argument, at the marker letter of the
first pass. -/
theorem replaceMulti_comm_step (P Q : List (List Char)) (p q : List Char)
    (α β : Char) (hab : α ≠ β)
    (hPfree : ∀ pat ∈ P, ∀ c ∈ pat, c ≠ β)
    (hpfree : ∀ c ∈ p, c ≠ β)
    (hQhead : ∀ pat ∈ Q, pat.head? = some β)
    (hqhead : q.head? = some β)
    (rest : List Char)
    (ih : ∀ t : List Char, t.length ≤ rest.length →
      replaceMulti P p (replaceMulti Q q t) =
        replaceMulti Q q (replaceMulti P p t)) :
    replaceMulti P p (replaceMulti Q q (α :: rest)) =
      replaceMulti Q q (replaceMulti P p (α :: rest)) := by
  have hQα : firstPat Q (α :: rest) = none :=
    firstPat_none_of_head_ne Q β hQhead α hab rest
  rw [replaceMulti_cons_none _ _ _ _ hQα]
  have hbfp : (α :: replaceMulti Q q rest).takeWhile (fun c => c != β) =
      (α :: rest).takeWhile (fun c => c != β) := by
    rw [List.takeWhile_cons_of_pos (by simpa using hab),
      List.takeWhile_cons_of_pos (by simpa using hab),
      takeWhile_ne_replaceMulti Q q β hQhead hqhead rest]
  have hfpc : firstPat P (α :: replaceMulti Q q rest) =
      firstPat P (α :: rest) :=
    firstPat_congr_free P β hPfree _ _ hbfp
  cases hfp : firstPat P (α :: rest) with
  | none =>
    rw [replaceMulti_cons_none _ _ _ _ (hfpc.trans hfp),
      replaceMulti_cons_none _ _ _ _ hfp,
      replaceMulti_cons_none _ _ _ _
        (firstPat_none_of_head_ne Q β hQhead α hab _),
      ih rest (le_refl _)]
  | some pat =>
    obtain ⟨hm, hne, hb⟩ := firstPat_some_spec _ _ _ hfp
    have hsplit := eq_append_drop_of_beginsWith (α :: rest) pat hb
    have hskip : α :: replaceMulti Q q rest =
        pat ++ replaceMulti Q q ((α :: rest).drop pat.length) := by
      rw [← replaceMulti_cons_none _ _ _ _ hQα]
      conv_lhs => rw [hsplit]
      exact replaceMulti_skip_block Q q β hQhead pat (hPfree pat hm) _
    rw [replaceMulti_cons_match _ _ _ _ _ (hfpc.trans hfp)]
    have hdropL : (α :: replaceMulti Q q rest).drop pat.length =
        replaceMulti Q q ((α :: rest).drop pat.length) := by
      rw [hskip, List.drop_left]
    rw [hdropL, replaceMulti_cons_match _ _ _ _ _ hfp,
      replaceMulti_skip_block Q q β hQhead p hpfree _,
      ih _ (by
        have hplen := List.length_pos.mpr hne
        simp only [List.length_drop, List.length_cons]
        omega)]

/-- Two literal-replacement passes with distinct marker letters commute:
every pattern and replacement of each pass starts with its own marker
and avoids the other pass's marker. -/
theorem replaceMulti_comm (P Q : List (List Char)) (p q : List Char)
    (α β : Char) (hab : α ≠ β)
    (hPhead : ∀ pat ∈ P, pat.head? = some α)
    (hPfree : ∀ pat ∈ P, ∀ c ∈ pat, c ≠ β)
    (hphead : p.head? = some α)
    (hpfree : ∀ c ∈ p, c ≠ β)
    (hQhead : ∀ pat ∈ Q, pat.head? = some β)
    (hQfree : ∀ pat ∈ Q, ∀ c ∈ pat, c ≠ α)
    (hqhead : q.head? = some β)
    (hqfree : ∀ c ∈ q, c ≠ α)
    (s : List Char) :
    replaceMulti P p (replaceMulti Q q s) =
      replaceMulti Q q (replaceMulti P p s) := by
  suffices H : ∀ n (s : List Char), s.length = n →
      replaceMulti P p (replaceMulti Q q s) =
        replaceMulti Q q (replaceMulti P p s) from H s.length s rfl
  intro n
  induction n using Nat.strong_induction_on with
  | _ n ihn =>
    intro s hn
    cases s with
    | nil => simp [replaceMulti]
    | cons c rest =>
      have ihrest : ∀ t : List Char, t.length ≤ rest.length →
          replaceMulti P p (replaceMulti Q q t) =
            replaceMulti Q q (replaceMulti P p t) := by
        intro t ht
        refine ihn t.length ?_ t rfl
        simp only [List.length_cons] at hn
        omega
      by_cases hcα : c = α
      · rw [hcα]
        exact replaceMulti_comm_step P Q p q α β hab hPfree hpfree
          hQhead hqhead rest ihrest
      · by_cases hcβ : c = β
        · rw [hcβ]
          exact (replaceMulti_comm_step Q P q p β α (Ne.symm hab) hQfree
            hqfree hPhead hphead rest
            (fun t ht => (ihrest t ht).symm)).symm
        · rw [replaceMulti_cons_none _ _ _ _
              (firstPat_none_of_head_ne Q β hQhead c hcβ rest),
            replaceMulti_cons_none _ _ _ _
              (firstPat_none_of_head_ne P α hPhead c hcα rest),
            replaceMulti_cons_none _ _ _ _
              (firstPat_none_of_head_ne P α hPhead c hcα _),
            replaceMulti_cons_none _ _ _ _
              (firstPat_none_of_head_ne Q β hQhead c hcβ _),
            ihrest rest (le_refl _)]

/-! ## Idempotence of `processText`: the six term-fix passes, named -/

/-- `'Next. js' → 'Next.js'` as a multi-pattern replacement. -/
def rmNext (s : List Char) : List Char :=
  replaceMulti ["Next. js".data] "Next.js".data s

/-- `'Node. js' → 'Node.js'` as a multi-pattern replacement. -/
def rmNode (s : List Char) : List Char :=
  replaceMulti ["Node. js".data] "Node.js".data s

/-- `Type\. ?Script → TypeScript` as a multi-pattern replacement. -/
def rmType (s : List Char) : List Char :=
  replaceMulti ["Type. Script".data, "Type.Script".data]
    "TypeScript".data s

/-- `Java\. ?Script → JavaScript` as a multi-pattern replacement. -/
def rmJava (s : List Char) : List Char :=
  replaceMulti ["Java. Script".data, "Java.Script".data]
    "JavaScript".data s

/-- `React\. ?js → React.js`: since the spaced variant is replaced by the
solid one and the solid variant maps to itself, the pass is the
single-pattern deletion `'React. js' → 'React.js'`. -/
def rmReact (s : List Char) : List Char :=
  replaceMulti ["React. js".data] "React.js".data s

/-- `Vue\. ?js → Vue.js`, similarly a single-pattern deletion. -/
def rmVue (s : List Char) : List Char :=
  replaceMulti ["Vue. js".data] "Vue.js".data s

/-- `techTermFixes` as the composition of the named passes. -/
theorem techTermFixes_eq (s : List Char) :
    techTermFixes s =
      versionFixScan (rmVue (rmReact (rmJava (rmType (rmNode
        (rmNext s)))))) := by
  unfold techTermFixes rmNext rmNode rmType rmJava rmReact rmVue
  rw [replaceAll_eq_multi _ _ (by decide),
    replaceAll_eq_multi _ _ (by decide),
    replaceAlt_eq_multi _ _ _ (by decide) (by decide),
    replaceAlt_eq_multi _ _ _ (by decide) (by decide),
    replaceAll_eq_multi _ _ (by decide),
    replaceAll_eq_multi _ _ (by decide)]

/-- The `Next` and `Type` passes commute (markers `N` and `T`). -/
theorem rm_comm_next_type (v : List Char) :
    rmNext (rmType v) = rmType (rmNext v) :=
  replaceMulti_comm _ _ _ _ 'N' 'T' (by decide) (by decide) (by decide)
    (by decide) (by decide) (by decide) (by decide) (by decide)
    (by decide) v

/-- The `Next` and `Java` passes commute (markers `N` and `J`). -/
theorem rm_comm_next_java (v : List Char) :
    rmNext (rmJava v) = rmJava (rmNext v) :=
  replaceMulti_comm _ _ _ _ 'N' 'J' (by decide) (by decide) (by decide)
    (by decide) (by decide) (by decide) (by decide) (by decide)
    (by decide) v

/-- The `Node` and `Type` passes commute (markers `N` and `T`). -/
theorem rm_comm_node_type (v : List Char) :
    rmNode (rmType v) = rmType (rmNode v) :=
  replaceMulti_comm _ _ _ _ 'N' 'T' (by decide) (by decide) (by decide)
    (by decide) (by decide) (by decide) (by decide) (by decide)
    (by decide) v

/-- The `Node` and `Java` passes commute (markers `N` and `J`). -/
theorem rm_comm_node_java (v : List Char) :
    rmNode (rmJava v) = rmJava (rmNode v) :=
  replaceMulti_comm _ _ _ _ 'N' 'J' (by decide) (by decide) (by decide)
    (by decide) (by decide) (by decide) (by decide) (by decide)
    (by decide) v

/-- The `Type` and `Java` passes commute (markers `T` and `J`). -/
theorem rm_comm_type_java (v : List Char) :
    rmType (rmJava v) = rmJava (rmType v) :=
  replaceMulti_comm _ _ _ _ 'T' 'J' (by decide) (by decide) (by decide)
    (by decide) (by decide) (by decide) (by decide) (by decide)
    (by decide) v

/-- The `Type` pass is idempotent. -/
theorem rmType_idem (v : List Char) : rmType (rmType v) = rmType v := by
  refine replaceMulti_idem _ _ (by decide)
    (by intro pat hm; fin_cases hm <;> decide) ?_ (by decide) ?_ v
  · intro pat hm i h0 hl
    have e : "TypeScript".data.length = 10 := by decide
    rw [e] at hl
    interval_cases i <;> fin_cases hm <;> decide
  · intro pat hm j h0 hl
    fin_cases hm
    · have e : ("Type. Script".data : List Char).length = 12 := by decide
      rw [e] at hl
      interval_cases j <;> decide
    · have e : ("Type.Script".data : List Char).length = 11 := by decide
      rw [e] at hl
      interval_cases j <;> decide

/-- The `Java` pass is idempotent. -/
theorem rmJava_idem (v : List Char) : rmJava (rmJava v) = rmJava v := by
  refine replaceMulti_idem _ _ (by decide)
    (by intro pat hm; fin_cases hm <;> decide) ?_ (by decide) ?_ v
  · intro pat hm i h0 hl
    have e : "JavaScript".data.length = 10 := by decide
    rw [e] at hl
    interval_cases i <;> fin_cases hm <;> decide
  · intro pat hm j h0 hl
    fin_cases hm
    · have e : ("Java. Script".data : List Char).length = 12 := by decide
      rw [e] at hl
      interval_cases j <;> decide
    · have e : ("Java.Script".data : List Char).length = 11 := by decide
      rw [e] at hl
      interval_cases j <;> decide

/-- Re-running the first four passes after `Type`/`Java` replacements is
absorbed. -/
theorem techCore_absorb (w : List Char) :
    rmJava (rmType (rmNode (rmNext (rmJava (rmType w))))) =
      rmJava (rmType (rmNode (rmNext w))) := by
  rw [rm_comm_next_java (rmType w), rm_comm_next_type w,
    rm_comm_node_java (rmType (rmNext w)), rm_comm_node_type (rmNext w),
    rm_comm_type_java (rmType (rmNode (rmNext w))),
    rmType_idem (rmNode (rmNext w)), rmJava_idem]

/-- `techTermFixes` absorbs a preceding `Type`/`Java` rewrite. -/
theorem techTermFixes_absorb (w : List Char) :
    techTermFixes (rmJava (rmType w)) = techTermFixes w := by
  rw [techTermFixes_eq, techTermFixes_eq, techCore_absorb]

/-! ## Idempotence of `processText`: the term-fix passes under respacing -/

/-- The `Next` pass is invisible to the respacing closure. -/
theorem respT_rmNext (s : List Char) : respT (rmNext s) = respT s := by
  have e1 : ("Next. js".data : List Char) =
      "Next".data ++ '.' :: ' ' :: "js".data := by decide
  have e2 : ("Next.js".data : List Char) =
      "Next".data ++ '.' :: "js".data := by decide
  unfold rmNext
  rw [e1, e2]
  refine respT_del_pass "Next".data "js".data (by decide) (by decide)
    (by decide) (by decide) ?_ s
  intro d hd
  have hd2 : some 'j' = some d := hd
  have hdj : d = 'j' := (Option.some.inj hd2).symm
  subst hdj
  exact ⟨by decide, by decide⟩

/-- The `Node` pass is invisible to the respacing closure. -/
theorem respT_rmNode (s : List Char) : respT (rmNode s) = respT s := by
  have e1 : ("Node. js".data : List Char) =
      "Node".data ++ '.' :: ' ' :: "js".data := by decide
  have e2 : ("Node.js".data : List Char) =
      "Node".data ++ '.' :: "js".data := by decide
  unfold rmNode
  rw [e1, e2]
  refine respT_del_pass "Node".data "js".data (by decide) (by decide)
    (by decide) (by decide) ?_ s
  intro d hd
  have hd2 : some 'j' = some d := hd
  have hdj : d = 'j' := (Option.some.inj hd2).symm
  subst hdj
  exact ⟨by decide, by decide⟩

/-- The `React` pass is invisible to the respacing closure. -/
theorem respT_rmReact (s : List Char) : respT (rmReact s) = respT s := by
  have e1 : ("React. js".data : List Char) =
      "React".data ++ '.' :: ' ' :: "js".data := by decide
  have e2 : ("React.js".data : List Char) =
      "React".data ++ '.' :: "js".data := by decide
  unfold rmReact
  rw [e1, e2]
  refine respT_del_pass "React".data "js".data (by decide) (by decide)
    (by decide) (by decide) ?_ s
  intro d hd
  have hd2 : some 'j' = some d := hd
  have hdj : d = 'j' := (Option.some.inj hd2).symm
  subst hdj
  exact ⟨by decide, by decide⟩

/-- The `Vue` pass is invisible to the respacing closure. -/
theorem respT_rmVue (s : List Char) : respT (rmVue s) = respT s := by
  have e1 : ("Vue. js".data : List Char) =
      "Vue".data ++ '.' :: ' ' :: "js".data := by decide
  have e2 : ("Vue.js".data : List Char) =
      "Vue".data ++ '.' :: "js".data := by decide
  unfold rmVue
  rw [e1, e2]
  refine respT_del_pass "Vue".data "js".data (by decide) (by decide)
    (by decide) (by decide) ?_ s
  intro d hd
  have hd2 : some 'j' = some d := hd
  have hdj : d = 'j' := (Option.some.inj hd2).symm
  subst hdj
  exact ⟨by decide, by decide⟩

/-- The `Type` pass commutes with the respacing closure. -/
theorem respT_rmType (s : List Char) :
    respT (rmType s) = rmType (respT s) := by
  have e1 : ("Type. Script".data : List Char) =
      "Type".data ++ '.' :: ' ' :: "Script".data := by decide
  have e2 : ("Type.Script".data : List Char) =
      "Type".data ++ '.' :: "Script".data := by decide
  have e3 : ("TypeScript".data : List Char) =
      "Type".data ++ "Script".data := by decide
  unfold rmType
  rw [e1, e2, e3]
  refine respT_rw_pass "Type".data "Script".data (by decide) (by decide)
    (by decide) (by decide) ?_ ?_ s
  · intro d hd
    have hd2 : some 'S' = some d := hd
    have hdS : d = 'S' := (Option.some.inj hd2).symm
    subst hdS
    exact ⟨by decide, by decide⟩
  · intro x hx
    have hx2 : some 'T' = some x := hx
    have hxT : x = 'T' := (Option.some.inj hx2).symm
    subst hxT
    decide

/-- The `Java` pass commutes with the respacing closure. -/
theorem respT_rmJava (s : List Char) :
    respT (rmJava s) = rmJava (respT s) := by
  have e1 : ("Java. Script".data : List Char) =
      "Java".data ++ '.' :: ' ' :: "Script".data := by decide
  have e2 : ("Java.Script".data : List Char) =
      "Java".data ++ '.' :: "Script".data := by decide
  have e3 : ("JavaScript".data : List Char) =
      "Java".data ++ "Script".data := by decide
  unfold rmJava
  rw [e1, e2, e3]
  refine respT_rw_pass "Java".data "Script".data (by decide) (by decide)
    (by decide) (by decide) ?_ ?_ s
  · intro d hd
    have hd2 : some 'S' = some d := hd
    have hdS : d = 'S' := (Option.some.inj hd2).symm
    subst hdS
    exact ⟨by decide, by decide⟩
  · intro x hx
    have hx2 : some 'J' = some x := hx
    have hxJ : x = 'J' := (Option.some.inj hx2).symm
    subst hxJ
    decide

/-- Respacing the output of the full term-fix chain equals rerunning the
two rewrite passes on the respaced input. -/
theorem respT_techTermFixes (w : List Char) :
    respT (techTermFixes w) = rmJava (rmType (respT w)) := by
  rw [techTermFixes_eq, respT_versionFix, respT_rmVue, respT_rmReact,
    respT_rmJava, respT_rmType, respT_rmNode, respT_rmNext]

/-! ## Idempotence of `processText`: whitespace discipline of the
pipeline stages -/

/-- Weakening of an adjacency invariant that may use membership of both
characters. -/
theorem chain'_imp_mem {R S : Char → Char → Prop} (l : List Char)
    (h : ∀ a b, a ∈ l → b ∈ l → R a b → S a b)
    (hc : List.Chain' R l) : List.Chain' S l := by
  induction l with
  | nil => exact List.chain'_nil
  | cons a t ih =>
    cases t with
    | nil => simp
    | cons b t' =>
      rw [List.chain'_cons] at hc ⊢
      refine ⟨h a b (by simp) (by simp) hc.1, ?_⟩
      exact ih (fun x y hx hy =>
        h x y (List.mem_cons_of_mem a hx) (List.mem_cons_of_mem a hy))
        hc.2

/-- The generic collapse preserves any adjacency invariant that is
unconditional against a space. -/
theorem gCollapse_chain' (p : Char → Bool) (R : Char → Char → Prop)
    (h1 : ∀ a, R a ' ') (h2 : ∀ b, R ' ' b)
    (v : List Char) (hv : List.Chain' R v) :
    List.Chain' R (gCollapse p v) := by
  induction v with
  | nil => simp [gCollapse]
  | cons c rest ih =>
    cases rest with
    | nil =>
      rw [gCollapse_cons₁]
      by_cases hc : p c = true <;> simp [hc]
    | cons d t =>
      rw [gCollapse_cons₂]
      by_cases hc : p c = true
      · by_cases hd : p d = true
        · rw [if_pos hc, if_pos hd]
          exact ih hv.tail
        · rw [if_pos hc, if_neg hd]
          exact List.chain'_cons'.mpr ⟨fun b _ => h2 b, ih hv.tail⟩
      · rw [if_neg hc]
        refine List.chain'_cons'.mpr ⟨fun b hb => ?_, ih hv.tail⟩
        rw [gCollapse_head] at hb
        by_cases hd : p d = true
        · rw [if_pos hd] at hb
          have hbs : b = ' ' := (Option.some_inj.mp hb).symm
          subst hbs
          exact h1 c
        · rw [if_neg hd] at hb
          have hbd : b = d := (Option.some_inj.mp hb).symm
          subst hbd
          exact (List.chain'_cons.mp hv).1

/-- Every output character of the collapse is a space or an
out-of-class input character. -/
theorem gCollapse_mem (p : Char → Bool) (v : List Char) :
    ∀ c ∈ gCollapse p v, c = ' ' ∨ (c ∈ v ∧ p c = false) := by
  induction v with
  | nil => simp [gCollapse]
  | cons a rest ih =>
    cases rest with
    | nil =>
      rw [gCollapse_cons₁]
      by_cases ha : p a = true
      · intro c hc
        rw [if_pos ha] at hc
        simp only [List.mem_singleton] at hc
        exact Or.inl hc
      · intro c hc
        rw [if_neg ha] at hc
        simp only [List.mem_singleton] at hc
        subst hc
        exact Or.inr ⟨by simp, by simpa using ha⟩
    | cons d t =>
      rw [gCollapse_cons₂]
      by_cases ha : p a = true
      · by_cases hd : p d = true
        · rw [if_pos ha, if_pos hd]
          intro c hc
          rcases ih c hc with h | ⟨hm, hp⟩
          · exact Or.inl h
          · exact Or.inr ⟨List.mem_cons_of_mem a hm, hp⟩
        · rw [if_pos ha, if_neg hd]
          intro c hc
          rcases List.mem_cons.mp hc with h | h
          · exact Or.inl h
          · rcases ih c h with h2 | ⟨hm, hp⟩
            · exact Or.inl h2
            · exact Or.inr ⟨List.mem_cons_of_mem a hm, hp⟩
      · rw [if_neg ha]
        intro c hc
        rcases List.mem_cons.mp hc with h | h
        · subst h
          exact Or.inr ⟨by simp, by simpa using ha⟩
        · rcases ih c h with h2 | ⟨hm, hp⟩
          · exact Or.inl h2
          · exact Or.inr ⟨List.mem_cons_of_mem a hm, hp⟩

/-- The sentence-spacing pass keeps the first character in place. -/
theorem sentenceSpace_head (v : List Char) :
    (sentenceSpace v).head? = v.head? := by
  cases v with
  | nil => rfl
  | cons c rest =>
    rw [sentenceSpace_cons]
    by_cases h : sentFire c rest.head? = true
    · rw [if_pos h]
      rfl
    · rw [if_neg h]
      rfl

/-- Every sentence-spaced string is sentence-disciplined: punctuation is
followed by an excluded character or a space. -/
theorem sentenceSpace_sentOk (v : List Char) :
    SentOk (sentenceSpace v) := by
  induction v with
  | nil => simp [sentenceSpace, SentOk]
  | cons c rest ih =>
    rw [sentenceSpace_cons]
    by_cases hf : sentFire c rest.head? = true
    · rw [if_pos hf]
      refine List.chain'_cons'.mpr ⟨fun b hb _ => ?_,
        List.chain'_cons'.mpr ⟨fun b hb hp => ?_, ih⟩⟩
      · have hbs : b = ' ' := by simpa using hb.symm
        exact Or.inr hbs
      · exact absurd hp (by simp [sentPunct])
    · rw [if_neg hf]
      refine List.chain'_cons'.mpr ⟨fun b hb hp => ?_, ih⟩
      cases rest with
      | nil => simp [sentenceSpace] at hb
      | cons d t =>
        rw [sentenceSpace_head] at hb
        have hbd : b = d := by simpa using hb.symm
        subst hbd
        have hex : exclNext b = true := by
          by_cases he : exclNext b = true
          · exact he
          · exact absurd (by simp [sentFire, hp, he]) hf
        exact Or.inl hex

/-- Every output character of sentence spacing is an input character or
a space. -/
theorem sentenceSpace_mem (v : List Char) :
    ∀ c ∈ sentenceSpace v, c ∈ v ∨ c = ' ' := by
  induction v with
  | nil => simp [sentenceSpace]
  | cons a rest ih =>
    rw [sentenceSpace_cons]
    by_cases hf : sentFire a rest.head? = true
    · rw [if_pos hf]
      intro c hc
      rcases List.mem_cons.mp hc with h | h
      · exact Or.inl (h ▸ List.mem_cons_self a rest)
      · rcases List.mem_cons.mp h with h2 | h2
        · exact Or.inr h2
        · rcases ih c h2 with h3 | h3
          · exact Or.inl (List.mem_cons_of_mem a h3)
          · exact Or.inr h3
    · rw [if_neg hf]
      intro c hc
      rcases List.mem_cons.mp hc with h | h
      · exact Or.inl (h ▸ List.mem_cons_self a rest)
      · rcases ih c h with h3 | h3
        · exact Or.inl (List.mem_cons_of_mem a h3)
        · exact Or.inr h3

/-- When the version-fix guard holds, the input splits into the three
digit runs with their dot–space separators. -/
theorem vfs_splits (c : Char) (rest : List Char)
    (hg : vfsGuard (c :: rest) = true) :
    (c :: rest) = vfsD1 (c :: rest) ++ '.' :: ' ' ::
      (vfsD2 (c :: rest) ++ '.' :: ' ' ::
        (vfsD3 (c :: rest) ++ vfsCont (c :: rest))) ∧
    vfsD2 (c :: rest) ≠ [] ∧ vfsD3 (c :: rest) ≠ [] := by
  have hgs := hg
  simp only [vfsGuard, Bool.and_eq_true] at hgs
  obtain ⟨⟨⟨hr1, hd2⟩, hr2⟩, hd3⟩ := hgs
  have hd2ne : vfsD2 (c :: rest) ≠ [] := by simpa using hd2
  have hd3ne : vfsD3 (c :: rest) ≠ [] := by simpa using hd3
  have hsplit1 : (c :: rest) =
      vfsD1 (c :: rest) ++ vfsR1 (c :: rest) :=
    eq_append_drop_of_beginsWith (c :: rest) (vfsD1 (c :: rest))
      (List.isPrefixOf_iff_prefix.mpr (List.takeWhile_prefix _))
  have hsplit2 : vfsR1 (c :: rest) =
      '.' :: ' ' :: ((vfsR1 (c :: rest)).drop 2) := by
    have h2 := eq_append_drop_of_beginsWith _ _ hr1
    simpa using h2
  have hsplit3 : (vfsR1 (c :: rest)).drop 2 =
      vfsD2 (c :: rest) ++ vfsR2 (c :: rest) :=
    eq_append_drop_of_beginsWith _ (vfsD2 (c :: rest))
      (List.isPrefixOf_iff_prefix.mpr (List.takeWhile_prefix _))
  have hsplit4 : vfsR2 (c :: rest) =
      '.' :: ' ' :: ((vfsR2 (c :: rest)).drop 2) := by
    have h2 := eq_append_drop_of_beginsWith _ _ hr2
    simpa using h2
  have hsplit5 : (vfsR2 (c :: rest)).drop 2 =
      vfsD3 (c :: rest) ++ vfsCont (c :: rest) :=
    eq_append_drop_of_beginsWith _ (vfsD3 (c :: rest))
      (List.isPrefixOf_iff_prefix.mpr (List.takeWhile_prefix _))
  refine ⟨?_, hd2ne, hd3ne⟩
  conv_lhs => rw [hsplit1, hsplit2, hsplit3, hsplit4, hsplit5]

/-- The continuation of a fired version-fix step is strictly shorter
than the input. -/
theorem vfsCont_length_lt (c : Char) (rest : List Char)
    (hg : vfsGuard (c :: rest) = true) :
    (vfsCont (c :: rest)).length < (c :: rest).length := by
  obtain ⟨hsp, hd2ne, hd3ne⟩ := vfs_splits c rest hg
  have hL := congrArg List.length hsp
  simp only [List.length_append, List.length_cons] at hL ⊢
  omega

/-- Every output character of the version fix is an input character or
a dot. -/
theorem versionFixScan_mem (s : List Char) :
    ∀ c ∈ versionFixScan s, c ∈ s ∨ c = '.' := by
  suffices H : ∀ n (s : List Char), s.length = n →
      ∀ c ∈ versionFixScan s, c ∈ s ∨ c = '.' from H s.length s rfl
  intro n
  induction n using Nat.strong_induction_on with
  | _ n ihn =>
    intro s hn x hx
    cases s with
    | nil =>
      rw [versionFixScan] at hx
      simp at hx
    | cons c rest =>
      by_cases hd : c.isDigit = true
      · rw [versionFixScan_cons, if_pos hd] at hx
        by_cases hg : vfsGuard (c :: rest) = true
        · rw [if_pos hg] at hx
          obtain ⟨hsp, hd2ne, hd3ne⟩ := vfs_splits c rest hg
          have hih := ihn (vfsCont (c :: rest)).length
            (hn ▸ vfsCont_length_lt c rest hg) (vfsCont (c :: rest)) rfl
          simp only [List.mem_append, List.mem_cons] at hx
          rcases hx with h1 | h2 | h3 | h4 | h5 | h6
          · exact Or.inl ((List.takeWhile_prefix _).subset h1)
          · exact Or.inr h2
          · refine Or.inl ?_
            have : x ∈ (vfsR1 (c :: rest)).drop 2 :=
              (List.takeWhile_prefix _).subset h3
            have : x ∈ vfsR1 (c :: rest) := List.drop_subset _ _ this
            exact List.drop_subset _ _ this
          · exact Or.inr h4
          · refine Or.inl ?_
            have : x ∈ (vfsR2 (c :: rest)).drop 2 :=
              (List.takeWhile_prefix _).subset h5
            have : x ∈ vfsR2 (c :: rest) := List.drop_subset _ _ this
            have : x ∈ (vfsR1 (c :: rest)).drop 2 :=
              List.drop_subset _ _ this
            have : x ∈ vfsR1 (c :: rest) := List.drop_subset _ _ this
            exact List.drop_subset _ _ this
          · rcases hih x h6 with h | h
            · refine Or.inl ?_
              have : x ∈ (vfsR2 (c :: rest)).drop 2 :=
                List.drop_subset _ _ h
              have : x ∈ vfsR2 (c :: rest) := List.drop_subset _ _ this
              have : x ∈ (vfsR1 (c :: rest)).drop 2 :=
                List.drop_subset _ _ this
              have : x ∈ vfsR1 (c :: rest) := List.drop_subset _ _ this
              exact List.drop_subset _ _ this
            · exact Or.inr h
        · rw [if_neg hg] at hx
          rcases List.mem_cons.mp hx with h | h
          · exact Or.inl (h ▸ List.mem_cons_self c rest)
          · rcases ihn rest.length (by simp [← hn]) rest rfl x h with h2 | h2
            · exact Or.inl (List.mem_cons_of_mem c h2)
            · exact Or.inr h2
      · rw [versionFixScan_cons, if_neg hd] at hx
        rcases List.mem_cons.mp hx with h | h
        · exact Or.inl (h ▸ List.mem_cons_self c rest)
        · rcases ihn rest.length (by simp [← hn]) rest rfl x h with h2 | h2
          · exact Or.inl (List.mem_cons_of_mem c h2)
          · exact Or.inr h2

/-- The version fix preserves any adjacency invariant that holds
unconditionally between a dot and a digit. -/
theorem versionFixScan_chain' (R : Char → Char → Prop)
    (hdig : ∀ b, b.isDigit = true → R '.' b)
    (s : List Char) (hs : List.Chain' R s) :
    List.Chain' R (versionFixScan s) := by
  suffices H : ∀ n (s : List Char), s.length = n → List.Chain' R s →
      List.Chain' R (versionFixScan s) from H s.length s rfl hs
  intro n
  induction n using Nat.strong_induction_on with
  | _ n ihn =>
    intro s hn hs
    cases s with
    | nil =>
      rw [versionFixScan]
      exact List.chain'_nil
    | cons c rest =>
      by_cases hd : c.isDigit = true
      · rw [versionFixScan_cons, if_pos hd]
        by_cases hg : vfsGuard (c :: rest) = true
        · rw [if_pos hg]
          obtain ⟨hsp, hd2ne, hd3ne⟩ := vfs_splits c rest hg
          obtain ⟨e2, d2', he2⟩ : ∃ e2 d2',
              vfsD2 (c :: rest) = e2 :: d2' := by
            cases hv : vfsD2 (c :: rest) with
            | nil => exact absurd hv hd2ne
            | cons e2 d2' => exact ⟨e2, d2', rfl⟩
          obtain ⟨e3, d3', he3⟩ : ∃ e3 d3',
              vfsD3 (c :: rest) = e3 :: d3' := by
            cases hv : vfsD3 (c :: rest) with
            | nil => exact absurd hv hd3ne
            | cons e3 d3' => exact ⟨e3, d3', rfl⟩
          have he2dig : e2.isDigit = true :=
            List.mem_takeWhile_imp (he2 ▸ List.mem_cons_self e2 d2')
          have he3dig : e3.isDigit = true :=
            List.mem_takeWhile_imp (he3 ▸ List.mem_cons_self e3 d3')
          have hsC : List.Chain' R (vfsD1 (c :: rest) ++ '.' :: ' ' ::
              (vfsD2 (c :: rest) ++ '.' :: ' ' ::
                (vfsD3 (c :: rest) ++ vfsCont (c :: rest)))) := hsp ▸ hs
          obtain ⟨hch1, hch2, hbd1⟩ := List.chain'_append.mp hsC
          have hch3 : List.Chain' R (vfsD2 (c :: rest) ++ '.' :: ' ' ::
              (vfsD3 (c :: rest) ++ vfsCont (c :: rest))) :=
            hch2.tail.tail
          obtain ⟨hchD2, hch4, hbd2⟩ := List.chain'_append.mp hch3
          have hch5 : List.Chain' R (vfsD3 (c :: rest) ++
              vfsCont (c :: rest)) := hch4.tail.tail
          obtain ⟨hchD3, hchCont, hbd3⟩ := List.chain'_append.mp hch5
          have hih := ihn (vfsCont (c :: rest)).length
            (hn ▸ vfsCont_length_lt c rest hg) (vfsCont (c :: rest)) rfl
            hchCont
          refine List.chain'_append.mpr ⟨hch1, ?_, ?_⟩
          · refine List.chain'_cons'.mpr ⟨?_, ?_⟩
            · intro b hb
              rw [he2, List.cons_append] at hb
              have hbe : b = e2 := by simpa using hb.symm
              subst hbe
              exact hdig b he2dig
            · refine List.chain'_append.mpr ⟨hchD2, ?_, ?_⟩
              · refine List.chain'_cons'.mpr ⟨?_, ?_⟩
                · intro b hb
                  rw [he3, List.cons_append] at hb
                  have hbe : b = e3 := by simpa using hb.symm
                  subst hbe
                  exact hdig b he3dig
                · refine List.chain'_append.mpr ⟨hchD3, hih, ?_⟩
                  intro a ha y hy
                  rw [versionFixScan_head] at hy
                  exact hbd3 a ha y hy
              · intro a ha y hy
                have hye : y = '.' := by simpa using hy.symm
                subst hye
                exact hbd2 a ha '.' rfl
          · intro a ha y hy
            have hye : y = '.' := by simpa using hy.symm
            subst hye
            exact hbd1 a ha '.' rfl
        · rw [if_neg hg]
          refine List.chain'_cons'.mpr ⟨?_, ihn rest.length
            (by simp [← hn]) rest rfl hs.tail⟩
          intro b hb
          rw [versionFixScan_head] at hb
          exact (List.chain'_cons'.mp hs).1 b hb
      · rw [versionFixScan_cons, if_neg hd]
        refine List.chain'_cons'.mpr ⟨?_, ihn rest.length
          (by simp [← hn]) rest rfl hs.tail⟩
        intro b hb
        rw [versionFixScan_head] at hb
        exact (List.chain'_cons'.mp hs).1 b hb

/-- The version fix preserves the last character. -/
theorem versionFixScan_last (s : List Char) :
    (versionFixScan s).getLast? = s.getLast? := by
  suffices H : ∀ n (s : List Char), s.length = n →
      (versionFixScan s).getLast? = s.getLast? from H s.length s rfl
  intro n
  induction n using Nat.strong_induction_on with
  | _ n ihn =>
    intro s hn
    cases s with
    | nil => rw [versionFixScan]
    | cons c rest =>
      by_cases hd : c.isDigit = true
      · rw [versionFixScan_cons, if_pos hd]
        by_cases hg : vfsGuard (c :: rest) = true
        · rw [if_pos hg]
          obtain ⟨hsp, hd2ne, hd3ne⟩ := vfs_splits c rest hg
          have hih := ihn (vfsCont (c :: rest)).length
            (hn ▸ vfsCont_length_lt c rest hg) (vfsCont (c :: rest)) rfl
          by_cases hc0 : vfsCont (c :: rest) = []
          · have hv0 : versionFixScan (vfsCont (c :: rest)) = [] := by
              rw [hc0, versionFixScan]
            rw [hv0, List.getLast?_append_of_ne_nil _ (by simp),
              show ('.' :: (vfsD2 (c :: rest) ++ '.' ::
                (vfsD3 (c :: rest) ++ ([] : List Char)))) =
                ['.'] ++ (vfsD2 (c :: rest) ++ '.' ::
                  (vfsD3 (c :: rest) ++ [])) from rfl,
              List.getLast?_append_of_ne_nil _ (by simp),
              List.getLast?_append_of_ne_nil _ (by simp),
              show ('.' :: (vfsD3 (c :: rest) ++ ([] : List Char))) =
                ['.'] ++ (vfsD3 (c :: rest) ++ []) from rfl,
              List.getLast?_append_of_ne_nil _
                (by simpa using hd3ne),
              List.append_nil]
            conv_rhs => rw [hsp, hc0]
            rw [List.getLast?_append_of_ne_nil _ (by simp),
              show ('.' :: ' ' :: (vfsD2 (c :: rest) ++ '.' :: ' ' ::
                (vfsD3 (c :: rest) ++ ([] : List Char)))) =
                ['.', ' '] ++ (vfsD2 (c :: rest) ++ '.' :: ' ' ::
                  (vfsD3 (c :: rest) ++ [])) from rfl,
              List.getLast?_append_of_ne_nil _ (by simp),
              List.getLast?_append_of_ne_nil _ (by simp),
              show ('.' :: ' ' :: (vfsD3 (c :: rest) ++ ([] : List Char))) =
                ['.', ' '] ++ (vfsD3 (c :: rest) ++ []) from rfl,
              List.getLast?_append_of_ne_nil _
                (by simpa using hd3ne),
              List.append_nil]
          · have hvne : versionFixScan (vfsCont (c :: rest)) ≠ [] := by
              intro h0
              have hh := versionFixScan_head (vfsCont (c :: rest))
              rw [h0] at hh
              cases hcc : vfsCont (c :: rest) with
              | nil => exact hc0 hcc
              | cons y ys =>
                rw [hcc] at hh
                simp at hh
            rw [List.getLast?_append_of_ne_nil _ (by simp),
              show ('.' :: (vfsD2 (c :: rest) ++ '.' ::
                (vfsD3 (c :: rest) ++
                  versionFixScan (vfsCont (c :: rest))))) =
                ['.'] ++ (vfsD2 (c :: rest) ++ '.' ::
                  (vfsD3 (c :: rest) ++
                    versionFixScan (vfsCont (c :: rest)))) from rfl,
              List.getLast?_append_of_ne_nil _ (by simp),
              List.getLast?_append_of_ne_nil _ (by simp),
              show ('.' :: (vfsD3 (c :: rest) ++
                  versionFixScan (vfsCont (c :: rest)))) =
                ['.'] ++ (vfsD3 (c :: rest) ++
                  versionFixScan (vfsCont (c :: rest))) from rfl,
              List.getLast?_append_of_ne_nil _ (by simp [hvne]),
              List.getLast?_append_of_ne_nil _ hvne, hih]
            conv_rhs => rw [hsp]
            rw [List.getLast?_append_of_ne_nil _ (by simp),
              show ('.' :: ' ' :: (vfsD2 (c :: rest) ++ '.' :: ' ' ::
                (vfsD3 (c :: rest) ++ vfsCont (c :: rest)))) =
                ['.', ' '] ++ (vfsD2 (c :: rest) ++ '.' :: ' ' ::
                  (vfsD3 (c :: rest) ++ vfsCont (c :: rest))) from rfl,
              List.getLast?_append_of_ne_nil _ (by simp),
              List.getLast?_append_of_ne_nil _ (by simp),
              show ('.' :: ' ' :: (vfsD3 (c :: rest) ++
                  vfsCont (c :: rest))) =
                ['.', ' '] ++ (vfsD3 (c :: rest) ++ vfsCont (c :: rest))
                from rfl,
              List.getLast?_append_of_ne_nil _ (by simp [hc0]),
              List.getLast?_append_of_ne_nil _ hc0]
        · rw [if_neg hg]
          cases hre : rest with
          | nil =>
            rw [show versionFixScan ([] : List Char) = [] from by
              rw [versionFixScan]]
          | cons y ys =>
            have hvne : versionFixScan rest ≠ [] := by
              intro h0
              have hh := versionFixScan_head rest
              rw [h0, hre] at hh
              simp at hh
            rw [← hre,
              show (c :: versionFixScan rest) =
                [c] ++ versionFixScan rest from rfl,
              List.getLast?_append_of_ne_nil _ hvne,
              ihn rest.length (by simp [← hn]) rest rfl,
              show (c :: rest) = [c] ++ rest from rfl,
              List.getLast?_append_of_ne_nil _ (by simp [hre])]
      · rw [versionFixScan_cons, if_neg hd]
        cases hre : rest with
        | nil =>
          rw [show versionFixScan ([] : List Char) = [] from by
            rw [versionFixScan]]
        | cons y ys =>
          have hvne : versionFixScan rest ≠ [] := by
            intro h0
            have hh := versionFixScan_head rest
            rw [h0, hre] at hh
            simp at hh
          rw [← hre,
            show (c :: versionFixScan rest) =
              [c] ++ versionFixScan rest from rfl,
            List.getLast?_append_of_ne_nil _ hvne,
            ihn rest.length (by simp [← hn]) rest rfl,
            show (c :: rest) = [c] ++ rest from rfl,
            List.getLast?_append_of_ne_nil _ (by simp [hre])]

/-! ## Idempotence of `processText`: structure of the markdown rules -/

/-- Dropping the matched run exposes a head that fails the class test. -/
theorem drop_takeWhile_head (p : Char → Bool) (l : List Char) :
    ∀ c, (l.drop (l.takeWhile p).length).head? = some c →
      p c = false := by
  induction l with
  | nil =>
    intro c hc
    simp at hc
  | cons a t ih =>
    intro c hc
    by_cases ha : p a = true
    · rw [List.takeWhile_cons_of_pos ha] at hc
      simp only [List.length_cons, List.drop_succ_cons] at hc
      exact ih c hc
    · rw [List.takeWhile_cons_of_neg ha] at hc
      simp only [List.length_nil, List.drop_zero] at hc
      have hca : c = a := by simpa using hc.symm
      subst hca
      simpa using ha

/-- The whitespace run consumed by the list rules after the marker. -/
def numWs (s : List Char) : List Char :=
  ((vfsR1 s).drop 1).takeWhile isJsWs

/-- The continuation after the consumed run of the number-list rule. -/
def numCont (s : List Char) : List Char :=
  ((vfsR1 s).drop 1).drop (numWs s).length

/-- The start-of-line flag with which the number-list rule continues. -/
def numFlag (s : List Char) : Bool :=
  decide ((numWs s).getLast? = some '\n')

/-- One unfolding step of `numberListRule`. -/
theorem numberListRule_cons (c : Char) (rest : List Char) (b : Bool) :
    numberListRule (c :: rest) b =
      if b && c.isDigit then
        (if beginsWith (vfsR1 (c :: rest)) ['.'] then
          vfsD1 (c :: rest) ++ '.' :: ' ' ::
            numberListRule (numCont (c :: rest)) (numFlag (c :: rest))
        else c :: numberListRule rest (c = '\n'))
      else c :: numberListRule rest (c = '\n') := by
  rw [numberListRule]
  rfl

/-- One unfolding step of `bulletListRule`. -/
theorem bulletListRule_cons (c : Char) (rest : List Char) (b : Bool) :
    bulletListRule (c :: rest) b =
      if b && (c = '*' || c = '-') then
        c :: ' ' ::
          bulletListRule (rest.drop (rest.takeWhile isJsWs).length)
            (decide ((rest.takeWhile isJsWs).getLast? = some '\n'))
      else c :: bulletListRule rest (c = '\n') := by
  rw [bulletListRule]

/-- The run of leading hash marks. -/
def hashRun (s : List Char) : List Char :=
  s.takeWhile (fun x => x = '#')

/-- The remainder after the leading hash marks. -/
def hashAfter (s : List Char) : List Char :=
  s.drop (hashRun s).length

/-- The heading rule fires when at most six hashes are followed by a
character that is neither whitespace nor a hash. -/
def hashFire (s : List Char) : Bool :=
  (hashRun s).length ≤ 6 &&
    (match hashAfter s with
     | d :: _ => !(isJsWs d) && !(d = '#')
     | [] => false)

/-- One unfolding step of `headingRule`. -/
theorem headingRule_cons (c : Char) (rest : List Char) (b : Bool) :
    headingRule (c :: rest) b =
      if b && c = '#' then
        (if hashFire (c :: rest) then
          hashRun (c :: rest) ++ ' ' :: ((hashAfter (c :: rest)).take 1 ++
            headingRule ((hashAfter (c :: rest)).drop 1) false)
        else c :: headingRule rest false)
      else c :: headingRule rest (c = '\n') := by
  rw [headingRule]
  rfl

/-- The run of leading newlines. -/
def nlRun (s : List Char) : List Char :=
  s.takeWhile (fun x => x = '\n')

/-- One unfolding step of `collapseBlankLines`. -/
theorem collapseBlankLines_cons (c : Char) (rest : List Char) :
    collapseBlankLines (c :: rest) =
      if c = '\n' then
        (if (nlRun (c :: rest)).length ≥ 3 then
          '\n' :: '\n' :: collapseBlankLines
            ((c :: rest).drop (nlRun (c :: rest)).length)
        else c :: collapseBlankLines rest)
      else c :: collapseBlankLines rest := by
  rw [collapseBlankLines]
  rfl

/-- The number-list rule keeps the first character in place. -/
theorem numberListRule_head (s : List Char) (b : Bool) :
    (numberListRule s b).head? = s.head? := by
  cases s with
  | nil => rw [numberListRule]
  | cons c rest =>
    rw [numberListRule_cons]
    by_cases hb : (b && c.isDigit) = true
    · rw [if_pos hb]
      by_cases hg : beginsWith (vfsR1 (c :: rest)) ['.'] = true
      · rw [if_pos hg]
        have hcd : c.isDigit = true := ((Bool.and_eq_true _ _).mp hb).2
        rw [show vfsD1 (c :: rest) = c :: rest.takeWhile Char.isDigit
          from by simp [vfsD1, List.takeWhile_cons_of_pos hcd]]
        rfl
      · rw [if_neg hg]
        rfl
    · rw [if_neg hb]
      rfl

/-- The bullet-list rule keeps the first character in place. -/
theorem bulletListRule_head (s : List Char) (b : Bool) :
    (bulletListRule s b).head? = s.head? := by
  cases s with
  | nil => rw [bulletListRule]
  | cons c rest =>
    rw [bulletListRule_cons]
    by_cases hb : (b && (c = '*' || c = '-')) = true
    · rw [if_pos hb]
      rfl
    · rw [if_neg hb]
      rfl

/-- The heading rule keeps the first character in place. -/
theorem headingRule_head (s : List Char) (b : Bool) :
    (headingRule s b).head? = s.head? := by
  cases s with
  | nil => rw [headingRule]
  | cons c rest =>
    rw [headingRule_cons]
    by_cases hb : (b && c = '#') = true
    · rw [if_pos hb]
      by_cases hg : hashFire (c :: rest) = true
      · rw [if_pos hg]
        have hch : c = '#' := by
          have h2 := ((Bool.and_eq_true _ _).mp hb).2
          simpa using h2
        subst hch
        have he : hashRun ('#' :: rest) =
            '#' :: rest.takeWhile (fun x => x = '#') := by
          simp only [hashRun]
          rw [List.takeWhile_cons_of_pos (by decide)]
        rw [he]
        rfl
      · rw [if_neg hg]
        rfl
    · rw [if_neg hb]
      rfl

/-- The blank-line collapse keeps the first character in place. -/
theorem collapseBlankLines_head (s : List Char) :
    (collapseBlankLines s).head? = s.head? := by
  cases s with
  | nil => rw [collapseBlankLines]
  | cons c rest =>
    rw [collapseBlankLines_cons]
    by_cases hc : c = '\n'
    · rw [if_pos hc]
      by_cases h3 : (nlRun (c :: rest)).length ≥ 3
      · rw [if_pos h3, hc]
        rfl
      · rw [if_neg h3]
        rfl
    · rw [if_neg hc]
      rfl

/-- Newline-to-space conversion is the identity on newline-free input. -/
theorem newlinesToSpaces_id (s : List Char) (h : '\n' ∉ s) :
    newlinesToSpaces s = s := by
  induction s with
  | nil => rw [newlinesToSpaces]
  | cons c rest ih =>
    rw [newlinesToSpaces]
    have hc : ¬(c = '\n') := fun hc => h (hc ▸ List.mem_cons_self c rest)
    rw [if_neg hc, ih (fun hm => h (List.mem_cons_of_mem c hm))]

/-- The continuation of a fired number-list step is strictly shorter. -/
theorem numCont_length_lt (c : Char) (rest : List Char)
    (hd : c.isDigit = true) :
    (numCont (c :: rest)).length < (c :: rest).length := by
  have hd1 : vfsD1 (c :: rest) = c :: rest.takeWhile Char.isDigit := by
    simp [vfsD1, List.takeWhile_cons_of_pos hd]
  simp only [numCont, numWs, vfsR1, List.length_drop, hd1,
    List.length_cons]
  omega

/-- The continuation of a fired heading step is strictly shorter. -/
theorem hashCont_length_lt (c : Char) (rest : List Char)
    (hc : c = '#') :
    ((hashAfter (c :: rest)).drop 1).length < (c :: rest).length := by
  subst hc
  have hr : hashRun ('#' :: rest) =
      '#' :: rest.takeWhile (fun x => x = '#') := by
    simp only [hashRun]
    rw [List.takeWhile_cons_of_pos (by decide)]
  simp only [hashAfter, hr, List.length_drop, List.length_cons]
  omega

/-- Every output character of the number-list rule is an input
character, a space, or a dot. -/
theorem numberListRule_mem (s : List Char) (b : Bool) :
    ∀ x ∈ numberListRule s b, x ∈ s ∨ x = ' ' ∨ x = '.' := by
  suffices H : ∀ n (s : List Char) (b : Bool), s.length = n →
      ∀ x ∈ numberListRule s b, x ∈ s ∨ x = ' ' ∨ x = '.' from
    H s.length s b rfl
  intro n
  induction n using Nat.strong_induction_on with
  | _ n ihn =>
    intro s b hn x hx
    cases s with
    | nil =>
      rw [numberListRule] at hx
      simp at hx
    | cons c rest =>
      rw [numberListRule_cons] at hx
      by_cases hb : (b && c.isDigit) = true
      · rw [if_pos hb] at hx
        by_cases hg : beginsWith (vfsR1 (c :: rest)) ['.'] = true
        · rw [if_pos hg] at hx
          have hcd : c.isDigit = true := ((Bool.and_eq_true _ _).mp hb).2
          have hih := ihn (numCont (c :: rest)).length
            (hn ▸ numCont_length_lt c rest hcd) (numCont (c :: rest))
            (numFlag (c :: rest)) rfl
          simp only [List.mem_append, List.mem_cons] at hx
          rcases hx with h1 | h2 | h3 | h4
          · exact Or.inl ((List.takeWhile_prefix _).subset h1)
          · exact Or.inr (Or.inr h2)
          · exact Or.inr (Or.inl h3)
          · rcases hih x h4 with h | h
            · refine Or.inl ?_
              have hm2 : x ∈ (vfsR1 (c :: rest)).drop 1 :=
                List.drop_subset _ _ h
              have hm3 : x ∈ vfsR1 (c :: rest) :=
                List.drop_subset _ _ hm2
              exact List.drop_subset _ _ hm3
            · exact Or.inr h
        · rw [if_neg hg] at hx
          rcases List.mem_cons.mp hx with h | h
          · exact Or.inl (h ▸ List.mem_cons_self c rest)
          · rcases ihn rest.length (by simp [← hn]) rest (c = '\n') rfl
              x h with h2 | h2
            · exact Or.inl (List.mem_cons_of_mem c h2)
            · exact Or.inr h2
      · rw [if_neg hb] at hx
        rcases List.mem_cons.mp hx with h | h
        · exact Or.inl (h ▸ List.mem_cons_self c rest)
        · rcases ihn rest.length (by simp [← hn]) rest (c = '\n') rfl
            x h with h2 | h2
          · exact Or.inl (List.mem_cons_of_mem c h2)
          · exact Or.inr h2

/-- Every output character of the bullet-list rule is an input
character or a space. -/
theorem bulletListRule_mem (s : List Char) (b : Bool) :
    ∀ x ∈ bulletListRule s b, x ∈ s ∨ x = ' ' := by
  suffices H : ∀ n (s : List Char) (b : Bool), s.length = n →
      ∀ x ∈ bulletListRule s b, x ∈ s ∨ x = ' ' from H s.length s b rfl
  intro n
  induction n using Nat.strong_induction_on with
  | _ n ihn =>
    intro s b hn x hx
    cases s with
    | nil =>
      rw [bulletListRule] at hx
      simp at hx
    | cons c rest =>
      rw [bulletListRule_cons] at hx
      by_cases hb : (b && (c = '*' || c = '-')) = true
      · rw [if_pos hb] at hx
        have hih := ihn (rest.drop (rest.takeWhile isJsWs).length).length
          (by simp only [← hn, List.length_drop, List.length_cons]; omega)
          (rest.drop (rest.takeWhile isJsWs).length)
          (decide ((rest.takeWhile isJsWs).getLast? = some '\n')) rfl
        rcases List.mem_cons.mp hx with h | h
        · exact Or.inl (h ▸ List.mem_cons_self c rest)
        · rcases List.mem_cons.mp h with h2 | h2
          · exact Or.inr h2
          · rcases hih x h2 with h3 | h3
            · exact Or.inl (List.mem_cons_of_mem c
                (List.drop_subset _ _ h3))
            · exact Or.inr h3
      · rw [if_neg hb] at hx
        rcases List.mem_cons.mp hx with h | h
        · exact Or.inl (h ▸ List.mem_cons_self c rest)
        · rcases ihn rest.length (by simp [← hn]) rest (c = '\n') rfl
            x h with h2 | h2
          · exact Or.inl (List.mem_cons_of_mem c h2)
          · exact Or.inr h2

/-- Every output character of the heading rule is an input character or
a space. -/
theorem headingRule_mem (s : List Char) (b : Bool) :
    ∀ x ∈ headingRule s b, x ∈ s ∨ x = ' ' := by
  suffices H : ∀ n (s : List Char) (b : Bool), s.length = n →
      ∀ x ∈ headingRule s b, x ∈ s ∨ x = ' ' from H s.length s b rfl
  intro n
  induction n using Nat.strong_induction_on with
  | _ n ihn =>
    intro s b hn x hx
    cases s with
    | nil =>
      rw [headingRule] at hx
      simp at hx
    | cons c rest =>
      rw [headingRule_cons] at hx
      by_cases hb : (b && c = '#') = true
      · rw [if_pos hb] at hx
        by_cases hg : hashFire (c :: rest) = true
        · rw [if_pos hg] at hx
          have hch : c = '#' := by
            have h2 := ((Bool.and_eq_true _ _).mp hb).2
            simpa using h2
          have hih := ihn ((hashAfter (c :: rest)).drop 1).length
            (hn ▸ hashCont_length_lt c rest hch)
            ((hashAfter (c :: rest)).drop 1) false rfl
          simp only [List.mem_append, List.mem_cons] at hx
          rcases hx with h1 | h2 | h3
          · exact Or.inl ((List.takeWhile_prefix _).subset h1)
          · exact Or.inr h2
          · rcases h3 with h4 | h4
            · refine Or.inl ?_
              have hm2 : x ∈ hashAfter (c :: rest) :=
                List.take_subset _ _ h4
              exact List.drop_subset _ _ hm2
            · rcases hih x h4 with h5 | h5
              · refine Or.inl ?_
                have hm2 : x ∈ hashAfter (c :: rest) :=
                  List.drop_subset _ _ h5
                exact List.drop_subset _ _ hm2
              · exact Or.inr h5
        · rw [if_neg hg] at hx
          rcases List.mem_cons.mp hx with h | h
          · exact Or.inl (h ▸ List.mem_cons_self c rest)
          · rcases ihn rest.length (by simp [← hn]) rest false rfl
              x h with h2 | h2
            · exact Or.inl (List.mem_cons_of_mem c h2)
            · exact Or.inr h2
      · rw [if_neg hb] at hx
        rcases List.mem_cons.mp hx with h | h
        · exact Or.inl (h ▸ List.mem_cons_self c rest)
        · rcases ihn rest.length (by simp [← hn]) rest (c = '\n') rfl
            x h with h2 | h2
          · exact Or.inl (List.mem_cons_of_mem c h2)
          · exact Or.inr h2

/-- Every output character of the blank-line collapse is an input
character or a newline. -/
theorem collapseBlankLines_mem (s : List Char) :
    ∀ x ∈ collapseBlankLines s, x ∈ s ∨ x = '\n' := by
  suffices H : ∀ n (s : List Char), s.length = n →
      ∀ x ∈ collapseBlankLines s, x ∈ s ∨ x = '\n' from H s.length s rfl
  intro n
  induction n using Nat.strong_induction_on with
  | _ n ihn =>
    intro s hn x hx
    cases s with
    | nil =>
      rw [collapseBlankLines] at hx
      simp at hx
    | cons c rest =>
      rw [collapseBlankLines_cons] at hx
      by_cases hc : c = '\n'
      · rw [if_pos hc] at hx
        by_cases h3 : (nlRun (c :: rest)).length ≥ 3
        · rw [if_pos h3] at hx
          have hih := ihn ((c :: rest).drop (nlRun (c :: rest)).length).length
            (by
              simp only [← hn, List.length_drop, List.length_cons]
              subst hc
              have hr : nlRun ('\n' :: rest) =
                  '\n' :: rest.takeWhile (fun x => x = '\n') := by
                simp only [nlRun]
                rw [List.takeWhile_cons_of_pos (by decide)]
              rw [hr] at h3 ⊢
              simp only [List.length_cons] at h3 ⊢
              omega)
            ((c :: rest).drop (nlRun (c :: rest)).length) rfl
          rcases List.mem_cons.mp hx with h | h
          · exact Or.inr h
          · rcases List.mem_cons.mp h with h2 | h2
            · exact Or.inr h2
            · rcases hih x h2 with h4 | h4
              · exact Or.inl (List.drop_subset _ _ h4)
              · exact Or.inr h4
        · rw [if_neg h3] at hx
          rcases List.mem_cons.mp hx with h | h
          · exact Or.inl (h ▸ List.mem_cons_self c rest)
          · rcases ihn rest.length (by simp [← hn]) rest rfl x h with
              h2 | h2
            · exact Or.inl (List.mem_cons_of_mem c h2)
            · exact Or.inr h2
      · rw [if_neg hc] at hx
        rcases List.mem_cons.mp hx with h | h
        · exact Or.inl (h ▸ List.mem_cons_self c rest)
        · rcases ihn rest.length (by simp [← hn]) rest rfl x h with
            h2 | h2
          · exact Or.inl (List.mem_cons_of_mem c h2)
          · exact Or.inr h2

/-- The number-list rule preserves any adjacency invariant compatible
with its dot–space insertion. -/
theorem numberListRule_chain' (R : Char → Char → Prop)
    (hpd : R '.' ' ') (hsp : ∀ x, isJsWs x = false → R ' ' x)
    (s : List Char) (b : Bool) (hs : List.Chain' R s) :
    List.Chain' R (numberListRule s b) := by
  suffices H : ∀ n (s : List Char) (b : Bool), s.length = n →
      List.Chain' R s → List.Chain' R (numberListRule s b) from
    H s.length s b rfl hs
  intro n
  induction n using Nat.strong_induction_on with
  | _ n ihn =>
    intro s b hn hs
    cases s with
    | nil =>
      rw [numberListRule]
      exact List.chain'_nil
    | cons c rest =>
      rw [numberListRule_cons]
      by_cases hb : (b && c.isDigit) = true
      · rw [if_pos hb]
        by_cases hg : beginsWith (vfsR1 (c :: rest)) ['.'] = true
        · rw [if_pos hg]
          have hcd : c.isDigit = true := ((Bool.and_eq_true _ _).mp hb).2
          have hsplit1 : (c :: rest) =
              vfsD1 (c :: rest) ++ vfsR1 (c :: rest) :=
            eq_append_drop_of_beginsWith (c :: rest) (vfsD1 (c :: rest))
              (List.isPrefixOf_iff_prefix.mpr (List.takeWhile_prefix _))
          have hsplit2 : vfsR1 (c :: rest) =
              '.' :: ((vfsR1 (c :: rest)).drop 1) := by
            have h2 := eq_append_drop_of_beginsWith _ _ hg
            simpa using h2
          have hsA : List.Chain' R
              (vfsD1 (c :: rest) ++ vfsR1 (c :: rest)) := hsplit1 ▸ hs
          obtain ⟨hd1ch, hr1ch, hbd1⟩ := List.chain'_append.mp hsA
          have hih := ihn (numCont (c :: rest)).length
            (hn ▸ numCont_length_lt c rest hcd) (numCont (c :: rest))
            (numFlag (c :: rest)) rfl
            (by
              rw [hsplit2] at hr1ch
              exact chain'_sub hr1ch.tail (List.drop_suffix _ _).isInfix)
          refine List.chain'_append.mpr ⟨hd1ch, ?_, ?_⟩
          · refine List.chain'_cons.mpr ⟨hpd, ?_⟩
            refine List.chain'_cons'.mpr ⟨?_, hih⟩
            intro y hy
            rw [numberListRule_head] at hy
            exact hsp y (drop_takeWhile_head isJsWs _ y hy)
          · intro a ha y hy
            have hye : y = '.' := by simpa using hy.symm
            subst hye
            refine hbd1 a ha '.' ?_
            rw [hsplit2]
            rfl
        · rw [if_neg hg]
          refine List.chain'_cons'.mpr ⟨?_, ihn rest.length
            (by simp [← hn]) rest (c = '\n') rfl hs.tail⟩
          intro y hy
          rw [numberListRule_head] at hy
          exact (List.chain'_cons'.mp hs).1 y hy
      · rw [if_neg hb]
        refine List.chain'_cons'.mpr ⟨?_, ihn rest.length
          (by simp [← hn]) rest (c = '\n') rfl hs.tail⟩
        intro y hy
        rw [numberListRule_head] at hy
        exact (List.chain'_cons'.mp hs).1 y hy

/-- The bullet-list rule preserves any adjacency invariant compatible
with its marker–space insertion. -/
theorem bulletListRule_chain' (R : Char → Char → Prop)
    (hm : ∀ m, (m = '*' ∨ m = '-') → R m ' ')
    (hsp : ∀ x, isJsWs x = false → R ' ' x)
    (s : List Char) (b : Bool) (hs : List.Chain' R s) :
    List.Chain' R (bulletListRule s b) := by
  suffices H : ∀ n (s : List Char) (b : Bool), s.length = n →
      List.Chain' R s → List.Chain' R (bulletListRule s b) from
    H s.length s b rfl hs
  intro n
  induction n using Nat.strong_induction_on with
  | _ n ihn =>
    intro s b hn hs
    cases s with
    | nil =>
      rw [bulletListRule]
      exact List.chain'_nil
    | cons c rest =>
      rw [bulletListRule_cons]
      by_cases hb : (b && (c = '*' || c = '-')) = true
      · rw [if_pos hb]
        have hcm : c = '*' ∨ c = '-' := by
          have h2 := ((Bool.and_eq_true _ _).mp hb).2
          simpa using h2
        have hih := ihn (rest.drop (rest.takeWhile isJsWs).length).length
          (by simp only [← hn, List.length_drop, List.length_cons]; omega)
          (rest.drop (rest.takeWhile isJsWs).length)
          (decide ((rest.takeWhile isJsWs).getLast? = some '\n')) rfl
          (chain'_sub hs.tail (List.drop_suffix _ _).isInfix)
        refine List.chain'_cons.mpr ⟨hm c hcm, ?_⟩
        refine List.chain'_cons'.mpr ⟨?_, hih⟩
        intro y hy
        rw [bulletListRule_head] at hy
        exact hsp y (drop_takeWhile_head isJsWs _ y hy)
      · rw [if_neg hb]
        refine List.chain'_cons'.mpr ⟨?_, ihn rest.length
          (by simp [← hn]) rest (c = '\n') rfl hs.tail⟩
        intro y hy
        rw [bulletListRule_head] at hy
        exact (List.chain'_cons'.mp hs).1 y hy

/-- The heading rule preserves any adjacency invariant compatible with
its hash–space insertion. -/
theorem headingRule_chain' (R : Char → Char → Prop)
    (hhs : R '#' ' ') (hsp : ∀ x, isJsWs x = false → R ' ' x)
    (s : List Char) (b : Bool) (hs : List.Chain' R s) :
    List.Chain' R (headingRule s b) := by
  suffices H : ∀ n (s : List Char) (b : Bool), s.length = n →
      List.Chain' R s → List.Chain' R (headingRule s b) from
    H s.length s b rfl hs
  intro n
  induction n using Nat.strong_induction_on with
  | _ n ihn =>
    intro s b hn hs
    cases s with
    | nil =>
      rw [headingRule]
      exact List.chain'_nil
    | cons c rest =>
      rw [headingRule_cons]
      by_cases hb : (b && c = '#') = true
      · rw [if_pos hb]
        by_cases hg : hashFire (c :: rest) = true
        · rw [if_pos hg]
          have hch : c = '#' := by
            have h2 := ((Bool.and_eq_true _ _).mp hb).2
            simpa using h2
          obtain ⟨d, t, hAf, hdws, hdh⟩ : ∃ d t,
              hashAfter (c :: rest) = d :: t ∧ isJsWs d = false ∧
                (d = '#') = False := by
            have hg2 := hg
            simp only [hashFire, Bool.and_eq_true] at hg2
            obtain ⟨hlen, hmatch⟩ := hg2
            cases hAf : hashAfter (c :: rest) with
            | nil =>
              rw [hAf] at hmatch
              simp at hmatch
            | cons d t =>
              rw [hAf] at hmatch
              simp only [Bool.and_eq_true, Bool.not_eq_true'] at hmatch
              refine ⟨d, t, rfl, hmatch.1, ?_⟩
              simp only [eq_iff_iff, iff_false]
              intro hd
              rw [hd] at hmatch
              simp at hmatch
          have hsplit : (c :: rest) =
              hashRun (c :: rest) ++ hashAfter (c :: rest) :=
            eq_append_drop_of_beginsWith (c :: rest) (hashRun (c :: rest))
              (List.isPrefixOf_iff_prefix.mpr (List.takeWhile_prefix _))
          have hsA : List.Chain' R
              (hashRun (c :: rest) ++ hashAfter (c :: rest)) :=
            hsplit ▸ hs
          obtain ⟨hhch, hach, hbdh⟩ := List.chain'_append.mp hsA
          have hih := ihn ((hashAfter (c :: rest)).drop 1).length
            (hn ▸ hashCont_length_lt c rest hch)
            ((hashAfter (c :: rest)).drop 1) false rfl
            (chain'_sub hach (List.drop_suffix _ _).isInfix)
          refine List.chain'_append.mpr ⟨hhch, ?_, ?_⟩
          · refine List.chain'_cons'.mpr ⟨?_, ?_⟩
            · intro y hy
              rw [hAf] at hy
              have hyd : y = d := by simpa using hy.symm
              subst hyd
              exact hsp y hdws
            · rw [hAf]
              have he : ((d :: t).take 1 ++
                  headingRule ((d :: t).drop 1) false) =
                  d :: headingRule t false := rfl
              rw [he]
              refine List.chain'_cons'.mpr ⟨?_, ?_⟩
              · intro y hy
                rw [headingRule_head] at hy
                rw [hAf] at hach
                rcases List.chain'_cons'.mp hach with ⟨hpair, _⟩
                exact hpair y hy
              · have hDrop : (hashAfter (c :: rest)).drop 1 = t := by
                  rw [hAf]
                  rfl
                exact hDrop ▸ hih
          · intro a ha y hy
            have hye : y = ' ' := by simpa using hy.symm
            subst hye
            have haH : a = '#' := by
              have hmem : a ∈ hashRun (c :: rest) :=
                List.mem_of_mem_getLast? ha
              have := List.mem_takeWhile_imp hmem
              simpa using this
            subst haH
            exact hhs
        · rw [if_neg hg]
          refine List.chain'_cons'.mpr ⟨?_, ihn rest.length
            (by simp [← hn]) rest false rfl hs.tail⟩
          intro y hy
          rw [headingRule_head] at hy
          exact (List.chain'_cons'.mp hs).1 y hy
      · rw [if_neg hb]
        refine List.chain'_cons'.mpr ⟨?_, ihn rest.length
          (by simp [← hn]) rest (c = '\n') rfl hs.tail⟩
        intro y hy
        rw [headingRule_head] at hy
        exact (List.chain'_cons'.mp hs).1 y hy

/-- The blank-line collapse preserves any adjacency invariant that
holds between two newlines. -/
theorem collapseBlankLines_chain' (R : Char → Char → Prop)
    (hnn : R '\n' '\n') (s : List Char) (hs : List.Chain' R s) :
    List.Chain' R (collapseBlankLines s) := by
  suffices H : ∀ n (s : List Char), s.length = n →
      List.Chain' R s → List.Chain' R (collapseBlankLines s) from
    H s.length s rfl hs
  intro n
  induction n using Nat.strong_induction_on with
  | _ n ihn =>
    intro s hn hs
    cases s with
    | nil =>
      rw [collapseBlankLines]
      exact List.chain'_nil
    | cons c rest =>
      rw [collapseBlankLines_cons]
      by_cases hc : c = '\n'
      · rw [if_pos hc]
        by_cases h3 : (nlRun (c :: rest)).length ≥ 3
        · rw [if_pos h3]
          have hlt : ((c :: rest).drop (nlRun (c :: rest)).length).length <
              (c :: rest).length := by
            subst hc
            have hr : nlRun ('\n' :: rest) =
                '\n' :: rest.takeWhile (fun x => x = '\n') := by
              simp only [nlRun]
              rw [List.takeWhile_cons_of_pos (by decide)]
            simp only [hr, List.length_drop, List.length_cons]
            omega
          have hsplit : (c :: rest) =
              nlRun (c :: rest) ++
                (c :: rest).drop (nlRun (c :: rest)).length :=
            eq_append_drop_of_beginsWith (c :: rest) (nlRun (c :: rest))
              (List.isPrefixOf_iff_prefix.mpr (List.takeWhile_prefix _))
          have hsA : List.Chain' R (nlRun (c :: rest) ++
              (c :: rest).drop (nlRun (c :: rest)).length) :=
            hsplit ▸ hs
          obtain ⟨hrch, hdch, hbdr⟩ := List.chain'_append.mp hsA
          have hih := ihn _ (hn ▸ hlt)
            ((c :: rest).drop (nlRun (c :: rest)).length) rfl hdch
          refine List.chain'_cons.mpr ⟨hnn, ?_⟩
          refine List.chain'_cons'.mpr ⟨?_, hih⟩
          intro y hy
          rw [collapseBlankLines_head] at hy
          obtain ⟨a, ha⟩ : ∃ a, (nlRun (c :: rest)).getLast? = some a := by
            cases hL : (nlRun (c :: rest)).getLast? with
            | none =>
              rw [List.getLast?_eq_none_iff] at hL
              rw [hL] at h3
              simp at h3
            | some a => exact ⟨a, rfl⟩
          have haN : a = '\n' := by
            have hmem : a ∈ nlRun (c :: rest) :=
              List.mem_of_mem_getLast? ha
            have := List.mem_takeWhile_imp hmem
            simpa using this
          have := hbdr a ha y hy
          rw [haN] at this
          exact this
        · rw [if_neg h3]
          refine List.chain'_cons'.mpr ⟨?_, ihn rest.length
            (by simp [← hn]) rest rfl hs.tail⟩
          intro y hy
          rw [collapseBlankLines_head] at hy
          exact (List.chain'_cons'.mp hs).1 y hy
      · rw [if_neg hc]
        refine List.chain'_cons'.mpr ⟨?_, ihn rest.length
          (by simp [← hn]) rest rfl hs.tail⟩
        intro y hy
        rw [collapseBlankLines_head] at hy
        exact (List.chain'_cons'.mp hs).1 y hy

/-! ## Idempotence of `processText`: the whitespace discipline invariant -/

/-- An adjacency invariant that holds between all pairs of members holds
as a chain. -/
theorem chain'_of_mem_pairs {R : Char → Char → Prop} (l : List Char)
    (h : ∀ a b, a ∈ l → b ∈ l → R a b) : List.Chain' R l := by
  induction l with
  | nil => exact List.chain'_nil
  | cons a t ih =>
    cases t with
    | nil => simp
    | cons b t' =>
      rw [List.chain'_cons]
      refine ⟨h a b (by simp) (by simp), ?_⟩
      exact ih (fun x y hx hy =>
        h x y (List.mem_cons_of_mem a hx) (List.mem_cons_of_mem a hy))

/-- Horizontal whitespace is whitespace. -/
theorem isHWs_imp_isJsWs (c : Char) (h : isHWs c = true) :
    isJsWs c = true := by
  have h2 : ((c = '\t' ∨ c = '\x0c') ∨ c = '\r') ∨ c = ' ' := by
    simpa [isHWs, Bool.or_eq_true] using h
  rcases h2 with ((h | h) | h) | h <;> subst h <;> decide

/-- Excluded lookahead characters are not whitespace. -/
theorem exclNext_not_ws (c : Char) (h : exclNext c = true) :
    isJsWs c = false := by
  have h2 : (c = '"' ∨ c = apos) ∨ c = '.' := by
    simpa [exclNext, Bool.or_eq_true] using h
  rcases h2 with (h | h) | h <;> subst h <;> decide

/-- The joint whitespace discipline maintained along the pipeline:
whitespace is a space or newline, no two adjacent spaces, and after
sentence punctuation the only whitespace is a space. -/
def WDisc (s : List Char) : Prop :=
  (∀ c ∈ s, isJsWs c = true → c = ' ' ∨ c = '\n') ∧
  List.Chain' (fun a b => ¬(a = ' ' ∧ b = ' ')) s ∧
  List.Chain' (fun a b =>
    sentPunct a = true → isJsWs b = true → b = ' ') s

/-- The inner spacing stage establishes the whitespace discipline. -/
theorem wdisc_stage (p : Char → Bool) (hp : p ' ' = true)
    (hp2 : ∀ c, isJsWs c = true → p c = false → c = '\n')
    (u : List Char) :
    WDisc (jsTrim (gCollapse p (sentenceSpace u))) := by
  have hsub : jsTrim (gCollapse p (sentenceSpace u)) <:+:
      gCollapse p (sentenceSpace u) := jsTrim_within _
  refine ⟨?_, ?_, ?_⟩
  · intro c hc hws
    rcases gCollapse_mem p (sentenceSpace u) c (hsub.subset hc) with
      h | ⟨_, hpc⟩
    · exact Or.inl h
    · exact Or.inr (hp2 c hws hpc)
  · refine chain'_sub ((gCollapse_wsOk p (sentenceSpace u)).2.imp ?_) hsub
    intro a b hab ⟨ha, hb⟩
    exact hab ⟨ha ▸ hp, hb ▸ hp⟩
  · have hso : SentOk (gCollapse p (sentenceSpace u)) := by
      refine gCollapse_chain' p _ (fun a _ => Or.inr rfl)
        (fun b hp' => absurd hp' (by decide)) _
        (sentenceSpace_sentOk u)
    refine chain'_sub (hso.imp ?_) hsub
    intro a b hab hp' hws
    rcases hab hp' with h | h
    · rw [exclNext_not_ws b h] at hws
      exact absurd hws (by simp)
    · exact h

/-- A literal replacement whose replacement text is whitespace-free and
does not end in punctuation preserves the whitespace discipline. -/
theorem replaceMulti_wdisc (pats : List (List Char)) (rep : List Char)
    (hrne : rep ≠ [])
    (hws : ∀ c ∈ rep, isJsWs c = false)
    (hlast : ∀ a, rep.getLast? = some a → sentPunct a = false)
    (s : List Char) (h : WDisc s) : WDisc (replaceMulti pats rep s) := by
  obtain ⟨h1, h2, h3⟩ := h
  refine ⟨?_, ?_, ?_⟩
  · intro c hc hwc
    rcases replaceMulti_mem pats rep s c hc with hm | hm
    · rw [hws c hm] at hwc
      exact absurd hwc (by simp)
    · exact h1 c hm hwc
  · refine replaceMulti_chain' pats rep hrne _ ?_ ?_ ?_ s h2
    · refine chain'_of_mem_pairs rep ?_
      rintro a b ha _ ⟨has, _⟩
      have := hws a ha
      rw [has] at this
      exact absurd this (by decide)
    · rintro x b hb ⟨_, hbs⟩
      have hbm : b ∈ rep := List.mem_of_mem_head? hb
      have := hws b hbm
      rw [hbs] at this
      exact absurd this (by decide)
    · intro a y ha
      rintro ⟨has, _⟩
      have ham : a ∈ rep := List.mem_of_mem_getLast? ha
      have := hws a ham
      rw [has] at this
      exact absurd this (by decide)
  · refine replaceMulti_chain' pats rep hrne _ ?_ ?_ ?_ s h3
    · refine chain'_of_mem_pairs rep ?_
      intro a b _ hb _ hwb
      rw [hws b hb] at hwb
      exact absurd hwb (by simp)
    · intro x b hb _ hwb
      have hbm : b ∈ rep := List.mem_of_mem_head? hb
      rw [hws b hbm] at hwb
      exact absurd hwb (by simp)
    · intro a y ha hpa
      rw [hlast a ha] at hpa
      exact absurd hpa (by simp)

/-- The version fix preserves the whitespace discipline. -/
theorem versionFixScan_wdisc (s : List Char) (h : WDisc s) :
    WDisc (versionFixScan s) := by
  obtain ⟨h1, h2, h3⟩ := h
  refine ⟨?_, ?_, ?_⟩
  · intro c hc hwc
    rcases versionFixScan_mem s c hc with hm | hm
    · exact h1 c hm hwc
    · rw [hm] at hwc
      exact absurd hwc (by decide)
  · refine versionFixScan_chain' _ ?_ s h2
    rintro b hb ⟨hd, _⟩
    exact absurd hd (by decide)
  · refine versionFixScan_chain' _ ?_ s h3
    intro b hb _ hwb
    rw [isJsWs_eq_false_of_isDigit b hb] at hwb
    exact absurd hwb (by simp)

/-- The full term-fix chain preserves the whitespace discipline. -/
theorem techTermFixes_wdisc (w : List Char) (h : WDisc w) :
    WDisc (techTermFixes w) := by
  rw [techTermFixes_eq]
  refine versionFixScan_wdisc _ ?_
  refine replaceMulti_wdisc _ _ (by decide) (by decide) ?_ _ ?_
  · intro a ha
    have hav : a = 's' := by simpa using ha.symm
    subst hav
    decide
  refine replaceMulti_wdisc _ _ (by decide) (by decide) ?_ _ ?_
  · intro a ha
    have hav : a = 's' := by simpa using ha.symm
    subst hav
    decide
  refine replaceMulti_wdisc _ _ (by decide) (by decide) ?_ _ ?_
  · intro a ha
    have hav : a = 't' := by simpa using ha.symm
    subst hav
    decide
  refine replaceMulti_wdisc _ _ (by decide) (by decide) ?_ _ ?_
  · intro a ha
    have hav : a = 't' := by simpa using ha.symm
    subst hav
    decide
  refine replaceMulti_wdisc _ _ (by decide) (by decide) ?_ _ ?_
  · intro a ha
    have hav : a = 's' := by simpa using ha.symm
    subst hav
    decide
  refine replaceMulti_wdisc _ _ (by decide) (by decide) ?_ _ h
  intro a ha
  have hav : a = 's' := by simpa using ha.symm
  subst hav
  decide

/-- The number-list rule preserves the whitespace discipline. -/
theorem numberListRule_wdisc (s : List Char) (b : Bool) (h : WDisc s) :
    WDisc (numberListRule s b) := by
  obtain ⟨h1, h2, h3⟩ := h
  refine ⟨?_, ?_, ?_⟩
  · intro c hc hwc
    rcases numberListRule_mem s b c hc with hm | hm | hm
    · exact h1 c hm hwc
    · exact Or.inl hm
    · rw [hm] at hwc
      exact absurd hwc (by decide)
  · refine numberListRule_chain' _ ?_ ?_ s b h2
    · rintro ⟨hd, _⟩
      exact absurd hd (by decide)
    · rintro x hx ⟨_, hxs⟩
      rw [hxs] at hx
      exact absurd hx (by decide)
  · refine numberListRule_chain' _ ?_ ?_ s b h3
    · intro _ _
      rfl
    · intro x hx hp
      exact absurd hp (by decide)

/-- The bullet-list rule preserves the whitespace discipline. -/
theorem bulletListRule_wdisc (s : List Char) (b : Bool) (h : WDisc s) :
    WDisc (bulletListRule s b) := by
  obtain ⟨h1, h2, h3⟩ := h
  refine ⟨?_, ?_, ?_⟩
  · intro c hc hwc
    rcases bulletListRule_mem s b c hc with hm | hm
    · exact h1 c hm hwc
    · exact Or.inl hm
  · refine bulletListRule_chain' _ ?_ ?_ s b h2
    · rintro m hm ⟨hms, _⟩
      rcases hm with hm | hm <;> rw [hm] at hms <;>
        exact absurd hms (by decide)
    · rintro x hx ⟨_, hxs⟩
      rw [hxs] at hx
      exact absurd hx (by decide)
  · refine bulletListRule_chain' _ ?_ ?_ s b h3
    · intro m hm hp
      rcases hm with hm | hm <;> rw [hm] at hp <;>
        exact absurd hp (by decide)
    · intro x hx hp
      exact absurd hp (by decide)

/-- The heading rule preserves the whitespace discipline. -/
theorem headingRule_wdisc (s : List Char) (b : Bool) (h : WDisc s) :
    WDisc (headingRule s b) := by
  obtain ⟨h1, h2, h3⟩ := h
  refine ⟨?_, ?_, ?_⟩
  · intro c hc hwc
    rcases headingRule_mem s b c hc with hm | hm
    · exact h1 c hm hwc
    · exact Or.inl hm
  · refine headingRule_chain' _ ?_ ?_ s b h2
    · rintro ⟨hh, _⟩
      exact absurd hh (by decide)
    · rintro x hx ⟨_, hxs⟩
      rw [hxs] at hx
      exact absurd hx (by decide)
  · refine headingRule_chain' _ ?_ ?_ s b h3
    · intro hp
      exact absurd hp (by decide)
    · intro x hx hp
      exact absurd hp (by decide)

/-- The blank-line collapse preserves the whitespace discipline. -/
theorem collapseBlankLines_wdisc (s : List Char) (h : WDisc s) :
    WDisc (collapseBlankLines s) := by
  obtain ⟨h1, h2, h3⟩ := h
  refine ⟨?_, ?_, ?_⟩
  · intro c hc hwc
    rcases collapseBlankLines_mem s c hc with hm | hm
    · exact h1 c hm hwc
    · exact Or.inr hm
  · refine collapseBlankLines_chain' _ ?_ s h2
    rintro ⟨hn, _⟩
    exact absurd hn (by decide)
  · refine collapseBlankLines_chain' _ ?_ s h3
    intro hp
    exact absurd hp (by decide)

/-! ## Idempotence of `processText`: trimmedness and newline-freeness -/

/-- A replacement with whitespace-free nonempty text preserves
trimmedness. -/
theorem replaceMulti_trimmed (pats : List (List Char)) (rep : List Char)
    (hrne : rep ≠ [])
    (hws : ∀ c ∈ rep, isJsWs c = false)
    (s : List Char) (h : Trimmed s) :
    Trimmed (replaceMulti pats rep s) := by
  constructor
  · intro c hc
    rcases replaceMulti_head pats rep hrne s with he | he
    · rw [he] at hc
      exact h.1 c hc
    · rw [he] at hc
      exact hws c (List.mem_of_mem_head? hc)
  · intro c hc
    rcases replaceMulti_last pats rep hrne s with he | he
    · rw [he] at hc
      exact h.2 c hc
    · rw [he] at hc
      exact hws c (List.mem_of_mem_getLast? hc)

/-- The version fix preserves trimmedness. -/
theorem versionFixScan_trimmed (s : List Char) (h : Trimmed s) :
    Trimmed (versionFixScan s) := by
  constructor
  · intro c hc
    rw [versionFixScan_head] at hc
    exact h.1 c hc
  · intro c hc
    rw [versionFixScan_last] at hc
    exact h.2 c hc

/-- The full term-fix chain preserves trimmedness. -/
theorem techTermFixes_trimmed (w : List Char) (h : Trimmed w) :
    Trimmed (techTermFixes w) := by
  rw [techTermFixes_eq]
  refine versionFixScan_trimmed _ ?_
  refine replaceMulti_trimmed _ _ (by decide) (by decide) _ ?_
  refine replaceMulti_trimmed _ _ (by decide) (by decide) _ ?_
  refine replaceMulti_trimmed _ _ (by decide) (by decide) _ ?_
  refine replaceMulti_trimmed _ _ (by decide) (by decide) _ ?_
  refine replaceMulti_trimmed _ _ (by decide) (by decide) _ ?_
  exact replaceMulti_trimmed _ _ (by decide) (by decide) _ h

/-- The full term-fix chain preserves newline-freeness. -/
theorem techTermFixes_noNl (w : List Char) (h : '\n' ∉ w) :
    '\n' ∉ techTermFixes w := by
  rw [techTermFixes_eq]
  intro hc
  rcases versionFixScan_mem _ '\n' hc with hm | hm
  · revert hm
    have hstep : ∀ (pats : List (List Char)) (rep t : List Char),
        '\n' ∉ rep → '\n' ∉ t → '\n' ∉ replaceMulti pats rep t := by
      intro pats rep t hr ht hmem
      rcases replaceMulti_mem pats rep t '\n' hmem with hm2 | hm2
      · exact hr hm2
      · exact ht hm2
    intro hm
    refine hstep _ _ _ (by decide) ?_ hm
    refine hstep _ _ _ (by decide) ?_
    refine hstep _ _ _ (by decide) ?_
    refine hstep _ _ _ (by decide) ?_
    refine hstep _ _ _ (by decide) ?_
    exact hstep _ _ _ (by decide) h
  · exact absurd hm (by decide)

/-- The spacing stage with the all-whitespace class leaves no newline. -/
theorem stage_noNl (u : List Char) :
    '\n' ∉ jsTrim (gCollapse isJsWs (sentenceSpace u)) := by
  intro hc
  have hm := (jsTrim_within _).subset hc
  rcases gCollapse_mem isJsWs (sentenceSpace u) '\n' hm with h | ⟨_, hp⟩
  · exact absurd h (by decide)
  · exact absurd hp (by decide)

/-- The blank-line collapse is the identity on newline-free input. -/
theorem collapseBlankLines_id_of_noNl (s : List Char) (h : '\n' ∉ s) :
    collapseBlankLines s = s := by
  induction s with
  | nil => rw [collapseBlankLines]
  | cons c rest ih =>
    rw [collapseBlankLines_cons]
    have hc : ¬(c = '\n') := fun hc => h (hc ▸ List.mem_cons_self c rest)
    rw [if_neg hc, ih (fun hm => h (List.mem_cons_of_mem c hm))]

/-- On a disciplined trimmed string the first stage is the identity. -/
theorem stageA_id (z : List Char) (h : WDisc z) (ht : Trimmed z) :
    jsTrim (collapseHWs z) = z := by
  rw [collapseHWs_eq_g, gCollapse_eq_self, jsTrim_eq_self _ ht]
  constructor
  · intro c hc hpc
    rcases h.1 c hc (isHWs_imp_isJsWs c hpc) with he | he
    · exact he
    · rw [he] at hpc
      exact absurd hpc (by decide)
  · refine chain'_imp_mem z ?_ h.2.1
    intro a b ha hb hab
    rintro ⟨hpa, hpb⟩
    refine hab ⟨?_, ?_⟩
    · rcases h.1 a ha (isHWs_imp_isJsWs a hpa) with he | he
      · exact he
      · rw [he] at hpa
        exact absurd hpa (by decide)
    · rcases h.1 b hb (isHWs_imp_isJsWs b hpb) with he | he
      · exact he
      · rw [he] at hpb
        exact absurd hpb (by decide)

/-- Non-newline whitespace is whitespace. -/
theorem isNonNlWs_imp_isJsWs (c : Char) (h : isNonNlWs c = true) :
    isJsWs c = true :=
  ((Bool.and_eq_true _ _).mp h).1

/-- The preserve-newlines spacing stage computed through the respacing
closure, on a disciplined string. -/
theorem stageS_eq_respT_pn (v : List Char) (h : WDisc v) :
    jsTrim (collapseNonNlWs (sentenceSpace v)) = jsTrim (respT v) := by
  rw [collapseNonNlWs_eq_g,
    gCollapse_sentence_eq_respT isNonNlWs (by decide)
      isNonNlWs_imp_isJsWs v ?_ ?_ ?_]
  · intro c hc hpc
    rcases h.1 c hc (isNonNlWs_imp_isJsWs c hpc) with he | he
    · exact he
    · rw [he] at hpc
      exact absurd hpc (by decide)
  · refine chain'_imp_mem v ?_ h.2.1
    intro a b ha hb hab
    rintro ⟨hpa, hpb⟩
    refine hab ⟨?_, ?_⟩
    · rcases h.1 a ha (isNonNlWs_imp_isJsWs a hpa) with he | he
      · exact he
      · rw [he] at hpa
        exact absurd hpa (by decide)
    · rcases h.1 b hb (isNonNlWs_imp_isJsWs b hpb) with he | he
      · exact he
      · rw [he] at hpb
        exact absurd hpb (by decide)
  · refine h.2.2.imp ?_
    intro a b hab hp hws
    rw [hab hp hws]
    decide

/-- The collapse-everything spacing stage computed through the respacing
closure, on a disciplined newline-free string. -/
theorem stageS_eq_respT_nopn (v : List Char) (h : WDisc v)
    (hnl : '\n' ∉ v) :
    jsTrim (collapseAllWs (sentenceSpace v)) = jsTrim (respT v) := by
  rw [collapseAllWs_eq_g,
    gCollapse_sentence_eq_respT isJsWs (by decide)
      (fun c hc => hc) v ?_ ?_ ?_]
  · intro c hc hpc
    rcases h.1 c hc hpc with he | he
    · exact he
    · rw [he] at hc
      exact absurd hc hnl
  · refine chain'_imp_mem v ?_ h.2.1
    intro a b ha hb hab
    rintro ⟨hpa, hpb⟩
    refine hab ⟨?_, ?_⟩
    · rcases h.1 a ha hpa with he | he
      · exact he
      · rw [he] at ha
        exact absurd ha hnl
    · rcases h.1 b hb hpb with he | he
      · exact he
      · rw [he] at hb
        exact absurd hb hnl
  · exact chain'_of_mem_pairs v (fun a b _ _ _ hw => hw)

/-- The spacing stage always yields a sentence-disciplined string. -/
theorem stage_sentOk (p : Char → Bool) (u : List Char) :
    SentOk (jsTrim (gCollapse p (sentenceSpace u))) := by
  have hso : SentOk (gCollapse p (sentenceSpace u)) :=
    gCollapse_chain' p _ (fun a _ => Or.inr rfl)
      (fun b hp' => absurd hp' (by decide)) _ (sentenceSpace_sentOk u)
  exact chain'_sub hso (jsTrim_within _)

/-- Trimming the respacing of a term-fixed string recovers the two
rewrite passes on the original. -/
theorem back_half (w : List Char) (hso : SentOk w) (ht : Trimmed w) :
    jsTrim (respT (techTermFixes w)) = rmJava (rmType w) := by
  have htrm : Trimmed (rmJava (rmType w)) := by
    refine replaceMulti_trimmed _ _ (by decide) (by decide) _ ?_
    exact replaceMulti_trimmed _ _ (by decide) (by decide) _ ht
  rw [respT_techTermFixes, respT_of_sentOk w hso]
  by_cases he : endsPunct w = true
  · rw [if_pos he]
    have e1 : rmType (w ++ [' ']) = rmType w ++ [' '] := by
      unfold rmType
      exact replaceMulti_append_tail _ _ ' ' (by decide) w
    have e2 : rmJava (rmType w ++ [' ']) = rmJava (rmType w) ++ [' '] := by
      unfold rmJava
      exact replaceMulti_append_tail _ _ ' ' (by decide) (rmType w)
    rw [e1, e2, jsTrim_append_space, jsTrim_eq_self _ htrm]
  · rw [if_neg he, List.append_nil, jsTrim_eq_self _ htrm]

/-- The markdown stage of `processText`, parameterised by the flags. -/
def stageM (t : List Char) (pn pm : Bool) : List Char :=
  if pm then
    collapseBlankLines (bulletListRule
      (numberListRule (headingRule t true) true) true)
  else
    if !pn then
      newlinesToSpaces (bulletListRule (numberListRule t true) true)
    else bulletListRule (numberListRule t true) true

/-- The spacing stage of `processText`, parameterised by the flag. -/
def stageS (t : List Char) (pn : Bool) : List Char :=
  if pn then jsTrim (collapseNonNlWs (sentenceSpace t))
  else jsTrim (collapseAllWs (sentenceSpace t))

/-- `processText` as the composition of its four stages. -/
theorem processText_eq (x : List Char) (pn pm : Bool) :
    processText x pn pm =
      techTermFixes (stageS (stageM (jsTrim (collapseHWs x)) pn pm) pn) := by
  cases pn <;> cases pm <;> rfl

/-! ## Idempotence of `processText`: the line-start shape scanners -/

/-- Goodness of the text after a line-initial `digits.`: material the
number-list rewrite leaves respacing-invariant. -/
def goodAfter : List Char → Bool
| [] => true
| d :: t =>
  if d = ' ' then
    match t with
    | [] => true
    | e :: _ => !(isJsWs e)
  else !(isJsWs d) && !(exclNext d)

/-- Every line-initial `digits.` site is in good shape for the
number-list rule. -/
def numOk : List Char → Bool → Bool
| [], _ => true
| c :: rest, b =>
  if b && c.isDigit then
    if beginsWith (vfsR1 (c :: rest)) ['.'] then
      goodAfter ((vfsR1 (c :: rest)).drop 1) &&
        numOk (numCont (c :: rest)) (numFlag (c :: rest))
    else numOk rest (c = '\n')
  else numOk rest (c = '\n')
termination_by s _ => s.length
decreasing_by
· simp only [numCont, numWs, vfsR1, List.length_drop, List.length_cons]
  omega
· simp
· simp

/-- Goodness of the text after a line-initial bullet marker. -/
def goodBul : List Char → Bool
| [] => true
| d :: t =>
  if d = ' ' then
    match t with
    | [] => true
    | e :: _ => !(isJsWs e)
  else false

/-- Every line-initial `*`/`-` site is in good shape for the
bullet-list rule. -/
def bulOk : List Char → Bool → Bool
| [], _ => true
| c :: rest, b =>
  if b && (c = '*' || c = '-') then
    goodBul rest && bulOk (rest.drop (rest.takeWhile isJsWs).length)
      (decide ((rest.takeWhile isJsWs).getLast? = some '\n'))
  else bulOk rest (c = '\n')
termination_by s _ => s.length
decreasing_by
· simp only [List.length_drop, List.length_cons]
  omega
· simp

/-- No line-initial hash run fires the heading rule. -/
def headOk : List Char → Bool → Bool
| [], _ => true
| c :: rest, b =>
  if b && c = '#' then !(hashFire (c :: rest)) && headOk rest false
  else headOk rest (c = '\n')

/-- No newline run of length three or more. -/
def cblOk : List Char → Bool
| [] => true
| c :: rest =>
  if c = '\n' then !((nlRun (c :: rest)).length ≥ 3 : Bool) && cblOk rest
  else cblOk rest

/-- One unfolding step of `numOk`. -/
theorem numOk_cons (c : Char) (rest : List Char) (b : Bool) :
    numOk (c :: rest) b =
      if b && c.isDigit then
        if beginsWith (vfsR1 (c :: rest)) ['.'] then
          goodAfter ((vfsR1 (c :: rest)).drop 1) &&
            numOk (numCont (c :: rest)) (numFlag (c :: rest))
        else numOk rest (c = '\n')
      else numOk rest (c = '\n') := by
  rw [numOk]

/-- One unfolding step of `bulOk`. -/
theorem bulOk_cons (c : Char) (rest : List Char) (b : Bool) :
    bulOk (c :: rest) b =
      if b && (c = '*' || c = '-') then
        goodBul rest && bulOk (rest.drop (rest.takeWhile isJsWs).length)
          (decide ((rest.takeWhile isJsWs).getLast? = some '\n'))
      else bulOk rest (c = '\n') := by
  rw [bulOk]

/-- One unfolding step of `headOk`. -/
theorem headOk_cons (c : Char) (rest : List Char) (b : Bool) :
    headOk (c :: rest) b =
      if b && c = '#' then !(hashFire (c :: rest)) && headOk rest false
      else headOk rest (c = '\n') := by
  rw [headOk]

/-- One unfolding step of `cblOk`. -/
theorem cblOk_cons (c : Char) (rest : List Char) :
    cblOk (c :: rest) =
      if c = '\n' then
        !((nlRun (c :: rest)).length ≥ 3 : Bool) && cblOk rest
      else cblOk rest := by
  rw [cblOk]

/-! ## Idempotence of `processText`: congruence of the markdown rules -/

/-- On a heading-shaped string the heading rule is the identity. -/
theorem headingRule_id (s : List Char) (b : Bool)
    (h : headOk s b = true) : headingRule s b = s := by
  induction s generalizing b with
  | nil => rw [headingRule]
  | cons c rest ih =>
    rw [headingRule_cons]
    rw [headOk_cons] at h
    by_cases hb : (b && c = '#') = true
    · rw [if_pos hb] at h ⊢
      obtain ⟨h1, h2⟩ := (Bool.and_eq_true _ _).mp h
      rw [if_neg (by simpa using h1), ih false h2]
    · rw [if_neg hb] at h ⊢
      rw [ih (c = '\n') h]

/-- On a string without long newline runs the blank-line collapse is the
identity. -/
theorem collapseBlankLines_id (s : List Char) (h : cblOk s = true) :
    collapseBlankLines s = s := by
  induction s with
  | nil => rw [collapseBlankLines]
  | cons c rest ih =>
    rw [collapseBlankLines_cons]
    rw [cblOk_cons] at h
    by_cases hc : c = '\n'
    · rw [if_pos hc] at h ⊢
      obtain ⟨h1, h2⟩ := (Bool.and_eq_true _ _).mp h
      rw [if_neg (by simpa using h1), ih h2]
    · rw [if_neg hc] at h ⊢
      rw [ih h]

/-- On a number-shaped string the number-list rule is invisible to the
respacing closure. -/
theorem respT_numberListRule (s : List Char) (b : Bool)
    (h : numOk s b = true) :
    respT (numberListRule s b) = respT s := by
  suffices H : ∀ n (s : List Char) (b : Bool), s.length = n →
      numOk s b = true → respT (numberListRule s b) = respT s from
    H s.length s b rfl h
  intro n
  induction n using Nat.strong_induction_on with
  | _ n ihn =>
    intro s b hn h
    cases s with
    | nil => rw [numberListRule]
    | cons c rest =>
      rw [numberListRule_cons]
      rw [numOk_cons] at h
      by_cases hb : (b && c.isDigit) = true
      · rw [if_pos hb] at h ⊢
        by_cases hg : beginsWith (vfsR1 (c :: rest)) ['.'] = true
        · rw [if_pos hg] at h ⊢
          obtain ⟨hga, hrec⟩ := (Bool.and_eq_true _ _).mp h
          have hcd : c.isDigit = true := ((Bool.and_eq_true _ _).mp hb).2
          have hsplit1 : (c :: rest) =
              vfsD1 (c :: rest) ++ vfsR1 (c :: rest) :=
            eq_append_drop_of_beginsWith (c :: rest) (vfsD1 (c :: rest))
              (List.isPrefixOf_iff_prefix.mpr (List.takeWhile_prefix _))
          have hsplit2 : vfsR1 (c :: rest) =
              '.' :: ((vfsR1 (c :: rest)).drop 1) := by
            have h2 := eq_append_drop_of_beginsWith _ _ hg
            simpa using h2
          have hd1np : ∀ x ∈ vfsD1 (c :: rest), sentPunct x = false :=
            fun x hx =>
              sentPunct_eq_false_of_isDigit x (List.mem_takeWhile_imp hx)
          have hih := ihn (numCont (c :: rest)).length
            (hn ▸ numCont_length_lt c rest hcd) (numCont (c :: rest))
            (numFlag (c :: rest)) rfl hrec
          cases hAD : (vfsR1 (c :: rest)).drop 1 with
          | nil =>
            have hcont : numCont (c :: rest) = [] := by
              rw [numCont, hAD]
              exact List.drop_nil
            rw [hcont,
              show numberListRule [] (numFlag (c :: rest)) = [] from by
                rw [numberListRule]]
            conv_rhs => rw [hsplit1, hsplit2, hAD]
            rw [respT_block _ hd1np, respT_block _ hd1np]
            rfl
          | cons d t =>
            by_cases hd : d = ' '
            · subst hd
              cases t with
              | nil =>
                have hws : numWs (c :: rest) = [' '] := by
                  rw [numWs, hAD]
                  rfl
                have hcont : numCont (c :: rest) = [] := by
                  rw [numCont, hAD, hws]
                  rfl
                rw [hcont,
                  show numberListRule [] (numFlag (c :: rest)) = [] from by
                    rw [numberListRule]]
                conv_rhs => rw [hsplit1, hsplit2, hAD]
              | cons e t' =>
                have hgae : isJsWs e = false := by
                  rw [hAD] at hga
                  simpa [goodAfter] using hga
                have hws : numWs (c :: rest) = [' '] := by
                  rw [numWs, hAD,
                    List.takeWhile_cons_of_pos (by decide),
                    List.takeWhile_cons_of_neg (by simp [hgae])]
                have hcont : numCont (c :: rest) = e :: t' := by
                  rw [numCont, hAD, hws]
                  rfl
                rw [hcont] at hih
                rw [hcont, respT_block _ hd1np, respT_punct_space, hih]
                conv_rhs => rw [hsplit1, hsplit2, hAD]
                rw [respT_block _ hd1np, respT_punct_space]
            · have hgad : isJsWs d = false ∧ exclNext d = false := by
                rw [hAD] at hga
                have := hga
                simp only [goodAfter, if_neg hd, Bool.and_eq_true,
                  Bool.not_eq_true'] at this
                exact this
              have hws : numWs (c :: rest) = [] := by
                rw [numWs, hAD,
                  List.takeWhile_cons_of_neg (by simp [hgad.1])]
              have hcont : numCont (c :: rest) = d :: t := by
                rw [numCont, hAD, hws]
                rfl
              rw [hcont] at hih
              rw [hcont, respT_block _ hd1np, respT_punct_space, hih]
              conv_rhs => rw [hsplit1, hsplit2, hAD]
              rw [respT_block _ hd1np,
                respT_punct_solid '.' d t (by decide) hgad.2 hgad.1]
        · rw [if_neg hg] at h ⊢
          rw [respT_cons, respT_cons, numberListRule_head,
            ihn rest.length (by simp [← hn]) rest (c = '\n') rfl h]
      · rw [if_neg hb] at h ⊢
        rw [respT_cons, respT_cons, numberListRule_head,
          ihn rest.length (by simp [← hn]) rest (c = '\n') rfl h]

/-- On a bullet-shaped string the bullet-list rule is invisible to the
respacing closure, up to one trailing space. -/
theorem respT_bulletListRule (s : List Char) (b : Bool)
    (h : bulOk s b = true) :
    respT (bulletListRule s b) = respT s ∨
      respT (bulletListRule s b) = respT s ++ [' '] := by
  suffices H : ∀ n (s : List Char) (b : Bool), s.length = n →
      bulOk s b = true →
      respT (bulletListRule s b) = respT s ∨
        respT (bulletListRule s b) = respT s ++ [' '] from
    H s.length s b rfl h
  intro n
  induction n using Nat.strong_induction_on with
  | _ n ihn =>
    intro s b hn h
    cases s with
    | nil =>
      rw [bulletListRule]
      exact Or.inl rfl
    | cons c rest =>
      rw [bulletListRule_cons]
      rw [bulOk_cons] at h
      by_cases hb : (b && (c = '*' || c = '-')) = true
      · rw [if_pos hb] at h ⊢
        obtain ⟨hgb, hrec⟩ := (Bool.and_eq_true _ _).mp h
        have hcm : c = '*' ∨ c = '-' := by
          have h2 := ((Bool.and_eq_true _ _).mp hb).2
          simpa using h2
        have hcnp : sentPunct c = false := by
          rcases hcm with hc | hc <;> rw [hc] <;> decide
        cases rest with
        | nil =>
          rw [show List.takeWhile isJsWs ([] : List Char) = [] from rfl]
          rw [show List.drop ([] : List Char).length ([] : List Char) =
            [] from rfl]
          rw [show bulletListRule [] (decide ((([] : List Char)).getLast? =
            some '\n')) = [] from by rw [bulletListRule]]
          right
          rw [respT_nonpunct_cons c [' '] hcnp,
            respT_nonpunct_cons c [] hcnp]
          rfl
        | cons d t =>
          have hds : d = ' ' := by
            by_cases hd : d = ' '
            · exact hd
            · simp only [goodBul, if_neg hd] at hgb
              simp at hgb
          subst hds
          cases t with
          | nil =>
            have hws : List.takeWhile isJsWs [' '] = [' '] := rfl
            rw [hws]
            rw [show List.drop ([' '] : List Char).length [' '] = []
              from rfl]
            rw [show bulletListRule []
              (decide (([' '] : List Char).getLast? = some '\n')) = []
              from by rw [bulletListRule]]
            exact Or.inl rfl
          | cons e t' =>
            have hgae : isJsWs e = false := by
              simp only [goodBul] at hgb
              simpa using hgb
            have hws : List.takeWhile isJsWs (' ' :: e :: t') = [' '] := by
              rw [List.takeWhile_cons_of_pos (by decide),
                List.takeWhile_cons_of_neg (by simp [hgae])]
            rw [hws]
            rw [show List.drop ([' '] : List Char).length
              (' ' :: e :: t') = e :: t' from rfl]
            have hih := ihn (e :: t').length
              (by simp only [← hn, List.length_cons]; omega) (e :: t')
              (decide (([' '] : List Char).getLast? = some '\n')) rfl
              (by
                have hr2 := hrec
                rw [hws] at hr2
                exact hr2)
            rw [respT_nonpunct_cons c _ hcnp,
              respT_nonpunct_cons ' ' _ (by decide),
              respT_nonpunct_cons c _ hcnp,
              respT_nonpunct_cons ' ' _ (by decide)]
            rcases hih with he | he
            · rw [he]
              exact Or.inl rfl
            · rw [he]
              right
              rfl
      · rw [if_neg hb] at h ⊢
        have hih := ihn rest.length (by simp [← hn]) rest (c = '\n') rfl h
        rw [respT_cons, respT_cons, bulletListRule_head]
        by_cases hf : respFire c rest.head? = true
        · rw [if_pos hf, if_pos hf]
          rcases hih with he | he
          · rw [he]
            exact Or.inl rfl
          · rw [he]
            right
            rfl
        · rw [if_neg hf, if_neg hf]
          rcases hih with he | he
          · rw [he]
            exact Or.inl rfl
          · rw [he]
            right
            rfl

/-! ## Idempotence of `processText`: scanner walk helpers -/

/-- Off line starts, the number scanner skips a newline-free block. -/
theorem numOk_skip (a : List Char) (h : '\n' ∉ a) (t : List Char) :
    numOk (a ++ t) false = numOk t false := by
  induction a with
  | nil => rfl
  | cons x a' ih =>
    rw [List.cons_append, numOk_cons]
    have hx : ¬(x = '\n') := fun hx => h (hx ▸ List.mem_cons_self x a')
    simp only [Bool.false_and, if_neg (by simp : ¬(false = true))]
    rw [show (decide (x = '\n')) = false from by simpa using hx]
    exact ih (fun hm => h (List.mem_cons_of_mem x hm))

/-- Off line starts, the bullet scanner skips a newline-free block. -/
theorem bulOk_skip (a : List Char) (h : '\n' ∉ a) (t : List Char) :
    bulOk (a ++ t) false = bulOk t false := by
  induction a with
  | nil => rfl
  | cons x a' ih =>
    rw [List.cons_append, bulOk_cons]
    have hx : ¬(x = '\n') := fun hx => h (hx ▸ List.mem_cons_self x a')
    simp only [Bool.false_and, if_neg (by simp : ¬(false = true))]
    rw [show (decide (x = '\n')) = false from by simpa using hx]
    exact ih (fun hm => h (List.mem_cons_of_mem x hm))

/-- Off line starts, the heading scanner skips a newline-free block. -/
theorem headOk_skip (a : List Char) (h : '\n' ∉ a) (t : List Char) :
    headOk (a ++ t) false = headOk t false := by
  induction a with
  | nil => rfl
  | cons x a' ih =>
    rw [List.cons_append, headOk_cons]
    have hx : ¬(x = '\n') := fun hx => h (hx ▸ List.mem_cons_self x a')
    simp only [Bool.false_and, if_neg (by simp : ¬(false = true))]
    rw [show (decide (x = '\n')) = false from by simpa using hx]
    exact ih (fun hm => h (List.mem_cons_of_mem x hm))

/-- Whitespace is never a digit. -/
theorem isDigit_eq_false_of_ws (c : Char) (h : isJsWs c = true) :
    c.isDigit = false := by
  cases hd : c.isDigit
  · rfl
  · rw [isJsWs_eq_false_of_isDigit c hd] at h
    exact absurd h (by simp)

/-- The bullet and heading triggers and the hash are not whitespace. -/
theorem trigger_not_ws (c : Char) (h : isJsWs c = true) :
    (c = '*') = False ∧ (c = '-') = False ∧ (c = '#') = False := by
  refine ⟨?_, ?_, ?_⟩ <;>
    simp only [eq_iff_iff, iff_false] <;>
    intro he <;>
    subst he <;>
    exact absurd h (by decide)

/-- The number scanner crosses a whitespace run, ending at a line start
exactly when the run ends with a newline. -/
theorem numOk_ws_walk (x : Char) (run : List Char) :
    ∀ (t : List Char) (bp : Bool), (∀ c ∈ x :: run, isJsWs c = true) →
    numOk ((x :: run) ++ t) bp =
      numOk t (decide ((x :: run).getLast? = some '\n')) := by
  induction run generalizing x with
  | nil =>
    intro t bp hall
    have hx : isJsWs x = true := hall x (by simp)
    rw [List.cons_append, List.nil_append, numOk_cons,
      if_neg (by simp [isDigit_eq_false_of_ws x hx])]
    simp
  | cons y run' ih =>
    intro t bp hall
    have hx : isJsWs x = true := hall x (by simp)
    rw [List.getLast?_cons_cons, List.cons_append, numOk_cons,
      if_neg (by simp [isDigit_eq_false_of_ws x hx])]
    exact ih y t (decide (x = '\n'))
      (fun c hc => hall c (List.mem_cons_of_mem x hc))

/-- The bullet scanner crosses a whitespace run, ending at a line start
exactly when the run ends with a newline. -/
theorem bulOk_ws_walk (x : Char) (run : List Char) :
    ∀ (t : List Char) (bp : Bool), (∀ c ∈ x :: run, isJsWs c = true) →
    bulOk ((x :: run) ++ t) bp =
      bulOk t (decide ((x :: run).getLast? = some '\n')) := by
  induction run generalizing x with
  | nil =>
    intro t bp hall
    have hx : isJsWs x = true := hall x (by simp)
    obtain ⟨h1, h2, _⟩ := trigger_not_ws x hx
    rw [List.cons_append, List.nil_append, bulOk_cons,
      if_neg (by simp [h1, h2])]
    simp
  | cons y run' ih =>
    intro t bp hall
    have hx : isJsWs x = true := hall x (by simp)
    obtain ⟨h1, h2, _⟩ := trigger_not_ws x hx
    rw [List.getLast?_cons_cons, List.cons_append, bulOk_cons,
      if_neg (by simp [h1, h2])]
    exact ih y t (decide (x = '\n'))
      (fun c hc => hall c (List.mem_cons_of_mem x hc))

/-- The heading scanner crosses a whitespace run, ending at a line start
exactly when the run ends with a newline. -/
theorem headOk_ws_walk (x : Char) (run : List Char) :
    ∀ (t : List Char) (bp : Bool), (∀ c ∈ x :: run, isJsWs c = true) →
    headOk ((x :: run) ++ t) bp =
      headOk t (decide ((x :: run).getLast? = some '\n')) := by
  induction run generalizing x with
  | nil =>
    intro t bp hall
    have hx : isJsWs x = true := hall x (by simp)
    obtain ⟨_, _, h3⟩ := trigger_not_ws x hx
    rw [List.cons_append, List.nil_append, headOk_cons,
      if_neg (by simp [h3])]
    simp
  | cons y run' ih =>
    intro t bp hall
    have hx : isJsWs x = true := hall x (by simp)
    obtain ⟨_, _, h3⟩ := trigger_not_ws x hx
    rw [List.getLast?_cons_cons, List.cons_append, headOk_cons,
      if_neg (by simp [h3])]
    exact ih y t (decide (x = '\n'))
      (fun c hc => hall c (List.mem_cons_of_mem x hc))

/-- Matching a one-character pattern inspects only the head. -/
theorem beginsWith_single (s : List Char) (x : Char) :
    beginsWith s [x] = true ↔ s.head? = some x := by
  rw [show beginsWith s [x] = List.isPrefixOf [x] s from rfl,
    List.isPrefixOf_iff_prefix]
  cases s with
  | nil => simp
  | cons c t =>
    constructor
    · intro h
      rcases h with ⟨u, hu⟩
      cases hu
      rfl
    · intro h
      have h2 : c = x := by simpa using h
      rw [h2]
      exact ⟨t, rfl⟩

/-- `takeWhile` stops exactly at the end of an all-true block. -/
theorem takeWhile_append_head (p : Char → Bool) (a t : List Char)
    (ha : ∀ c ∈ a, p c = true)
    (ht : ∀ d, t.head? = some d → p d = false) :
    (a ++ t).takeWhile p = a := by
  induction a with
  | nil =>
    cases t with
    | nil => rfl
    | cons d t' =>
      rw [List.nil_append,
        List.takeWhile_cons_of_neg (by simp [ht d rfl])]
  | cons x a' ih =>
    rw [List.cons_append, List.takeWhile_cons_of_pos (ha x (by simp)),
      ih (fun c hc => ha c (List.mem_cons_of_mem _ hc))]

/-- Off line starts, the number-list rule echoes a newline-free block. -/
theorem numberListRule_walk (a : List Char) (h : '\n' ∉ a)
    (t : List Char) :
    numberListRule (a ++ t) false = a ++ numberListRule t false := by
  induction a with
  | nil => rfl
  | cons x a' ih =>
    rw [List.cons_append, numberListRule_cons]
    simp only [Bool.false_and, if_neg (by simp : ¬(false = true))]
    have hx : ¬(x = '\n') := fun hx => h (hx ▸ List.mem_cons_self x a')
    rw [show (decide (x = '\n')) = false from by simpa using hx,
      ih (fun hm => h (List.mem_cons_of_mem x hm)), List.cons_append]

/-- The output of the number-list rule is number-shaped. -/
theorem numOk_out (v : List Char) (b bp : Bool)
    (hi : bp = true → b = true) :
    numOk (numberListRule v b) bp = true := by
  suffices H : ∀ n (v : List Char) (b bp : Bool), v.length = n →
      (bp = true → b = true) → numOk (numberListRule v b) bp = true from
    H v.length v b bp rfl hi
  intro n
  induction n using Nat.strong_induction_on with
  | _ n ihn =>
    intro v b bp hn hi
    cases v with
    | nil =>
      rw [numberListRule]
      rw [numOk]
    | cons c rest =>
      rw [numberListRule_cons]
      by_cases hb : (b && c.isDigit) = true
      · rw [if_pos hb]
        have hcd : c.isDigit = true := ((Bool.and_eq_true _ _).mp hb).2
        by_cases hg : beginsWith (vfsR1 (c :: rest)) ['.'] = true
        · rw [if_pos hg]
          have hd1 : vfsD1 (c :: rest) = c :: rest.takeWhile Char.isDigit := by
            simp [vfsD1, List.takeWhile_cons_of_pos hcd]
          have hd1dig : ∀ x ∈ vfsD1 (c :: rest), x.isDigit = true :=
            fun x hx => List.mem_takeWhile_imp hx
          have hd1nl : '\n' ∉ vfsD1 (c :: rest) := by
            intro hm
            have := hd1dig '\n' hm
            exact absurd this (by decide)
          set O := numberListRule (numCont (c :: rest))
            (numFlag (c :: rest)) with hO
          have hOhead : ∀ d, O.head? = some d → isJsWs d = false := by
            intro d hd
            rw [hO, numberListRule_head] at hd
            exact drop_takeWhile_head isJsWs _ d hd
          have hih := ihn (numCont (c :: rest)).length
            (hn ▸ numCont_length_lt c rest hcd) (numCont (c :: rest))
            (numFlag (c :: rest)) false rfl (by simp)
          -- the output splits at the head
          obtain ⟨d1t, hd1t⟩ : ∃ d1t, vfsD1 (c :: rest) = c :: d1t :=
            ⟨rest.takeWhile Char.isDigit, hd1⟩
          rw [hd1t, List.cons_append, numOk_cons]
          by_cases hbp : bp = true
          · subst hbp
            rw [if_pos (by simp [hcd])]
            -- the scanner fires at the rebuilt site
            have htw : (d1t ++ '.' :: ' ' :: O).takeWhile Char.isDigit
                = d1t := by
              refine takeWhile_append_head _ _ _ ?_ ?_
              · intro x hx
                exact hd1dig x (hd1t ▸ List.mem_cons_of_mem c hx)
              · intro d hd
                have hde : d = '.' := by simpa using hd.symm
                subst hde
                decide
            have hr1 : vfsR1 (c :: (d1t ++ '.' :: ' ' :: O)) =
                '.' :: ' ' :: O := by
              rw [vfsR1, vfsD1,
                List.takeWhile_cons_of_pos hcd, htw]
              simp only [List.length_cons]
              rw [List.drop_succ_cons, List.drop_left]
            rw [if_pos (by rw [hr1]; exact (beginsWith_single _ '.').mpr rfl)]
            rw [hr1]
            have hdrop : ('.' :: ' ' :: O).drop 1 = ' ' :: O := rfl
            rw [hdrop]
            have hga : goodAfter (' ' :: O) = true := by
              cases hOc : O with
              | nil => rfl
              | cons o os =>
                have hws := hOhead o (by rw [hOc]; rfl)
                simp [goodAfter, hws]
            rw [hga]
            have hwsO : (' ' :: O).takeWhile isJsWs = [' '] := by
              cases hOc : O with
              | nil => rfl
              | cons o os =>
                rw [List.takeWhile_cons_of_pos (by decide),
                  List.takeWhile_cons_of_neg
                    (by simp [hOhead o (by rw [hOc]; rfl)])]
            have hcont : numCont (c :: (d1t ++ '.' :: ' ' :: O)) = O := by
              rw [numCont, numWs, hr1, hdrop, hwsO]
              rfl
            have hflag : numFlag (c :: (d1t ++ '.' :: ' ' :: O)) = false := by
              rw [numFlag, numWs, hr1, hdrop, hwsO]
              rfl
            rw [hcont, hflag]
            simpa using hih
          · have hbpf : bp = false := by simpa using hbp
            subst hbpf
            rw [if_neg (by simp)]
            rw [show (decide (c = '\n')) = false from by
              have : ¬(c = '\n') := fun hc => by
                rw [hc] at hcd
                exact absurd hcd (by decide)
              simpa using this]
            have hsplit : d1t ++ '.' :: ' ' :: O =
                (d1t ++ ['.', ' ']) ++ O := by
              simp
            rw [hsplit, numOk_skip _ (by
              intro hm
              rcases List.mem_append.mp hm with hm | hm
              · exact hd1nl (hd1t ▸ List.mem_cons_of_mem c hm)
              · rcases List.mem_cons.mp hm with hm | hm
                · exact absurd hm (by decide)
                · rcases List.mem_cons.mp hm with hm | hm
                  · exact absurd hm (by decide)
                  · simp at hm) O]
            exact hih
        · rw [if_neg hg]
          -- echoed digit line without a dot
          have hwalk : numberListRule rest (decide (c = '\n')) =
              numberListRule rest false := by
            rw [show (decide (c = '\n')) = false from by
              have : ¬(c = '\n') := fun hc => by
                rw [hc] at hcd
                exact absurd hcd (by decide)
              simpa using this]
          rw [hwalk]
          have ha : '\n' ∉ rest.takeWhile Char.isDigit := by
            intro hm
            have := List.mem_takeWhile_imp hm
            exact absurd this (by decide)
          have hsplitr : rest = rest.takeWhile Char.isDigit ++
              rest.drop (rest.takeWhile Char.isDigit).length :=
            eq_append_drop_of_beginsWith rest (rest.takeWhile Char.isDigit)
              (List.isPrefixOf_iff_prefix.mpr (List.takeWhile_prefix _))
          have hw2 : numberListRule rest false =
              rest.takeWhile Char.isDigit ++
                numberListRule
                  (rest.drop (rest.takeWhile Char.isDigit).length)
                  false := by
            conv_lhs => rw [hsplitr]
            exact numberListRule_walk _ ha _
          rw [hw2, numOk_cons]
          have hih := ihn
            (rest.drop (rest.takeWhile Char.isDigit).length).length
            (by simp only [← hn, List.length_drop, List.length_cons]; omega)
            (rest.drop (rest.takeWhile Char.isDigit).length) false false
            rfl (by simp)
          by_cases hbp : bp = true
          · subst hbp
            rw [if_pos (by simp [hcd])]
            have htw2 : (rest.takeWhile Char.isDigit ++
                numberListRule
                  (rest.drop (rest.takeWhile Char.isDigit).length)
                  false).takeWhile Char.isDigit =
                rest.takeWhile Char.isDigit := by
              refine takeWhile_append_head _ _ _
                (fun x hx => List.mem_takeWhile_imp hx) ?_
              intro d hd
              rw [numberListRule_head] at hd
              -- d is the head of the dropped remainder: not a digit
              have := drop_takeWhile_head Char.isDigit rest d hd
              exact this
            have hr1o : vfsR1 (c :: (rest.takeWhile Char.isDigit ++
                numberListRule
                  (rest.drop (rest.takeWhile Char.isDigit).length)
                  false)) =
                numberListRule
                  (rest.drop (rest.takeWhile Char.isDigit).length)
                  false := by
              rw [vfsR1, vfsD1, List.takeWhile_cons_of_pos hcd, htw2]
              simp only [List.length_cons]
              rw [List.drop_succ_cons, List.drop_left]
            have hgo : beginsWith (vfsR1 (c :: (rest.takeWhile Char.isDigit ++
                numberListRule
                  (rest.drop (rest.takeWhile Char.isDigit).length)
                  false))) ['.'] = false := by
              rw [hr1o]
              cases hbw : beginsWith (numberListRule
                  (rest.drop (rest.takeWhile Char.isDigit).length)
                  false) ['.']
              · rfl
              · exfalso
                have hh := (beginsWith_single _ '.').mp hbw
                rw [numberListRule_head] at hh
                -- the remainder starts with '.', contradicting hg
                have hr1i : vfsR1 (c :: rest) =
                    rest.drop (rest.takeWhile Char.isDigit).length := by
                  rw [vfsR1, vfsD1, List.takeWhile_cons_of_pos hcd]
                  simp only [List.length_cons]
                  rw [List.drop_succ_cons]
                exact absurd ((beginsWith_single (vfsR1 (c :: rest)) '.').mpr
                  (by rw [hr1i]; exact hh)) hg
            rw [if_neg (by simp [hgo])]
            rw [show (decide (c = '\n')) = false from by
              have : ¬(c = '\n') := fun hc => by
                rw [hc] at hcd
                exact absurd hcd (by decide)
              simpa using this]
            rw [numOk_skip _ ha _]
            exact hih
          · have hbpf : bp = false := by simpa using hbp
            subst hbpf
            rw [if_neg (by simp)]
            rw [show (decide (c = '\n')) = false from by
              have : ¬(c = '\n') := fun hc => by
                rw [hc] at hcd
                exact absurd hcd (by decide)
              simpa using this]
            rw [numOk_skip _ ha _]
            exact hih
      · rw [if_neg hb]
        have hbd : (bp && c.isDigit) = false := by
          cases hbp : bp
          · rfl
          · have hbt := hi hbp
            cases hcd : c.isDigit
            · simp
            · exact absurd (by simp [hbt, hcd] : (b && c.isDigit) = true) hb
        rw [numOk_cons, if_neg (by simp [hbd])]
        exact ihn rest.length (by simp [← hn]) rest (decide (c = '\n'))
          (decide (c = '\n')) rfl (fun h => h)

/-- The output of the bullet-list rule is bullet-shaped. -/
theorem bulOk_out (v : List Char) (b bp : Bool)
    (hi : bp = true → b = true) :
    bulOk (bulletListRule v b) bp = true := by
  suffices H : ∀ n (v : List Char) (b bp : Bool), v.length = n →
      (bp = true → b = true) → bulOk (bulletListRule v b) bp = true from
    H v.length v b bp rfl hi
  intro n
  induction n using Nat.strong_induction_on with
  | _ n ihn =>
    intro v b bp hn hi
    cases v with
    | nil =>
      rw [bulletListRule]
      rw [bulOk]
    | cons c rest =>
      rw [bulletListRule_cons]
      by_cases hb : (b && (c = '*' || c = '-')) = true
      · rw [if_pos hb]
        have hcm : ((c = '*' : Bool) || (c = '-' : Bool)) = true :=
          ((Bool.and_eq_true _ _).mp hb).2
        set O := bulletListRule (rest.drop (rest.takeWhile isJsWs).length)
          (decide ((rest.takeWhile isJsWs).getLast? = some '\n')) with hO
        have hOhead : ∀ d, O.head? = some d → isJsWs d = false := by
          intro d hd
          rw [hO, bulletListRule_head] at hd
          exact drop_takeWhile_head isJsWs rest d hd
        have hih := ihn (rest.drop (rest.takeWhile isJsWs).length).length
          (by simp only [← hn, List.length_drop, List.length_cons]; omega)
          (rest.drop (rest.takeWhile isJsWs).length)
          (decide ((rest.takeWhile isJsWs).getLast? = some '\n')) false rfl
          (by simp)
        have htw : (' ' :: O).takeWhile isJsWs = [' '] := by
          cases hOc : O with
          | nil => rfl
          | cons o os =>
            rw [List.takeWhile_cons_of_pos (by decide),
              List.takeWhile_cons_of_neg
                (by simp [hOhead o (by rw [hOc]; rfl)])]
        have hgb : goodBul (' ' :: O) = true := by
          cases hOc : O with
          | nil => decide
          | cons o os =>
            simp [goodBul, hOhead o (by rw [hOc]; rfl)]
        by_cases hbp : bp = true
        · subst hbp
          rw [bulOk_cons, if_pos (by simp [hcm]), htw, hgb]
          have hdrop : (' ' :: O).drop ([' '] : List Char).length = O := rfl
          have hflag :
              (decide (([' '] : List Char).getLast? = some '\n')) = false := by
            decide
          rw [hdrop, hflag]
          simpa using hih
        · have hbpf : bp = false := by simpa using hbp
          subst hbpf
          rw [bulOk_cons, if_neg (by simp)]
          have hcn : (decide (c = '\n')) = false := by
            have : ¬(c = '\n') := by
              rcases (Bool.or_eq_true _ _).mp hcm with h | h
              · have hc := of_decide_eq_true h
                rw [hc]
                decide
              · have hc := of_decide_eq_true h
                rw [hc]
                decide
            simpa using this
          rw [hcn, bulOk_cons, if_neg (by simp)]
          have h2 : (decide (' ' = '\n')) = false := by decide
          rw [h2]
          exact hih
      · rw [if_neg hb]
        have hbd : (bp && ((c = '*' : Bool) || (c = '-' : Bool))) = false := by
          cases hbp : bp
          · rfl
          · have hbt := hi hbp
            cases hcm : ((c = '*' : Bool) || (c = '-' : Bool))
            · simp
            · exact absurd
                (by simp [hbt, hcm] :
                  (b && ((c = '*' : Bool) || (c = '-' : Bool))) = true) hb
        rw [bulOk_cons, if_neg (by simp [hbd])]
        exact ihn rest.length (by simp [← hn]) rest (decide (c = '\n'))
          (decide (c = '\n')) rfl (fun h => h)

/-- Off line starts, the heading rule echoes a newline-free block. -/
theorem headingRule_walk (a : List Char) (h : '\n' ∉ a)
    (t : List Char) :
    headingRule (a ++ t) false = a ++ headingRule t false := by
  induction a with
  | nil => rfl
  | cons x a' ih =>
    rw [List.cons_append, headingRule_cons]
    simp only [Bool.false_and, if_neg (by simp : ¬(false = true))]
    have hx : ¬(x = '\n') := fun hx => h (hx ▸ List.mem_cons_self x a')
    rw [show (decide (x = '\n')) = false from by simpa using hx,
      ih (fun hm => h (List.mem_cons_of_mem x hm)), List.cons_append]

/-- `takeWhile` ignores an appended block whose head fails the test. -/
theorem takeWhile_append_nohead (p : Char → Bool) (w : List Char)
    (hw : ∀ d, w.head? = some d → p d = false) :
    ∀ a, (a ++ w).takeWhile p = a.takeWhile p := by
  intro a
  induction a with
  | nil =>
    cases w with
    | nil => rfl
    | cons d t =>
      rw [List.nil_append, List.takeWhile_cons_of_neg (by simp [hw d rfl])]
      rfl
  | cons x a' ih =>
    by_cases hx : p x = true
    · rw [List.cons_append, List.takeWhile_cons_of_pos hx,
        List.takeWhile_cons_of_pos hx, ih]
    · rw [List.cons_append,
        List.takeWhile_cons_of_neg (by simpa using hx),
        List.takeWhile_cons_of_neg (by simpa using hx)]

/-- `takeWhile` walks through an all-true prefix. -/
theorem takeWhile_append_all (p : Char → Bool) (a : List Char)
    (ha : ∀ x ∈ a, p x = true) (t : List Char) :
    (a ++ t).takeWhile p = a ++ t.takeWhile p := by
  induction a with
  | nil => rfl
  | cons x a' ih =>
    rw [List.cons_append, List.takeWhile_cons_of_pos (ha x (by simp)),
      ih (fun z hz => ha z (List.mem_cons_of_mem _ hz)), List.cons_append]

/-- Dropping inside the left part of an append. -/
theorem drop_append_le (a t : List Char) (k : Nat) (hk : k ≤ a.length) :
    (a ++ t).drop k = a.drop k ++ t := by
  rw [List.drop_append_eq_append_drop, Nat.sub_eq_zero_of_le hk,
    List.drop_zero]

/-- The heading-rule trigger only inspects the head of the remainder. -/
theorem hashFire_head (s : List Char) :
    hashFire s = (decide ((hashRun s).length ≤ 6) &&
      (match (hashAfter s).head? with
       | some d => !(isJsWs d) && !(d = '#' : Bool)
       | none => false)) := by
  cases hd : hashAfter s with
  | nil =>
    rw [hashFire, hd]
    rfl
  | cons d tl =>
    rw [hashFire, hd]
    rfl

/-- The output of the heading rule is heading-shaped. -/
theorem headOk_out (v : List Char) (b bp : Bool)
    (hi : bp = true → b = true) :
    headOk (headingRule v b) bp = true := by
  suffices H : ∀ n (v : List Char) (b bp : Bool), v.length = n →
      (bp = true → b = true) → headOk (headingRule v b) bp = true from
    H v.length v b bp rfl hi
  intro n
  induction n using Nat.strong_induction_on with
  | _ n ihn =>
    intro v b bp hn hi
    cases v with
    | nil =>
      rw [headingRule]
      rw [headOk]
    | cons c rest =>
      rw [headingRule_cons]
      by_cases hb : (b && (c = '#' : Bool)) = true
      · rw [if_pos hb]
        have hch : c = '#' :=
          of_decide_eq_true ((Bool.and_eq_true _ _).mp hb).2
        subst hch
        by_cases hf : hashFire ('#' :: rest) = true
        · rw [if_pos hf]
          -- the fired site: run, single space, non-whitespace head
          have hrun : hashRun ('#' :: rest) =
              '#' :: rest.takeWhile (fun x => x = '#') := by
            rw [hashRun, List.takeWhile_cons_of_pos (by decide)]
          have hanil : hashAfter ('#' :: rest) ≠ [] := by
            intro hnil
            rw [hashFire, hnil] at hf
            simp at hf
          obtain ⟨d, tl, hdt⟩ : ∃ d tl, hashAfter ('#' :: rest) = d :: tl := by
            cases hdt : hashAfter ('#' :: rest) with
            | nil => exact absurd hdt hanil
            | cons d tl => exact ⟨d, tl, rfl⟩
          have hdok : (!(isJsWs d) && !(d = '#' : Bool)) = true := by
            rw [hashFire, hdt] at hf
            exact ((Bool.and_eq_true _ _).mp hf).2
          have hdws : isJsWs d = false := by
            have := ((Bool.and_eq_true _ _).mp hdok).1
            simpa using this
          have hdnl : ¬(d = '\n') := by
            intro hdn
            rw [hdn] at hdws
            exact absurd hdws (by decide)
          rw [hdt]
          have htake : (d :: tl).take 1 = [d] := rfl
          rw [htake]
          set O := headingRule ((d :: tl).drop 1) false with hO
          have hsh : hashRun ('#' :: rest) ++ ' ' :: ([d] ++ O) =
              '#' :: ((rest.takeWhile (fun x => x = '#') ++ [' ', d]) ++ O) := by
            rw [hrun]
            simp
          rw [hsh, headOk_cons]
          have hskip : '\n' ∉ rest.takeWhile (fun x => x = '#') ++ [' ', d] := by
            intro hm
            rcases List.mem_append.mp hm with hm | hm
            · have := List.mem_takeWhile_imp hm
              exact absurd (of_decide_eq_true this) (by decide)
            · rcases List.mem_cons.mp hm with hm | hm
              · exact absurd hm (by decide)
              · rcases List.mem_cons.mp hm with hm | hm
                · exact hdnl hm.symm
                · simp at hm
          have hih := ihn ((d :: tl).drop 1).length
            (by
              have := hashCont_length_lt '#' rest rfl
              rw [hdt] at this
              exact hn ▸ this)
            ((d :: tl).drop 1) false false rfl (by simp)
          by_cases hbp : bp = true
          · subst hbp
            rw [if_pos (by simp)]
            have hr2 : hashRun ('#' :: ((rest.takeWhile (fun x => x = '#') ++
                [' ', d]) ++ O)) =
                '#' :: rest.takeWhile (fun x => x = '#') := by
              rw [hashRun, List.takeWhile_cons_of_pos (by decide)]
              have hre : (rest.takeWhile (fun x => x = '#') ++ [' ', d]) ++ O =
                  rest.takeWhile (fun x => x = '#') ++ (' ' :: d :: O) := by
                simp
              rw [hre]
              exact congrArg (List.cons '#')
                (takeWhile_append_head (fun x => (x = '#' : Bool))
                  (rest.takeWhile (fun x => x = '#')) (' ' :: d :: O)
                  (fun x hx => by
                    have h := List.mem_takeWhile_imp hx
                    exact h)
                  (fun e he => by
                    have he2 : e = ' ' := by simpa using he.symm
                    rw [he2]
                    decide))
            have haft2 : hashAfter ('#' :: ((rest.takeWhile (fun x => x = '#')
                ++ [' ', d]) ++ O)) = ' ' :: d :: O := by
              rw [hashAfter, hr2]
              simp only [List.length_cons]
              rw [List.drop_succ_cons]
              have hre : (rest.takeWhile (fun x => x = '#') ++ [' ', d]) ++ O =
                  rest.takeWhile (fun x => x = '#') ++ (' ' :: d :: O) := by
                simp
              rw [hre, List.drop_left]
            have hfo : hashFire ('#' :: ((rest.takeWhile (fun x => x = '#') ++
                [' ', d]) ++ O)) = false := by
              rw [hashFire_head, haft2]
              show (decide ((hashRun _).length ≤ 6) &&
                (!(isJsWs ' ') && !(' ' = '#' : Bool))) = false
              rw [show isJsWs ' ' = true from by decide]
              simp
            rw [hfo]
            rw [headOk_skip _ hskip O]
            simpa using hih
          · have hbpf : bp = false := by simpa using hbp
            subst hbpf
            rw [if_neg (by simp)]
            rw [show (decide ('#' = '\n')) = false from by decide]
            rw [headOk_skip _ hskip O]
            exact hih
        · rw [if_neg hf]
          -- echoed hash line: rebuild the same dead site
          set a := rest.takeWhile (fun x => x = '#') with hadef
          have hanl : '\n' ∉ a := by
            intro hm
            have := List.mem_takeWhile_imp hm
            exact absurd (of_decide_eq_true this) (by decide)
          have hsplitr : rest = a ++ rest.drop a.length := by
            conv_lhs => rw [← List.take_append_drop a.length rest]
            rw [← List.prefix_iff_eq_take.mp (hadef ▸ List.takeWhile_prefix _)]
          have hw2 : headingRule rest false =
              a ++ headingRule (rest.drop a.length) false := by
            conv_lhs => rw [hsplitr]
            exact headingRule_walk _ hanl _
          rw [hw2, headOk_cons]
          have hih := ihn (rest.drop a.length).length
            (by simp only [← hn, List.length_drop, List.length_cons]; omega)
            (rest.drop a.length) false false rfl (by simp)
          have hheado : ∀ e, (headingRule (rest.drop a.length) false).head? =
              some e → (e = '#' : Bool) = false := by
            intro e he
            rw [headingRule_head] at he
            rw [hadef] at he
            exact drop_takeWhile_head (fun x => (x = '#' : Bool)) rest e he
          have hr3 : hashRun ('#' :: (a ++ headingRule (rest.drop a.length)
              false)) = '#' :: a := by
            rw [hashRun, List.takeWhile_cons_of_pos (by decide)]
            exact congrArg (List.cons '#')
              (takeWhile_append_head (fun x => (x = '#' : Bool)) a
                (headingRule (rest.drop a.length) false)
                (fun x hx => by
                  rw [hadef] at hx
                  have h := List.mem_takeWhile_imp hx
                  exact h) hheado)
          have hfo2 : hashFire ('#' :: (a ++ headingRule (rest.drop a.length)
              false)) = false := by
            -- the dead input site stays dead in the output
            have hr3i : hashRun ('#' :: rest) = '#' :: a := by
              rw [hashRun, List.takeWhile_cons_of_pos (by decide), ← hadef]
            have haft : hashAfter ('#' :: (a ++ headingRule
                (rest.drop a.length) false)) =
                headingRule (rest.drop a.length) false := by
              rw [hashAfter, hr3]
              simp only [List.length_cons]
              rw [List.drop_succ_cons, List.drop_left]
            have hafti : hashAfter ('#' :: rest) = rest.drop a.length := by
              rw [hashAfter, hr3i]
              simp only [List.length_cons]
              rw [List.drop_succ_cons]
            rw [hashFire_head, hr3, haft, headingRule_head]
            rw [hashFire_head, hr3i, hafti] at hf
            simpa using hf
          rw [hfo2]
          by_cases hbp : bp = true
          · subst hbp
            rw [if_pos (by simp)]
            rw [headOk_skip _ hanl _]
            simpa using hih
          · have hbpf : bp = false := by simpa using hbp
            subst hbpf
            rw [if_neg (by simp)]
            rw [show (decide ('#' = '\n')) = false from by decide]
            rw [headOk_skip _ hanl _]
            exact hih
      · rw [if_neg hb]
        have hbd : (bp && (c = '#' : Bool)) = false := by
          cases hbp : bp
          · rfl
          · have hbt := hi hbp
            cases hch : (c = '#' : Bool)
            · simp
            · exact absurd (by simp [hbt, hch] :
                (b && (c = '#' : Bool)) = true) hb
        rw [headOk_cons, if_neg (by simp [hbd])]
        exact ihn rest.length (by simp [← hn]) rest (decide (c = '\n'))
          (decide (c = '\n')) rfl (fun h => h)

/-! ## Idempotence of `processText`: transport of the blank-line shape -/

/-- The blank-line scanner accepts every tail of an accepted string. -/
theorem cblOk_cons_down (c : Char) (t : List Char)
    (h : cblOk (c :: t) = true) : cblOk t = true := by
  rw [cblOk_cons] at h
  by_cases hc : c = '\n'
  · rw [if_pos hc] at h
    exact ((Bool.and_eq_true _ _).mp h).2
  · rw [if_neg hc] at h
    exact h

/-- The blank-line scanner walks through a newline-free block. -/
theorem cblOk_skip (a : List Char) (h : '\n' ∉ a) (t : List Char) :
    cblOk (a ++ t) = cblOk t := by
  induction a with
  | nil => rfl
  | cons x a' ih =>
    rw [List.cons_append, cblOk_cons,
      if_neg (fun hx => h (by rw [← hx]; exact List.mem_cons_self x a')),
      ih (fun hm => h (List.mem_cons_of_mem x hm))]

/-- Unfolding the newline run at a newline. -/
theorem nlRun_cons_nl (t : List Char) :
    nlRun ('\n' :: t) = '\n' :: nlRun t := by
  rw [nlRun, nlRun, List.takeWhile_cons_of_pos (by decide)]

/-- The newline run is empty at any other character. -/
theorem nlRun_cons_other (c : Char) (hc : ¬(c = '\n')) (t : List Char) :
    nlRun (c :: t) = [] := by
  rw [nlRun, List.takeWhile_cons_of_neg (by simpa using hc)]

/-- The newline run is empty when the head is not a newline. -/
theorem nlRun_nil_of_head (l : List Char)
    (h : ∀ d, l.head? = some d → ¬(d = '\n')) : nlRun l = [] := by
  cases l with
  | nil => rfl
  | cons c t => exact nlRun_cons_other c (h c rfl) t

/-- The blank-line scanner accepts every drop of an accepted string. -/
theorem cblOk_drop (k : Nat) : ∀ s : List Char, cblOk s = true →
    cblOk (s.drop k) = true := by
  induction k with
  | zero =>
    intro s h
    simpa using h
  | succ k ih =>
    intro s h
    cases s with
    | nil => simpa using h
    | cons c t => exact ih t (cblOk_cons_down c t h)

/-- Appending on the right can only extend the leading newline run. -/
theorem nlRun_length_le_append (u t : List Char) :
    (nlRun u).length ≤ (nlRun (u ++ t)).length := by
  induction u with
  | nil => simp [nlRun]
  | cons c u' ih =>
    by_cases hc : c = '\n'
    · subst hc
      rw [nlRun_cons_nl, List.cons_append, nlRun_cons_nl]
      simpa using ih
    · rw [nlRun_cons_other c hc]
      simp

/-- The blank-line scanner accepts every prefix of an accepted string. -/
theorem cblOk_prefix (a t : List Char)
    (h : cblOk (a ++ t) = true) : cblOk a = true := by
  induction a with
  | nil => rfl
  | cons c a' ih =>
    rw [List.cons_append] at h
    rw [cblOk_cons]
    by_cases hc : c = '\n'
    · subst hc
      rw [if_pos rfl]
      rw [cblOk_cons, if_pos rfl] at h
      obtain ⟨h1, h2⟩ := (Bool.and_eq_true _ _).mp h
      refine (Bool.and_eq_true _ _).mpr ⟨?_, ih h2⟩
      have hle : (nlRun ('\n' :: a')).length ≤
          (nlRun ('\n' :: (a' ++ t))).length := by
        rw [show ('\n' :: (a' ++ t)) = ('\n' :: a') ++ t from rfl]
        exact nlRun_length_le_append _ _
      simp only [Bool.not_eq_true', decide_eq_false_iff_not] at h1 ⊢
      omega
    · rw [if_neg hc]
      rw [cblOk_cons, if_neg hc] at h
      exact ih h

/-- The blank-line scanner accepts every contiguous part of an accepted
string. -/
theorem cblOk_within (s : List Char) (h : cblOk s = true)
    (t : List Char) (ht : t <:+: s) : cblOk t = true := by
  obtain ⟨a, b, hab⟩ := ht
  have h2 : cblOk (t ++ b) = true := by
    have := cblOk_drop a.length s h
    rw [← hab] at this
    rw [List.append_assoc] at this
    rw [List.drop_left] at this
    exact this
  exact cblOk_prefix t b h2

/-- A newline-free string is blank-line clean. -/
theorem cblOk_of_noNl (s : List Char) (h : '\n' ∉ s) :
    cblOk s = true := by
  have := cblOk_skip s h []
  simpa using this

/-- Short newline runs survive the blank-line collapse. -/
theorem nlRun_cbl (u : List Char) (h : (nlRun u).length < 3) :
    nlRun (collapseBlankLines u) = nlRun u := by
  induction u with
  | nil => rw [collapseBlankLines]
  | cons c u' ih =>
    by_cases hc : c = '\n'
    · subst hc
      rw [collapseBlankLines_cons, if_pos rfl, if_neg (by omega)]
      rw [nlRun_cons_nl, nlRun_cons_nl, ih (by
        have h2 := h
        rw [nlRun_cons_nl] at h2
        simp only [List.length_cons] at h2
        omega)]
    · rw [collapseBlankLines_cons, if_neg hc, nlRun_cons_other c hc,
        nlRun_cons_other c hc]

/-- The output of the blank-line collapse is blank-line clean. -/
theorem cblOk_out (s : List Char) :
    cblOk (collapseBlankLines s) = true := by
  suffices H : ∀ n (s : List Char), s.length = n →
      cblOk (collapseBlankLines s) = true from H s.length s rfl
  intro n
  induction n using Nat.strong_induction_on with
  | _ n ihn =>
    intro s hn
    cases s with
    | nil =>
      rw [collapseBlankLines]
      rfl
    | cons c rest =>
      rw [collapseBlankLines_cons]
      by_cases hc : c = '\n'
      · subst hc
        rw [if_pos rfl]
        by_cases hf : (nlRun ('\n' :: rest)).length ≥ 3
        · rw [if_pos hf]
          set D := ('\n' :: rest).drop (nlRun ('\n' :: rest)).length with hD
          have hDhead : ∀ d, D.head? = some d → ¬(d = '\n') := by
            intro d hd
            rw [hD] at hd
            have hsw : nlRun ('\n' :: rest) =
                ('\n' :: rest).takeWhile (fun x => (x = '\n' : Bool)) := rfl
            rw [hsw] at hd
            have hres := drop_takeWhile_head (fun x => (x = '\n' : Bool))
              ('\n' :: rest) d hd
            simpa using hres
          have hXrun : nlRun (collapseBlankLines D) = [] := by
            refine nlRun_nil_of_head _ ?_
            intro d hd
            rw [collapseBlankLines_head] at hd
            exact hDhead d hd
          have hih : cblOk (collapseBlankLines D) = true := by
            refine ihn D.length ?_ D rfl
            rw [hD, ← hn]
            simp only [List.length_drop]
            have h1 : 0 < (nlRun ('\n' :: rest)).length := by omega
            have h2 : 0 < ('\n' :: rest).length := by simp
            omega
          rw [cblOk_cons, if_pos rfl]
          refine (Bool.and_eq_true _ _).mpr ⟨?_, ?_⟩
          · rw [nlRun_cons_nl, nlRun_cons_nl, hXrun]
            decide
          · rw [cblOk_cons, if_pos rfl]
            refine (Bool.and_eq_true _ _).mpr ⟨?_, hih⟩
            rw [nlRun_cons_nl, hXrun]
            decide
        · rw [if_neg hf]
          have hih : cblOk (collapseBlankLines rest) = true :=
            ihn rest.length (by simp [← hn]) rest rfl
          rw [cblOk_cons, if_pos rfl]
          refine (Bool.and_eq_true _ _).mpr ⟨?_, hih⟩
          have hrun : nlRun (collapseBlankLines rest) = nlRun rest := by
            refine nlRun_cbl rest ?_
            rw [nlRun_cons_nl] at hf
            simp only [List.length_cons] at hf
            omega
          rw [nlRun_cons_nl, hrun]
          rw [nlRun_cons_nl] at hf
          simp only [List.length_cons] at hf ⊢
          simp only [Bool.not_eq_true', decide_eq_false_iff_not]
          omega
      · rw [if_neg hc]
        have hih : cblOk (collapseBlankLines rest) = true :=
          ihn rest.length (by simp [← hn]) rest rfl
        rw [cblOk_cons, if_neg hc]
        exact hih

/-- The sentence-spacing pass never fires at a newline. -/
theorem sentFire_nl (o : Option Char) : sentFire '\n' o = false := by
  cases o with
  | none => decide
  | some d =>
    show (sentPunct '\n' && !(exclNext d)) = false
    rw [show sentPunct '\n' = false from by decide]
    simp

/-- Sentence spacing preserves the leading newline run. -/
theorem nlRun_sentenceSpace (u : List Char) :
    nlRun (sentenceSpace u) = nlRun u := by
  induction u with
  | nil => rfl
  | cons c rest ih =>
    rw [sentenceSpace_cons]
    by_cases hc : c = '\n'
    · subst hc
      rw [if_neg (by simp [sentFire_nl])]
      rw [nlRun_cons_nl, nlRun_cons_nl, ih]
    · by_cases hs : sentFire c rest.head? = true
      · rw [if_pos hs, nlRun_cons_other c hc, nlRun_cons_other c hc]
      · rw [if_neg hs, nlRun_cons_other c hc, nlRun_cons_other c hc]

/-- Sentence spacing preserves blank-line cleanliness. -/
theorem cblOk_sentenceSpace (u : List Char) (h : cblOk u = true) :
    cblOk (sentenceSpace u) = true := by
  induction u with
  | nil => rfl
  | cons c rest ih =>
    have hrest : cblOk rest = true := cblOk_cons_down c rest h
    rw [sentenceSpace_cons]
    by_cases hc : c = '\n'
    · subst hc
      rw [if_neg (by simp [sentFire_nl])]
      rw [cblOk_cons, if_pos rfl]
      refine (Bool.and_eq_true _ _).mpr ⟨?_, ih hrest⟩
      rw [nlRun_cons_nl, nlRun_sentenceSpace]
      rw [cblOk_cons, if_pos rfl] at h
      have h1 := ((Bool.and_eq_true _ _).mp h).1
      rw [nlRun_cons_nl] at h1
      exact h1
    · by_cases hs : sentFire c rest.head? = true
      · rw [if_pos hs, cblOk_cons, if_neg hc, cblOk_cons,
          if_neg (by decide : ¬(' ' = '\n'))]
        exact ih hrest
      · rw [if_neg hs, cblOk_cons, if_neg hc]
        exact ih hrest

/-- A collapse that spares newlines preserves the leading newline run. -/
theorem nlRun_gCollapse (p : Char → Bool) (hp : p '\n' = false)
    (u : List Char) : nlRun (gCollapse p u) = nlRun u := by
  induction u with
  | nil => rfl
  | cons c rest ih =>
    by_cases hpc : p c = true
    · have hcn : ¬(c = '\n') := fun hc => by
        rw [hc, hp] at hpc
        exact absurd hpc (by simp)
      cases rest with
      | nil =>
        rw [gCollapse_cons₁, if_pos hpc, nlRun_cons_other ' ' (by decide),
          nlRun_cons_other c hcn]
      | cons d t =>
        rw [gCollapse_cons₂, if_pos hpc]
        by_cases hpd : p d = true
        · rw [if_pos hpd, ih, nlRun_cons_other c hcn]
          exact nlRun_cons_other d (fun hd => by
            rw [hd, hp] at hpd
            exact absurd hpd (by simp)) t
        · rw [if_neg hpd, nlRun_cons_other ' ' (by decide),
            nlRun_cons_other c hcn]
    · have hpc2 : p c = false := by simpa using hpc
      rw [gCollapse_cons_neg p c rest hpc2]
      by_cases hc : c = '\n'
      · subst hc
        rw [nlRun_cons_nl, nlRun_cons_nl, ih]
      · rw [nlRun_cons_other c hc, nlRun_cons_other c hc]

/-- A collapse that spares newlines preserves blank-line cleanliness. -/
theorem cblOk_gCollapse (p : Char → Bool) (hp : p '\n' = false)
    (u : List Char) (h : cblOk u = true) :
    cblOk (gCollapse p u) = true := by
  induction u with
  | nil => rfl
  | cons c rest ih =>
    have hrest : cblOk rest = true := cblOk_cons_down c rest h
    by_cases hpc : p c = true
    · cases rest with
      | nil =>
        rw [gCollapse_cons₁, if_pos hpc]
        decide
      | cons d t =>
        rw [gCollapse_cons₂, if_pos hpc]
        by_cases hpd : p d = true
        · rw [if_pos hpd]
          exact ih hrest
        · rw [if_neg hpd, cblOk_cons, if_neg (by decide : ¬(' ' = '\n'))]
          exact ih hrest
    · have hpc2 : p c = false := by simpa using hpc
      rw [gCollapse_cons_neg p c rest hpc2]
      by_cases hc : c = '\n'
      · subst hc
        rw [cblOk_cons, if_pos rfl]
        refine (Bool.and_eq_true _ _).mpr ⟨?_, ih hrest⟩
        rw [nlRun_cons_nl, nlRun_gCollapse p hp rest]
        rw [cblOk_cons, if_pos rfl] at h
        have h1 := ((Bool.and_eq_true _ _).mp h).1
        rw [nlRun_cons_nl] at h1
        exact h1
      · rw [cblOk_cons, if_neg hc]
        exact ih hrest

/-- A matching pattern fixes the head of the string. -/
theorem beginsWith_head (s pat : List Char) (hne : pat ≠ [])
    (hb : beginsWith s pat = true) : s.head? = pat.head? := by
  cases pat with
  | nil => exact absurd rfl hne
  | cons p0 pt =>
    cases s with
    | nil => exact absurd hb (by simp [beginsWith, List.isPrefixOf])
    | cons c t =>
      obtain ⟨u, hu⟩ := List.isPrefixOf_iff_prefix.mp hb
      have hp0 : p0 = c := by
        have := congrArg List.head? hu
        simpa using this
      rw [hp0]
      rfl

/-- A literal replacement whose patterns and replacement avoid newlines
preserves the leading newline run. -/
theorem nlRun_replaceMulti (pats : List (List Char)) (rep : List Char)
    (hph : ∀ pat ∈ pats, pat.head? ≠ some '\n')
    (hrh : rep.head? ≠ some '\n') (hrne : rep ≠ []) (u : List Char) :
    nlRun (replaceMulti pats rep u) = nlRun u := by
  suffices H : ∀ n (u : List Char), u.length = n →
      nlRun (replaceMulti pats rep u) = nlRun u from H u.length u rfl
  intro n
  induction n using Nat.strong_induction_on with
  | _ n ihn =>
    intro u hn
    cases u with
    | nil =>
      rw [show replaceMulti pats rep [] = [] from by simp [replaceMulti]]
    | cons c rest =>
      cases hfp : firstPat pats (c :: rest) with
      | some pat =>
        rw [replaceMulti_cons_match _ _ _ _ _ hfp]
        obtain ⟨hm, hpne, hbw⟩ := firstPat_some_spec _ _ _ hfp
        have hch : (c :: rest).head? = pat.head? :=
          beginsWith_head _ _ hpne hbw
        have hcn : ¬(c = '\n') := by
          intro hc
          exact hph pat hm (by rw [← hch, hc]; rfl)
        cases hr : rep with
        | nil => exact absurd hr hrne
        | cons r rr =>
          have hrn : ¬(r = '\n') := by
            intro h0
            exact hrh (by rw [hr, h0]; rfl)
          rw [List.cons_append, nlRun_cons_other r hrn,
            nlRun_cons_other c hcn]
      | none =>
        rw [replaceMulti_cons_none _ _ _ _ hfp]
        by_cases hc : c = '\n'
        · subst hc
          rw [nlRun_cons_nl, nlRun_cons_nl,
            ihn rest.length (by simp [← hn]) rest rfl]
        · rw [nlRun_cons_other c hc, nlRun_cons_other c hc]

/-- A literal replacement whose patterns and replacement avoid newlines
preserves blank-line cleanliness. -/
theorem cblOk_replaceMulti (pats : List (List Char)) (rep : List Char)
    (hph : ∀ pat ∈ pats, pat.head? ≠ some '\n')
    (hrf : '\n' ∉ rep) (hrne : rep ≠ []) (u : List Char)
    (h : cblOk u = true) : cblOk (replaceMulti pats rep u) = true := by
  suffices H : ∀ n (u : List Char), u.length = n → cblOk u = true →
      cblOk (replaceMulti pats rep u) = true from H u.length u rfl h
  intro n
  induction n using Nat.strong_induction_on with
  | _ n ihn =>
    intro u hn hu
    cases u with
    | nil =>
      rw [show replaceMulti pats rep [] = [] from by simp [replaceMulti]]
      rfl
    | cons c rest =>
      cases hfp : firstPat pats (c :: rest) with
      | some pat =>
        rw [replaceMulti_cons_match _ _ _ _ _ hfp]
        obtain ⟨hm, hpne, hbw⟩ := firstPat_some_spec _ _ _ hfp
        rw [cblOk_skip rep hrf]
        have hlen : ((c :: rest).drop pat.length).length < n := by
          rw [← hn]
          simp only [List.length_drop, List.length_cons]
          have := List.length_pos.mpr hpne
          omega
        exact ihn _ hlen _ rfl (cblOk_drop pat.length (c :: rest) hu)
      | none =>
        rw [replaceMulti_cons_none _ _ _ _ hfp]
        have hrest : cblOk rest = true := cblOk_cons_down c rest hu
        by_cases hc : c = '\n'
        · subst hc
          rw [cblOk_cons, if_pos rfl]
          refine (Bool.and_eq_true _ _).mpr
            ⟨?_, ihn rest.length (by simp [← hn]) rest rfl hrest⟩
          rw [nlRun_cons_nl,
            nlRun_replaceMulti pats rep hph
              (fun h0 => hrf (by
                cases rep with
                | nil => simp at h0
                | cons r rr =>
                  have : r = '\n' := by simpa using h0
                  rw [this]
                  exact List.mem_cons_self _ _)) hrne rest]
          rw [cblOk_cons, if_pos rfl] at hu
          have h1 := ((Bool.and_eq_true _ _).mp hu).1
          rw [nlRun_cons_nl] at h1
          exact h1
        · rw [cblOk_cons, if_neg hc]
          exact ihn rest.length (by simp [← hn]) rest rfl hrest

/-- The version scanner preserves the leading newline run. -/
theorem nlRun_versionFixScan (u : List Char) :
    nlRun (versionFixScan u) = nlRun u := by
  suffices H : ∀ n (u : List Char), u.length = n →
      nlRun (versionFixScan u) = nlRun u from H u.length u rfl
  intro n
  induction n using Nat.strong_induction_on with
  | _ n ihn =>
    intro u hn
    cases u with
    | nil => rw [versionFixScan]
    | cons c rest =>
      rw [versionFixScan_cons]
      by_cases hd : c.isDigit = true
      · rw [if_pos hd]
        have hcn : ¬(c = '\n') := fun hc => by
          rw [hc] at hd
          exact absurd hd (by decide)
        by_cases hg : vfsGuard (c :: rest) = true
        · rw [if_pos hg]
          have hd1 : vfsD1 (c :: rest) = c :: rest.takeWhile Char.isDigit := by
            simp [vfsD1, List.takeWhile_cons_of_pos hd]
          rw [hd1, List.cons_append, nlRun_cons_other c hcn,
            nlRun_cons_other c hcn]
        · rw [if_neg hg, nlRun_cons_other c hcn, nlRun_cons_other c hcn]
      · rw [if_neg hd]
        by_cases hc : c = '\n'
        · subst hc
          rw [nlRun_cons_nl, nlRun_cons_nl,
            ihn rest.length (by simp [← hn]) rest rfl]
        · rw [nlRun_cons_other c hc, nlRun_cons_other c hc]

/-- The head of a replacement output: echoed, or the marker letter. -/
theorem replaceMulti_head_cases (Q : List (List Char)) (q : List Char)
    (β : Char) (hQh : ∀ pat ∈ Q, pat.head? = some β)
    (hqh : q.head? = some β) (u : List Char) :
    (replaceMulti Q q u).head? = u.head? ∨
      ((replaceMulti Q q u).head? = some β ∧ u.head? = some β) := by
  cases u with
  | nil =>
    exact Or.inl (by
      rw [show replaceMulti Q q [] = [] from by simp [replaceMulti]])
  | cons c rest =>
    cases hfp : firstPat Q (c :: rest) with
    | some pat =>
      obtain ⟨hm, hne, hb⟩ := firstPat_some_spec _ _ _ hfp
      refine Or.inr ⟨?_, ?_⟩
      · rw [replaceMulti_cons_match _ _ _ _ _ hfp]
        cases hq : q with
        | nil =>
          rw [hq] at hqh
          exact absurd hqh (by simp)
        | cons y qt =>
          have hy : y = β := by
            rw [hq] at hqh
            simpa using hqh
          rw [hy]
          rfl
      · rw [beginsWith_head _ _ hne hb]
        exact hQh pat hm
    | none =>
      exact Or.inl (by rw [replaceMulti_cons_none _ _ _ _ hfp]; rfl)

/-- A replacement's head keeps failing any class test the marker fails. -/
theorem replaceMulti_head_flag (Q : List (List Char)) (q : List Char)
    (β : Char) (hQh : ∀ pat ∈ Q, pat.head? = some β)
    (hqh : q.head? = some β) (u : List Char) (pr : Char → Bool)
    (hβ : pr β = false)
    (hu : ∀ d, u.head? = some d → pr d = false) :
    ∀ d, (replaceMulti Q q u).head? = some d → pr d = false := by
  intro d hd
  rcases replaceMulti_head_cases Q q β hQh hqh u with h | ⟨h1, h2⟩
  · exact hu d (h ▸ hd)
  · rw [h1] at hd
    have hdβ : d = β := by simpa using hd.symm
    rw [hdβ]
    exact hβ

/-- A replacement's head agrees with the input on any character other
than the marker letter. -/
theorem replaceMulti_head_ne_iff (Q : List (List Char)) (q : List Char)
    (β : Char) (hQh : ∀ pat ∈ Q, pat.head? = some β)
    (hqh : q.head? = some β) (x : Char) (hx : ¬(β = x)) (u : List Char) :
    ((replaceMulti Q q u).head? = some x) ↔ (u.head? = some x) := by
  rcases replaceMulti_head_cases Q q β hQh hqh u with h | ⟨h1, h2⟩
  · rw [h]
  · rw [h1, h2]

/-- One unfolding step of `goodAfter`. -/
theorem goodAfter_cons (d : Char) (t : List Char) :
    goodAfter (d :: t) =
      if d = ' ' then
        (match t with
         | [] => true
         | e :: _ => !(isJsWs e))
      else !(isJsWs d) && !(exclNext d) := rfl

/-- Splitting a string at the end of its leading digit run. -/
theorem vfs_split_general (c : Char) (a t : List Char)
    (hcd : c.isDigit = true) (ha : ∀ x ∈ a, x.isDigit = true)
    (ht : ∀ d, t.head? = some d → d.isDigit = false) :
    vfsD1 (c :: (a ++ t)) = c :: a ∧ vfsR1 (c :: (a ++ t)) = t := by
  have h1 : vfsD1 (c :: (a ++ t)) = c :: a := by
    rw [vfsD1, List.takeWhile_cons_of_pos hcd,
      takeWhile_append_head Char.isDigit a t ha ht]
  refine ⟨h1, ?_⟩
  rw [vfsR1, h1]
  simp only [List.length_cons]
  rw [List.drop_succ_cons, List.drop_left]

/-- A marker-letter replacement preserves the good shape of the text
after a line-initial `digits.` site. -/
theorem goodAfter_replaceMulti (Q : List (List Char)) (q : List Char)
    (β : Char) (hQh : ∀ pat ∈ Q, pat.head? = some β)
    (hqh : q.head? = some β)
    (hβw : isJsWs β = false) (hβe : exclNext β = false)
    (w : List Char) (h : goodAfter w = true) :
    goodAfter (replaceMulti Q q w) = true := by
  cases w with
  | nil =>
    rw [show replaceMulti Q q [] = [] from by simp [replaceMulti]]
    exact h
  | cons d t =>
    rw [goodAfter_cons] at h
    by_cases hd : d = ' '
    · subst hd
      have hfpd : firstPat Q (' ' :: t) = none :=
        firstPat_none_of_head_ne Q β hQh ' '
          (fun h0 => by
            rw [← h0] at hβw
            exact absurd hβw (by decide)) t
      rw [replaceMulti_cons_none _ _ _ _ hfpd, goodAfter_cons, if_pos rfl]
      rw [if_pos rfl] at h
      cases ht : replaceMulti Q q t with
      | nil => rfl
      | cons o os =>
        obtain ⟨e, t₂, hte⟩ : ∃ e t₂, t = e :: t₂ := by
          cases ht2 : t with
          | nil =>
            rw [ht2, show replaceMulti Q q [] = [] from by
              simp [replaceMulti]] at ht
            simp at ht
          | cons e t₂ => exact ⟨e, t₂, rfl⟩
        rw [hte] at h
        have ho : isJsWs o = false := by
          refine replaceMulti_head_flag Q q β hQh hqh t isJsWs hβw
            ?_ o (by rw [ht]; rfl)
          intro d2 hd2
          rw [hte] at hd2
          have hde : e = d2 := by simpa using hd2
          rw [← hde]
          simpa using h
        simp [ho]
    · rw [if_neg hd] at h
      cases hfp : firstPat Q (d :: t) with
      | some pat =>
        rw [replaceMulti_cons_match _ _ _ _ _ hfp]
        obtain ⟨y, qt, hq⟩ : ∃ y qt, q = y :: qt := by
          cases hq0 : q with
          | nil =>
            rw [hq0] at hqh
            exact absurd hqh (by simp)
          | cons y qt => exact ⟨y, qt, rfl⟩
        have hy : y = β := by
          rw [hq] at hqh
          simpa using hqh
        rw [hq, hy, List.cons_append, goodAfter_cons,
          if_neg (fun h0 => by
            rw [h0] at hβw
            exact absurd hβw (by decide))]
        simp [hβw, hβe]
      | none =>
        rw [replaceMulti_cons_none _ _ _ _ hfp, goodAfter_cons, if_neg hd]
        exact h

/-- A marker-letter replacement pass preserves number shape. -/
theorem numOk_replaceMulti (Q : List (List Char)) (q : List Char)
    (β : Char) (hQh : ∀ pat ∈ Q, pat.head? = some β)
    (hQnl : ∀ pat ∈ Q, '\n' ∉ pat)
    (hqh : q.head? = some β) (hqnl : '\n' ∉ q)
    (hβw : isJsWs β = false) (hβd : β.isDigit = false)
    (hβe : exclNext β = false) (v : List Char) (b : Bool)
    (hv : numOk v b = true) : numOk (replaceMulti Q q v) b = true := by
  have hβnl : ¬(β = '\n') := fun h => by
    rw [h] at hβw
    exact absurd hβw (by decide)
  have hβnl2 : (decide (β = '\n')) = false := by simpa using hβnl
  have hqne : q ≠ [] := by
    intro h
    rw [h] at hqh
    simp at hqh
  suffices H : ∀ n (v : List Char) (b : Bool), v.length = n →
      numOk v b = true → numOk (replaceMulti Q q v) b = true from
    H v.length v b rfl hv
  intro n
  induction n using Nat.strong_induction_on with
  | _ n ihn =>
    intro v b hn hv
    cases v with
    | nil =>
      rw [show replaceMulti Q q [] = [] from by simp [replaceMulti]]
      exact hv
    | cons c rest =>
      cases hfp : firstPat Q (c :: rest) with
      | some pat =>
        rw [replaceMulti_cons_match _ _ _ _ _ hfp]
        obtain ⟨hm, hpne, hbg⟩ := firstPat_some_spec _ _ _ hfp
        have hch : c = β := by
          have h1 := beginsWith_head _ _ hpne hbg
          rw [hQh pat hm] at h1
          simpa using h1
        obtain ⟨x0, pt, hpat⟩ : ∃ x0 pt, pat = x0 :: pt := by
          cases pat with
          | nil => exact absurd rfl hpne
          | cons x0 pt => exact ⟨x0, pt, rfl⟩
        obtain ⟨y, qt, hq⟩ : ∃ y qt, q = y :: qt := by
          cases hq0 : q with
          | nil => exact absurd hq0 hqne
          | cons y qt => exact ⟨y, qt, rfl⟩
        have hy : y = β := by
          rw [hq] at hqh
          simpa using hqh
        have hvdrop : numOk ((c :: rest).drop pat.length) false = true := by
          rw [numOk_cons, if_neg (by rw [hch]; simp [hβd]), hch, hβnl2]
            at hv
          have hr2 : rest = pt ++ (c :: rest).drop pat.length := by
            have h3 := eq_append_drop_of_beginsWith _ _ hbg
            rw [hpat] at h3
            rw [List.cons_append] at h3
            have h4 := ((List.cons.injEq _ _ _ _).mp h3).2
            rw [hpat]
            exact h4
          rw [hr2, numOk_skip pt (fun hmem => hQnl pat hm
            (by rw [hpat]; exact List.mem_cons_of_mem _ hmem)) _] at hv
          exact hv
        have hqsplit : ∀ X : List Char, q ++ X = β :: (qt ++ X) := by
          intro X
          rw [hq, hy, List.cons_append]
        rw [hqsplit, numOk_cons, if_neg (by simp [hβd]),
          hβnl2, numOk_skip qt (fun hmem => hqnl
            (by rw [hq]; exact List.mem_cons_of_mem _ hmem)) _]
        refine ihn ((c :: rest).drop pat.length).length ?_ _ false rfl
          hvdrop
        rw [← hn]
        simp only [List.length_drop, List.length_cons]
        have := List.length_pos.mpr hpne
        omega
      | none =>
        rw [replaceMulti_cons_none _ _ _ _ hfp]
        by_cases hbd : (b && c.isDigit) = true
        · have hcd : c.isDigit = true := ((Bool.and_eq_true _ _).mp hbd).2
          rw [numOk_cons, if_pos hbd] at hv
          have hdigd : ∀ x ∈ rest.takeWhile Char.isDigit,
              x.isDigit = true := fun x hx => List.mem_takeWhile_imp hx
          have hr2h := drop_takeWhile_head Char.isDigit rest
          have hrsp : rest = rest.takeWhile Char.isDigit ++
              rest.drop (rest.takeWhile Char.isDigit).length :=
            eq_append_drop_of_beginsWith rest _
              (List.isPrefixOf_iff_prefix.mpr (List.takeWhile_prefix _))
          have hdigβ : ∀ x ∈ rest.takeWhile Char.isDigit, x ≠ β := by
            intro x hx hxβ
            have hd := List.mem_takeWhile_imp hx
            rw [hxβ] at hd
            exact absurd hd (by simp [hβd])
          have hRM : replaceMulti Q q rest = rest.takeWhile Char.isDigit ++
              replaceMulti Q q
                (rest.drop (rest.takeWhile Char.isDigit).length) := by
            conv_lhs => rw [hrsp]
            exact replaceMulti_skip_block Q q β hQh _ hdigβ _
          have hin := vfs_split_general c (rest.takeWhile Char.isDigit)
            (rest.drop (rest.takeWhile Char.isDigit).length) hcd hdigd hr2h
          rw [← hrsp] at hin
          have hout := vfs_split_general c (rest.takeWhile Char.isDigit)
            (replaceMulti Q q
              (rest.drop (rest.takeWhile Char.isDigit).length))
            hcd hdigd
            (replaceMulti_head_flag Q q β hQh hqh _ Char.isDigit hβd hr2h)
          rw [hRM, numOk_cons, if_pos hbd]
          by_cases hdot :
              (rest.drop (rest.takeWhile Char.isDigit).length).head? =
                some '.'
          · -- the site fires before and after the pass
            obtain ⟨rest₃, hr3⟩ : ∃ rest₃,
                rest.drop (rest.takeWhile Char.isDigit).length =
                  '.' :: rest₃ := by
              cases hc2 : rest.drop (rest.takeWhile Char.isDigit).length with
              | nil =>
                rw [hc2] at hdot
                simp at hdot
              | cons z zs =>
                rw [hc2] at hdot
                have hz : z = '.' := by simpa using hdot
                exact ⟨zs, by rw [hz]⟩
            have hβdot : ¬(β = '.') := fun h0 => by
              rw [h0] at hβe
              exact absurd hβe (by decide)
            have hfp3 : firstPat Q ('.' :: rest₃) = none :=
              firstPat_none_of_head_ne Q β hQh '.'
                (fun h0 => hβdot h0.symm) rest₃
            have hRM3 : replaceMulti Q q
                (rest.drop (rest.takeWhile Char.isDigit).length) =
                '.' :: replaceMulti Q q rest₃ := by
              rw [hr3]
              exact replaceMulti_cons_none Q q '.' rest₃ hfp3
            -- input components
            rw [hin.2, if_pos ((beginsWith_single _ '.').mpr
              (by rw [hr3]; rfl))] at hv
            rw [hr3] at hv
            have hdd : ('.' :: rest₃).drop 1 = rest₃ := rfl
            rw [hdd] at hv
            obtain ⟨hga, hrec⟩ := (Bool.and_eq_true _ _).mp hv
            -- whitespace-run split of the window
            have hwsw : ∀ x ∈ rest₃.takeWhile isJsWs, isJsWs x = true :=
              fun x hx => List.mem_takeWhile_imp hx
            have hr4h := drop_takeWhile_head isJsWs rest₃
            have hrsp3 : rest₃ = rest₃.takeWhile isJsWs ++
                rest₃.drop (rest₃.takeWhile isJsWs).length :=
              eq_append_drop_of_beginsWith rest₃ _
                (List.isPrefixOf_iff_prefix.mpr (List.takeWhile_prefix _))
            have hwsβ : ∀ x ∈ rest₃.takeWhile isJsWs, x ≠ β := by
              intro x hx hxβ
              have hd := List.mem_takeWhile_imp hx
              rw [hxβ] at hd
              exact absurd hd (by simp [hβw])
            have hRM4 : replaceMulti Q q rest₃ =
                rest₃.takeWhile isJsWs ++ replaceMulti Q q
                  (rest₃.drop (rest₃.takeWhile isJsWs).length) := by
              conv_lhs => rw [hrsp3]
              exact replaceMulti_skip_block Q q β hQh _ hwsβ _
            -- input projections
            have hnumws_in : numWs (c :: rest) = rest₃.takeWhile isJsWs := by
              rw [numWs, hin.2, hr3]
              rfl
            have hcont_in : numCont (c :: rest) =
                rest₃.drop (rest₃.takeWhile isJsWs).length := by
              rw [numCont, hnumws_in, hin.2, hr3]
              rfl
            have hflag_in : numFlag (c :: rest) =
                decide ((rest₃.takeWhile isJsWs).getLast? = some '\n') := by
              rw [numFlag, hnumws_in]
            -- output projections
            have hnumws_out : numWs (c :: (rest.takeWhile Char.isDigit ++
                replaceMulti Q q
                  (rest.drop (rest.takeWhile Char.isDigit).length))) =
                rest₃.takeWhile isJsWs := by
              rw [numWs, hout.2, hRM3]
              have hdd2 : ('.' :: replaceMulti Q q rest₃).drop 1 =
                  replaceMulti Q q rest₃ := rfl
              rw [hdd2, hRM4]
              exact takeWhile_append_head isJsWs _ _ hwsw
                (replaceMulti_head_flag Q q β hQh hqh _ isJsWs hβw hr4h)
            have hcont_out : numCont (c :: (rest.takeWhile Char.isDigit ++
                replaceMulti Q q
                  (rest.drop (rest.takeWhile Char.isDigit).length))) =
                replaceMulti Q q
                  (rest₃.drop (rest₃.takeWhile isJsWs).length) := by
              rw [numCont, hnumws_out, hout.2, hRM3]
              have hdd2 : ('.' :: replaceMulti Q q rest₃).drop 1 =
                  replaceMulti Q q rest₃ := rfl
              rw [hdd2, hRM4, List.drop_left]
            have hflag_out : numFlag (c :: (rest.takeWhile Char.isDigit ++
                replaceMulti Q q
                  (rest.drop (rest.takeWhile Char.isDigit).length))) =
                decide ((rest₃.takeWhile isJsWs).getLast? = some '\n') := by
              rw [numFlag, hnumws_out]
            -- assembly
            have hcond : beginsWith (vfsR1 (c ::
                (rest.takeWhile Char.isDigit ++ replaceMulti Q q
                  (rest.drop (rest.takeWhile Char.isDigit).length)))) ['.']
                = true := by
              rw [hout.2, hRM3]
              exact (beginsWith_single
                ('.' :: replaceMulti Q q rest₃) '.').mpr rfl
            rw [if_pos hcond]
            refine (Bool.and_eq_true _ _).mpr ⟨?_, ?_⟩
            · rw [hout.2, hRM3]
              have hdd2 : ('.' :: replaceMulti Q q rest₃).drop 1 =
                  replaceMulti Q q rest₃ := rfl
              rw [hdd2]
              exact goodAfter_replaceMulti Q q β hQh hqh hβw hβe rest₃ hga
            · rw [hcont_out, hflag_out]
              rw [hcont_in, hflag_in] at hrec
              refine ihn (rest₃.drop (rest₃.takeWhile isJsWs).length).length
                ?_ _ _ rfl hrec
              have l3 := congrArg List.length hr3
              have l4 : (rest.drop
                  (rest.takeWhile Char.isDigit).length).length ≤
                  rest.length := by
                simp
              simp only [List.length_drop, List.length_cons] at l3 l4 ⊢
              rw [← hn]
              simp only [List.length_cons]
              omega
          · -- dead site in both
            rw [hin.2, if_neg (by
              intro hbw
              exact hdot ((beginsWith_single _ '.').mp hbw))] at hv
            rw [hout.2, if_neg (by
              intro hbw
              have h5 := (beginsWith_single _ '.').mp hbw
              rw [replaceMulti_head_ne_iff Q q β hQh hqh '.'
                (fun h0 => by
                  rw [h0] at hβe
                  exact absurd hβe (by decide)) _] at h5
              exact hdot h5)]
            -- both scanners walk on
            have hcn : (decide (c = '\n')) = false := by
              have : ¬(c = '\n') := fun h0 => by
                rw [h0] at hcd
                exact absurd hcd (by decide)
              simpa using this
            rw [hcn] at hv ⊢
            rw [← hRM]
            exact ihn rest.length (by simp [← hn]) rest false rfl hv
        · -- no trigger: both scanners step
          rw [numOk_cons, if_neg hbd] at hv
          rw [numOk_cons, if_neg hbd]
          exact ihn rest.length (by simp [← hn]) rest (decide (c = '\n'))
            rfl hv

/-- One unfolding step of `goodBul`. -/
theorem goodBul_cons (d : Char) (t : List Char) :
    goodBul (d :: t) =
      if d = ' ' then
        (match t with
         | [] => true
         | e :: _ => !(isJsWs e))
      else false := rfl

/-- A marker-letter replacement preserves the good shape of the text
after a line-initial bullet marker. -/
theorem goodBul_replaceMulti (Q : List (List Char)) (q : List Char)
    (β : Char) (hQh : ∀ pat ∈ Q, pat.head? = some β)
    (hqh : q.head? = some β) (hβw : isJsWs β = false)
    (w : List Char) (h : goodBul w = true) :
    goodBul (replaceMulti Q q w) = true := by
  cases w with
  | nil =>
    rw [show replaceMulti Q q [] = [] from by simp [replaceMulti]]
    exact h
  | cons d t =>
    rw [goodBul_cons] at h
    by_cases hd : d = ' '
    · subst hd
      have hfpd : firstPat Q (' ' :: t) = none :=
        firstPat_none_of_head_ne Q β hQh ' '
          (fun h0 => by
            rw [← h0] at hβw
            exact absurd hβw (by decide)) t
      rw [replaceMulti_cons_none _ _ _ _ hfpd, goodBul_cons, if_pos rfl]
      rw [if_pos rfl] at h
      cases ht : replaceMulti Q q t with
      | nil => rfl
      | cons o os =>
        obtain ⟨e, t₂, hte⟩ : ∃ e t₂, t = e :: t₂ := by
          cases ht2 : t with
          | nil =>
            rw [ht2, show replaceMulti Q q [] = [] from by
              simp [replaceMulti]] at ht
            simp at ht
          | cons e t₂ => exact ⟨e, t₂, rfl⟩
        rw [hte] at h
        have ho : isJsWs o = false := by
          refine replaceMulti_head_flag Q q β hQh hqh t isJsWs hβw
            ?_ o (by rw [ht]; rfl)
          intro d2 hd2
          rw [hte] at hd2
          have hde : e = d2 := by simpa using hd2
          rw [← hde]
          simpa using h
        simp [ho]
    · rw [if_neg hd] at h
      exact absurd h (by simp)

/-- A marker-letter replacement pass preserves bullet shape. -/
theorem bulOk_replaceMulti (Q : List (List Char)) (q : List Char)
    (β : Char) (hQh : ∀ pat ∈ Q, pat.head? = some β)
    (hQnl : ∀ pat ∈ Q, '\n' ∉ pat)
    (hqh : q.head? = some β) (hqnl : '\n' ∉ q)
    (hβw : isJsWs β = false)
    (hβm : ((β = '*' : Bool) || (β = '-' : Bool)) = false)
    (v : List Char) (b : Bool)
    (hv : bulOk v b = true) : bulOk (replaceMulti Q q v) b = true := by
  have hβnl : ¬(β = '\n') := fun h => by
    rw [h] at hβw
    exact absurd hβw (by decide)
  have hβnl2 : (decide (β = '\n')) = false := by simpa using hβnl
  have hqne : q ≠ [] := by
    intro h
    rw [h] at hqh
    simp at hqh
  suffices H : ∀ n (v : List Char) (b : Bool), v.length = n →
      bulOk v b = true → bulOk (replaceMulti Q q v) b = true from
    H v.length v b rfl hv
  intro n
  induction n using Nat.strong_induction_on with
  | _ n ihn =>
    intro v b hn hv
    cases v with
    | nil =>
      rw [show replaceMulti Q q [] = [] from by simp [replaceMulti]]
      exact hv
    | cons c rest =>
      cases hfp : firstPat Q (c :: rest) with
      | some pat =>
        rw [replaceMulti_cons_match _ _ _ _ _ hfp]
        obtain ⟨hm, hpne, hbg⟩ := firstPat_some_spec _ _ _ hfp
        have hch : c = β := by
          have h1 := beginsWith_head _ _ hpne hbg
          rw [hQh pat hm] at h1
          simpa using h1
        obtain ⟨x0, pt, hpat⟩ : ∃ x0 pt, pat = x0 :: pt := by
          cases pat with
          | nil => exact absurd rfl hpne
          | cons x0 pt => exact ⟨x0, pt, rfl⟩
        obtain ⟨y, qt, hq⟩ : ∃ y qt, q = y :: qt := by
          cases hq0 : q with
          | nil => exact absurd hq0 hqne
          | cons y qt => exact ⟨y, qt, rfl⟩
        have hy : y = β := by
          rw [hq] at hqh
          simpa using hqh
        have hvdrop : bulOk ((c :: rest).drop pat.length) false = true := by
          rw [bulOk_cons, if_neg (by rw [hch]; simp [hβm]), hch, hβnl2]
            at hv
          have hr2 : rest = pt ++ (c :: rest).drop pat.length := by
            have h3 := eq_append_drop_of_beginsWith _ _ hbg
            rw [hpat] at h3
            rw [List.cons_append] at h3
            have h4 := ((List.cons.injEq _ _ _ _).mp h3).2
            rw [hpat]
            exact h4
          rw [hr2, bulOk_skip pt (fun hmem => hQnl pat hm
            (by rw [hpat]; exact List.mem_cons_of_mem _ hmem)) _] at hv
          exact hv
        have hqsplit : ∀ X : List Char, q ++ X = β :: (qt ++ X) := by
          intro X
          rw [hq, hy, List.cons_append]
        rw [hqsplit, bulOk_cons, if_neg (by simp [hβm]),
          hβnl2, bulOk_skip qt (fun hmem => hqnl
            (by rw [hq]; exact List.mem_cons_of_mem _ hmem)) _]
        refine ihn ((c :: rest).drop pat.length).length ?_ _ false rfl
          hvdrop
        rw [← hn]
        simp only [List.length_drop, List.length_cons]
        have := List.length_pos.mpr hpne
        omega
      | none =>
        rw [replaceMulti_cons_none _ _ _ _ hfp]
        by_cases hbd : (b && ((c = '*' : Bool) || (c = '-' : Bool))) = true
        · rw [bulOk_cons, if_pos hbd] at hv
          obtain ⟨hgb, hrec⟩ := (Bool.and_eq_true _ _).mp hv
          have hwsw : ∀ x ∈ rest.takeWhile isJsWs, isJsWs x = true :=
            fun x hx => List.mem_takeWhile_imp hx
          have hr2h := drop_takeWhile_head isJsWs rest
          have hrsp : rest = rest.takeWhile isJsWs ++
              rest.drop (rest.takeWhile isJsWs).length :=
            eq_append_drop_of_beginsWith rest _
              (List.isPrefixOf_iff_prefix.mpr (List.takeWhile_prefix _))
          have hwsβ : ∀ x ∈ rest.takeWhile isJsWs, x ≠ β := by
            intro x hx hxβ
            have hd := List.mem_takeWhile_imp hx
            rw [hxβ] at hd
            exact absurd hd (by simp [hβw])
          have hRM : replaceMulti Q q rest = rest.takeWhile isJsWs ++
              replaceMulti Q q
                (rest.drop (rest.takeWhile isJsWs).length) := by
            conv_lhs => rw [hrsp]
            exact replaceMulti_skip_block Q q β hQh _ hwsβ _
          have htwout : (replaceMulti Q q rest).takeWhile isJsWs =
              rest.takeWhile isJsWs := by
            rw [hRM]
            exact takeWhile_append_head isJsWs _ _ hwsw
              (replaceMulti_head_flag Q q β hQh hqh _ isJsWs hβw hr2h)
          rw [bulOk_cons, if_pos hbd]
          refine (Bool.and_eq_true _ _).mpr ⟨?_, ?_⟩
          · exact goodBul_replaceMulti Q q β hQh hqh hβw rest hgb
          · rw [htwout]
            have hdrop : (replaceMulti Q q rest).drop
                (rest.takeWhile isJsWs).length =
                replaceMulti Q q
                  (rest.drop (rest.takeWhile isJsWs).length) := by
              rw [hRM, List.drop_left]
            rw [hdrop]
            refine ihn (rest.drop (rest.takeWhile isJsWs).length).length
              ?_ _ _ rfl hrec
            rw [← hn]
            simp only [List.length_drop, List.length_cons]
            omega
        · rw [bulOk_cons, if_neg hbd] at hv
          rw [bulOk_cons, if_neg hbd]
          exact ihn rest.length (by simp [← hn]) rest (decide (c = '\n'))
            rfl hv

/-- A marker-letter replacement pass preserves heading shape. -/
theorem headOk_replaceMulti (Q : List (List Char)) (q : List Char)
    (β : Char) (hQh : ∀ pat ∈ Q, pat.head? = some β)
    (hQnl : ∀ pat ∈ Q, '\n' ∉ pat)
    (hqh : q.head? = some β) (hqnl : '\n' ∉ q)
    (hβw : isJsWs β = false) (hβh : ¬(β = '#'))
    (v : List Char) (b : Bool)
    (hv : headOk v b = true) : headOk (replaceMulti Q q v) b = true := by
  have hβnl : ¬(β = '\n') := fun h => by
    rw [h] at hβw
    exact absurd hβw (by decide)
  have hβnl2 : (decide (β = '\n')) = false := by simpa using hβnl
  have hqne : q ≠ [] := by
    intro h
    rw [h] at hqh
    simp at hqh
  suffices H : ∀ n (v : List Char) (b : Bool), v.length = n →
      headOk v b = true → headOk (replaceMulti Q q v) b = true from
    H v.length v b rfl hv
  intro n
  induction n using Nat.strong_induction_on with
  | _ n ihn =>
    intro v b hn hv
    cases v with
    | nil =>
      rw [show replaceMulti Q q [] = [] from by simp [replaceMulti]]
      exact hv
    | cons c rest =>
      cases hfp : firstPat Q (c :: rest) with
      | some pat =>
        rw [replaceMulti_cons_match _ _ _ _ _ hfp]
        obtain ⟨hm, hpne, hbg⟩ := firstPat_some_spec _ _ _ hfp
        have hch : c = β := by
          have h1 := beginsWith_head _ _ hpne hbg
          rw [hQh pat hm] at h1
          simpa using h1
        obtain ⟨x0, pt, hpat⟩ : ∃ x0 pt, pat = x0 :: pt := by
          cases pat with
          | nil => exact absurd rfl hpne
          | cons x0 pt => exact ⟨x0, pt, rfl⟩
        obtain ⟨y, qt, hq⟩ : ∃ y qt, q = y :: qt := by
          cases hq0 : q with
          | nil => exact absurd hq0 hqne
          | cons y qt => exact ⟨y, qt, rfl⟩
        have hy : y = β := by
          rw [hq] at hqh
          simpa using hqh
        have hvdrop : headOk ((c :: rest).drop pat.length) false = true := by
          rw [headOk_cons, if_neg (by rw [hch]; simp [hβh]), hch, hβnl2]
            at hv
          have hr2 : rest = pt ++ (c :: rest).drop pat.length := by
            have h3 := eq_append_drop_of_beginsWith _ _ hbg
            rw [hpat] at h3
            rw [List.cons_append] at h3
            have h4 := ((List.cons.injEq _ _ _ _).mp h3).2
            rw [hpat]
            exact h4
          rw [hr2, headOk_skip pt (fun hmem => hQnl pat hm
            (by rw [hpat]; exact List.mem_cons_of_mem _ hmem)) _] at hv
          exact hv
        have hqsplit : ∀ X : List Char, q ++ X = β :: (qt ++ X) := by
          intro X
          rw [hq, hy, List.cons_append]
        rw [hqsplit, headOk_cons, if_neg (by simp [hβh]),
          hβnl2, headOk_skip qt (fun hmem => hqnl
            (by rw [hq]; exact List.mem_cons_of_mem _ hmem)) _]
        refine ihn ((c :: rest).drop pat.length).length ?_ _ false rfl
          hvdrop
        rw [← hn]
        simp only [List.length_drop, List.length_cons]
        have := List.length_pos.mpr hpne
        omega
      | none =>
        rw [replaceMulti_cons_none _ _ _ _ hfp]
        by_cases hbd : (b && (c = '#' : Bool)) = true
        · have hch : c = '#' :=
            of_decide_eq_true ((Bool.and_eq_true _ _).mp hbd).2
          subst hch
          rw [headOk_cons, if_pos hbd] at hv
          obtain ⟨hnf, hrec⟩ := (Bool.and_eq_true _ _).mp hv
          -- the hash run survives the pass
          have hhd : ∀ x ∈ rest.takeWhile (fun x => (x = '#' : Bool)),
              (x = '#' : Bool) = true := fun x hx => by
            have h := List.mem_takeWhile_imp hx
            exact h
          have hr2h := drop_takeWhile_head (fun x => (x = '#' : Bool)) rest
          have hrsp : rest = rest.takeWhile (fun x => (x = '#' : Bool)) ++
              rest.drop
                (rest.takeWhile (fun x => (x = '#' : Bool))).length :=
            eq_append_drop_of_beginsWith rest _
              (List.isPrefixOf_iff_prefix.mpr (List.takeWhile_prefix _))
          have hhβ : ∀ x ∈ rest.takeWhile (fun x => (x = '#' : Bool)),
              x ≠ β := by
            intro x hx hxβ
            have hd := List.mem_takeWhile_imp hx
            rw [hxβ] at hd
            exact hβh (by simpa using hd)
          have hRM : replaceMulti Q q rest =
              rest.takeWhile (fun x => (x = '#' : Bool)) ++
              replaceMulti Q q (rest.drop
                (rest.takeWhile (fun x => (x = '#' : Bool))).length) := by
            conv_lhs => rw [hrsp]
            exact replaceMulti_skip_block Q q β hQh _ hhβ _
          have hrunin : hashRun ('#' :: rest) =
              '#' :: rest.takeWhile (fun x => (x = '#' : Bool)) := by
            rw [hashRun, List.takeWhile_cons_of_pos (by decide)]
          have hrunout : hashRun ('#' :: replaceMulti Q q rest) =
              '#' :: rest.takeWhile (fun x => (x = '#' : Bool)) := by
            rw [hashRun, List.takeWhile_cons_of_pos (by decide), hRM]
            exact congrArg (List.cons '#')
              (takeWhile_append_head (fun x => (x = '#' : Bool)) _ _ hhd
                (replaceMulti_head_flag Q q β hQh hqh _
                  (fun x => (x = '#' : Bool)) (by simpa using hβh) hr2h))
          have haftin : hashAfter ('#' :: rest) = rest.drop
              (rest.takeWhile (fun x => (x = '#' : Bool))).length := by
            rw [hashAfter, hrunin]
            simp only [List.length_cons]
            rw [List.drop_succ_cons]
          have haftout : hashAfter ('#' :: replaceMulti Q q rest) =
              replaceMulti Q q (rest.drop
                (rest.takeWhile (fun x => (x = '#' : Bool))).length) := by
            rw [hashAfter, hrunout, hRM]
            simp only [List.length_cons]
            rw [List.drop_succ_cons, List.drop_left]
          have hfeq : hashFire ('#' :: replaceMulti Q q rest) =
              hashFire ('#' :: rest) := by
            rw [hashFire_head, hashFire_head, hrunin, hrunout, haftin,
              haftout]
            rcases replaceMulti_head_cases Q q β hQh hqh
              (rest.drop
                (rest.takeWhile (fun x => (x = '#' : Bool))).length)
              with h | ⟨h1, h2⟩
            · rw [h]
            · rw [h1, h2]
          rw [headOk_cons, if_pos hbd, hfeq]
          refine (Bool.and_eq_true _ _).mpr ⟨hnf, ?_⟩
          exact ihn rest.length (by simp [← hn]) rest false rfl hrec
        · rw [headOk_cons, if_neg hbd] at hv
          rw [headOk_cons, if_neg hbd]
          exact ihn rest.length (by simp [← hn]) rest (decide (c = '\n'))
            rfl hv

/-- The version-pattern guard only depends on the tail after the first
digit run. -/
theorem vfsGuard_eq_of_r1 (s s' : List Char) (h : vfsR1 s = vfsR1 s') :
    vfsGuard s = vfsGuard s' := by
  rw [vfsGuard, vfsGuard, vfsD3, vfsD3, vfsR2, vfsR2, vfsD2, vfsD2, h]

/-- The version scanner echoes a digit run whose site is dead. -/
theorem versionFixScan_run (r : List Char)
    (hr : ∀ d, r.head? = some d → d.isDigit = false)
    (hgr : ∀ (x : Char) (a : List Char), x.isDigit = true →
      (∀ z ∈ a, z.isDigit = true) →
      vfsGuard (x :: (a ++ r)) = false) :
    ∀ a, (∀ z ∈ a, z.isDigit = true) →
      versionFixScan (a ++ r) = a ++ versionFixScan r := by
  intro a
  induction a with
  | nil =>
    intro _
    rfl
  | cons d a' ih =>
    intro ha
    rw [List.cons_append, versionFixScan_cons, if_pos (ha d (by simp)),
      if_neg (by
        rw [hgr d a' (ha d (by simp))
          (fun z hz => ha z (List.mem_cons_of_mem _ hz))]
        simp),
      ih (fun z hz => ha z (List.mem_cons_of_mem _ hz)),
      List.cons_append]

/-- The version scanner echoes any block free of digits. -/
theorem versionFixScan_skip (a : List Char)
    (ha : ∀ x ∈ a, x.isDigit = false) (t : List Char) :
    versionFixScan (a ++ t) = a ++ versionFixScan t := by
  induction a with
  | nil => rfl
  | cons x a' ih =>
    rw [List.cons_append, versionFixScan_cons,
      if_neg (by simp [ha x (by simp)]),
      ih (fun z hz => ha z (List.mem_cons_of_mem _ hz)),
      List.cons_append]

/-- The version scanner preserves the good shape of the text after a
line-initial `digits.` site. -/
theorem goodAfter_versionFixScan (w : List Char)
    (h : goodAfter w = true) : goodAfter (versionFixScan w) = true := by
  cases w with
  | nil =>
    rw [versionFixScan]
    exact h
  | cons d t =>
    rw [goodAfter_cons] at h
    by_cases hd : d = ' '
    · subst hd
      rw [show versionFixScan (' ' :: t) = ' ' :: versionFixScan t from by
        rw [versionFixScan_cons, if_neg (by decide)]]
      rw [goodAfter_cons, if_pos rfl]
      rw [if_pos rfl] at h
      cases ht : versionFixScan t with
      | nil => rfl
      | cons o os =>
        obtain ⟨e, t₂, hte⟩ : ∃ e t₂, t = e :: t₂ := by
          cases ht2 : t with
          | nil =>
            rw [ht2, versionFixScan] at ht
            simp at ht
          | cons e t₂ => exact ⟨e, t₂, rfl⟩
        rw [hte] at h
        have ho : o = e := by
          have hh := versionFixScan_head t
          rw [ht, hte] at hh
          simpa using hh
        rw [ho]
        simpa using h
    · rw [if_neg hd] at h
      have hhead : (versionFixScan (d :: t)).head? = some d :=
        versionFixScan_head (d :: t)
      cases hvt : versionFixScan (d :: t) with
      | nil =>
        rw [hvt] at hhead
        simp at hhead
      | cons o os =>
        have ho : o = d := by
          rw [hvt] at hhead
          simpa using hhead
        rw [ho, goodAfter_cons, if_neg hd]
        exact h

/-- The version scanner preserves number shape. -/
theorem numOk_versionFixScan (v : List Char) (b : Bool)
    (hv : numOk v b = true) : numOk (versionFixScan v) b = true := by
  suffices H : ∀ n (v : List Char) (b : Bool), v.length = n →
      numOk v b = true → numOk (versionFixScan v) b = true from
    H v.length v b rfl hv
  intro n
  induction n using Nat.strong_induction_on with
  | _ n ihn =>
    intro v b hn hv
    cases v with
    | nil =>
      rw [versionFixScan]
      exact hv
    | cons c rest =>
      rw [versionFixScan_cons]
      by_cases hd : c.isDigit = true
      · rw [if_pos hd]
        have hcn : (decide (c = '\n')) = false := by
          have : ¬(c = '\n') := fun h0 => by
            rw [h0] at hd
            exact absurd hd (by decide)
          simpa using this
        by_cases hg : vfsGuard (c :: rest) = true
        · rw [if_pos hg]
          obtain ⟨hsp, hd2ne, hd3ne⟩ := vfs_splits c rest hg
          obtain ⟨e2, d2t, hD2⟩ : ∃ e2 d2t,
              vfsD2 (c :: rest) = e2 :: d2t := by
            cases hD2c : vfsD2 (c :: rest) with
            | nil => exact absurd hD2c hd2ne
            | cons e2 d2t => exact ⟨e2, d2t, rfl⟩
          have hD2dig : ∀ x ∈ vfsD2 (c :: rest), x.isDigit = true :=
            fun x hx => List.mem_takeWhile_imp hx
          have hD3dig : ∀ x ∈ vfsD3 (c :: rest), x.isDigit = true :=
            fun x hx => List.mem_takeWhile_imp hx
          have hD1dig : ∀ x ∈ vfsD1 (c :: rest), x.isDigit = true :=
            fun x hx => List.mem_takeWhile_imp hx
          have hnl1 : '\n' ∉ vfsD1 (c :: rest) := fun hm =>
            absurd (hD1dig '\n' hm) (by decide)
          have hnl2 : '\n' ∉ vfsD2 (c :: rest) := fun hm =>
            absurd (hD2dig '\n' hm) (by decide)
          have hnl3 : '\n' ∉ vfsD3 (c :: rest) := fun hm =>
            absurd (hD3dig '\n' hm) (by decide)
          have he2d : e2.isDigit = true :=
            hD2dig e2 (by rw [hD2]; exact List.mem_cons_self _ _)
          have he2w : isJsWs e2 = false := isJsWs_eq_false_of_isDigit e2 he2d
          -- the input scanner reaches the continuation at a line middle
          have hR1 : vfsR1 (c :: rest) = '.' :: ' ' ::
              (vfsD2 (c :: rest) ++ '.' :: ' ' ::
                (vfsD3 (c :: rest) ++ vfsCont (c :: rest))) := by
            rw [vfsR1]
            have h5 := congrArg
              (fun l => List.drop (vfsD1 (c :: rest)).length l) hsp
            simp only [List.drop_left] at h5
            exact h5
          have hcont : numOk (vfsCont (c :: rest)) false = true := by
            cases b with
            | false =>
              have hsp2 : (c :: rest) = (vfsD1 (c :: rest) ++ '.' :: ' ' ::
                  (vfsD2 (c :: rest) ++ '.' :: ' ' :: vfsD3 (c :: rest)))
                  ++ vfsCont (c :: rest) := by
                conv_lhs => rw [hsp]
                simp
              rw [hsp2, numOk_skip _ (by
                intro hm
                rcases List.mem_append.mp hm with hm | hm
                · exact hnl1 hm
                · rcases List.mem_cons.mp hm with hm | hm
                  · exact absurd hm (by decide)
                  · rcases List.mem_cons.mp hm with hm | hm
                    · exact absurd hm (by decide)
                    · rcases List.mem_append.mp hm with hm | hm
                      · exact hnl2 hm
                      · rcases List.mem_cons.mp hm with hm | hm
                        · exact absurd hm (by decide)
                        · rcases List.mem_cons.mp hm with hm | hm
                          · exact absurd hm (by decide)
                          · exact hnl3 hm) _] at hv
              exact hv
            | true =>
              rw [numOk_cons, if_pos (by simp [hd]), hR1,
                if_pos ((beginsWith_single ('.' :: ' ' ::
                  (vfsD2 (c :: rest) ++ '.' :: ' ' :: (vfsD3 (c :: rest) ++
                    vfsCont (c :: rest)))) '.').mpr rfl)] at hv
              have hrec := ((Bool.and_eq_true _ _).mp hv).2
              have hws : numWs (c :: rest) = [' '] := by
                rw [numWs, hR1]
                have hstep : ('.' :: ' ' ::
                    (vfsD2 (c :: rest) ++ '.' :: ' ' ::
                      (vfsD3 (c :: rest) ++ vfsCont (c :: rest)))).drop 1 =
                    ' ' :: (vfsD2 (c :: rest) ++ '.' :: ' ' ::
                      (vfsD3 (c :: rest) ++ vfsCont (c :: rest))) := rfl
                rw [hstep, List.takeWhile_cons_of_pos (by decide), hD2,
                  List.cons_append,
                  List.takeWhile_cons_of_neg (by simp [he2w])]
              have hcont_eq : numCont (c :: rest) =
                  vfsD2 (c :: rest) ++ '.' :: ' ' ::
                    (vfsD3 (c :: rest) ++ vfsCont (c :: rest)) := by
                rw [numCont, hws, hR1]
                rfl
              have hflag_eq : numFlag (c :: rest) = false := by
                rw [numFlag, hws]
                rfl
              rw [hcont_eq, hflag_eq] at hrec
              rw [numOk_skip _ hnl2 _] at hrec
              rw [show ('.' :: ' ' :: (vfsD3 (c :: rest) ++
                  vfsCont (c :: rest))) = ['.', ' '] ++
                  (vfsD3 (c :: rest) ++ vfsCont (c :: rest)) from rfl,
                numOk_skip _ (by
                  intro hm
                  rcases List.mem_cons.mp hm with hm | hm
                  · exact absurd hm (by decide)
                  · rcases List.mem_cons.mp hm with hm | hm
                    · exact absurd hm (by decide)
                    · simp at hm) _, numOk_skip _ hnl3 _] at hrec
              exact hrec
          have hih : numOk (versionFixScan (vfsCont (c :: rest))) false =
              true := ihn (vfsCont (c :: rest)).length
            (hn ▸ vfsCont_length_lt c rest hg) _ false rfl hcont
          -- assemble the rewritten site
          have hd1e : vfsD1 (c :: rest) =
              c :: rest.takeWhile Char.isDigit := by
            rw [vfsD1, List.takeWhile_cons_of_pos hd]
          cases b with
          | false =>
            have hout : vfsD1 (c :: rest) ++ '.' :: (vfsD2 (c :: rest) ++
                '.' :: (vfsD3 (c :: rest) ++
                  versionFixScan (vfsCont (c :: rest)))) =
                (vfsD1 (c :: rest) ++ '.' :: (vfsD2 (c :: rest) ++
                  '.' :: vfsD3 (c :: rest))) ++
                  versionFixScan (vfsCont (c :: rest)) := by
              simp
            rw [hout, numOk_skip _ (by
              intro hm
              rcases List.mem_append.mp hm with hm | hm
              · exact hnl1 hm
              · rcases List.mem_cons.mp hm with hm | hm
                · exact absurd hm (by decide)
                · rcases List.mem_append.mp hm with hm | hm
                  · exact hnl2 hm
                  · rcases List.mem_cons.mp hm with hm | hm
                    · exact absurd hm (by decide)
                    · exact hnl3 hm) _]
            exact hih
          | true =>
            have hsite : vfsD1 (c :: rest) ++ '.' :: (vfsD2 (c :: rest) ++
                '.' :: (vfsD3 (c :: rest) ++
                  versionFixScan (vfsCont (c :: rest)))) =
                c :: (rest.takeWhile Char.isDigit ++
                  '.' :: (vfsD2 (c :: rest) ++ '.' :: (vfsD3 (c :: rest) ++
                    versionFixScan (vfsCont (c :: rest))))) := by
              rw [hd1e, List.cons_append]
            rw [hsite]
            have hosplit := vfs_split_general c (rest.takeWhile Char.isDigit)
              ('.' :: (vfsD2 (c :: rest) ++ '.' :: (vfsD3 (c :: rest) ++
                versionFixScan (vfsCont (c :: rest))))) hd
              (fun x hx => List.mem_takeWhile_imp hx)
              (fun d0 hd0 => by
                have : d0 = '.' := by simpa using hd0.symm
                rw [this]
                decide)
            rw [numOk_cons, if_pos (by simp [hd]), hosplit.2,
              if_pos ((beginsWith_single ('.' :: (vfsD2 (c :: rest) ++
                '.' :: (vfsD3 (c :: rest) ++
                  versionFixScan (vfsCont (c :: rest))))) '.').mpr rfl)]
            refine (Bool.and_eq_true _ _).mpr ⟨?_, ?_⟩
            · have hstep : ('.' :: (vfsD2 (c :: rest) ++ '.' ::
                  (vfsD3 (c :: rest) ++
                    versionFixScan (vfsCont (c :: rest))))).drop 1 =
                  vfsD2 (c :: rest) ++ '.' :: (vfsD3 (c :: rest) ++
                    versionFixScan (vfsCont (c :: rest))) := rfl
              rw [hstep, hD2, List.cons_append, goodAfter_cons,
                if_neg (fun h0 => by
                  rw [h0] at he2d
                  exact absurd he2d (by decide))]
              simp [he2w, exclNext_eq_false_of_isDigit e2 he2d]
            · have hstep : ('.' :: (vfsD2 (c :: rest) ++ '.' ::
                  (vfsD3 (c :: rest) ++
                    versionFixScan (vfsCont (c :: rest))))).drop 1 =
                  vfsD2 (c :: rest) ++ '.' :: (vfsD3 (c :: rest) ++
                    versionFixScan (vfsCont (c :: rest))) := rfl
              have hwso : numWs (c :: (rest.takeWhile Char.isDigit ++
                  '.' :: (vfsD2 (c :: rest) ++ '.' :: (vfsD3 (c :: rest) ++
                    versionFixScan (vfsCont (c :: rest)))))) = [] := by
                rw [numWs, hosplit.2, hstep, hD2, List.cons_append,
                  List.takeWhile_cons_of_neg (by simp [he2w])]
              have hconto : numCont (c :: (rest.takeWhile Char.isDigit ++
                  '.' :: (vfsD2 (c :: rest) ++ '.' :: (vfsD3 (c :: rest) ++
                    versionFixScan (vfsCont (c :: rest)))))) =
                  vfsD2 (c :: rest) ++ '.' :: (vfsD3 (c :: rest) ++
                    versionFixScan (vfsCont (c :: rest))) := by
                rw [numCont, hwso, hosplit.2, hstep]
                rfl
              have hflago : numFlag (c :: (rest.takeWhile Char.isDigit ++
                  '.' :: (vfsD2 (c :: rest) ++ '.' :: (vfsD3 (c :: rest) ++
                    versionFixScan (vfsCont (c :: rest)))))) = false := by
                rw [numFlag, hwso]
                rfl
              rw [hconto, hflago, numOk_skip _ hnl2 _,
                show ('.' :: (vfsD3 (c :: rest) ++
                  versionFixScan (vfsCont (c :: rest)))) = ['.'] ++
                  (vfsD3 (c :: rest) ++
                    versionFixScan (vfsCont (c :: rest))) from rfl,
                numOk_skip _ (by
                  intro hm
                  rcases List.mem_cons.mp hm with hm | hm
                  · exact absurd hm (by decide)
                  · simp at hm) _,
                numOk_skip _ hnl3 _]
              exact hih
        · rw [if_neg hg]
          -- dead version site: the digit run is echoed
          have hdigd : ∀ x ∈ rest.takeWhile Char.isDigit,
              x.isDigit = true := fun x hx => List.mem_takeWhile_imp hx
          have hr2h := drop_takeWhile_head Char.isDigit rest
          have hrsp : rest = rest.takeWhile Char.isDigit ++
              rest.drop (rest.takeWhile Char.isDigit).length :=
            eq_append_drop_of_beginsWith rest _
              (List.isPrefixOf_iff_prefix.mpr (List.takeWhile_prefix _))
          have hin := vfs_split_general c (rest.takeWhile Char.isDigit)
            (rest.drop (rest.takeWhile Char.isDigit).length) hd hdigd hr2h
          rw [← hrsp] at hin
          have hgr : ∀ (x : Char) (a : List Char), x.isDigit = true →
              (∀ z ∈ a, z.isDigit = true) → vfsGuard (x :: (a ++
                rest.drop (rest.takeWhile Char.isDigit).length)) = false := by
            intro x a hx ha
            have hR1x := vfs_split_general x a
              (rest.drop (rest.takeWhile Char.isDigit).length) hx ha hr2h
            rw [vfsGuard_eq_of_r1 _ (c :: rest) (by rw [hR1x.2, hin.2])]
            simpa using hg
          have hvfs : versionFixScan rest = rest.takeWhile Char.isDigit ++
              versionFixScan
                (rest.drop (rest.takeWhile Char.isDigit).length) := by
            conv_lhs => rw [hrsp]
            exact versionFixScan_run _ hr2h hgr _ hdigd
          have hout := vfs_split_general c (rest.takeWhile Char.isDigit)
            (versionFixScan
              (rest.drop (rest.takeWhile Char.isDigit).length))
            hd hdigd (fun d0 hd0 => by
              rw [versionFixScan_head] at hd0
              exact hr2h d0 hd0)
          rw [hvfs]
          by_cases hb : b = true
          · subst hb
            rw [numOk_cons, if_pos (by simp [hd])] at hv
            rw [numOk_cons, if_pos (by simp [hd])]
            by_cases hdot :
                (rest.drop (rest.takeWhile Char.isDigit).length).head? =
                  some '.'
            · obtain ⟨rest₃, hr3⟩ : ∃ rest₃,
                  rest.drop (rest.takeWhile Char.isDigit).length =
                    '.' :: rest₃ := by
                cases hc2 : rest.drop (rest.takeWhile Char.isDigit).length
                  with
                | nil =>
                  rw [hc2] at hdot
                  simp at hdot
                | cons z zs =>
                  rw [hc2] at hdot
                  have hz : z = '.' := by simpa using hdot
                  exact ⟨zs, by rw [hz]⟩
              have hvfs3 : versionFixScan
                  (rest.drop (rest.takeWhile Char.isDigit).length) =
                  '.' :: versionFixScan rest₃ := by
                rw [hr3, versionFixScan_cons, if_neg (by decide)]
              rw [hin.2, if_pos ((beginsWith_single _ '.').mpr
                (by rw [hr3]; rfl))] at hv
              rw [hr3] at hv
              have hdd : ('.' :: rest₃).drop 1 = rest₃ := rfl
              rw [hdd] at hv
              obtain ⟨hga, hrec⟩ := (Bool.and_eq_true _ _).mp hv
              have hwsw : ∀ x ∈ rest₃.takeWhile isJsWs, isJsWs x = true :=
                fun x hx => List.mem_takeWhile_imp hx
              have hwsd : ∀ x ∈ rest₃.takeWhile isJsWs,
                  x.isDigit = false := by
                intro x hx
                exact isDigit_eq_false_of_ws x (List.mem_takeWhile_imp hx)
              have hr4h := drop_takeWhile_head isJsWs rest₃
              have hrsp3 : rest₃ = rest₃.takeWhile isJsWs ++
                  rest₃.drop (rest₃.takeWhile isJsWs).length :=
                eq_append_drop_of_beginsWith rest₃ _
                  (List.isPrefixOf_iff_prefix.mpr (List.takeWhile_prefix _))
              have hvfs4 : versionFixScan rest₃ =
                  rest₃.takeWhile isJsWs ++ versionFixScan
                    (rest₃.drop (rest₃.takeWhile isJsWs).length) := by
                conv_lhs => rw [hrsp3]
                exact versionFixScan_skip _ hwsd _
              have hnumws_in : numWs (c :: rest) =
                  rest₃.takeWhile isJsWs := by
                rw [numWs, hin.2, hr3]
                rfl
              have hcont_in : numCont (c :: rest) =
                  rest₃.drop (rest₃.takeWhile isJsWs).length := by
                rw [numCont, hnumws_in, hin.2, hr3]
                rfl
              have hflag_in : numFlag (c :: rest) =
                  decide ((rest₃.takeWhile isJsWs).getLast? =
                    some '\n') := by
                rw [numFlag, hnumws_in]
              have hnumws_out : numWs (c :: (rest.takeWhile Char.isDigit ++
                  versionFixScan
                    (rest.drop (rest.takeWhile Char.isDigit).length))) =
                  rest₃.takeWhile isJsWs := by
                rw [numWs, hout.2, hvfs3]
                have hdd2 : ('.' :: versionFixScan rest₃).drop 1 =
                    versionFixScan rest₃ := rfl
                rw [hdd2, hvfs4]
                exact takeWhile_append_head isJsWs _ _ hwsw
                  (fun d0 hd0 => by
                    rw [versionFixScan_head] at hd0
                    exact hr4h d0 hd0)
              have hcont_out : numCont (c ::
                  (rest.takeWhile Char.isDigit ++ versionFixScan
                    (rest.drop (rest.takeWhile Char.isDigit).length))) =
                  versionFixScan
                    (rest₃.drop (rest₃.takeWhile isJsWs).length) := by
                rw [numCont, hnumws_out, hout.2, hvfs3]
                have hdd2 : ('.' :: versionFixScan rest₃).drop 1 =
                    versionFixScan rest₃ := rfl
                rw [hdd2, hvfs4, List.drop_left]
              have hflag_out : numFlag (c ::
                  (rest.takeWhile Char.isDigit ++ versionFixScan
                    (rest.drop (rest.takeWhile Char.isDigit).length))) =
                  decide ((rest₃.takeWhile isJsWs).getLast? =
                    some '\n') := by
                rw [numFlag, hnumws_out]
              have hcond : beginsWith (vfsR1 (c ::
                  (rest.takeWhile Char.isDigit ++ versionFixScan
                    (rest.drop (rest.takeWhile Char.isDigit).length))))
                  ['.'] = true := by
                rw [hout.2, hvfs3]
                exact (beginsWith_single
                  ('.' :: versionFixScan rest₃) '.').mpr rfl
              rw [if_pos hcond]
              refine (Bool.and_eq_true _ _).mpr ⟨?_, ?_⟩
              · rw [hout.2, hvfs3]
                have hdd2 : ('.' :: versionFixScan rest₃).drop 1 =
                    versionFixScan rest₃ := rfl
                rw [hdd2]
                exact goodAfter_versionFixScan rest₃ hga
              · rw [hcont_out, hflag_out]
                rw [hcont_in, hflag_in] at hrec
                refine ihn
                  (rest₃.drop (rest₃.takeWhile isJsWs).length).length
                  ?_ _ _ rfl hrec
                have l3 := congrArg List.length hr3
                have l4 : (rest.drop
                    (rest.takeWhile Char.isDigit).length).length ≤
                    rest.length := by
                  simp
                simp only [List.length_drop, List.length_cons] at l3 l4 ⊢
                rw [← hn]
                simp only [List.length_cons]
                omega
            · rw [hin.2, if_neg (by
                intro hbw
                exact hdot ((beginsWith_single _ '.').mp hbw))] at hv
              rw [hout.2, if_neg (by
                intro hbw
                have h5 := (beginsWith_single _ '.').mp hbw
                rw [versionFixScan_head] at h5
                exact hdot h5)]
              rw [hcn] at hv ⊢
              rw [← hvfs]
              exact ihn rest.length (by simp [← hn]) rest false rfl hv
          · have hbf : b = false := by simpa using hb
            subst hbf
            rw [numOk_cons, if_neg (by simp)] at hv
            rw [numOk_cons, if_neg (by simp)]
            rw [hcn] at hv ⊢
            rw [← hvfs]
            exact ihn rest.length (by simp [← hn]) rest false rfl hv
      · rw [if_neg hd]
        rw [numOk_cons, if_neg (by simp [hd])] at hv
        rw [numOk_cons, if_neg (by simp [hd])]
        exact ihn rest.length (by simp [← hn]) rest (decide (c = '\n'))
          rfl hv

/-- The version scanner preserves the good shape of the text after a
line-initial bullet marker. -/
theorem goodBul_versionFixScan (w : List Char)
    (h : goodBul w = true) : goodBul (versionFixScan w) = true := by
  cases w with
  | nil =>
    rw [versionFixScan]
    exact h
  | cons d t =>
    rw [goodBul_cons] at h
    by_cases hd : d = ' '
    · subst hd
      rw [show versionFixScan (' ' :: t) = ' ' :: versionFixScan t from by
        rw [versionFixScan_cons, if_neg (by decide)]]
      rw [goodBul_cons, if_pos rfl]
      rw [if_pos rfl] at h
      cases ht : versionFixScan t with
      | nil => rfl
      | cons o os =>
        obtain ⟨e, t₂, hte⟩ : ∃ e t₂, t = e :: t₂ := by
          cases ht2 : t with
          | nil =>
            rw [ht2, versionFixScan] at ht
            simp at ht
          | cons e t₂ => exact ⟨e, t₂, rfl⟩
        rw [hte] at h
        have ho : o = e := by
          have hh := versionFixScan_head t
          rw [ht, hte] at hh
          simpa using hh
        rw [ho]
        simpa using h
    · rw [if_neg hd] at h
      exact absurd h (by simp)

/-- The version scanner preserves bullet shape. -/
theorem bulOk_versionFixScan (v : List Char) (b : Bool)
    (hv : bulOk v b = true) : bulOk (versionFixScan v) b = true := by
  suffices H : ∀ n (v : List Char) (b : Bool), v.length = n →
      bulOk v b = true → bulOk (versionFixScan v) b = true from
    H v.length v b rfl hv
  intro n
  induction n using Nat.strong_induction_on with
  | _ n ihn =>
    intro v b hn hv
    cases v with
    | nil =>
      rw [versionFixScan]
      exact hv
    | cons c rest =>
      rw [versionFixScan_cons]
      by_cases hd : c.isDigit = true
      · rw [if_pos hd]
        have hcn : (decide (c = '\n')) = false := by
          have : ¬(c = '\n') := fun h0 => by
            rw [h0] at hd
            exact absurd hd (by decide)
          simpa using this
        have hmark : ((c = '*' : Bool) || (c = '-' : Bool)) = false := by
          have h1 : ¬(c = '*') := fun h0 => by
            rw [h0] at hd
            exact absurd hd (by decide)
          have h2 : ¬(c = '-') := fun h0 => by
            rw [h0] at hd
            exact absurd hd (by decide)
          simp [h1, h2]
        rw [bulOk_cons, if_neg (by simp [hmark]), hcn] at hv
        by_cases hg : vfsGuard (c :: rest) = true
        · rw [if_pos hg]
          obtain ⟨hsp, hd2ne, hd3ne⟩ := vfs_splits c rest hg
          have hD1dig : ∀ x ∈ vfsD1 (c :: rest), x.isDigit = true :=
            fun x hx => List.mem_takeWhile_imp hx
          have hD2dig : ∀ x ∈ vfsD2 (c :: rest), x.isDigit = true :=
            fun x hx => List.mem_takeWhile_imp hx
          have hD3dig : ∀ x ∈ vfsD3 (c :: rest), x.isDigit = true :=
            fun x hx => List.mem_takeWhile_imp hx
          have hd1e : vfsD1 (c :: rest) =
              c :: rest.takeWhile Char.isDigit := by
            rw [vfsD1, List.takeWhile_cons_of_pos hd]
          have hblocknl : '\n' ∉ rest.takeWhile Char.isDigit ++ '.' :: ' ' ::
              (vfsD2 (c :: rest) ++ '.' :: ' ' :: vfsD3 (c :: rest)) := by
            intro hm
            rcases List.mem_append.mp hm with hm | hm
            · exact absurd (List.mem_takeWhile_imp hm) (by decide)
            · rcases List.mem_cons.mp hm with hm | hm
              · exact absurd hm (by decide)
              · rcases List.mem_cons.mp hm with hm | hm
                · exact absurd hm (by decide)
                · rcases List.mem_append.mp hm with hm | hm
                  · exact absurd (hD2dig '\n' hm) (by decide)
                  · rcases List.mem_cons.mp hm with hm | hm
                    · exact absurd hm (by decide)
                    · rcases List.mem_cons.mp hm with hm | hm
                      · exact absurd hm (by decide)
                      · exact absurd (hD3dig '\n' hm) (by decide)
          have hrestX : rest = (rest.takeWhile Char.isDigit ++ '.' :: ' ' ::
              (vfsD2 (c :: rest) ++ '.' :: ' ' :: vfsD3 (c :: rest))) ++
              vfsCont (c :: rest) := by
            have h3 := hsp
            rw [hd1e] at h3
            rw [List.cons_append] at h3
            have h4 := ((List.cons.injEq _ _ _ _).mp h3).2
            conv_lhs => rw [h4]
            simp
          rw [hrestX, bulOk_skip _ hblocknl _] at hv
          have hih := ihn (vfsCont (c :: rest)).length
            (hn ▸ vfsCont_length_lt c rest hg) _ false rfl hv
          have hout2 : vfsD1 (c :: rest) ++ '.' :: (vfsD2 (c :: rest) ++
              '.' :: (vfsD3 (c :: rest) ++
                versionFixScan (vfsCont (c :: rest)))) =
              c :: ((rest.takeWhile Char.isDigit ++ '.' ::
                (vfsD2 (c :: rest) ++ '.' :: vfsD3 (c :: rest))) ++
                versionFixScan (vfsCont (c :: rest))) := by
            rw [hd1e]
            simp
          rw [hout2, bulOk_cons, if_neg (by simp [hmark]), hcn,
            bulOk_skip _ (by
              intro hm
              rcases List.mem_append.mp hm with hm | hm
              · exact absurd (List.mem_takeWhile_imp hm) (by decide)
              · rcases List.mem_cons.mp hm with hm | hm
                · exact absurd hm (by decide)
                · rcases List.mem_append.mp hm with hm | hm
                  · exact absurd (hD2dig '\n' hm) (by decide)
                  · rcases List.mem_cons.mp hm with hm | hm
                    · exact absurd hm (by decide)
                    · exact absurd (hD3dig '\n' hm) (by decide)) _]
          exact hih
        · rw [if_neg hg, bulOk_cons, if_neg (by simp [hmark]), hcn]
          exact ihn rest.length (by simp [← hn]) rest false rfl hv
      · rw [if_neg hd]
        by_cases hbd : (b && ((c = '*' : Bool) || (c = '-' : Bool))) = true
        · rw [bulOk_cons, if_pos hbd] at hv
          obtain ⟨hgb, hrec⟩ := (Bool.and_eq_true _ _).mp hv
          have hwsd : ∀ x ∈ rest.takeWhile isJsWs, x.isDigit = false :=
            fun x hx => isDigit_eq_false_of_ws x (List.mem_takeWhile_imp hx)
          have hwsw : ∀ x ∈ rest.takeWhile isJsWs, isJsWs x = true :=
            fun x hx => List.mem_takeWhile_imp hx
          have hr2h := drop_takeWhile_head isJsWs rest
          have hrsp : rest = rest.takeWhile isJsWs ++
              rest.drop (rest.takeWhile isJsWs).length :=
            eq_append_drop_of_beginsWith rest _
              (List.isPrefixOf_iff_prefix.mpr (List.takeWhile_prefix _))
          have hvfs : versionFixScan rest = rest.takeWhile isJsWs ++
              versionFixScan (rest.drop (rest.takeWhile isJsWs).length) := by
            conv_lhs => rw [hrsp]
            exact versionFixScan_skip _ hwsd _
          have htwout : (versionFixScan rest).takeWhile isJsWs =
              rest.takeWhile isJsWs := by
            rw [hvfs]
            exact takeWhile_append_head isJsWs _ _ hwsw
              (fun d0 hd0 => by
                rw [versionFixScan_head] at hd0
                exact hr2h d0 hd0)
          rw [bulOk_cons, if_pos hbd]
          refine (Bool.and_eq_true _ _).mpr ⟨?_, ?_⟩
          · exact goodBul_versionFixScan rest hgb
          · rw [htwout]
            have hdrop : (versionFixScan rest).drop
                (rest.takeWhile isJsWs).length =
                versionFixScan (rest.drop (rest.takeWhile isJsWs).length) :=
              by rw [hvfs, List.drop_left]
            rw [hdrop]
            refine ihn (rest.drop (rest.takeWhile isJsWs).length).length
              ?_ _ _ rfl hrec
            rw [← hn]
            simp only [List.length_drop, List.length_cons]
            omega
        · rw [bulOk_cons, if_neg hbd] at hv
          rw [bulOk_cons, if_neg hbd]
          exact ihn rest.length (by simp [← hn]) rest (decide (c = '\n'))
            rfl hv

/-- The version scanner preserves heading shape. -/
theorem headOk_versionFixScan (v : List Char) (b : Bool)
    (hv : headOk v b = true) : headOk (versionFixScan v) b = true := by
  suffices H : ∀ n (v : List Char) (b : Bool), v.length = n →
      headOk v b = true → headOk (versionFixScan v) b = true from
    H v.length v b rfl hv
  intro n
  induction n using Nat.strong_induction_on with
  | _ n ihn =>
    intro v b hn hv
    cases v with
    | nil =>
      rw [versionFixScan]
      exact hv
    | cons c rest =>
      rw [versionFixScan_cons]
      by_cases hd : c.isDigit = true
      · rw [if_pos hd]
        have hcn : (decide (c = '\n')) = false := by
          have : ¬(c = '\n') := fun h0 => by
            rw [h0] at hd
            exact absurd hd (by decide)
          simpa using this
        have hmark : (c = '#' : Bool) = false := by
          have h1 : ¬(c = '#') := fun h0 => by
            rw [h0] at hd
            exact absurd hd (by decide)
          simpa using h1
        rw [headOk_cons, if_neg (by simp [hmark]), hcn] at hv
        by_cases hg : vfsGuard (c :: rest) = true
        · rw [if_pos hg]
          obtain ⟨hsp, hd2ne, hd3ne⟩ := vfs_splits c rest hg
          have hD2dig : ∀ x ∈ vfsD2 (c :: rest), x.isDigit = true :=
            fun x hx => List.mem_takeWhile_imp hx
          have hD3dig : ∀ x ∈ vfsD3 (c :: rest), x.isDigit = true :=
            fun x hx => List.mem_takeWhile_imp hx
          have hd1e : vfsD1 (c :: rest) =
              c :: rest.takeWhile Char.isDigit := by
            rw [vfsD1, List.takeWhile_cons_of_pos hd]
          have hrestX : rest = (rest.takeWhile Char.isDigit ++ '.' :: ' ' ::
              (vfsD2 (c :: rest) ++ '.' :: ' ' :: vfsD3 (c :: rest))) ++
              vfsCont (c :: rest) := by
            have h3 := hsp
            rw [hd1e] at h3
            rw [List.cons_append] at h3
            have h4 := ((List.cons.injEq _ _ _ _).mp h3).2
            conv_lhs => rw [h4]
            simp
          rw [hrestX, headOk_skip _ (by
            intro hm
            rcases List.mem_append.mp hm with hm | hm
            · exact absurd (List.mem_takeWhile_imp hm) (by decide)
            · rcases List.mem_cons.mp hm with hm | hm
              · exact absurd hm (by decide)
              · rcases List.mem_cons.mp hm with hm | hm
                · exact absurd hm (by decide)
                · rcases List.mem_append.mp hm with hm | hm
                  · exact absurd (hD2dig '\n' hm) (by decide)
                  · rcases List.mem_cons.mp hm with hm | hm
                    · exact absurd hm (by decide)
                    · rcases List.mem_cons.mp hm with hm | hm
                      · exact absurd hm (by decide)
                      · exact absurd (hD3dig '\n' hm) (by decide)) _] at hv
          have hih := ihn (vfsCont (c :: rest)).length
            (hn ▸ vfsCont_length_lt c rest hg) _ false rfl hv
          have hout2 : vfsD1 (c :: rest) ++ '.' :: (vfsD2 (c :: rest) ++
              '.' :: (vfsD3 (c :: rest) ++
                versionFixScan (vfsCont (c :: rest)))) =
              c :: ((rest.takeWhile Char.isDigit ++ '.' ::
                (vfsD2 (c :: rest) ++ '.' :: vfsD3 (c :: rest))) ++
                versionFixScan (vfsCont (c :: rest))) := by
            rw [hd1e]
            simp
          rw [hout2, headOk_cons, if_neg (by simp [hmark]), hcn,
            headOk_skip _ (by
              intro hm
              rcases List.mem_append.mp hm with hm | hm
              · exact absurd (List.mem_takeWhile_imp hm) (by decide)
              · rcases List.mem_cons.mp hm with hm | hm
                · exact absurd hm (by decide)
                · rcases List.mem_append.mp hm with hm | hm
                  · exact absurd (hD2dig '\n' hm) (by decide)
                  · rcases List.mem_cons.mp hm with hm | hm
                    · exact absurd hm (by decide)
                    · exact absurd (hD3dig '\n' hm) (by decide)) _]
          exact hih
        · rw [if_neg hg, headOk_cons, if_neg (by simp [hmark]), hcn]
          exact ihn rest.length (by simp [← hn]) rest false rfl hv
      · rw [if_neg hd]
        by_cases hbd : (b && (c = '#' : Bool)) = true
        · have hch : c = '#' :=
            of_decide_eq_true ((Bool.and_eq_true _ _).mp hbd).2
          subst hch
          rw [headOk_cons, if_pos hbd] at hv
          obtain ⟨hnf, hrec⟩ := (Bool.and_eq_true _ _).mp hv
          have hhd : ∀ x ∈ rest.takeWhile (fun x => (x = '#' : Bool)),
              (x = '#' : Bool) = true := by
            intro x hx
            have h0 := List.mem_takeWhile_imp hx
            exact h0
          have hhdig : ∀ x ∈ rest.takeWhile (fun x => (x = '#' : Bool)),
              x.isDigit = false := by
            intro x hx
            have h0 := List.mem_takeWhile_imp hx
            have h1 : x = '#' := of_decide_eq_true h0
            rw [h1]
            decide
          have hr2h := drop_takeWhile_head (fun x => (x = '#' : Bool)) rest
          have hrsp : rest = rest.takeWhile (fun x => (x = '#' : Bool)) ++
              rest.drop
                (rest.takeWhile (fun x => (x = '#' : Bool))).length :=
            eq_append_drop_of_beginsWith rest _
              (List.isPrefixOf_iff_prefix.mpr (List.takeWhile_prefix _))
          have hvfs : versionFixScan rest =
              rest.takeWhile (fun x => (x = '#' : Bool)) ++
              versionFixScan (rest.drop
                (rest.takeWhile (fun x => (x = '#' : Bool))).length) := by
            conv_lhs => rw [hrsp]
            exact versionFixScan_skip _ hhdig _
          have hrunin : hashRun ('#' :: rest) =
              '#' :: rest.takeWhile (fun x => (x = '#' : Bool)) := by
            rw [hashRun, List.takeWhile_cons_of_pos (by decide)]
          have hrunout : hashRun ('#' :: versionFixScan rest) =
              '#' :: rest.takeWhile (fun x => (x = '#' : Bool)) := by
            rw [hashRun, List.takeWhile_cons_of_pos (by decide), hvfs]
            exact congrArg (List.cons '#')
              (takeWhile_append_head (fun x => (x = '#' : Bool)) _ _ hhd
                (fun d0 hd0 => by
                  rw [versionFixScan_head] at hd0
                  exact hr2h d0 hd0))
          have haftin : hashAfter ('#' :: rest) = rest.drop
              (rest.takeWhile (fun x => (x = '#' : Bool))).length := by
            rw [hashAfter, hrunin]
            simp only [List.length_cons]
            rw [List.drop_succ_cons]
          have haftout : hashAfter ('#' :: versionFixScan rest) =
              versionFixScan (rest.drop
                (rest.takeWhile (fun x => (x = '#' : Bool))).length) := by
            rw [hashAfter, hrunout, hvfs]
            simp only [List.length_cons]
            rw [List.drop_succ_cons, List.drop_left]
          have hfeq : hashFire ('#' :: versionFixScan rest) =
              hashFire ('#' :: rest) := by
            rw [hashFire_head, hashFire_head, hrunin, hrunout, haftin,
              haftout, versionFixScan_head]
          rw [headOk_cons, if_pos hbd, hfeq]
          refine (Bool.and_eq_true _ _).mpr ⟨hnf, ?_⟩
          exact ihn rest.length (by simp [← hn]) rest false rfl hrec
        · rw [headOk_cons, if_neg hbd] at hv
          rw [headOk_cons, if_neg hbd]
          exact ihn rest.length (by simp [← hn]) rest (decide (c = '\n'))
            rfl hv

/-- The version scanner preserves blank-line cleanliness. -/
theorem cblOk_versionFixScan (u : List Char) (h : cblOk u = true) :
    cblOk (versionFixScan u) = true := by
  suffices H : ∀ n (u : List Char), u.length = n → cblOk u = true →
      cblOk (versionFixScan u) = true from H u.length u rfl h
  intro n
  induction n using Nat.strong_induction_on with
  | _ n ihn =>
    intro u hn hu
    cases u with
    | nil =>
      rw [versionFixScan]
      rfl
    | cons c rest =>
      rw [versionFixScan_cons]
      by_cases hd : c.isDigit = true
      · rw [if_pos hd]
        by_cases hg : vfsGuard (c :: rest) = true
        · rw [if_pos hg]
          have hsplit : vfsD1 (c :: rest) ++ '.' :: (vfsD2 (c :: rest) ++
              '.' :: (vfsD3 (c :: rest) ++
                versionFixScan (vfsCont (c :: rest)))) =
              (vfsD1 (c :: rest) ++ '.' :: (vfsD2 (c :: rest) ++
                '.' :: vfsD3 (c :: rest))) ++
                versionFixScan (vfsCont (c :: rest)) := by
            simp
          rw [hsplit, cblOk_skip _ (by
            intro hm
            rcases List.mem_append.mp hm with hm | hm
            · exact absurd (List.mem_takeWhile_imp hm) (by decide)
            · rcases List.mem_cons.mp hm with hm | hm
              · exact absurd hm (by decide)
              · rcases List.mem_append.mp hm with hm | hm
                · exact absurd (List.mem_takeWhile_imp hm) (by decide)
                · rcases List.mem_cons.mp hm with hm | hm
                  · exact absurd hm (by decide)
                  · exact absurd (List.mem_takeWhile_imp hm) (by decide))]
          have hcont : cblOk (vfsCont (c :: rest)) = true := by
            rw [vfsCont, vfsR2, vfsR1]
            exact cblOk_drop _ _ (cblOk_drop 2 _ (cblOk_drop _ _
              (cblOk_drop 2 _ (cblOk_drop _ _ hu))))
          exact ihn (vfsCont (c :: rest)).length
            (hn ▸ vfsCont_length_lt c rest hg) _ rfl hcont
        · rw [if_neg hg]
          have hcn : ¬(c = '\n') := fun hc => by
            rw [hc] at hd
            exact absurd hd (by decide)
          rw [cblOk_cons, if_neg hcn]
          exact ihn rest.length (by simp [← hn]) rest rfl
            (cblOk_cons_down c rest hu)
      · rw [if_neg hd]
        have hrest := cblOk_cons_down c rest hu
        by_cases hc : c = '\n'
        · subst hc
          rw [cblOk_cons, if_pos rfl]
          refine (Bool.and_eq_true _ _).mpr
            ⟨?_, ihn rest.length (by simp [← hn]) rest rfl hrest⟩
          rw [nlRun_cons_nl, nlRun_versionFixScan rest]
          rw [cblOk_cons, if_pos rfl] at hu
          have h1 := ((Bool.and_eq_true _ _).mp hu).1
          rw [nlRun_cons_nl] at h1
          exact h1
        · rw [cblOk_cons, if_neg hc]
          exact ihn rest.length (by simp [← hn]) rest rfl hrest

/-- `takeWhile` ignores an appended block when it already stops inside
the left part. -/
theorem takeWhile_append_inner (p : Char → Bool) (a w : List Char)
    (hd : ∃ d, (a.drop (a.takeWhile p).length).head? = some d) :
    (a ++ w).takeWhile p = a.takeWhile p := by
  obtain ⟨d, hd⟩ := hd
  have hsp : a = a.takeWhile p ++ a.drop (a.takeWhile p).length :=
    eq_append_drop_of_beginsWith a _
      (List.isPrefixOf_iff_prefix.mpr (List.takeWhile_prefix _))
  have hpd : p d = false := drop_takeWhile_head p a d hd
  conv_lhs => rw [hsp]
  conv_rhs => rw [hsp]
  rw [List.append_assoc,
    takeWhile_append_all p _ (fun x hx => List.mem_takeWhile_imp hx),
    takeWhile_append_all p _ (fun x hx => List.mem_takeWhile_imp hx)]
  cases hc : a.drop (a.takeWhile p).length with
  | nil =>
    rw [hc] at hd
    simp at hd
  | cons e t =>
    have hde : e = d := by
      rw [hc] at hd
      simpa using hd
    rw [List.cons_append, List.takeWhile_cons_of_neg
        (by rw [hde]; simp [hpd]),
      List.takeWhile_cons_of_neg (by rw [hde]; simp [hpd])]

/-- The good-window test only weakens when a tail is removed. -/
theorem goodAfter_append_ws (zs w : List Char)
    (hga : goodAfter (zs ++ w) = true) : goodAfter zs = true := by
  cases zs with
  | nil => rfl
  | cons d t =>
    rw [List.cons_append, goodAfter_cons] at hga
    rw [goodAfter_cons]
    by_cases hd : d = ' '
    · rw [if_pos hd] at hga ⊢
      cases t with
      | nil => rfl
      | cons e t₂ =>
        rw [List.cons_append] at hga
        exact hga
    · rw [if_neg hd] at hga ⊢
      exact hga

/-- Number shape is preserved by removing trailing whitespace. -/
theorem numOk_append_ws (w : List Char)
    (hw : ∀ x ∈ w, isJsWs x = true) :
    ∀ n (m : List Char) (b : Bool), m.length = n →
      numOk (m ++ w) b = true → numOk m b = true := by
  have hwd : ∀ d, w.head? = some d → d.isDigit = false := by
    intro d hd
    refine isDigit_eq_false_of_ws d (hw d ?_)
    cases w with
    | nil => simp at hd
    | cons e t =>
      have : e = d := by simpa using hd
      rw [← this]
      exact List.mem_cons_self _ _
  have hwdot : ∀ d, w.head? = some d → ¬(d = '.') := by
    intro d hd hdot
    have hws : isJsWs d = true := by
      cases w with
      | nil => simp at hd
      | cons e t =>
        have : e = d := by simpa using hd
        rw [← this] at hd ⊢
        exact hw e (List.mem_cons_self _ _)
    rw [hdot] at hws
    exact absurd hws (by decide)
  intro n
  induction n using Nat.strong_induction_on with
  | _ n ihn =>
    intro m b hn hv
    cases m with
    | nil =>
      rw [numOk]
    | cons c m' =>
      rw [List.cons_append] at hv
      by_cases hbd : (b && c.isDigit) = true
      · have hcd : c.isDigit = true := ((Bool.and_eq_true _ _).mp hbd).2
        rw [numOk_cons, if_pos hbd] at hv
        rw [numOk_cons, if_pos hbd]
        have hD1 : vfsD1 (c :: (m' ++ w)) = vfsD1 (c :: m') := by
          rw [vfsD1, vfsD1, List.takeWhile_cons_of_pos hcd,
            List.takeWhile_cons_of_pos hcd,
            takeWhile_append_nohead Char.isDigit w hwd m']
        have hklen : (vfsD1 (c :: m')).length ≤ (c :: m').length :=
          (List.takeWhile_prefix _).length_le
        have hR1 : vfsR1 (c :: (m' ++ w)) = vfsR1 (c :: m') ++ w := by
          rw [vfsR1, vfsR1, hD1,
            show c :: (m' ++ w) = (c :: m') ++ w from rfl,
            drop_append_le _ _ _ hklen]
        cases hA : vfsR1 (c :: m') with
        | nil =>
          rw [if_neg (by simp [beginsWith, List.isPrefixOf])]
          rw [hR1, hA, List.nil_append] at hv
          rw [if_neg (by
            intro hbw
            have h5 := (beginsWith_single _ '.').mp hbw
            cases w with
            | nil => simp at h5
            | cons e t =>
              have he : e = '.' := by simpa using h5
              exact hwdot e rfl he)] at hv
          exact ihn m'.length (by simp [← hn]) m' _ rfl hv
        | cons z zs =>
          rw [hR1, hA, List.cons_append] at hv
          by_cases hz : z = '.'
          · subst hz
            rw [if_pos ((beginsWith_single ('.' :: (zs ++ w)) '.').mpr
              rfl)] at hv
            rw [if_pos ((beginsWith_single ('.' :: zs) '.').mpr rfl)]
            have hddin : ('.' :: (zs ++ w)).drop 1 = zs ++ w := rfl
            rw [hddin] at hv
            obtain ⟨hga, hrec⟩ := (Bool.and_eq_true _ _).mp hv
            have hnws_m : numWs (c :: m') = zs.takeWhile isJsWs := by
              rw [numWs, hA]
              rfl
            have hcont_m : numCont (c :: m') =
                zs.drop (zs.takeWhile isJsWs).length := by
              rw [numCont, hnws_m, hA]
              rfl
            have hflag_m : numFlag (c :: m') =
                decide ((zs.takeWhile isJsWs).getLast? = some '\n') := by
              rw [numFlag, hnws_m]
            cases hzc : (zs.drop (zs.takeWhile isJsWs).length) with
            | cons z4 zs4 =>
              -- the whitespace run stops inside the kept part
              have hnws_in : numWs (c :: (m' ++ w)) =
                  zs.takeWhile isJsWs := by
                rw [numWs, hR1, hA, List.cons_append, hddin,
                  takeWhile_append_inner isJsWs zs w ⟨z4, by rw [hzc]; rfl⟩]
              have hcont_in : numCont (c :: (m' ++ w)) =
                  zs.drop (zs.takeWhile isJsWs).length ++ w := by
                rw [numCont, hnws_in, hR1, hA, List.cons_append, hddin]
                have hspz : zs = zs.takeWhile isJsWs ++
                    zs.drop (zs.takeWhile isJsWs).length :=
                  eq_append_drop_of_beginsWith zs _
                    (List.isPrefixOf_iff_prefix.mpr
                      (List.takeWhile_prefix _))
                have hzw : zs ++ w = zs.takeWhile isJsWs ++
                    (zs.drop (zs.takeWhile isJsWs).length ++ w) := by
                  conv_lhs => rw [hspz]
                  rw [List.append_assoc]
                rw [hzw, List.drop_left]
              have hflag_in : numFlag (c :: (m' ++ w)) =
                  decide ((zs.takeWhile isJsWs).getLast? = some '\n') := by
                rw [numFlag, hnws_in]
              rw [hcont_in, hflag_in] at hrec
              refine (Bool.and_eq_true _ _).mpr ⟨?_, ?_⟩
              · -- the window keeps its good shape
                have hddm : ('.' :: zs).drop 1 = zs := rfl
                rw [hddm]
                exact goodAfter_append_ws zs w hga
              · rw [hcont_m, hflag_m]
                refine ihn (zs.drop (zs.takeWhile isJsWs).length).length
                  ?_ _ _ rfl hrec
                have l1 := congrArg List.length hA
                rw [vfsR1] at l1
                simp only [List.length_drop, List.length_cons] at l1 ⊢
                rw [← hn]
                simp only [List.length_cons]
                omega
            | nil =>
              -- the site sits at the very end of the kept part
              refine (Bool.and_eq_true _ _).mpr ⟨?_, ?_⟩
              · have hddm : ('.' :: zs).drop 1 = zs := rfl
                rw [hddm]
                exact goodAfter_append_ws zs w hga
              · rw [hcont_m, hflag_m, hzc]
                rw [numOk]
            -- end of fired case
          · rw [if_neg (by
              intro hbw
              exact hz (by simpa using (beginsWith_single _ '.').mp hbw))]
              at hv
            rw [if_neg (by
              intro hbw
              exact hz (by simpa using (beginsWith_single _ '.').mp hbw))]
            exact ihn m'.length (by simp [← hn]) m' _ rfl hv
      · rw [numOk_cons, if_neg hbd] at hv
        rw [numOk_cons, if_neg hbd]
        exact ihn m'.length (by simp [← hn]) m' _ rfl hv

/-- The bullet-window test only weakens when a tail is removed. -/
theorem goodBul_append_ws (zs w : List Char)
    (hgb : goodBul (zs ++ w) = true) : goodBul zs = true := by
  cases zs with
  | nil => rfl
  | cons d t =>
    rw [List.cons_append, goodBul_cons] at hgb
    rw [goodBul_cons]
    by_cases hd : d = ' '
    · rw [if_pos hd] at hgb ⊢
      cases t with
      | nil => rfl
      | cons e t₂ =>
        rw [List.cons_append] at hgb
        exact hgb
    · rw [if_neg hd] at hgb ⊢
      exact hgb

/-- Bullet shape is preserved by removing trailing whitespace. -/
theorem bulOk_append_ws (w : List Char)
    (hw : ∀ x ∈ w, isJsWs x = true) :
    ∀ n (m : List Char) (b : Bool), m.length = n →
      bulOk (m ++ w) b = true → bulOk m b = true := by
  intro n
  induction n using Nat.strong_induction_on with
  | _ n ihn =>
    intro m b hn hv
    cases m with
    | nil =>
      rw [bulOk]
    | cons c m' =>
      rw [List.cons_append] at hv
      by_cases hbd : (b && ((c = '*' : Bool) || (c = '-' : Bool))) = true
      · rw [bulOk_cons, if_pos hbd] at hv
        rw [bulOk_cons, if_pos hbd]
        obtain ⟨hgb, hrec⟩ := (Bool.and_eq_true _ _).mp hv
        refine (Bool.and_eq_true _ _).mpr ⟨goodBul_append_ws m' w hgb, ?_⟩
        cases hzc : m'.drop (m'.takeWhile isJsWs).length with
        | cons z4 zs4 =>
          have htwin : (m' ++ w).takeWhile isJsWs =
              m'.takeWhile isJsWs :=
            takeWhile_append_inner isJsWs m' w ⟨z4, by rw [hzc]; rfl⟩
          have hspz : m' = m'.takeWhile isJsWs ++
              m'.drop (m'.takeWhile isJsWs).length :=
            eq_append_drop_of_beginsWith m' _
              (List.isPrefixOf_iff_prefix.mpr (List.takeWhile_prefix _))
          have hzw : m' ++ w = m'.takeWhile isJsWs ++
              (m'.drop (m'.takeWhile isJsWs).length ++ w) := by
            conv_lhs => rw [hspz]
            rw [List.append_assoc]
          have hdropin : (m' ++ w).drop (m'.takeWhile isJsWs).length =
              m'.drop (m'.takeWhile isJsWs).length ++ w := by
            rw [hzw, List.drop_left]
          rw [htwin, hdropin, hzc] at hrec
          have hlen : (z4 :: zs4).length < n := by
            rw [← hzc, ← hn]
            simp only [List.length_drop, List.length_cons]
            omega
          exact ihn _ hlen _ _ rfl hrec
        | nil =>
          rw [bulOk]
      · rw [bulOk_cons, if_neg hbd] at hv
        rw [bulOk_cons, if_neg hbd]
        exact ihn m'.length (by simp [← hn]) m' _ rfl hv

/-- Heading shape is preserved by removing trailing whitespace. -/
theorem headOk_append_ws (w : List Char)
    (hw : ∀ x ∈ w, isJsWs x = true) :
    ∀ n (m : List Char) (b : Bool), m.length = n →
      headOk (m ++ w) b = true → headOk m b = true := by
  have hwh : ∀ d, w.head? = some d → (d = '#' : Bool) = false := by
    intro d hd
    have hws : isJsWs d = true := by
      cases w with
      | nil => simp at hd
      | cons e t =>
        have : e = d := by simpa using hd
        rw [← this]
        exact hw e (List.mem_cons_self _ _)
    have : ¬(d = '#') := fun h0 => by
      rw [h0] at hws
      exact absurd hws (by decide)
    simpa using this
  intro n
  induction n using Nat.strong_induction_on with
  | _ n ihn =>
    intro m b hn hv
    cases m with
    | nil =>
      rw [headOk]
    | cons c m' =>
      rw [List.cons_append] at hv
      by_cases hbd : (b && (c = '#' : Bool)) = true
      · have hch : c = '#' :=
          of_decide_eq_true ((Bool.and_eq_true _ _).mp hbd).2
        subst hch
        rw [headOk_cons, if_pos hbd] at hv
        rw [headOk_cons, if_pos hbd]
        obtain ⟨hnf, hrec⟩ := (Bool.and_eq_true _ _).mp hv
        refine (Bool.and_eq_true _ _).mpr
          ⟨?_, ihn m'.length (by simp [← hn]) m' _ rfl hrec⟩
        have hrunin : hashRun ('#' :: (m' ++ w)) = hashRun ('#' :: m') := by
          rw [hashRun, hashRun, List.takeWhile_cons_of_pos (by decide),
            List.takeWhile_cons_of_pos (by decide),
            takeWhile_append_nohead _ w hwh m']
        have hklen : (hashRun ('#' :: m')).length ≤ ('#' :: m').length :=
          (List.takeWhile_prefix _).length_le
        have haftin : hashAfter ('#' :: (m' ++ w)) =
            hashAfter ('#' :: m') ++ w := by
          rw [hashAfter, hashAfter, hrunin,
            show '#' :: (m' ++ w) = ('#' :: m') ++ w from rfl,
            drop_append_le _ _ _ hklen]
        rw [hashFire_head, hrunin, haftin] at hnf
        rw [hashFire_head]
        cases hafm : hashAfter ('#' :: m') with
        | nil =>
          simp
        | cons o os =>
          rw [hafm, List.cons_append] at hnf
          exact hnf
      · rw [headOk_cons, if_neg hbd] at hv
        rw [headOk_cons, if_neg hbd]
        exact ihn m'.length (by simp [← hn]) m' _ rfl hv

/-- A string with a non-whitespace head splits at its trimmed core. -/
theorem jsTrim_split (v : List Char)
    (hhead : ∀ d, v.head? = some d → isJsWs d = false) :
    v = jsTrim v ++ (v.reverse.takeWhile isJsWs).reverse := by
  rw [jsTrim, dropWhile_eq_self_of_head isJsWs v hhead]
  rw [show (v.reverse.dropWhile isJsWs).reverse ++
      (v.reverse.takeWhile isJsWs).reverse =
      (v.reverse.takeWhile isJsWs ++ v.reverse.dropWhile isJsWs).reverse
    from (List.reverse_append _ _).symm]
  rw [List.takeWhile_append_dropWhile, List.reverse_reverse]

/-- The trimmed trailing block is all whitespace. -/
theorem jsTrim_tail_ws (v : List Char) :
    ∀ x ∈ (v.reverse.takeWhile isJsWs).reverse, isJsWs x = true := by
  intro x hx
  rw [List.mem_reverse] at hx
  exact List.mem_takeWhile_imp hx

/-- Trimming preserves number shape when the head is solid. -/
theorem numOk_jsTrim (v : List Char) (b : Bool)
    (hhead : ∀ d, v.head? = some d → isJsWs d = false)
    (hv : numOk v b = true) : numOk (jsTrim v) b = true := by
  refine numOk_append_ws _ (jsTrim_tail_ws v) (jsTrim v).length _ b rfl ?_
  rw [← jsTrim_split v hhead]
  exact hv

/-- Trimming preserves bullet shape when the head is solid. -/
theorem bulOk_jsTrim (v : List Char) (b : Bool)
    (hhead : ∀ d, v.head? = some d → isJsWs d = false)
    (hv : bulOk v b = true) : bulOk (jsTrim v) b = true := by
  refine bulOk_append_ws _ (jsTrim_tail_ws v) (jsTrim v).length _ b rfl ?_
  rw [← jsTrim_split v hhead]
  exact hv

/-- The respacing closure preserves the leading newline run. -/
theorem nlRun_respT (u : List Char) : nlRun (respT u) = nlRun u := by
  induction u with
  | nil => rfl
  | cons c rest ih =>
    rw [respT_cons]
    by_cases hc : c = '\n'
    · subst hc
      rw [if_neg (by simp [respFire_false_of_not_punct '\n' _ (by decide)])]
      rw [nlRun_cons_nl, nlRun_cons_nl, ih]
    · by_cases hs : respFire c rest.head? = true
      · rw [if_pos hs, nlRun_cons_other c hc, nlRun_cons_other c hc]
      · rw [if_neg hs, nlRun_cons_other c hc, nlRun_cons_other c hc]

/-- The respacing closure preserves blank-line cleanliness. -/
theorem cblOk_respT (u : List Char) (h : cblOk u = true) :
    cblOk (respT u) = true := by
  induction u with
  | nil => rfl
  | cons c rest ih =>
    have hrest : cblOk rest = true := cblOk_cons_down c rest h
    rw [respT_cons]
    by_cases hc : c = '\n'
    · subst hc
      rw [if_neg (by simp [respFire_false_of_not_punct '\n' _ (by decide)])]
      rw [cblOk_cons, if_pos rfl]
      refine (Bool.and_eq_true _ _).mpr ⟨?_, ih hrest⟩
      rw [nlRun_cons_nl, nlRun_respT]
      rw [cblOk_cons, if_pos rfl] at h
      have h1 := ((Bool.and_eq_true _ _).mp h).1
      rw [nlRun_cons_nl] at h1
      exact h1
    · by_cases hs : respFire c rest.head? = true
      · rw [if_pos hs, cblOk_cons, if_neg hc, cblOk_cons,
          if_neg (by decide : ¬(' ' = '\n'))]
        exact ih hrest
      · rw [if_neg hs, cblOk_cons, if_neg hc]
        exact ih hrest

/-- The respacing closure keeps the first character in place. -/
theorem respT_head (u : List Char) : (respT u).head? = u.head? := by
  cases u with
  | nil => rfl
  | cons c rest =>
    rw [respT_cons]
    by_cases h : respFire c rest.head? = true
    · rw [if_pos h]
      rfl
    · rw [if_neg h]
      rfl

/-- The respacing closure preserves heading shape. -/
theorem headOk_respT (u : List Char) : ∀ b, headOk u b = true →
    headOk (respT u) b = true := by
  induction u with
  | nil =>
    intro b hv
    exact hv
  | cons c rest ih =>
    intro b hv
    by_cases hbd : (b && (c = '#' : Bool)) = true
    · have hch : c = '#' :=
        of_decide_eq_true ((Bool.and_eq_true _ _).mp hbd).2
      subst hch
      rw [respT_nonpunct_cons '#' rest (by decide)]
      rw [headOk_cons, if_pos hbd] at hv
      obtain ⟨hnf, hrec⟩ := (Bool.and_eq_true _ _).mp hv
      have hhd : ∀ x ∈ rest.takeWhile (fun x => (x = '#' : Bool)),
          (x = '#' : Bool) = true := fun x hx => by
        have h := List.mem_takeWhile_imp hx
        exact h
      have hr2h := drop_takeWhile_head (fun x => (x = '#' : Bool)) rest
      have hrsp : rest = rest.takeWhile (fun x => (x = '#' : Bool)) ++
          rest.drop (rest.takeWhile (fun x => (x = '#' : Bool))).length :=
        eq_append_drop_of_beginsWith rest _
          (List.isPrefixOf_iff_prefix.mpr (List.takeWhile_prefix _))
      have hRT : respT rest =
          rest.takeWhile (fun x => (x = '#' : Bool)) ++
          respT (rest.drop
            (rest.takeWhile (fun x => (x = '#' : Bool))).length) := by
        conv_lhs => rw [hrsp]
        exact respT_block _ (fun x hx => by
          have h1 := List.mem_takeWhile_imp hx
          have h2 : x = '#' := of_decide_eq_true h1
          rw [h2]
          decide) _
      have hr2h' : ∀ d, (respT (rest.drop
          (rest.takeWhile (fun x => (x = '#' : Bool))).length)).head? =
          some d → (d = '#' : Bool) = false := by
        intro d hd
        rw [respT_head] at hd
        exact hr2h d hd
      have hrunin : hashRun ('#' :: rest) = '#' ::
          rest.takeWhile (fun x => (x = '#' : Bool)) := by
        rw [hashRun, List.takeWhile_cons_of_pos (by decide)]
      have hrunout : hashRun ('#' :: respT rest) = '#' ::
          rest.takeWhile (fun x => (x = '#' : Bool)) := by
        rw [hashRun, List.takeWhile_cons_of_pos (by decide), hRT]
        exact congrArg (List.cons '#')
          (takeWhile_append_head (fun x => (x = '#' : Bool)) _ _ hhd hr2h')
      have haftin : hashAfter ('#' :: rest) = rest.drop
          (rest.takeWhile (fun x => (x = '#' : Bool))).length := by
        rw [hashAfter, hrunin]
        simp only [List.length_cons]
        rw [List.drop_succ_cons]
      have haftout : hashAfter ('#' :: respT rest) =
          respT (rest.drop
            (rest.takeWhile (fun x => (x = '#' : Bool))).length) := by
        rw [hashAfter, hrunout, hRT]
        simp only [List.length_cons]
        rw [List.drop_succ_cons, List.drop_left]
      have hfeq : hashFire ('#' :: respT rest) =
          hashFire ('#' :: rest) := by
        rw [hashFire_head, hashFire_head, hrunin, hrunout, haftin,
          haftout, respT_head]
      rw [headOk_cons, if_pos hbd, hfeq]
      exact (Bool.and_eq_true _ _).mpr ⟨hnf, ih false hrec⟩
    · rw [headOk_cons, if_neg hbd] at hv
      rw [respT_cons]
      by_cases hs : respFire c rest.head? = true
      · have hcp : sentPunct c = true := sentPunct_of_respFire c _ hs
        have hcn : (decide (c = '\n')) = false := by
          have : ¬(c = '\n') := fun h0 => by
            rw [h0] at hcp
            exact absurd hcp (by decide)
          simpa using this
        rw [hcn] at hv
        rw [if_pos hs, headOk_cons, if_neg hbd, hcn, headOk_cons,
          if_neg (by simp),
          show (decide (' ' = '\n')) = false from by decide]
        exact ih false hv
      · rw [if_neg hs, headOk_cons, if_neg hbd]
        exact ih _ hv

/-- The respacing closure preserves bullet shape. -/
theorem bulOk_respT (u : List Char) (b : Bool) (hv : bulOk u b = true) :
    bulOk (respT u) b = true := by
  suffices H : ∀ n (u : List Char) (b : Bool), u.length = n →
      bulOk u b = true → bulOk (respT u) b = true from
    H u.length u b rfl hv
  intro n
  induction n using Nat.strong_induction_on with
  | _ n ihn =>
    intro u b hn hv
    cases u with
    | nil => exact hv
    | cons c rest =>
      by_cases hbd : (b && ((c = '*' : Bool) || (c = '-' : Bool))) = true
      · have hcm : ((c = '*' : Bool) || (c = '-' : Bool)) = true :=
          ((Bool.and_eq_true _ _).mp hbd).2
        have hcp : sentPunct c = false := by
          rcases (Bool.or_eq_true _ _).mp hcm with h1 | h1
          · rw [of_decide_eq_true h1]
            decide
          · rw [of_decide_eq_true h1]
            decide
        rw [respT_nonpunct_cons c rest hcp]
        rw [bulOk_cons, if_pos hbd] at hv
        obtain ⟨hgb, hrec⟩ := (Bool.and_eq_true _ _).mp hv
        cases rest with
        | nil =>
          rw [show respT ([] : List Char) = [] from rfl, bulOk_cons,
            if_pos hbd]
          simp only [List.takeWhile_nil, List.drop_nil]
          rw [show goodBul ([] : List Char) = true from rfl, Bool.true_and,
            show (decide ((([] : List Char)).getLast? = some '\n')) = false
              from by decide, bulOk]
        | cons e1 t2 =>
          have he1 : e1 = ' ' := by
            by_contra hne
            rw [goodBul_cons, if_neg hne] at hgb
            simp at hgb
          subst he1
          cases t2 with
          | nil =>
            rw [show respT ([' '] : List Char) = [' '] from by decide,
              bulOk_cons, if_pos hbd,
              show (([' '] : List Char).takeWhile isJsWs) = [' ']
                from by decide]
            rw [show ([' '] : List Char).drop
                (([' '] : List Char)).length = ([] : List Char) from rfl,
              show (decide ((([' '] : List Char)).getLast? = some '\n')) =
                false from by decide,
              show goodBul [' '] = true from by decide, Bool.true_and,
              bulOk]
          | cons e t3 =>
            have hew : isJsWs e = false := by
              rw [goodBul_cons, if_pos rfl] at hgb
              simpa using hgb
            have htw : ((' ' :: e :: t3).takeWhile isJsWs) = [' '] := by
              rw [List.takeWhile_cons_of_pos (by decide),
                List.takeWhile_cons_of_neg (by simp [hew])]
            rw [htw,
              show (' ' :: e :: t3).drop (([' '] : List Char)).length =
                e :: t3 from rfl,
              show (decide ((([' '] : List Char)).getLast? = some '\n')) =
                false from by decide] at hrec
            have hh := respT_head (e :: t3)
            cases hre : respT (e :: t3) with
            | nil =>
              rw [hre] at hh
              simp at hh
            | cons f fs =>
              rw [hre] at hh
              have hf : f = e := by simpa using hh
              rw [hf] at hre
              rw [respT_nonpunct_cons ' ' (e :: t3) (by decide), hre,
                bulOk_cons, if_pos hbd]
              have htw2 : ((' ' :: e :: fs).takeWhile isJsWs) = [' '] := by
                rw [List.takeWhile_cons_of_pos (by decide),
                  List.takeWhile_cons_of_neg (by simp [hew])]
              rw [htw2,
                show (' ' :: e :: fs).drop (([' '] : List Char)).length =
                  e :: fs from rfl,
                show (decide ((([' '] : List Char)).getLast? = some '\n')) =
                  false from by decide]
              refine (Bool.and_eq_true _ _).mpr ⟨?_, ?_⟩
              · rw [goodBul_cons, if_pos rfl]
                simp [hew]
              · rw [← hre]
                refine ihn (e :: t3).length ?_ _ false rfl hrec
                rw [← hn]
                simp only [List.length_cons]
                omega
      · rw [bulOk_cons, if_neg hbd] at hv
        rw [respT_cons]
        by_cases hs : respFire c rest.head? = true
        · have hcp : sentPunct c = true := sentPunct_of_respFire c _ hs
          have hcn : (decide (c = '\n')) = false := by
            have : ¬(c = '\n') := fun h0 => by
              rw [h0] at hcp
              exact absurd hcp (by decide)
            simpa using this
          rw [hcn] at hv
          rw [if_pos hs, bulOk_cons, if_neg hbd, hcn, bulOk_cons,
            if_neg (by simp),
            show (decide (' ' = '\n')) = false from by decide]
          exact ihn rest.length (by simp [← hn]) rest false rfl hv
        · rw [if_neg hs, bulOk_cons, if_neg hbd]
          exact ihn rest.length (by simp [← hn]) rest _ rfl hv

/-- The respacing closure preserves number shape. -/
theorem numOk_respT (u : List Char) (b : Bool) (hv : numOk u b = true) :
    numOk (respT u) b = true := by
  suffices H : ∀ n (u : List Char) (b : Bool), u.length = n →
      numOk u b = true → numOk (respT u) b = true from
    H u.length u b rfl hv
  intro n
  induction n using Nat.strong_induction_on with
  | _ n ihn =>
    intro u b hn hv
    cases u with
    | nil => exact hv
    | cons c rest =>
      by_cases hbd : (b && c.isDigit) = true
      · have hcd : c.isDigit = true := ((Bool.and_eq_true _ _).mp hbd).2
        have hcp : sentPunct c = false := sentPunct_eq_false_of_isDigit c hcd
        have hcn : (decide (c = '\n')) = false := by
          have : ¬(c = '\n') := fun h0 => by
            rw [h0] at hcd
            exact absurd hcd (by decide)
          simpa using this
        rw [respT_nonpunct_cons c rest hcp]
        obtain ⟨D, R, hsp, hDdig, hRh⟩ :
            ∃ D R, rest = D ++ R ∧ (∀ x ∈ D, x.isDigit = true) ∧
              (∀ d, R.head? = some d → d.isDigit = false) :=
          ⟨rest.takeWhile Char.isDigit,
           rest.drop (rest.takeWhile Char.isDigit).length,
           eq_append_drop_of_beginsWith rest _
             (List.isPrefixOf_iff_prefix.mpr (List.takeWhile_prefix _)),
           fun x hx => by
             have h := List.mem_takeWhile_imp hx
             exact h,
           drop_takeWhile_head Char.isDigit rest⟩
        have hDnp : ∀ x ∈ D, sentPunct x = false :=
          fun x hx => sentPunct_eq_false_of_isDigit x (hDdig x hx)
        have hDnl : '\n' ∉ D :=
          fun hm => absurd (hDdig '\n' hm) (by decide)
        have hR1in : vfsR1 (c :: rest) = R := by
          conv_lhs => rw [hsp]
          exact (vfs_split_general c D R hcd hDdig hRh).2
        rw [numOk_cons, if_pos hbd, hR1in] at hv
        by_cases hbg : beginsWith R ['.'] = true
        · rw [if_pos hbg] at hv
          obtain ⟨hga, hrec⟩ := (Bool.and_eq_true _ _).mp hv
          have hnwin : numWs (c :: rest) = (R.drop 1).takeWhile isJsWs := by
            rw [numWs, hR1in]
          have hncin : numCont (c :: rest) =
              (R.drop 1).drop ((R.drop 1).takeWhile isJsWs).length := by
            rw [numCont, hnwin, hR1in]
          have hnfin : numFlag (c :: rest) =
              decide (((R.drop 1).takeWhile isJsWs).getLast? =
                some '\n') := by
            rw [numFlag, hnwin]
          rw [hncin, hnfin] at hrec
          obtain ⟨A, hRA⟩ : ∃ A, R = '.' :: A := by
            have hRhead : R.head? = some '.' :=
              (beginsWith_single R '.').mp hbg
            cases R with
            | nil => simp at hRhead
            | cons r0 A =>
              have h1 : r0 = '.' := by simpa using hRhead
              exact ⟨A, by rw [h1]⟩
          subst hRA
          rw [show (('.' :: A).drop 1) = A from rfl] at hga hrec
          have hRT : respT rest = D ++ respT ('.' :: A) := by
            conv_lhs => rw [hsp]
            exact respT_block D hDnp _
          have hfin1 : numOk (c :: (D ++ ['.', ' '])) b = true := by
            rw [numOk_cons, if_pos hbd]
            have hR1o : vfsR1 (c :: (D ++ ['.', ' '])) = ['.', ' '] :=
              (vfs_split_general c D _ hcd hDdig (fun d0 hd0 => by
                have h1 : d0 = '.' := by simpa using hd0.symm
                rw [h1]
                decide)).2
            rw [hR1o, if_pos ((beginsWith_single (['.', ' '] : List Char)
              '.').mpr rfl)]
            have hnco : numCont (c :: (D ++ ['.', ' '])) = [] := by
              rw [numCont, numWs, hR1o]
              decide
            have hnfo : numFlag (c :: (D ++ ['.', ' '])) = false := by
              rw [numFlag, numWs, hR1o]
              decide
            rw [hnco, hnfo,
              show ((['.', ' '] : List Char).drop 1) = [' '] from rfl,
              show goodAfter [' '] = true from by decide, Bool.true_and,
              numOk]
          have hfin2 : ∀ X Xs, isJsWs X = false →
              numOk (X :: Xs) false = true → (X :: Xs).length < n →
              numOk (c :: (D ++ '.' :: ' ' :: respT (X :: Xs))) b =
                true := by
            intro X Xs hXw hXok hXlen
            have hh := respT_head (X :: Xs)
            cases hre : respT (X :: Xs) with
            | nil =>
              rw [hre] at hh
              simp at hh
            | cons f fs =>
              rw [hre] at hh
              have hf : f = X := by simpa using hh
              rw [hf] at hre
              rw [hf, numOk_cons, if_pos hbd]
              have hR1o : vfsR1 (c :: (D ++ '.' :: ' ' :: X :: fs)) =
                  '.' :: ' ' :: X :: fs :=
                (vfs_split_general c D _ hcd hDdig (fun d0 hd0 => by
                  have h1 : d0 = '.' := by simpa using hd0.symm
                  rw [h1]
                  decide)).2
              rw [hR1o, if_pos ((beginsWith_single
                ('.' :: ' ' :: X :: fs) '.').mpr rfl)]
              have htwo : ((' ' :: X :: fs).takeWhile isJsWs) = [' '] := by
                rw [List.takeWhile_cons_of_pos (by decide),
                  List.takeWhile_cons_of_neg (by simp [hXw])]
              have hnwo : numWs (c :: (D ++ '.' :: ' ' :: X :: fs)) =
                  [' '] := by
                rw [numWs, hR1o,
                  show (('.' :: ' ' :: X :: fs).drop 1) = ' ' :: X :: fs
                    from rfl, htwo]
              have hnco : numCont (c :: (D ++ '.' :: ' ' :: X :: fs)) =
                  X :: fs := by
                rw [numCont, hnwo, hR1o]
                rfl
              have hnfo : numFlag (c :: (D ++ '.' :: ' ' :: X :: fs)) =
                  false := by
                rw [numFlag, hnwo]
                decide
              rw [hnco, hnfo,
                show (('.' :: ' ' :: X :: fs).drop 1) = ' ' :: X :: fs
                  from rfl]
              refine (Bool.and_eq_true _ _).mpr ⟨?_, ?_⟩
              · rw [goodAfter_cons, if_pos rfl]
                simp [hXw]
              · rw [← hre]
                exact ihn (X :: Xs).length hXlen _ false rfl hXok
          cases A with
          | nil =>
            rw [hRT, show respT ('.' :: ([] : List Char)) = ['.', ' ']
              from by decide]
            exact hfin1
          | cons a0 A1 =>
            by_cases ha0 : a0 = ' '
            · subst ha0
              cases A1 with
              | nil =>
                rw [hRT, show respT ('.' :: [' ']) = ['.', ' ']
                  from by decide]
                exact hfin1
              | cons e A2 =>
                have hew : isJsWs e = false := by
                  rw [goodAfter_cons, if_pos rfl] at hga
                  simpa using hga
                have htw : ((' ' :: e :: A2).takeWhile isJsWs) = [' '] := by
                  rw [List.takeWhile_cons_of_pos (by decide),
                    List.takeWhile_cons_of_neg (by simp [hew])]
                rw [htw,
                  show (' ' :: e :: A2).drop (([' '] : List Char)).length =
                    e :: A2 from rfl,
                  show (decide ((([' '] : List Char)).getLast? =
                    some '\n')) = false from by decide] at hrec
                rw [hRT, respT_punct_space '.' (e :: A2)]
                refine hfin2 e A2 hew hrec ?_
                have hlen := congrArg List.length hsp
                simp only [List.length_append, List.length_cons] at hlen
                simp only [List.length_cons] at hn
                simp only [List.length_cons]
                omega
            · rw [goodAfter_cons, if_neg ha0] at hga
              have haw : isJsWs a0 = false := by
                simpa using ((Bool.and_eq_true _ _).mp hga).1
              have hae : exclNext a0 = false := by
                simpa using ((Bool.and_eq_true _ _).mp hga).2
              have htw0 : ((a0 :: A1).takeWhile isJsWs) = [] :=
                List.takeWhile_cons_of_neg (by simp [haw])
              rw [htw0,
                show (a0 :: A1).drop (([] : List Char)).length = a0 :: A1
                  from rfl,
                show (decide ((([] : List Char)).getLast? = some '\n')) =
                  false from by decide] at hrec
              rw [hRT, respT_punct_solid '.' a0 A1 (by decide) hae haw]
              refine hfin2 a0 A1 haw hrec ?_
              have hlen := congrArg List.length hsp
              simp only [List.length_append, List.length_cons] at hlen
              simp only [List.length_cons] at hn
              simp only [List.length_cons]
              omega
        · rw [if_neg hbg, hcn] at hv
          rw [numOk_cons, if_pos hbd]
          have hRTg : respT rest = D ++ respT R := by
            conv_lhs => rw [hsp]
            exact respT_block D hDnp _
          rw [hRTg]
          have hR1o : vfsR1 (c :: (D ++ respT R)) = respT R :=
            (vfs_split_general c D _ hcd hDdig (fun d0 hd0 => by
              rw [respT_head] at hd0
              exact hRh d0 hd0)).2
          rw [hR1o, if_neg (fun hcon => by
            have h1 := (beginsWith_single (respT R) '.').mp hcon
            rw [respT_head] at h1
            exact absurd ((beginsWith_single R '.').mpr h1)
              (by simpa using hbg)), hcn]
          rw [numOk_skip D hDnl _]
          have hvR : numOk R false = true := by
            rw [hsp, numOk_skip D hDnl _] at hv
            exact hv
          refine ihn R.length ?_ R false rfl hvR
          have hlen := congrArg List.length hsp
          simp only [List.length_append] at hlen
          simp only [List.length_cons] at hn
          omega
      · rw [numOk_cons, if_neg hbd] at hv
        rw [respT_cons]
        by_cases hs : respFire c rest.head? = true
        · have hcp : sentPunct c = true := sentPunct_of_respFire c _ hs
          have hcn : (decide (c = '\n')) = false := by
            have : ¬(c = '\n') := fun h0 => by
              rw [h0] at hcp
              exact absurd hcp (by decide)
            simpa using this
          rw [hcn] at hv
          rw [if_pos hs, numOk_cons, if_neg hbd, hcn, numOk_cons,
            if_neg (by simp),
            show (decide (' ' = '\n')) = false from by decide]
          exact ihn rest.length (by simp [← hn]) rest false rfl hv
        · rw [if_neg hs, numOk_cons, if_neg hbd]
          exact ihn rest.length (by simp [← hn]) rest _ rfl hv

/-- The bullet-list rule echoes a newline-free block at a line middle. -/
theorem bulletListRule_walk (a : List Char) (h : '\n' ∉ a)
    (t : List Char) :
    bulletListRule (a ++ t) false = a ++ bulletListRule t false := by
  induction a with
  | nil => rfl
  | cons x a' ih =>
    rw [List.cons_append, bulletListRule_cons]
    simp only [Bool.false_and, if_neg (by simp : ¬(false = true))]
    have hx : ¬(x = '\n') := fun hx => h (hx ▸ List.mem_cons_self x a')
    rw [show (decide (x = '\n')) = false from by simpa using hx,
      ih (fun hm => h (List.mem_cons_of_mem x hm)), List.cons_append]

/-- Blank-line collapsing echoes any character that is not a newline. -/
theorem cbl_echo (c : Char) (rest : List Char) (hc : ¬(c = '\n')) :
    collapseBlankLines (c :: rest) = c :: collapseBlankLines rest := by
  rw [collapseBlankLines_cons, if_neg hc]

/-- Blank-line collapsing echoes a newline-free block. -/
theorem cbl_skip (a : List Char) (h : '\n' ∉ a) (t : List Char) :
    collapseBlankLines (a ++ t) = a ++ collapseBlankLines t := by
  induction a with
  | nil => rfl
  | cons x a' ih =>
    have hx : ¬(x = '\n') := fun hx => h (hx ▸ List.mem_cons_self x a')
    rw [List.cons_append, cbl_echo x _ hx,
      ih (fun hm => h (List.mem_cons_of_mem x hm)), List.cons_append]

/-- Blank-line collapsing keeps the first character in place. -/
theorem cbl_head (s : List Char) :
    (collapseBlankLines s).head? = s.head? := by
  cases s with
  | nil => rw [collapseBlankLines]
  | cons c rest =>
    rw [collapseBlankLines_cons]
    by_cases hc : c = '\n'
    · rw [if_pos hc]
      by_cases h3 : (nlRun (c :: rest)).length ≥ 3
      · rw [if_pos h3, hc]
        rfl
      · rw [if_neg h3]
        rfl
    · rw [if_neg hc]
      rfl

/-- The number-list rule preserves the leading newline run. -/
theorem nlRun_numberListRule (u : List Char) (f : Bool) :
    nlRun (numberListRule u f) = nlRun u := by
  induction u generalizing f with
  | nil => rw [numberListRule]
  | cons c rest ih =>
    rw [numberListRule_cons]
    by_cases hb : (f && c.isDigit) = true
    · have hcd : c.isDigit = true := ((Bool.and_eq_true _ _).mp hb).2
      have hcn : ¬(c = '\n') := fun h0 => by
        rw [h0] at hcd
        exact absurd hcd (by decide)
      rw [if_pos hb]
      by_cases hg : beginsWith (vfsR1 (c :: rest)) ['.'] = true
      · rw [if_pos hg,
          show vfsD1 (c :: rest) = c :: rest.takeWhile Char.isDigit from by
            simp [vfsD1, List.takeWhile_cons_of_pos hcd],
          List.cons_append, nlRun_cons_other c hcn, nlRun_cons_other c hcn]
      · rw [if_neg hg, nlRun_cons_other c hcn, nlRun_cons_other c hcn]
    · rw [if_neg hb]
      by_cases hc : c = '\n'
      · subst hc
        rw [nlRun_cons_nl, nlRun_cons_nl, ih]
      · rw [nlRun_cons_other c hc, nlRun_cons_other c hc]

/-- The bullet-list rule preserves the leading newline run. -/
theorem nlRun_bulletListRule (u : List Char) (f : Bool) :
    nlRun (bulletListRule u f) = nlRun u := by
  induction u generalizing f with
  | nil => rw [bulletListRule]
  | cons c rest ih =>
    rw [bulletListRule_cons]
    by_cases hb : (f && ((c = '*' : Bool) || (c = '-' : Bool))) = true
    · have hcm : ((c = '*' : Bool) || (c = '-' : Bool)) = true :=
        ((Bool.and_eq_true _ _).mp hb).2
      have hcn : ¬(c = '\n') := by
        rcases (Bool.or_eq_true _ _).mp hcm with h1 | h1
        · rw [of_decide_eq_true h1]
          decide
        · rw [of_decide_eq_true h1]
          decide
      rw [if_pos hb, nlRun_cons_other c hcn, nlRun_cons_other c hcn]
    · rw [if_neg hb]
      by_cases hc : c = '\n'
      · subst hc
        rw [nlRun_cons_nl, nlRun_cons_nl, ih]
      · rw [nlRun_cons_other c hc, nlRun_cons_other c hc]

/-- Newline flattening leaves no newline behind. -/
theorem nls_noNl (s : List Char) : '\n' ∉ newlinesToSpaces s := by
  suffices H : ∀ n (s : List Char), s.length = n →
      '\n' ∉ newlinesToSpaces s from H s.length s rfl
  intro n
  induction n using Nat.strong_induction_on with
  | _ n ihn =>
    intro s hn hm
    cases s with
    | nil =>
      rw [newlinesToSpaces] at hm
      simp at hm
    | cons c rest =>
      rw [newlinesToSpaces] at hm
      by_cases hc : c = '\n'
      · rw [if_pos hc] at hm
        rcases List.mem_cons.mp hm with hm | hm
        · exact absurd hm (by decide)
        · refine ihn (rest.dropWhile (fun x => (x = '\n' : Bool))).length
            ?_ _ rfl hm
          rw [← hn]
          simp only [List.length_cons]
          exact Nat.lt_succ_of_le (List.dropWhile_sublist _).length_le
      · rw [if_neg hc] at hm
        rcases List.mem_cons.mp hm with hm | hm
        · exact hc hm.symm
        · exact ihn rest.length (by simp [← hn]) rest rfl hm

/-- Newline flattening echoes a newline-free block. -/
theorem nls_walk (a : List Char) (h : '\n' ∉ a) (t : List Char) :
    newlinesToSpaces (a ++ t) = a ++ newlinesToSpaces t := by
  induction a with
  | nil => rfl
  | cons x a' ih =>
    have hx : ¬(x = '\n') := fun hx => h (hx ▸ List.mem_cons_self x a')
    rw [List.cons_append, newlinesToSpaces, if_neg hx,
      ih (fun hm => h (List.mem_cons_of_mem x hm)), List.cons_append]

/-- A newline-free string is number-shaped at a line middle. -/
theorem numOk_noNl_false (u : List Char) (h : '\n' ∉ u) :
    numOk u false = true := by
  have h1 := numOk_skip u h []
  rw [List.append_nil] at h1
  rw [h1, numOk]

/-- A newline-free string is bullet-shaped at a line middle. -/
theorem bulOk_noNl_false (u : List Char) (h : '\n' ∉ u) :
    bulOk u false = true := by
  have h1 := bulOk_skip u h []
  rw [List.append_nil] at h1
  rw [h1, bulOk]

/-- The number-list rule preserves blank-line cleanliness. -/
theorem cblOk_num (v : List Char) (f : Bool) (hv : cblOk v = true) :
    cblOk (numberListRule v f) = true := by
  suffices H : ∀ n (v : List Char) (f : Bool), v.length = n →
      cblOk v = true → cblOk (numberListRule v f) = true from
    H v.length v f rfl hv
  intro n
  induction n using Nat.strong_induction_on with
  | _ n ihn =>
    intro v f hn hv
    cases v with
    | nil =>
      rw [numberListRule]
      exact hv
    | cons c rest =>
      rw [numberListRule_cons]
      by_cases hb : (f && c.isDigit) = true
      · rw [if_pos hb]
        have hcd : c.isDigit = true := ((Bool.and_eq_true _ _).mp hb).2
        have hcn : ¬(c = '\n') := fun h0 => by
          rw [h0] at hcd
          exact absurd hcd (by decide)
        by_cases hg : beginsWith (vfsR1 (c :: rest)) ['.'] = true
        · rw [if_pos hg]
          have hcont : cblOk (numCont (c :: rest)) = true := by
            rw [numCont, numWs, vfsR1]
            exact cblOk_drop _ _ (cblOk_drop _ _ (cblOk_drop _ _ hv))
          have hih : cblOk (numberListRule (numCont (c :: rest))
              (numFlag (c :: rest))) = true :=
            ihn (numCont (c :: rest)).length
              (hn ▸ numCont_length_lt c rest hcd) _ _ rfl hcont
          have hnl : '\n' ∉ vfsD1 (c :: rest) ++ ['.', ' '] := by
            intro hm
            rcases List.mem_append.mp hm with hm | hm
            · rw [vfsD1] at hm
              have h1 := List.mem_takeWhile_imp hm
              exact absurd h1 (by decide)
            · rcases List.mem_cons.mp hm with hm | hm
              · exact absurd hm (by decide)
              · rcases List.mem_cons.mp hm with hm | hm
                · exact absurd hm (by decide)
                · simp at hm
          rw [show vfsD1 (c :: rest) ++ '.' :: ' ' ::
              numberListRule (numCont (c :: rest)) (numFlag (c :: rest)) =
              (vfsD1 (c :: rest) ++ ['.', ' ']) ++
              numberListRule (numCont (c :: rest)) (numFlag (c :: rest))
            from by simp, cblOk_skip _ hnl _]
          exact hih
        · rw [if_neg hg, cblOk_cons, if_neg hcn]
          exact ihn rest.length (by simp [← hn]) rest _ rfl
            (cblOk_cons_down c rest hv)
      · rw [if_neg hb]
        by_cases hc : c = '\n'
        · subst hc
          rw [cblOk_cons, if_pos rfl]
          refine (Bool.and_eq_true _ _).mpr ⟨?_, ?_⟩
          · rw [nlRun_cons_nl, nlRun_numberListRule]
            rw [cblOk_cons, if_pos rfl] at hv
            have h1 := ((Bool.and_eq_true _ _).mp hv).1
            rw [nlRun_cons_nl] at h1
            exact h1
          · exact ihn rest.length (by simp [← hn]) rest _ rfl
              (cblOk_cons_down _ rest hv)
        · rw [cblOk_cons, if_neg hc]
          exact ihn rest.length (by simp [← hn]) rest _ rfl
            (cblOk_cons_down c rest hv)

/-- The bullet-list rule preserves blank-line cleanliness. -/
theorem cblOk_bul (v : List Char) (f : Bool) (hv : cblOk v = true) :
    cblOk (bulletListRule v f) = true := by
  suffices H : ∀ n (v : List Char) (f : Bool), v.length = n →
      cblOk v = true → cblOk (bulletListRule v f) = true from
    H v.length v f rfl hv
  intro n
  induction n using Nat.strong_induction_on with
  | _ n ihn =>
    intro v f hn hv
    cases v with
    | nil =>
      rw [bulletListRule]
      exact hv
    | cons c rest =>
      rw [bulletListRule_cons]
      by_cases hb : (f && ((c = '*' : Bool) || (c = '-' : Bool))) = true
      · rw [if_pos hb]
        have hcm : ((c = '*' : Bool) || (c = '-' : Bool)) = true :=
          ((Bool.and_eq_true _ _).mp hb).2
        have hcn : ¬(c = '\n') := by
          rcases (Bool.or_eq_true _ _).mp hcm with h1 | h1
          · rw [of_decide_eq_true h1]
            decide
          · rw [of_decide_eq_true h1]
            decide
        have hcont : cblOk (rest.drop (rest.takeWhile isJsWs).length) =
            true := cblOk_drop _ _ (cblOk_cons_down c rest hv)
        have hih : cblOk (bulletListRule
            (rest.drop (rest.takeWhile isJsWs).length)
            (decide ((rest.takeWhile isJsWs).getLast? = some '\n'))) =
            true := by
          refine ihn (rest.drop (rest.takeWhile isJsWs).length).length
            ?_ _ _ rfl hcont
          rw [← hn]
          simp only [List.length_drop, List.length_cons]
          omega
        rw [cblOk_cons, if_neg hcn, cblOk_cons,
          if_neg (by decide : ¬(' ' = '\n'))]
        exact hih
      · rw [if_neg hb]
        by_cases hc : c = '\n'
        · subst hc
          rw [cblOk_cons, if_pos rfl]
          refine (Bool.and_eq_true _ _).mpr ⟨?_, ?_⟩
          · rw [nlRun_cons_nl, nlRun_bulletListRule]
            rw [cblOk_cons, if_pos rfl] at hv
            have h1 := ((Bool.and_eq_true _ _).mp hv).1
            rw [nlRun_cons_nl] at h1
            exact h1
          · exact ihn rest.length (by simp [← hn]) rest _ rfl
              (cblOk_cons_down _ rest hv)
        · rw [cblOk_cons, if_neg hc]
          exact ihn rest.length (by simp [← hn]) rest _ rfl
            (cblOk_cons_down c rest hv)

/-- The empty-list equation of `newlinesToSpaces`. -/
theorem nls_nil : newlinesToSpaces ([] : List Char) = [] := by
  rw [newlinesToSpaces]

/-- Newline flattening preserves number shape at a line start. -/
theorem numOk_nls (v : List Char) (hv : numOk v true = true) :
    numOk (newlinesToSpaces v) true = true := by
  cases v with
  | nil =>
    rw [nls_nil, numOk]
  | cons c rest =>
    by_cases hc : c = '\n'
    · rw [newlinesToSpaces, if_pos hc, numOk_cons, if_neg (by decide),
        show (decide (' ' = '\n')) = false from by decide]
      exact numOk_noNl_false _ (nls_noNl _)
    · rw [newlinesToSpaces, if_neg hc]
      by_cases hcd : c.isDigit = true
      · obtain ⟨D, R, hsp, hDdig, hRh⟩ :
            ∃ D R, rest = D ++ R ∧ (∀ x ∈ D, x.isDigit = true) ∧
              (∀ d, R.head? = some d → d.isDigit = false) :=
          ⟨rest.takeWhile Char.isDigit,
           rest.drop (rest.takeWhile Char.isDigit).length,
           eq_append_drop_of_beginsWith rest _
             (List.isPrefixOf_iff_prefix.mpr (List.takeWhile_prefix _)),
           fun x hx => by
             have h := List.mem_takeWhile_imp hx
             exact h,
           drop_takeWhile_head Char.isDigit rest⟩
        have hDnl : '\n' ∉ D :=
          fun hm => absurd (hDdig '\n' hm) (by decide)
        have hR1in : vfsR1 (c :: rest) = R := by
          conv_lhs => rw [hsp]
          exact (vfs_split_general c D R hcd hDdig hRh).2
        rw [numOk_cons, if_pos (by simp [hcd]), hR1in] at hv
        have hNW : newlinesToSpaces rest =
            D ++ newlinesToSpaces R := by
          conv_lhs => rw [hsp]
          exact nls_walk D hDnl _
        by_cases hbg : beginsWith R ['.'] = true
        · rw [if_pos hbg] at hv
          have hga := ((Bool.and_eq_true _ _).mp hv).1
          obtain ⟨A, hRA⟩ : ∃ A, R = '.' :: A := by
            have hRhead : R.head? = some '.' :=
              (beginsWith_single R '.').mp hbg
            cases R with
            | nil => simp at hRhead
            | cons r0 A =>
              have h1 : r0 = '.' := by simpa using hRhead
              exact ⟨A, by rw [h1]⟩
          subst hRA
          rw [show (('.' :: A).drop 1) = A from rfl] at hga
          rw [hNW, show newlinesToSpaces ('.' :: A) =
            '.' :: newlinesToSpaces A from by
              rw [newlinesToSpaces, if_neg (by decide)]]
          cases A with
          | nil =>
            rw [nls_nil, numOk_cons, if_pos (by simp [hcd])]
            have hR1o : vfsR1 (c :: (D ++ ['.'])) = ['.'] :=
              (vfs_split_general c D _ hcd hDdig (fun d0 hd0 => by
                have h1 : d0 = '.' := by simpa using hd0.symm
                rw [h1]
                decide)).2
            rw [hR1o, if_pos ((beginsWith_single (['.'] : List Char)
              '.').mpr rfl)]
            have hnco : numCont (c :: (D ++ ['.'])) = [] := by
              rw [numCont, numWs, hR1o]
              decide
            have hnfo : numFlag (c :: (D ++ ['.'])) = false := by
              rw [numFlag, numWs, hR1o]
              decide
            rw [hnco, hnfo, show ((['.'] : List Char).drop 1) = []
              from rfl, show goodAfter ([] : List Char) = true from rfl,
              Bool.true_and, numOk]
          | cons a0 A1 =>
            by_cases ha0 : a0 = ' '
            · subst ha0
              cases A1 with
              | nil =>
                rw [show newlinesToSpaces [' '] = [' '] from by
                  rw [newlinesToSpaces, if_neg (by decide), nls_nil]]
                rw [numOk_cons, if_pos (by simp [hcd])]
                have hR1o : vfsR1 (c :: (D ++ ['.', ' '])) = ['.', ' '] :=
                  (vfs_split_general c D _ hcd hDdig (fun d0 hd0 => by
                    have h1 : d0 = '.' := by simpa using hd0.symm
                    rw [h1]
                    decide)).2
                rw [hR1o, if_pos ((beginsWith_single
                  (['.', ' '] : List Char) '.').mpr rfl)]
                have hnco : numCont (c :: (D ++ ['.', ' '])) = [] := by
                  rw [numCont, numWs, hR1o]
                  decide
                have hnfo : numFlag (c :: (D ++ ['.', ' '])) = false := by
                  rw [numFlag, numWs, hR1o]
                  decide
                rw [hnco, hnfo, show ((['.', ' '] : List Char).drop 1) =
                  [' '] from rfl, show goodAfter [' '] = true from by
                    decide, Bool.true_and, numOk]
              | cons e A2 =>
                have hew : isJsWs e = false := by
                  rw [goodAfter_cons, if_pos rfl] at hga
                  simpa using hga
                have hen : ¬(e = '\n') := fun h0 => by
                  rw [h0] at hew
                  exact absurd hew (by decide)
                rw [show newlinesToSpaces (' ' :: e :: A2) =
                  ' ' :: e :: newlinesToSpaces A2 from by
                    rw [newlinesToSpaces, if_neg (by decide),
                      newlinesToSpaces, if_neg hen]]
                rw [numOk_cons, if_pos (by simp [hcd])]
                have hR1o : vfsR1 (c :: (D ++ '.' :: ' ' :: e ::
                    newlinesToSpaces A2)) =
                    '.' :: ' ' :: e :: newlinesToSpaces A2 :=
                  (vfs_split_general c D _ hcd hDdig (fun d0 hd0 => by
                    have h1 : d0 = '.' := by simpa using hd0.symm
                    rw [h1]
                    decide)).2
                rw [hR1o, if_pos ((beginsWith_single ('.' :: ' ' :: e ::
                  newlinesToSpaces A2) '.').mpr rfl)]
                have htwo : ((' ' :: e :: newlinesToSpaces A2).takeWhile
                    isJsWs) = [' '] := by
                  rw [List.takeWhile_cons_of_pos (by decide),
                    List.takeWhile_cons_of_neg (by simp [hew])]
                have hnwo : numWs (c :: (D ++ '.' :: ' ' :: e ::
                    newlinesToSpaces A2)) = [' '] := by
                  rw [numWs, hR1o, show (('.' :: ' ' :: e ::
                    newlinesToSpaces A2).drop 1) = ' ' :: e ::
                    newlinesToSpaces A2 from rfl, htwo]
                have hnco : numCont (c :: (D ++ '.' :: ' ' :: e ::
                    newlinesToSpaces A2)) = e :: newlinesToSpaces A2 := by
                  rw [numCont, hnwo, hR1o]
                  rfl
                have hnfo : numFlag (c :: (D ++ '.' :: ' ' :: e ::
                    newlinesToSpaces A2)) = false := by
                  rw [numFlag, hnwo]
                  decide
                rw [hnco, hnfo, show (('.' :: ' ' :: e ::
                  newlinesToSpaces A2).drop 1) = ' ' :: e ::
                  newlinesToSpaces A2 from rfl]
                refine (Bool.and_eq_true _ _).mpr ⟨?_, ?_⟩
                · rw [goodAfter_cons, if_pos rfl]
                  simp [hew]
                · refine numOk_noNl_false _ ?_
                  intro hm
                  rcases List.mem_cons.mp hm with hm | hm
                  · exact hen hm.symm
                  · exact nls_noNl A2 hm
            · rw [goodAfter_cons, if_neg ha0] at hga
              have haw : isJsWs a0 = false := by
                simpa using ((Bool.and_eq_true _ _).mp hga).1
              have hae : exclNext a0 = false := by
                simpa using ((Bool.and_eq_true _ _).mp hga).2
              have han : ¬(a0 = '\n') := fun h0 => by
                rw [h0] at haw
                exact absurd haw (by decide)
              rw [show newlinesToSpaces (a0 :: A1) =
                a0 :: newlinesToSpaces A1 from by
                  rw [newlinesToSpaces, if_neg han]]
              rw [numOk_cons, if_pos (by simp [hcd])]
              have hR1o : vfsR1 (c :: (D ++ '.' :: a0 ::
                  newlinesToSpaces A1)) =
                  '.' :: a0 :: newlinesToSpaces A1 :=
                (vfs_split_general c D _ hcd hDdig (fun d0 hd0 => by
                  have h1 : d0 = '.' := by simpa using hd0.symm
                  rw [h1]
                  decide)).2
              rw [hR1o, if_pos ((beginsWith_single ('.' :: a0 ::
                newlinesToSpaces A1) '.').mpr rfl)]
              have htwo : ((a0 :: newlinesToSpaces A1).takeWhile
                  isJsWs) = [] :=
                List.takeWhile_cons_of_neg (by simp [haw])
              have hnwo : numWs (c :: (D ++ '.' :: a0 ::
                  newlinesToSpaces A1)) = [] := by
                rw [numWs, hR1o, show (('.' :: a0 ::
                  newlinesToSpaces A1).drop 1) = a0 ::
                  newlinesToSpaces A1 from rfl, htwo]
              have hnco : numCont (c :: (D ++ '.' :: a0 ::
                  newlinesToSpaces A1)) = a0 :: newlinesToSpaces A1 := by
                rw [numCont, hnwo, hR1o]
                rfl
              have hnfo : numFlag (c :: (D ++ '.' :: a0 ::
                  newlinesToSpaces A1)) = false := by
                rw [numFlag, hnwo]
                decide
              rw [hnco, hnfo, show (('.' :: a0 ::
                newlinesToSpaces A1).drop 1) = a0 ::
                newlinesToSpaces A1 from rfl]
              refine (Bool.and_eq_true _ _).mpr ⟨?_, ?_⟩
              · rw [goodAfter_cons, if_neg ha0]
                simp [haw, hae]
              · refine numOk_noNl_false _ ?_
                intro hm
                rcases List.mem_cons.mp hm with hm | hm
                · exact han hm.symm
                · exact nls_noNl A1 hm
        · rw [hNW, numOk_cons, if_pos (by simp [hcd])]
          have hR1o : vfsR1 (c :: (D ++ newlinesToSpaces R)) =
              newlinesToSpaces R :=
            (vfs_split_general c D _ hcd hDdig (fun d0 hd0 => by
              cases R with
              | nil =>
                rw [nls_nil] at hd0
                simp at hd0
              | cons r0 R2 =>
                rw [newlinesToSpaces] at hd0
                by_cases hr0n : r0 = '\n'
                · rw [if_pos hr0n] at hd0
                  have h1 : d0 = ' ' := by simpa using hd0.symm
                  rw [h1]
                  decide
                · rw [if_neg hr0n] at hd0
                  have h1 : d0 = r0 := by simpa using hd0.symm
                  rw [h1]
                  exact hRh r0 rfl)).2
          have hbgo : beginsWith (newlinesToSpaces R) ['.'] = false := by
            cases hbw : beginsWith (newlinesToSpaces R) ['.']
            · rfl
            · exfalso
              have hh := (beginsWith_single _ '.').mp hbw
              cases R with
              | nil =>
                rw [nls_nil] at hh
                simp at hh
              | cons r0 R2 =>
                have hr0 : ¬(r0 = '.') := fun h0 =>
                  absurd ((beginsWith_single (r0 :: R2) '.').mpr
                    (by rw [h0]; rfl)) hbg
                rw [newlinesToSpaces] at hh
                by_cases hr0n : r0 = '\n'
                · rw [if_pos hr0n] at hh
                  have h2 : ' ' = '.' := by simpa using hh
                  exact absurd h2 (by decide)
                · rw [if_neg hr0n] at hh
                  have h2 : r0 = '.' := by simpa using hh
                  exact hr0 h2
          rw [hR1o, if_neg (by simp [hbgo]),
            show (decide (c = '\n')) = false from by simpa using hc]
          refine numOk_noNl_false _ ?_
          intro hm
          rcases List.mem_append.mp hm with hm | hm
          · exact hDnl hm
          · exact nls_noNl R hm
      · rw [numOk_cons, if_neg (by simp [hcd]),
          show (decide (c = '\n')) = false from by simpa using hc]
        exact numOk_noNl_false _ (nls_noNl rest)

/-- Newline flattening preserves bullet shape at a line start. -/
theorem bulOk_nls (v : List Char) (hv : bulOk v true = true) :
    bulOk (newlinesToSpaces v) true = true := by
  cases v with
  | nil =>
    rw [nls_nil, bulOk]
  | cons c rest =>
    by_cases hc : c = '\n'
    · rw [newlinesToSpaces, if_pos hc, bulOk_cons, if_neg (by decide),
        show (decide (' ' = '\n')) = false from by decide]
      exact bulOk_noNl_false _ (nls_noNl _)
    · rw [newlinesToSpaces, if_neg hc]
      by_cases hcm : ((c = '*' : Bool) || (c = '-' : Bool)) = true
      · rw [bulOk_cons, if_pos (by simp [hcm])] at hv
        obtain ⟨hgb, hrec⟩ := (Bool.and_eq_true _ _).mp hv
        rw [bulOk_cons, if_pos (by simp [hcm])]
        cases rest with
        | nil =>
          rw [nls_nil]
          simp only [List.takeWhile_nil, List.drop_nil]
          rw [show goodBul ([] : List Char) = true from rfl, Bool.true_and,
            show (decide ((([] : List Char)).getLast? = some '\n')) = false
              from by decide, bulOk]
        | cons e1 t2 =>
          have he1 : e1 = ' ' := by
            by_contra hne
            rw [goodBul_cons, if_neg hne] at hgb
            simp at hgb
          subst he1
          cases t2 with
          | nil =>
            rw [show newlinesToSpaces [' '] = [' '] from by
              rw [newlinesToSpaces, if_neg (by decide), nls_nil]]
            rw [show (([' '] : List Char).takeWhile isJsWs) = [' ']
                from by decide,
              show ([' '] : List Char).drop
                (([' '] : List Char)).length = ([] : List Char) from rfl,
              show (decide ((([' '] : List Char)).getLast? = some '\n')) =
                false from by decide,
              show goodBul [' '] = true from by decide, Bool.true_and,
              bulOk]
          | cons e t3 =>
            have hew : isJsWs e = false := by
              rw [goodBul_cons, if_pos rfl] at hgb
              simpa using hgb
            have hen : ¬(e = '\n') := fun h0 => by
              rw [h0] at hew
              exact absurd hew (by decide)
            rw [show newlinesToSpaces (' ' :: e :: t3) =
              ' ' :: e :: newlinesToSpaces t3 from by
                rw [newlinesToSpaces, if_neg (by decide),
                  newlinesToSpaces, if_neg hen]]
            have htw2 : ((' ' :: e :: newlinesToSpaces t3).takeWhile
                isJsWs) = [' '] := by
              rw [List.takeWhile_cons_of_pos (by decide),
                List.takeWhile_cons_of_neg (by simp [hew])]
            rw [htw2,
              show (' ' :: e :: newlinesToSpaces t3).drop
                (([' '] : List Char)).length = e :: newlinesToSpaces t3
                from rfl,
              show (decide ((([' '] : List Char)).getLast? = some '\n')) =
                false from by decide]
            refine (Bool.and_eq_true _ _).mpr ⟨?_, ?_⟩
            · rw [goodBul_cons, if_pos rfl]
              simp [hew]
            · refine bulOk_noNl_false _ ?_
              intro hm
              rcases List.mem_cons.mp hm with hm | hm
              · exact hen hm.symm
              · exact nls_noNl t3 hm
      · rw [bulOk_cons, if_neg (by simp [hcm]),
          show (decide (c = '\n')) = false from by simpa using hc]
        exact bulOk_noNl_false _ (nls_noNl rest)

/-- A line-start heading scan is stronger than a line-middle one. -/
theorem headOk_mono (v : List Char) (hv : headOk v true = true) :
    headOk v false = true := by
  cases v with
  | nil => rw [headOk]
  | cons c rest =>
    rw [headOk_cons]
    simp only [Bool.false_and, if_neg (by simp : ¬(false = true))]
    by_cases hch : (c = '#' : Bool) = true
    · have hcn : (decide (c = '\n')) = false := by
        rw [of_decide_eq_true hch]
        decide
      rw [hcn]
      rw [headOk_cons, if_pos (by simp [hch])] at hv
      exact ((Bool.and_eq_true _ _).mp hv).2
    · rw [headOk_cons, if_neg (by simp [hch])] at hv
      exact hv

/-- A line-start bullet scan is stronger than a line-middle one. -/
theorem bulOk_mono (v : List Char) (hv : bulOk v true = true) :
    bulOk v false = true := by
  cases v with
  | nil => rw [bulOk]
  | cons c rest =>
    rw [bulOk_cons]
    simp only [Bool.false_and, if_neg (by simp : ¬(false = true))]
    by_cases hcm : ((c = '*' : Bool) || (c = '-' : Bool)) = true
    · have hcn : (decide (c = '\n')) = false := by
        rcases (Bool.or_eq_true _ _).mp hcm with h1 | h1
        · rw [of_decide_eq_true h1]
          decide
        · rw [of_decide_eq_true h1]
          decide
      rw [hcn]
      rw [bulOk_cons, if_pos (by simp [hcm])] at hv
      obtain ⟨hgb, hrec⟩ := (Bool.and_eq_true _ _).mp hv
      cases rest with
      | nil => rw [bulOk]
      | cons e1 t2 =>
        have he1 : e1 = ' ' := by
          by_contra hne
          rw [goodBul_cons, if_neg hne] at hgb
          simp at hgb
        subst he1
        rw [bulOk_cons, if_neg (by simp),
          show (decide (' ' = '\n')) = false from by decide]
        cases t2 with
        | nil => rw [bulOk]
        | cons e t3 =>
          have hew : isJsWs e = false := by
            rw [goodBul_cons, if_pos rfl] at hgb
            simpa using hgb
          have htw : ((' ' :: e :: t3).takeWhile isJsWs) = [' '] := by
            rw [List.takeWhile_cons_of_pos (by decide),
              List.takeWhile_cons_of_neg (by simp [hew])]
          rw [htw,
            show (' ' :: e :: t3).drop (([' '] : List Char)).length =
              e :: t3 from rfl,
            show (decide ((([' '] : List Char)).getLast? = some '\n')) =
              false from by decide] at hrec
          exact hrec
    · rw [bulOk_cons, if_neg (by simp [hcm])] at hv
      exact hv

/-- A line-start number scan is stronger than a line-middle one. -/
theorem numOk_mono (v : List Char) (hv : numOk v true = true) :
    numOk v false = true := by
  cases v with
  | nil => rw [numOk]
  | cons c rest =>
    rw [numOk_cons]
    simp only [Bool.false_and, if_neg (by simp : ¬(false = true))]
    by_cases hcd : c.isDigit = true
    · have hcn : (decide (c = '\n')) = false := by
        have : ¬(c = '\n') := fun h0 => by
          rw [h0] at hcd
          exact absurd hcd (by decide)
        simpa using this
      rw [hcn]
      obtain ⟨D, R, hsp, hDdig, hRh⟩ :
          ∃ D R, rest = D ++ R ∧ (∀ x ∈ D, x.isDigit = true) ∧
            (∀ d, R.head? = some d → d.isDigit = false) :=
        ⟨rest.takeWhile Char.isDigit,
         rest.drop (rest.takeWhile Char.isDigit).length,
         eq_append_drop_of_beginsWith rest _
           (List.isPrefixOf_iff_prefix.mpr (List.takeWhile_prefix _)),
         fun x hx => by
           have h := List.mem_takeWhile_imp hx
           exact h,
         drop_takeWhile_head Char.isDigit rest⟩
      have hDnl : '\n' ∉ D :=
        fun hm => absurd (hDdig '\n' hm) (by decide)
      have hR1in : vfsR1 (c :: rest) = R := by
        conv_lhs => rw [hsp]
        exact (vfs_split_general c D R hcd hDdig hRh).2
      rw [numOk_cons, if_pos (by simp [hcd]), hR1in] at hv
      by_cases hbg : beginsWith R ['.'] = true
      · rw [if_pos hbg] at hv
        obtain ⟨hga, hrec⟩ := (Bool.and_eq_true _ _).mp hv
        have hnwin : numWs (c :: rest) = (R.drop 1).takeWhile isJsWs := by
          rw [numWs, hR1in]
        have hncin : numCont (c :: rest) =
            (R.drop 1).drop ((R.drop 1).takeWhile isJsWs).length := by
          rw [numCont, hnwin, hR1in]
        have hnfin : numFlag (c :: rest) =
            decide (((R.drop 1).takeWhile isJsWs).getLast? =
              some '\n') := by
          rw [numFlag, hnwin]
        rw [hncin, hnfin] at hrec
        obtain ⟨A, hRA⟩ : ∃ A, R = '.' :: A := by
          have hRhead : R.head? = some '.' :=
            (beginsWith_single R '.').mp hbg
          cases R with
          | nil => simp at hRhead
          | cons r0 A =>
            have h1 : r0 = '.' := by simpa using hRhead
            exact ⟨A, by rw [h1]⟩
        subst hRA
        rw [show (('.' :: A).drop 1) = A from rfl] at hga hrec
        have hnl2 : '\n' ∉ D ++ ['.'] := by
          intro hm
          rcases List.mem_append.mp hm with hm | hm
          · exact hDnl hm
          · rcases List.mem_cons.mp hm with hm | hm
            · exact absurd hm (by decide)
            · simp at hm
        rw [show rest = (D ++ ['.']) ++ A from by rw [hsp]; simp,
          numOk_skip _ hnl2 _]
        cases A with
        | nil => rw [numOk]
        | cons a0 A1 =>
          by_cases ha0 : a0 = ' '
          · subst ha0
            rw [numOk_cons, if_neg (by simp),
              show (decide (' ' = '\n')) = false from by decide]
            cases A1 with
            | nil => rw [numOk]
            | cons e A2 =>
              have hew : isJsWs e = false := by
                rw [goodAfter_cons, if_pos rfl] at hga
                simpa using hga
              have htw : ((' ' :: e :: A2).takeWhile isJsWs) = [' '] := by
                rw [List.takeWhile_cons_of_pos (by decide),
                  List.takeWhile_cons_of_neg (by simp [hew])]
              rw [htw,
                show (' ' :: e :: A2).drop (([' '] : List Char)).length =
                  e :: A2 from rfl,
                show (decide ((([' '] : List Char)).getLast? =
                  some '\n')) = false from by decide] at hrec
              exact hrec
          · rw [goodAfter_cons, if_neg ha0] at hga
            have haw : isJsWs a0 = false := by
              simpa using ((Bool.and_eq_true _ _).mp hga).1
            have htw0 : ((a0 :: A1).takeWhile isJsWs) = [] :=
              List.takeWhile_cons_of_neg (by simp [haw])
            rw [htw0,
              show (a0 :: A1).drop (([] : List Char)).length = a0 :: A1
                from rfl,
              show (decide ((([] : List Char)).getLast? = some '\n')) =
                false from by decide] at hrec
            exact hrec
      · rw [if_neg hbg, hcn] at hv
        exact hv
    · rw [numOk_cons, if_neg (by simp [hcd])] at hv
      exact hv

/-- A nonempty all-newline list ends in a newline. -/
theorem getLast_all_nl (y : Char) (ys : List Char)
    (h : ∀ x ∈ y :: ys, (x = '\n' : Bool) = true) :
    (y :: ys).getLast? = some '\n' := by
  induction ys generalizing y with
  | nil =>
    have h1 : y = '\n' := of_decide_eq_true (h y (by simp))
    rw [h1]
    rfl
  | cons z zs ih =>
    rw [List.getLast?_cons_cons]
    exact ih z (fun x hx => h x (List.mem_cons_of_mem _ hx))

/-- The number scanner reaches the continuation of a rewritten site. -/
theorem numOk_after_site (rest D A : List Char)
    (hsp : rest = D ++ '.' :: A) (hDnl : '\n' ∉ D)
    (hv : numOk rest false = true) :
    numOk (A.drop (A.takeWhile isJsWs).length)
      (decide ((A.takeWhile isJsWs).getLast? = some '\n')) = true := by
  have hnl2 : '\n' ∉ D ++ ['.'] := by
    intro hm
    rcases List.mem_append.mp hm with hm | hm
    · exact hDnl hm
    · rcases List.mem_cons.mp hm with hm | hm
      · exact absurd hm (by decide)
      · simp at hm
  have hvA : numOk A false = true := by
    rw [show rest = (D ++ ['.']) ++ A from by rw [hsp]; simp,
      numOk_skip _ hnl2 _] at hv
    exact hv
  cases hW : A.takeWhile isJsWs with
  | nil =>
    simp only [List.length_nil, List.drop_zero]
    rw [show (decide ((([] : List Char)).getLast? = some '\n')) = false
      from by decide]
    exact hvA
  | cons w0 W2 =>
    have hWws : ∀ x ∈ w0 :: W2, isJsWs x = true := by
      intro x hx
      rw [← hW] at hx
      exact List.mem_takeWhile_imp hx
    have hspA : A = (w0 :: W2) ++ A.drop (w0 :: W2).length := by
      have h1 := eq_append_drop_of_beginsWith A (A.takeWhile isJsWs)
        (List.isPrefixOf_iff_prefix.mpr (List.takeWhile_prefix _))
      rw [hW] at h1
      exact h1
    rw [← numOk_ws_walk w0 W2 (A.drop (w0 :: W2).length) false hWws,
      ← hspA]
    exact hvA

/-- The bullet scanner reaches the continuation of a rewritten site. -/
theorem bulOk_after_site (rest D A : List Char)
    (hsp : rest = D ++ '.' :: A) (hDnl : '\n' ∉ D)
    (hv : bulOk rest false = true) :
    bulOk (A.drop (A.takeWhile isJsWs).length)
      (decide ((A.takeWhile isJsWs).getLast? = some '\n')) = true := by
  have hnl2 : '\n' ∉ D ++ ['.'] := by
    intro hm
    rcases List.mem_append.mp hm with hm | hm
    · exact hDnl hm
    · rcases List.mem_cons.mp hm with hm | hm
      · exact absurd hm (by decide)
      · simp at hm
  have hvA : bulOk A false = true := by
    rw [show rest = (D ++ ['.']) ++ A from by rw [hsp]; simp,
      bulOk_skip _ hnl2 _] at hv
    exact hv
  cases hW : A.takeWhile isJsWs with
  | nil =>
    simp only [List.length_nil, List.drop_zero]
    rw [show (decide ((([] : List Char)).getLast? = some '\n')) = false
      from by decide]
    exact hvA
  | cons w0 W2 =>
    have hWws : ∀ x ∈ w0 :: W2, isJsWs x = true := by
      intro x hx
      rw [← hW] at hx
      exact List.mem_takeWhile_imp hx
    have hspA : A = (w0 :: W2) ++ A.drop (w0 :: W2).length := by
      have h1 := eq_append_drop_of_beginsWith A (A.takeWhile isJsWs)
        (List.isPrefixOf_iff_prefix.mpr (List.takeWhile_prefix _))
      rw [hW] at h1
      exact h1
    rw [← bulOk_ws_walk w0 W2 (A.drop (w0 :: W2).length) false hWws,
      ← hspA]
    exact hvA

/-- The heading scanner reaches the continuation of a rewritten site. -/
theorem headOk_after_site (rest D A : List Char)
    (hsp : rest = D ++ '.' :: A) (hDnl : '\n' ∉ D)
    (hv : headOk rest false = true) :
    headOk (A.drop (A.takeWhile isJsWs).length)
      (decide ((A.takeWhile isJsWs).getLast? = some '\n')) = true := by
  have hnl2 : '\n' ∉ D ++ ['.'] := by
    intro hm
    rcases List.mem_append.mp hm with hm | hm
    · exact hDnl hm
    · rcases List.mem_cons.mp hm with hm | hm
      · exact absurd hm (by decide)
      · simp at hm
  have hvA : headOk A false = true := by
    rw [show rest = (D ++ ['.']) ++ A from by rw [hsp]; simp,
      headOk_skip _ hnl2 _] at hv
    exact hv
  cases hW : A.takeWhile isJsWs with
  | nil =>
    simp only [List.length_nil, List.drop_zero]
    rw [show (decide ((([] : List Char)).getLast? = some '\n')) = false
      from by decide]
    exact hvA
  | cons w0 W2 =>
    have hWws : ∀ x ∈ w0 :: W2, isJsWs x = true := by
      intro x hx
      rw [← hW] at hx
      exact List.mem_takeWhile_imp hx
    have hspA : A = (w0 :: W2) ++ A.drop (w0 :: W2).length := by
      have h1 := eq_append_drop_of_beginsWith A (A.takeWhile isJsWs)
        (List.isPrefixOf_iff_prefix.mpr (List.takeWhile_prefix _))
      rw [hW] at h1
      exact h1
    rw [← headOk_ws_walk w0 W2 (A.drop (w0 :: W2).length) false hWws,
      ← hspA]
    exact hvA

/-- A pass that echoes the leading hash run and keeps the head of the
remainder does not change the firing of the heading rule. -/
theorem hashFire_transport (rest : List Char) (g : List Char → List Char)
    (hwalk : g rest = rest.takeWhile (fun x => (x = '#' : Bool)) ++
      g (rest.drop (rest.takeWhile (fun x => (x = '#' : Bool))).length))
    (hhead : (g (rest.drop
      (rest.takeWhile (fun x => (x = '#' : Bool))).length)).head? =
      (rest.drop (rest.takeWhile (fun x => (x = '#' : Bool))).length).head?) :
    hashFire ('#' :: g rest) = hashFire ('#' :: rest) := by
  have hhd : ∀ x ∈ rest.takeWhile (fun x => (x = '#' : Bool)),
      (x = '#' : Bool) = true := fun x hx => by
    have h := List.mem_takeWhile_imp hx
    exact h
  have hr2h := drop_takeWhile_head (fun x => (x = '#' : Bool)) rest
  have hr2h' : ∀ d, (g (rest.drop
      (rest.takeWhile (fun x => (x = '#' : Bool))).length)).head? =
      some d → (d = '#' : Bool) = false := by
    intro d hd
    rw [hhead] at hd
    exact hr2h d hd
  have hrunin : hashRun ('#' :: rest) = '#' ::
      rest.takeWhile (fun x => (x = '#' : Bool)) := by
    rw [hashRun, List.takeWhile_cons_of_pos (by decide)]
  have hrunout : hashRun ('#' :: g rest) = '#' ::
      rest.takeWhile (fun x => (x = '#' : Bool)) := by
    rw [hashRun, List.takeWhile_cons_of_pos (by decide), hwalk]
    exact congrArg (List.cons '#')
      (takeWhile_append_head (fun x => (x = '#' : Bool)) _ _ hhd hr2h')
  have haftin : hashAfter ('#' :: rest) = rest.drop
      (rest.takeWhile (fun x => (x = '#' : Bool))).length := by
    rw [hashAfter, hrunin]
    simp only [List.length_cons]
    rw [List.drop_succ_cons]
  have haftout : hashAfter ('#' :: g rest) = g (rest.drop
      (rest.takeWhile (fun x => (x = '#' : Bool))).length) := by
    rw [hashAfter, hrunout, hwalk]
    simp only [List.length_cons]
    rw [List.drop_succ_cons, List.drop_left]
  rw [hashFire_head, hashFire_head, hrunin, hrunout, haftin, haftout,
    hhead]

/-- The number-list rule preserves bullet shape. -/
theorem bulOk_num (v : List Char) (b : Bool) (hv : bulOk v b = true) :
    bulOk (numberListRule v b) b = true := by
  suffices H : ∀ n (v : List Char) (b : Bool), v.length = n →
      bulOk v b = true → bulOk (numberListRule v b) b = true from
    H v.length v b rfl hv
  intro n
  induction n using Nat.strong_induction_on with
  | _ n ihn =>
    intro v b hn hv
    cases v with
    | nil =>
      rw [numberListRule]
      exact hv
    | cons c rest =>
      rw [numberListRule_cons]
      by_cases hb : (b && c.isDigit) = true
      · rw [if_pos hb]
        have hcd : c.isDigit = true := ((Bool.and_eq_true _ _).mp hb).2
        have hmark : ((c = '*' : Bool) || (c = '-' : Bool)) = false := by
          have h1 : ¬(c = '*') := fun h0 => by
            rw [h0] at hcd
            exact absurd hcd (by decide)
          have h2 : ¬(c = '-') := fun h0 => by
            rw [h0] at hcd
            exact absurd hcd (by decide)
          simp [h1, h2]
        have hcn : (decide (c = '\n')) = false := by
          have : ¬(c = '\n') := fun h0 => by
            rw [h0] at hcd
            exact absurd hcd (by decide)
          simpa using this
        rw [bulOk_cons, if_neg (by simp [hmark]), hcn] at hv
        by_cases hg : beginsWith (vfsR1 (c :: rest)) ['.'] = true
        · rw [if_pos hg]
          obtain ⟨D, R, hsp, hDdig, hRh⟩ :
              ∃ D R, rest = D ++ R ∧ (∀ x ∈ D, x.isDigit = true) ∧
                (∀ d, R.head? = some d → d.isDigit = false) :=
            ⟨rest.takeWhile Char.isDigit,
             rest.drop (rest.takeWhile Char.isDigit).length,
             eq_append_drop_of_beginsWith rest _
               (List.isPrefixOf_iff_prefix.mpr (List.takeWhile_prefix _)),
             fun x hx => by
               have h := List.mem_takeWhile_imp hx
               exact h,
             drop_takeWhile_head Char.isDigit rest⟩
          have hDnl : '\n' ∉ D :=
            fun hm => absurd (hDdig '\n' hm) (by decide)
          have hR1in : vfsR1 (c :: rest) = R := by
            conv_lhs => rw [hsp]
            exact (vfs_split_general c D R hcd hDdig hRh).2
          have hg2 : beginsWith R ['.'] = true := by
            rw [← hR1in]
            exact hg
          obtain ⟨A, hRA⟩ : ∃ A, R = '.' :: A := by
            have hRhead : R.head? = some '.' :=
              (beginsWith_single R '.').mp hg2
            cases R with
            | nil => simp at hRhead
            | cons r0 A =>
              have h1 : r0 = '.' := by simpa using hRhead
              exact ⟨A, by rw [h1]⟩
          subst hRA
          have hnwin : numWs (c :: rest) = A.takeWhile isJsWs := by
            rw [numWs, hR1in, show (('.' :: A).drop 1) = A from rfl]
          have hncin : numCont (c :: rest) =
              A.drop (A.takeWhile isJsWs).length := by
            rw [numCont, hnwin, hR1in,
              show (('.' :: A).drop 1) = A from rfl]
          have hnfin : numFlag (c :: rest) =
              decide ((A.takeWhile isJsWs).getLast? = some '\n') := by
            rw [numFlag, hnwin]
          have hK := bulOk_after_site rest D A hsp hDnl hv
          have hO := ihn (numCont (c :: rest)).length
            (hn ▸ numCont_length_lt c rest hcd) (numCont (c :: rest))
            (numFlag (c :: rest)) rfl (by rw [hncin, hnfin]; exact hK)
          have hOf : bulOk (numberListRule (numCont (c :: rest))
              (numFlag (c :: rest))) false = true := by
            cases hf : numFlag (c :: rest)
            · rw [hf] at hO
              exact hO
            · rw [hf] at hO
              exact bulOk_mono _ hO
          have hd1 : vfsD1 (c :: rest) =
              c :: rest.takeWhile Char.isDigit := by
            simp [vfsD1, List.takeWhile_cons_of_pos hcd]
          have hd1nl : '\n' ∉ rest.takeWhile Char.isDigit ++
              ['.', ' '] := by
            intro hm
            rcases List.mem_append.mp hm with hm | hm
            · have h1 := List.mem_takeWhile_imp hm
              exact absurd h1 (by decide)
            · rcases List.mem_cons.mp hm with hm | hm
              · exact absurd hm (by decide)
              · rcases List.mem_cons.mp hm with hm | hm
                · exact absurd hm (by decide)
                · simp at hm
          rw [hd1, List.cons_append, bulOk_cons,
            if_neg (by simp [hmark]), hcn,
            show rest.takeWhile Char.isDigit ++ '.' :: ' ' ::
              numberListRule (numCont (c :: rest)) (numFlag (c :: rest)) =
              (rest.takeWhile Char.isDigit ++ ['.', ' ']) ++
              numberListRule (numCont (c :: rest)) (numFlag (c :: rest))
              from by simp,
            bulOk_skip _ hd1nl _]
          exact hOf
        · rw [if_neg hg, hcn, bulOk_cons, if_neg (by simp [hmark]), hcn]
          exact ihn rest.length (by simp [← hn]) rest false rfl hv
      · rw [if_neg hb]
        by_cases hbul : (b && ((c = '*' : Bool) || (c = '-' : Bool))) = true
        · have hcm : ((c = '*' : Bool) || (c = '-' : Bool)) = true :=
            ((Bool.and_eq_true _ _).mp hbul).2
          have hcn : (decide (c = '\n')) = false := by
            rcases (Bool.or_eq_true _ _).mp hcm with h1 | h1
            · rw [of_decide_eq_true h1]
              decide
            · rw [of_decide_eq_true h1]
              decide
          rw [bulOk_cons, if_pos hbul] at hv
          obtain ⟨hgb, hrec⟩ := (Bool.and_eq_true _ _).mp hv
          rw [hcn, bulOk_cons, if_pos hbul]
          cases rest with
          | nil =>
            rw [numberListRule]
            simp only [List.takeWhile_nil, List.drop_nil]
            rw [show goodBul ([] : List Char) = true from rfl,
              Bool.true_and,
              show (decide ((([] : List Char)).getLast? = some '\n')) =
                false from by decide, bulOk]
          | cons e1 t2 =>
            have he1 : e1 = ' ' := by
              by_contra hne
              rw [goodBul_cons, if_neg hne] at hgb
              simp at hgb
            subst he1
            have hNR : numberListRule (' ' :: t2) false =
                ' ' :: numberListRule t2 false := by
              rw [numberListRule_cons, if_neg (by simp),
                show (decide (' ' = '\n')) = false from by decide]
            rw [hNR]
            cases t2 with
            | nil =>
              rw [numberListRule,
                show (([' '] : List Char).takeWhile isJsWs) = [' ']
                  from by decide,
                show ([' '] : List Char).drop
                  (([' '] : List Char)).length = ([] : List Char)
                  from rfl,
                show (decide ((([' '] : List Char)).getLast? =
                  some '\n')) = false from by decide,
                show goodBul [' '] = true from by decide, Bool.true_and,
                bulOk]
            | cons e t3 =>
              have hew : isJsWs e = false := by
                rw [goodBul_cons, if_pos rfl] at hgb
                simpa using hgb
              have hh := numberListRule_head (e :: t3) false
              cases hre : numberListRule (e :: t3) false with
              | nil =>
                rw [hre] at hh
                simp at hh
              | cons f fs =>
                rw [hre] at hh
                have hf : f = e := by simpa using hh
                rw [hf] at hre
                rw [hf]
                have htw2 : ((' ' :: e :: fs).takeWhile isJsWs) =
                    [' '] := by
                  rw [List.takeWhile_cons_of_pos (by decide),
                    List.takeWhile_cons_of_neg (by simp [hew])]
                rw [htw2,
                  show (' ' :: e :: fs).drop
                    (([' '] : List Char)).length = e :: fs from rfl,
                  show (decide ((([' '] : List Char)).getLast? =
                    some '\n')) = false from by decide]
                refine (Bool.and_eq_true _ _).mpr ⟨?_, ?_⟩
                · rw [goodBul_cons, if_pos rfl]
                  simp [hew]
                · rw [← hre]
                  have htw : ((' ' :: e :: t3).takeWhile isJsWs) =
                      [' '] := by
                    rw [List.takeWhile_cons_of_pos (by decide),
                      List.takeWhile_cons_of_neg (by simp [hew])]
                  rw [htw,
                    show (' ' :: e :: t3).drop
                      (([' '] : List Char)).length = e :: t3 from rfl,
                    show (decide ((([' '] : List Char)).getLast? =
                      some '\n')) = false from by decide] at hrec
                  refine ihn (e :: t3).length ?_ _ false rfl hrec
                  rw [← hn]
                  simp only [List.length_cons]
                  omega
        · rw [bulOk_cons, if_neg hbul] at hv
          rw [bulOk_cons, if_neg hbul]
          exact ihn rest.length (by simp [← hn]) rest _ rfl hv

/-- The number-list rule preserves heading shape. -/
theorem headOk_num (v : List Char) (b : Bool) (hv : headOk v b = true) :
    headOk (numberListRule v b) b = true := by
  suffices H : ∀ n (v : List Char) (b : Bool), v.length = n →
      headOk v b = true → headOk (numberListRule v b) b = true from
    H v.length v b rfl hv
  intro n
  induction n using Nat.strong_induction_on with
  | _ n ihn =>
    intro v b hn hv
    cases v with
    | nil =>
      rw [numberListRule]
      exact hv
    | cons c rest =>
      rw [numberListRule_cons]
      by_cases hb : (b && c.isDigit) = true
      · rw [if_pos hb]
        have hcd : c.isDigit = true := ((Bool.and_eq_true _ _).mp hb).2
        have hhash : (c = '#' : Bool) = false := by
          have h1 : ¬(c = '#') := fun h0 => by
            rw [h0] at hcd
            exact absurd hcd (by decide)
          simpa using h1
        have hcn : (decide (c = '\n')) = false := by
          have : ¬(c = '\n') := fun h0 => by
            rw [h0] at hcd
            exact absurd hcd (by decide)
          simpa using this
        rw [headOk_cons, if_neg (by simp [hhash]), hcn] at hv
        by_cases hg : beginsWith (vfsR1 (c :: rest)) ['.'] = true
        · rw [if_pos hg]
          obtain ⟨D, R, hsp, hDdig, hRh⟩ :
              ∃ D R, rest = D ++ R ∧ (∀ x ∈ D, x.isDigit = true) ∧
                (∀ d, R.head? = some d → d.isDigit = false) :=
            ⟨rest.takeWhile Char.isDigit,
             rest.drop (rest.takeWhile Char.isDigit).length,
             eq_append_drop_of_beginsWith rest _
               (List.isPrefixOf_iff_prefix.mpr (List.takeWhile_prefix _)),
             fun x hx => by
               have h := List.mem_takeWhile_imp hx
               exact h,
             drop_takeWhile_head Char.isDigit rest⟩
          have hDnl : '\n' ∉ D :=
            fun hm => absurd (hDdig '\n' hm) (by decide)
          have hR1in : vfsR1 (c :: rest) = R := by
            conv_lhs => rw [hsp]
            exact (vfs_split_general c D R hcd hDdig hRh).2
          have hg2 : beginsWith R ['.'] = true := by
            rw [← hR1in]
            exact hg
          obtain ⟨A, hRA⟩ : ∃ A, R = '.' :: A := by
            have hRhead : R.head? = some '.' :=
              (beginsWith_single R '.').mp hg2
            cases R with
            | nil => simp at hRhead
            | cons r0 A =>
              have h1 : r0 = '.' := by simpa using hRhead
              exact ⟨A, by rw [h1]⟩
          subst hRA
          have hnwin : numWs (c :: rest) = A.takeWhile isJsWs := by
            rw [numWs, hR1in, show (('.' :: A).drop 1) = A from rfl]
          have hncin : numCont (c :: rest) =
              A.drop (A.takeWhile isJsWs).length := by
            rw [numCont, hnwin, hR1in,
              show (('.' :: A).drop 1) = A from rfl]
          have hnfin : numFlag (c :: rest) =
              decide ((A.takeWhile isJsWs).getLast? = some '\n') := by
            rw [numFlag, hnwin]
          have hK := headOk_after_site rest D A hsp hDnl hv
          have hO := ihn (numCont (c :: rest)).length
            (hn ▸ numCont_length_lt c rest hcd) (numCont (c :: rest))
            (numFlag (c :: rest)) rfl (by rw [hncin, hnfin]; exact hK)
          have hOf : headOk (numberListRule (numCont (c :: rest))
              (numFlag (c :: rest))) false = true := by
            cases hf : numFlag (c :: rest)
            · rw [hf] at hO
              exact hO
            · rw [hf] at hO
              exact headOk_mono _ hO
          have hd1 : vfsD1 (c :: rest) =
              c :: rest.takeWhile Char.isDigit := by
            simp [vfsD1, List.takeWhile_cons_of_pos hcd]
          have hd1nl : '\n' ∉ rest.takeWhile Char.isDigit ++
              ['.', ' '] := by
            intro hm
            rcases List.mem_append.mp hm with hm | hm
            · have h1 := List.mem_takeWhile_imp hm
              exact absurd h1 (by decide)
            · rcases List.mem_cons.mp hm with hm | hm
              · exact absurd hm (by decide)
              · rcases List.mem_cons.mp hm with hm | hm
                · exact absurd hm (by decide)
                · simp at hm
          rw [hd1, List.cons_append, headOk_cons,
            if_neg (by simp [hhash]), hcn,
            show rest.takeWhile Char.isDigit ++ '.' :: ' ' ::
              numberListRule (numCont (c :: rest)) (numFlag (c :: rest)) =
              (rest.takeWhile Char.isDigit ++ ['.', ' ']) ++
              numberListRule (numCont (c :: rest)) (numFlag (c :: rest))
              from by simp,
            headOk_skip _ hd1nl _]
          exact hOf
        · rw [if_neg hg, hcn, headOk_cons, if_neg (by simp [hhash]), hcn]
          exact ihn rest.length (by simp [← hn]) rest false rfl hv
      · rw [if_neg hb]
        by_cases hhash : (b && (c = '#' : Bool)) = true
        · have hch : c = '#' :=
            of_decide_eq_true ((Bool.and_eq_true _ _).mp hhash).2
          subst hch
          rw [headOk_cons, if_pos hhash] at hv
          obtain ⟨hnf, hrec⟩ := (Bool.and_eq_true _ _).mp hv
          rw [show (decide ('#' = '\n')) = false from by decide,
            headOk_cons, if_pos hhash]
          have hhs : '\n' ∉ rest.takeWhile (fun x => (x = '#' : Bool)) := by
            intro hm
            have h1 := List.mem_takeWhile_imp hm
            exact absurd (of_decide_eq_true h1) (by decide)
          have hrsp : rest = rest.takeWhile (fun x => (x = '#' : Bool)) ++
              rest.drop
                (rest.takeWhile (fun x => (x = '#' : Bool))).length :=
            eq_append_drop_of_beginsWith rest _
              (List.isPrefixOf_iff_prefix.mpr (List.takeWhile_prefix _))
          have hwalk : numberListRule rest false =
              rest.takeWhile (fun x => (x = '#' : Bool)) ++
              numberListRule (rest.drop
                (rest.takeWhile (fun x => (x = '#' : Bool))).length)
                false := by
            conv_lhs => rw [hrsp]
            exact numberListRule_walk _ hhs _
          have hfeq : hashFire ('#' :: numberListRule rest false) =
              hashFire ('#' :: rest) :=
            hashFire_transport rest (fun u => numberListRule u false)
              hwalk (numberListRule_head _ false)
          rw [hfeq]
          refine (Bool.and_eq_true _ _).mpr ⟨hnf, ?_⟩
          exact ihn rest.length (by simp [← hn]) rest false rfl hrec
        · rw [headOk_cons, if_neg hhash] at hv
          rw [headOk_cons, if_neg hhash]
          exact ihn rest.length (by simp [← hn]) rest _ rfl hv

/-- The bullet-list rule preserves number shape. -/
theorem numOk_bul (v : List Char) (b : Bool) (hv : numOk v b = true) :
    numOk (bulletListRule v b) b = true := by
  suffices H : ∀ n (v : List Char) (b : Bool), v.length = n →
      numOk v b = true → numOk (bulletListRule v b) b = true from
    H v.length v b rfl hv
  intro n
  induction n using Nat.strong_induction_on with
  | _ n ihn =>
    intro v b hn hv
    cases v with
    | nil =>
      rw [bulletListRule]
      exact hv
    | cons c rest =>
      rw [bulletListRule_cons]
      by_cases hbul : (b && ((c = '*' : Bool) || (c = '-' : Bool))) = true
      · rw [if_pos hbul]
        have hcm : ((c = '*' : Bool) || (c = '-' : Bool)) = true :=
          ((Bool.and_eq_true _ _).mp hbul).2
        have hcd : c.isDigit = false := by
          rcases (Bool.or_eq_true _ _).mp hcm with h1 | h1
          · rw [of_decide_eq_true h1]
            decide
          · rw [of_decide_eq_true h1]
            decide
        have hcn : (decide (c = '\n')) = false := by
          rcases (Bool.or_eq_true _ _).mp hcm with h1 | h1
          · rw [of_decide_eq_true h1]
            decide
          · rw [of_decide_eq_true h1]
            decide
        rw [numOk_cons, if_neg (by simp [hcd]), hcn] at hv
        have hK : numOk (rest.drop (rest.takeWhile isJsWs).length)
            (decide ((rest.takeWhile isJsWs).getLast? = some '\n')) =
            true := by
          cases hW : rest.takeWhile isJsWs with
          | nil =>
            simp only [List.length_nil, List.drop_zero]
            rw [show (decide ((([] : List Char)).getLast? = some '\n')) =
              false from by decide]
            exact hv
          | cons w0 W2 =>
            have hWws : ∀ x ∈ w0 :: W2, isJsWs x = true := by
              intro x hx
              rw [← hW] at hx
              exact List.mem_takeWhile_imp hx
            have hspA : rest = (w0 :: W2) ++
                rest.drop (w0 :: W2).length := by
              have h1 := eq_append_drop_of_beginsWith rest
                (rest.takeWhile isJsWs)
                (List.isPrefixOf_iff_prefix.mpr (List.takeWhile_prefix _))
              rw [hW] at h1
              exact h1
            rw [← numOk_ws_walk w0 W2 (rest.drop (w0 :: W2).length)
              false hWws, ← hspA]
            exact hv
        have hO := ihn (rest.drop (rest.takeWhile isJsWs).length).length
          (by rw [← hn]
              simp only [List.length_drop, List.length_cons]
              omega)
          _ _ rfl hK
        have hOf : numOk (bulletListRule
            (rest.drop (rest.takeWhile isJsWs).length)
            (decide ((rest.takeWhile isJsWs).getLast? = some '\n')))
            false = true := by
          cases hf : (decide ((rest.takeWhile isJsWs).getLast? =
              some '\n'))
          · rw [hf] at hO
            exact hO
          · rw [hf] at hO
            exact numOk_mono _ hO
        rw [numOk_cons, if_neg (by simp [hcd]), hcn, numOk_cons,
          if_neg (by simp),
          show (decide (' ' = '\n')) = false from by decide]
        exact hOf
      · rw [if_neg hbul]
        by_cases hnum : (b && c.isDigit) = true
        · have hcd : c.isDigit = true :=
            ((Bool.and_eq_true _ _).mp hnum).2
          have hcn : (decide (c = '\n')) = false := by
            have : ¬(c = '\n') := fun h0 => by
              rw [h0] at hcd
              exact absurd hcd (by decide)
            simpa using this
          rw [hcn]
          obtain ⟨D, R, hsp, hDdig, hRh⟩ :
              ∃ D R, rest = D ++ R ∧ (∀ x ∈ D, x.isDigit = true) ∧
                (∀ d, R.head? = some d → d.isDigit = false) :=
            ⟨rest.takeWhile Char.isDigit,
             rest.drop (rest.takeWhile Char.isDigit).length,
             eq_append_drop_of_beginsWith rest _
               (List.isPrefixOf_iff_prefix.mpr (List.takeWhile_prefix _)),
             fun x hx => by
               have h := List.mem_takeWhile_imp hx
               exact h,
             drop_takeWhile_head Char.isDigit rest⟩
          have hDnl : '\n' ∉ D :=
            fun hm => absurd (hDdig '\n' hm) (by decide)
          have hR1in : vfsR1 (c :: rest) = R := by
            conv_lhs => rw [hsp]
            exact (vfs_split_general c D R hcd hDdig hRh).2
          rw [numOk_cons, if_pos hnum, hR1in] at hv
          have hBLw : bulletListRule rest false =
              D ++ bulletListRule R false := by
            conv_lhs => rw [hsp]
            exact bulletListRule_walk D hDnl _
          by_cases hbg : beginsWith R ['.'] = true
          · rw [if_pos hbg] at hv
            obtain ⟨hga, hrec⟩ := (Bool.and_eq_true _ _).mp hv
            obtain ⟨A, hRA⟩ : ∃ A, R = '.' :: A := by
              have hRhead : R.head? = some '.' :=
                (beginsWith_single R '.').mp hbg
              cases R with
              | nil => simp at hRhead
              | cons r0 A =>
                have h1 : r0 = '.' := by simpa using hRhead
                exact ⟨A, by rw [h1]⟩
            subst hRA
            rw [show (('.' :: A).drop 1) = A from rfl] at hga
            have hnwin : numWs (c :: rest) = A.takeWhile isJsWs := by
              rw [numWs, hR1in, show (('.' :: A).drop 1) = A from rfl]
            have hncin : numCont (c :: rest) =
                A.drop (A.takeWhile isJsWs).length := by
              rw [numCont, hnwin, hR1in,
                show (('.' :: A).drop 1) = A from rfl]
            have hnfin : numFlag (c :: rest) =
                decide ((A.takeWhile isJsWs).getLast? = some '\n') := by
              rw [numFlag, hnwin]
            rw [hncin, hnfin] at hrec
            have hBLdot : bulletListRule ('.' :: A) false =
                '.' :: bulletListRule A false := by
              rw [bulletListRule_cons, if_neg (by simp),
                show (decide ('.' = '\n')) = false from by decide]
            rw [numOk_cons, if_pos hnum, hBLw, hBLdot]
            have hlenA : A.length + 1 < n := by
              have hlen := congrArg List.length hsp
              simp only [List.length_append, List.length_cons] at hlen
              simp only [List.length_cons] at hn
              omega
            cases A with
            | nil =>
              rw [show bulletListRule ([] : List Char) false = []
                from by rw [bulletListRule]]
              have hR1o : vfsR1 (c :: (D ++ ['.'])) = ['.'] :=
                (vfs_split_general c D _ hcd hDdig (fun d0 hd0 => by
                  have h1 : d0 = '.' := by simpa using hd0.symm
                  rw [h1]
                  decide)).2
              rw [hR1o, if_pos ((beginsWith_single (['.'] : List Char)
                '.').mpr rfl)]
              have hnco : numCont (c :: (D ++ ['.'])) = [] := by
                rw [numCont, numWs, hR1o]
                decide
              have hnfo : numFlag (c :: (D ++ ['.'])) = false := by
                rw [numFlag, numWs, hR1o]
                decide
              rw [hnco, hnfo, show ((['.'] : List Char).drop 1) = []
                from rfl, show goodAfter ([] : List Char) = true from rfl,
                Bool.true_and, numOk]
            | cons a0 A1 =>
              by_cases ha0 : a0 = ' '
              · subst ha0
                have hBLsp : bulletListRule (' ' :: A1) false =
                    ' ' :: bulletListRule A1 false := by
                  rw [bulletListRule_cons, if_neg (by simp),
                    show (decide (' ' = '\n')) = false from by decide]
                rw [hBLsp]
                cases A1 with
                | nil =>
                  rw [show bulletListRule ([] : List Char) false = []
                    from by rw [bulletListRule]]
                  have hR1o : vfsR1 (c :: (D ++ ['.', ' '])) =
                      ['.', ' '] :=
                    (vfs_split_general c D _ hcd hDdig (fun d0 hd0 => by
                      have h1 : d0 = '.' := by simpa using hd0.symm
                      rw [h1]
                      decide)).2
                  rw [hR1o, if_pos ((beginsWith_single
                    (['.', ' '] : List Char) '.').mpr rfl)]
                  have hnco : numCont (c :: (D ++ ['.', ' '])) = [] := by
                    rw [numCont, numWs, hR1o]
                    decide
                  have hnfo : numFlag (c :: (D ++ ['.', ' '])) =
                      false := by
                    rw [numFlag, numWs, hR1o]
                    decide
                  rw [hnco, hnfo, show ((['.', ' '] : List Char).drop 1) =
                    [' '] from rfl, show goodAfter [' '] = true from by
                      decide, Bool.true_and, numOk]
                | cons e A2 =>
                  have hew : isJsWs e = false := by
                    rw [goodAfter_cons, if_pos rfl] at hga
                    simpa using hga
                  have hen : (decide (e = '\n')) = false := by
                    have : ¬(e = '\n') := fun h0 => by
                      rw [h0] at hew
                      exact absurd hew (by decide)
                    simpa using this
                  have hBLe : bulletListRule (e :: A2) false =
                      e :: bulletListRule A2 false := by
                    rw [bulletListRule_cons, if_neg (by simp), hen]
                  rw [hBLe]
                  have hR1o : vfsR1 (c :: (D ++ '.' :: ' ' :: e ::
                      bulletListRule A2 false)) =
                      '.' :: ' ' :: e :: bulletListRule A2 false :=
                    (vfs_split_general c D _ hcd hDdig (fun d0 hd0 => by
                      have h1 : d0 = '.' := by simpa using hd0.symm
                      rw [h1]
                      decide)).2
                  rw [hR1o, if_pos ((beginsWith_single ('.' :: ' ' ::
                    e :: bulletListRule A2 false) '.').mpr rfl)]
                  have htwo : ((' ' :: e :: bulletListRule A2
                      false).takeWhile isJsWs) = [' '] := by
                    rw [List.takeWhile_cons_of_pos (by decide),
                      List.takeWhile_cons_of_neg (by simp [hew])]
                  have hnwo : numWs (c :: (D ++ '.' :: ' ' :: e ::
                      bulletListRule A2 false)) = [' '] := by
                    rw [numWs, hR1o, show (('.' :: ' ' :: e ::
                      bulletListRule A2 false).drop 1) = ' ' :: e ::
                      bulletListRule A2 false from rfl, htwo]
                  have hnco : numCont (c :: (D ++ '.' :: ' ' :: e ::
                      bulletListRule A2 false)) =
                      e :: bulletListRule A2 false := by
                    rw [numCont, hnwo, hR1o]
                    rfl
                  have hnfo : numFlag (c :: (D ++ '.' :: ' ' :: e ::
                      bulletListRule A2 false)) = false := by
                    rw [numFlag, hnwo]
                    decide
                  rw [hnco, hnfo, show (('.' :: ' ' :: e ::
                    bulletListRule A2 false).drop 1) = ' ' :: e ::
                    bulletListRule A2 false from rfl]
                  refine (Bool.and_eq_true _ _).mpr ⟨?_, ?_⟩
                  · rw [goodAfter_cons, if_pos rfl]
                    simp [hew]
                  · have htw : ((' ' :: e :: A2).takeWhile isJsWs) =
                        [' '] := by
                      rw [List.takeWhile_cons_of_pos (by decide),
                        List.takeWhile_cons_of_neg (by simp [hew])]
                    rw [htw, show (' ' :: e :: A2).drop
                        (([' '] : List Char)).length = e :: A2 from rfl,
                      show (decide ((([' '] : List Char)).getLast? =
                        some '\n')) = false from by decide] at hrec
                    rw [← hBLe]
                    refine ihn (e :: A2).length ?_ _ false rfl hrec
                    simp only [List.length_cons] at hlenA ⊢
                    omega
              · rw [goodAfter_cons, if_neg ha0] at hga
                have haw : isJsWs a0 = false := by
                  simpa using ((Bool.and_eq_true _ _).mp hga).1
                have hae : exclNext a0 = false := by
                  simpa using ((Bool.and_eq_true _ _).mp hga).2
                have han : (decide (a0 = '\n')) = false := by
                  have : ¬(a0 = '\n') := fun h0 => by
                    rw [h0] at haw
                    exact absurd haw (by decide)
                  simpa using this
                have hBLa : bulletListRule (a0 :: A1) false =
                    a0 :: bulletListRule A1 false := by
                  rw [bulletListRule_cons, if_neg (by simp), han]
                rw [hBLa]
                have hR1o : vfsR1 (c :: (D ++ '.' :: a0 ::
                    bulletListRule A1 false)) =
                    '.' :: a0 :: bulletListRule A1 false :=
                  (vfs_split_general c D _ hcd hDdig (fun d0 hd0 => by
                    have h1 : d0 = '.' := by simpa using hd0.symm
                    rw [h1]
                    decide)).2
                rw [hR1o, if_pos ((beginsWith_single ('.' :: a0 ::
                  bulletListRule A1 false) '.').mpr rfl)]
                have htwo : ((a0 :: bulletListRule A1 false).takeWhile
                    isJsWs) = [] :=
                  List.takeWhile_cons_of_neg (by simp [haw])
                have hnwo : numWs (c :: (D ++ '.' :: a0 ::
                    bulletListRule A1 false)) = [] := by
                  rw [numWs, hR1o, show (('.' :: a0 ::
                    bulletListRule A1 false).drop 1) = a0 ::
                    bulletListRule A1 false from rfl, htwo]
                have hnco : numCont (c :: (D ++ '.' :: a0 ::
                    bulletListRule A1 false)) = a0 ::
                    bulletListRule A1 false := by
                  rw [numCont, hnwo, hR1o]
                  rfl
                have hnfo : numFlag (c :: (D ++ '.' :: a0 ::
                    bulletListRule A1 false)) = false := by
                  rw [numFlag, hnwo]
                  decide
                rw [hnco, hnfo, show (('.' :: a0 ::
                  bulletListRule A1 false).drop 1) = a0 ::
                  bulletListRule A1 false from rfl]
                refine (Bool.and_eq_true _ _).mpr ⟨?_, ?_⟩
                · rw [goodAfter_cons, if_neg ha0]
                  simp [haw, hae]
                · have htw0 : ((a0 :: A1).takeWhile isJsWs) = [] :=
                    List.takeWhile_cons_of_neg (by simp [haw])
                  rw [htw0, show (a0 :: A1).drop
                      (([] : List Char)).length = a0 :: A1 from rfl,
                    show (decide ((([] : List Char)).getLast? =
                      some '\n')) = false from by decide] at hrec
                  rw [← hBLa]
                  refine ihn (a0 :: A1).length ?_ _ false rfl hrec
                  omega
          · rw [if_neg hbg, hcn] at hv
            rw [numOk_cons, if_pos hnum, hBLw]
            have hR1o : vfsR1 (c :: (D ++ bulletListRule R false)) =
                bulletListRule R false :=
              (vfs_split_general c D _ hcd hDdig (fun d0 hd0 => by
                rw [bulletListRule_head] at hd0
                exact hRh d0 hd0)).2
            rw [hR1o, if_neg (fun hcon => by
              have h1 := (beginsWith_single (bulletListRule R false)
                '.').mp hcon
              rw [bulletListRule_head] at h1
              exact absurd ((beginsWith_single R '.').mpr h1) (by
                simp [hbg])), hcn]
            rw [numOk_skip D hDnl _]
            have hvR : numOk R false = true := by
              rw [hsp, numOk_skip D hDnl _] at hv
              exact hv
            refine ihn R.length ?_ R false rfl hvR
            have hlen := congrArg List.length hsp
            simp only [List.length_append] at hlen
            simp only [List.length_cons] at hn
            omega
        · rw [numOk_cons, if_neg hnum] at hv
          rw [numOk_cons, if_neg hnum]
          exact ihn rest.length (by simp [← hn]) rest _ rfl hv

/-- The bullet-list rule preserves heading shape. -/
theorem headOk_bul (v : List Char) (b : Bool) (hv : headOk v b = true) :
    headOk (bulletListRule v b) b = true := by
  suffices H : ∀ n (v : List Char) (b : Bool), v.length = n →
      headOk v b = true → headOk (bulletListRule v b) b = true from
    H v.length v b rfl hv
  intro n
  induction n using Nat.strong_induction_on with
  | _ n ihn =>
    intro v b hn hv
    cases v with
    | nil =>
      rw [bulletListRule]
      exact hv
    | cons c rest =>
      rw [bulletListRule_cons]
      by_cases hbul : (b && ((c = '*' : Bool) || (c = '-' : Bool))) = true
      · rw [if_pos hbul]
        have hcm : ((c = '*' : Bool) || (c = '-' : Bool)) = true :=
          ((Bool.and_eq_true _ _).mp hbul).2
        have hch : (c = '#' : Bool) = false := by
          rcases (Bool.or_eq_true _ _).mp hcm with h1 | h1
          · rw [of_decide_eq_true h1]
            decide
          · rw [of_decide_eq_true h1]
            decide
        have hcn : (decide (c = '\n')) = false := by
          rcases (Bool.or_eq_true _ _).mp hcm with h1 | h1
          · rw [of_decide_eq_true h1]
            decide
          · rw [of_decide_eq_true h1]
            decide
        rw [headOk_cons, if_neg (by simp [hch]), hcn] at hv
        have hK : headOk (rest.drop (rest.takeWhile isJsWs).length)
            (decide ((rest.takeWhile isJsWs).getLast? = some '\n')) =
            true := by
          cases hW : rest.takeWhile isJsWs with
          | nil =>
            simp only [List.length_nil, List.drop_zero]
            rw [show (decide ((([] : List Char)).getLast? = some '\n')) =
              false from by decide]
            exact hv
          | cons w0 W2 =>
            have hWws : ∀ x ∈ w0 :: W2, isJsWs x = true := by
              intro x hx
              rw [← hW] at hx
              exact List.mem_takeWhile_imp hx
            have hspA : rest = (w0 :: W2) ++
                rest.drop (w0 :: W2).length := by
              have h1 := eq_append_drop_of_beginsWith rest
                (rest.takeWhile isJsWs)
                (List.isPrefixOf_iff_prefix.mpr (List.takeWhile_prefix _))
              rw [hW] at h1
              exact h1
            rw [← headOk_ws_walk w0 W2 (rest.drop (w0 :: W2).length)
              false hWws, ← hspA]
            exact hv
        have hO := ihn (rest.drop (rest.takeWhile isJsWs).length).length
          (by rw [← hn]
              simp only [List.length_drop, List.length_cons]
              omega)
          _ _ rfl hK
        have hOf : headOk (bulletListRule
            (rest.drop (rest.takeWhile isJsWs).length)
            (decide ((rest.takeWhile isJsWs).getLast? = some '\n')))
            false = true := by
          cases hf : (decide ((rest.takeWhile isJsWs).getLast? =
              some '\n'))
          · rw [hf] at hO
            exact hO
          · rw [hf] at hO
            exact headOk_mono _ hO
        rw [headOk_cons, if_neg (by simp [hch]), hcn, headOk_cons,
          if_neg (by simp),
          show (decide (' ' = '\n')) = false from by decide]
        exact hOf
      · rw [if_neg hbul]
        by_cases hhash : (b && (c = '#' : Bool)) = true
        · have hch : c = '#' :=
            of_decide_eq_true ((Bool.and_eq_true _ _).mp hhash).2
          subst hch
          rw [headOk_cons, if_pos hhash] at hv
          obtain ⟨hnf, hrec⟩ := (Bool.and_eq_true _ _).mp hv
          rw [show (decide ('#' = '\n')) = false from by decide,
            headOk_cons, if_pos hhash]
          have hhs : '\n' ∉ rest.takeWhile (fun x => (x = '#' : Bool)) := by
            intro hm
            have h1 := List.mem_takeWhile_imp hm
            exact absurd (of_decide_eq_true h1) (by decide)
          have hrsp : rest = rest.takeWhile (fun x => (x = '#' : Bool)) ++
              rest.drop
                (rest.takeWhile (fun x => (x = '#' : Bool))).length :=
            eq_append_drop_of_beginsWith rest _
              (List.isPrefixOf_iff_prefix.mpr (List.takeWhile_prefix _))
          have hwalk : bulletListRule rest false =
              rest.takeWhile (fun x => (x = '#' : Bool)) ++
              bulletListRule (rest.drop
                (rest.takeWhile (fun x => (x = '#' : Bool))).length)
                false := by
            conv_lhs => rw [hrsp]
            exact bulletListRule_walk _ hhs _
          have hfeq : hashFire ('#' :: bulletListRule rest false) =
              hashFire ('#' :: rest) :=
            hashFire_transport rest (fun u => bulletListRule u false)
              hwalk (bulletListRule_head _ false)
          rw [hfeq]
          refine (Bool.and_eq_true _ _).mpr ⟨hnf, ?_⟩
          exact ihn rest.length (by simp [← hn]) rest false rfl hrec
        · rw [headOk_cons, if_neg hhash] at hv
          rw [headOk_cons, if_neg hhash]
          exact ihn rest.length (by simp [← hn]) rest _ rfl hv

/-- Trimming preserves heading shape when the head is solid. -/
theorem headOk_jsTrim (v : List Char) (b : Bool)
    (hhead : ∀ d, v.head? = some d → isJsWs d = false)
    (hv : headOk v b = true) : headOk (jsTrim v) b = true := by
  refine headOk_append_ws _ (jsTrim_tail_ws v) (jsTrim v).length _ b rfl ?_
  rw [← jsTrim_split v hhead]
  exact hv

end Baseplate
